import Mathlib

/-!
# A shallow embedding of `osmem.c`

The allocator keeps two intrusive doubly-linked lists of `struct block_meta`
headers (one for the program-break heap, one for mapped regions) and a flag
`first_sbrk`.  The embedding keeps the pointer structure: memory is a map from
addresses to header records, the list heads are addresses (`0` is `NULL`), and
every `while` loop of the source is a recursive function on a fuel counter that
returns `none` when the fuel runs out.  `size_t` arithmetic is arithmetic on
`Nat` modulo `2 ^ 64`.

Header fields and payload bytes live in two separate maps (`mem` and `data`);
`memset` and `memcpy` act on `data` only.

The operating system is modelled by the initial break `heap_start`, the current
break `brk`, the list `maps` of live mappings, and the log `calls` of the calls
made so far.  `sbrk` and `mmap` fail when the request cannot be granted; the
source then aborts the process through `DIE`, and the embedding returns `none`.
The address that `mmap` returns is chosen by the system: it is an argument of
the operations, and the call fails when that address is not free.
-/

namespace OsMem

/-! ## Machine words -/

/-- The modulus of `size_t` and of pointers on the 64-bit target. -/
def WORD : Nat := 2 ^ 64

/-- Addition of two `size_t` values. -/
def wadd (a b : Nat) : Nat := (a + b) % WORD

/-- Subtraction of two `size_t` values. -/
def wsub (a b : Nat) : Nat := (a + (WORD - b % WORD)) % WORD

/-- `#define ALIGNMENT 8`. -/
def ALIGNMENT : Nat := 8

/-- `#define MMAP_THRESHOLD (128 * 1024)`. -/
def MMAP_THRESHOLD : Nat := 128 * 1024

/-- `#define ALIGN(size) (((size) + (ALIGNMENT - 1)) & ~(ALIGNMENT - 1))`, on `size_t`:
the mask `~7` is `2 ^ 64 - 8`. -/
def ALIGN (size : Nat) : Nat := wadd size (ALIGNMENT - 1) &&& (WORD - ALIGNMENT)

/-! ## Headers, memory and state -/

/-- Modelled from the spec: the values of the `status` field.  They are declared in
`block_meta.h`, which is not among the sources; the specification (section 3) names them
FREE, ALLOC and MAPPED, and `osmem.c` uses them as `STATUS_FREE`, `STATUS_ALLOC` and
`STATUS_MAPPED`. -/
inductive Status where
  | FREE
  | ALLOC
  | MAPPED
deriving DecidableEq

/-- Modelled from the spec: the record `struct block_meta`.  It is declared in
`block_meta.h`, which is not among the sources; the fields are those of the specification
(section 3), which are the fields `osmem.c` reads and writes.  Pointers are addresses,
`0` is `NULL`. -/
structure block_meta where
  size : Nat
  status : Status
  prev : Nat
  next : Nat
deriving DecidableEq

/-- The values the platform fixes: `META_SIZE`, the aligned size of a header, and the
value of `getpagesize()`. -/
structure Config where
  META_SIZE : Nat
  PAGE_SIZE : Nat

/-- Header memory: the header record found at each address. -/
abbrev Mem := Nat → block_meta

/-- One call to the operating system. -/
inductive OsCall where
  | sbrk (increment : Nat)
  | mmap (length addr : Nat)
  | munmap (addr length : Nat)
deriving DecidableEq

/-- The globals of `osmem.c` (`mmap_blocks`, `brk_blocks`, `first_sbrk`), the memory, and
the state of the operating system. -/
structure State where
  mem : Mem
  data : Nat → Nat
  mmap_blocks : Nat
  brk_blocks : Nat
  first_sbrk : Nat
  heap_start : Nat
  brk : Nat
  maps : List (Nat × Nat)
  calls : List OsCall

/-- The state at program start: both lists empty, `first_sbrk = 0`, the break at `b0`. -/
def init (b0 : Nat) : State :=
  { mem := fun _ => ⟨0, Status.FREE, 0, 0⟩
    data := fun _ => 0
    mmap_blocks := 0
    brk_blocks := 0
    first_sbrk := 0
    heap_start := b0
    brk := b0
    maps := []
    calls := [] }

/-- The store `p->size = v`. -/
def set_size (m : Mem) (p v : Nat) : Mem :=
  fun a => if a = p then { m p with size := v } else m a

/-- The store `p->status = v`. -/
def set_status (m : Mem) (p : Nat) (v : Status) : Mem :=
  fun a => if a = p then { m p with status := v } else m a

/-- The store `p->prev = v`. -/
def set_prev (m : Mem) (p v : Nat) : Mem :=
  fun a => if a = p then { m p with prev := v } else m a

/-- The store `p->next = v`. -/
def set_next (m : Mem) (p v : Nat) : Mem :=
  fun a => if a = p then { m p with next := v } else m a

/-- The call `memset(p, v, n)` on the payload bytes. -/
def memset (d : Nat → Nat) (p v n : Nat) : Nat → Nat :=
  fun a => if p ≤ a ∧ a < p + n then v else d a

/-- The call `memcpy(dst, src, n)` on the payload bytes. -/
def memcpy (d : Nat → Nat) (dst src n : Nat) : Nat → Nat :=
  fun a => if dst ≤ a ∧ a < dst + n then d (src + (a - dst)) else d a

/-! ## The operating system -/

/-- The system grants `sbrk(increment)`: a non-negative increment (as `intptr_t`) keeps the
break inside the address space and clear of every live mapping; a negative one does not
take the break below its initial value. -/
def SbrkOk (s : State) (increment : Nat) : Prop :=
  if increment < 2 ^ 63 then
    s.brk + increment < WORD ∧
      ∀ r ∈ s.maps, r.1 + r.2 ≤ s.heap_start ∨ s.brk + increment ≤ r.1
  else WORD + s.heap_start ≤ s.brk + increment

instance (s : State) (increment : Nat) : Decidable (SbrkOk s increment) := by
  unfold SbrkOk; infer_instance

/-- The call `sbrk(increment)`: returns the old break and moves the break, or fails. -/
def sbrk (s : State) (increment : Nat) : Option (Nat × State) :=
  if SbrkOk s increment then
    some (s.brk,
      { s with brk := wadd s.brk increment, calls := s.calls ++ [OsCall.sbrk increment] })
  else none

/-- The system may return `addr` for `mmap(NULL, length, ...)`: the region is not empty,
does not start at `NULL`, lies inside the address space, outside the heap and clear of
every live mapping. -/
def MmapOk (s : State) (length addr : Nat) : Prop :=
  0 < length ∧ addr ≠ 0 ∧ addr + length ≤ WORD ∧
    (addr + length ≤ s.heap_start ∨ s.brk ≤ addr) ∧
    ∀ r ∈ s.maps, r.1 + r.2 ≤ addr ∨ addr + length ≤ r.1

instance (s : State) (length addr : Nat) : Decidable (MmapOk s length addr) := by
  unfold MmapOk; infer_instance

/-- The call `mmap(NULL, length, ...)` returning `addr`, or failing. -/
def mmap (s : State) (length addr : Nat) : Option (Nat × State) :=
  if MmapOk s length addr then
    some (addr, { s with maps := s.maps ++ [(addr, length)],
                         calls := s.calls ++ [OsCall.mmap length addr] })
  else none

/-- The call `munmap(addr, length)`. -/
def munmap (s : State) (addr length : Nat) : State :=
  { s with maps := s.maps.erase (addr, length),
           calls := s.calls ++ [OsCall.munmap addr length] }

/-! ## The functions of `osmem.c` -/

/-- The function `find_last_block`: follow `next` until it is `NULL`. -/
def find_last_block : Nat → Mem → Nat → Option Nat
  | 0, _, _ => none
  | fuel + 1, m, last =>
    if (m last).next ≠ 0 then find_last_block fuel m (m last).next else some last

/-- The function `split_blocks`. -/
def split_blocks (c : Config) (m : Mem) (blocks size : Nat) : Mem :=
  let new_block := wadd (wadd blocks c.META_SIZE) size
  let m1 := set_status m new_block Status.FREE
  let m2 := set_size m1 new_block (wsub (wsub (m1 blocks).size size) c.META_SIZE)
  let m3 := set_prev m2 new_block blocks
  let m4 :=
    if (m3 blocks).next ≠ 0 then
      let m3a := set_prev m3 (m3 blocks).next new_block
      set_next m3a new_block (m3a blocks).next
    else
      set_next m3 new_block 0
  let m5 := set_next m4 blocks new_block
  let m6 := set_size m5 blocks size
  set_status m6 blocks Status.ALLOC

/-- The loop of `find_best_block`. -/
def find_best_loop : Nat → Mem → Nat → Nat → Nat → Option Nat
  | 0, _, _, _, _ => none
  | fuel + 1, m, needed_size, best_block, block =>
    if block ≠ 0 then
      let best1 :=
        if (m block).status = Status.FREE ∧ (m block).size ≥ needed_size then
          if best_block = 0 ∨ (m block).size < (m best_block).size then block else best_block
        else best_block
      find_best_loop fuel m needed_size best1 (m block).next
    else some best_block

/-- The function `find_best_block`. -/
def find_best_block (fuel : Nat) (s : State) (needed_size : Nat) : Option Nat :=
  find_best_loop fuel s.mem needed_size 0 s.brk_blocks

/-- The statements by which `block` absorbs its successor `block->next`; they stand in the
loop of `coalesce_blocks` (with `copy_head` for `block`) and again in that of `os_realloc`. -/
def absorb_next (c : Config) (m : Mem) (block : Nat) : Mem :=
  let m1 := set_size m block
    (wadd (m block).size (wadd (m (m block).next).size c.META_SIZE))
  let elim_block := (m1 block).next
  if (m1 elim_block).next ≠ 0 then
    let m2 := set_prev m1 (m1 elim_block).next block
    set_next m2 block (m2 elim_block).next
  else
    set_next m1 block 0

/-- The loop of `coalesce_blocks`. -/
def coalesce_loop (c : Config) : Nat → Mem → Nat → Option Mem
  | 0, _, _ => none
  | fuel + 1, m, copy_head =>
    if copy_head ≠ 0 ∧ (m copy_head).next ≠ 0 then
      if (m copy_head).status = Status.FREE ∧ (m (m copy_head).next).status = Status.FREE then
        coalesce_loop c fuel (absorb_next c m copy_head) copy_head
      else
        coalesce_loop c fuel m (m copy_head).next
    else some m

/-- The function `coalesce_blocks`. -/
def coalesce_blocks (c : Config) (fuel : Nat) (s : State) : Option State :=
  (coalesce_loop c fuel s.mem s.brk_blocks).map fun m => { s with mem := m }

/-- The function `heap_preallocation`; `max_size` is an `int` widened to `size_t`. -/
def heap_preallocation (c : Config) (malloc_calloc : Nat) (s : State) : Option (Nat × State) :=
  let max_size := if malloc_calloc = 1 then MMAP_THRESHOLD else c.PAGE_SIZE
  let s1 := { s with first_sbrk := 1 }
  match sbrk s1 MMAP_THRESHOLD with
  | none => none
  | some (request, s2) =>
    let block := request
    let m1 := set_status s2.mem block Status.ALLOC
    let m2 := set_size m1 block (wsub max_size c.META_SIZE)
    let m3 := set_next m2 block 0
    let m4 := set_prev m3 block 0
    some (block, { s2 with mem := m4 })

/-- The function `brk_alloc`. -/
def brk_alloc (c : Config) (fuel : Nat) (needed_size malloc_calloc : Nat) (s : State) :
    Option (Nat × State) :=
  if s.first_sbrk = 0 then
    heap_preallocation c malloc_calloc s
  else
    match coalesce_blocks c fuel s with
    | none => none
    | some s1 =>
      match find_best_block fuel s1 needed_size with
      | none => none
      | some block =>
        if block ≠ 0 then
          let m1 :=
            if (s1.mem block).size ≥ wadd (wadd needed_size c.META_SIZE) (ALIGN 1) then
              split_blocks c s1.mem block needed_size
            else s1.mem
          some (block, { s1 with mem := set_status m1 block Status.ALLOC })
        else
          match find_last_block fuel s1.mem s1.brk_blocks with
          | none => none
          | some last_block =>
            if (s1.mem last_block).status = Status.FREE then
              match sbrk s1 (wsub needed_size (s1.mem last_block).size) with
              | none => none
              | some (_, s2) =>
                let m1 := set_status s2.mem last_block Status.ALLOC
                let m2 := set_size m1 last_block needed_size
                some (last_block, { s2 with mem := m2 })
            else
              match sbrk s1 (wadd needed_size c.META_SIZE) with
              | none => none
              | some (request, s2) =>
                let block := request
                let m1 := set_size s2.mem block needed_size
                let m2 := set_status m1 block Status.ALLOC
                let m3 := set_next m2 block 0
                let m4 := set_prev m3 block last_block
                let m5 := set_next m4 last_block block
                some (block, { s2 with mem := m5 })

/-- The function `mmap_alloc`; `addr` is the address the system chooses. -/
def mmap_alloc (c : Config) (addr needed_size : Nat) (s : State) : Option (Nat × State) :=
  match mmap s (wadd needed_size c.META_SIZE) addr with
  | none => none
  | some (request, s1) =>
    let block := request
    let m1 := set_status s1.mem block Status.MAPPED
    let m2 := set_size m1 block needed_size
    let m3 := set_next m2 block 0
    let m4 := set_prev m3 block 0
    some (block, { s1 with mem := m4 })

/-- The tail shared by `os_malloc` and `os_calloc`: route the aligned request `n` to
`mmap_alloc` when `n + META_SIZE >= limit`, to `brk_alloc` otherwise, and link the block. -/
def route (c : Config) (fuel addr n limit malloc_calloc : Nat) (s : State) :
    Option (Nat × State) :=
  if wadd n c.META_SIZE ≥ limit then
    match mmap_alloc c addr n s with
    | none => none
    | some (block, s1) =>
      if s1.mmap_blocks = 0 then
        some (block, { s1 with mmap_blocks := block })
      else
        match find_last_block fuel s1.mem s1.mmap_blocks with
        | none => none
        | some last_mmap_block =>
          let m1 := set_prev s1.mem block last_mmap_block
          let m2 := set_next m1 last_mmap_block block
          some (block, { s1 with mem := m2 })
  else
    match brk_alloc c fuel n malloc_calloc s with
    | none => none
    | some (block, s1) =>
      if s1.brk_blocks = 0 then some (block, { s1 with brk_blocks := block })
      else some (block, s1)

/-- The function `os_malloc`; the result is the returned pointer and the new state. -/
def os_malloc (c : Config) (fuel addr size : Nat) (s : State) : Option (Nat × State) :=
  if size = 0 then some (0, s)
  else
    match route c fuel addr (ALIGN size) MMAP_THRESHOLD 1 s with
    | none => none
    | some (block, s1) => some (wadd block c.META_SIZE, s1)

/-- The function `remove_block`. -/
def remove_block (block : Nat) (s : State) : State :=
  if block = s.mmap_blocks then
    { s with mmap_blocks := (s.mem block).next }
  else
    let m1 := set_next s.mem (s.mem block).prev (s.mem block).next
    let m2 := if (m1 block).next ≠ 0 then set_prev m1 (m1 block).next (m1 block).prev else m1
    { s with mem := m2 }

/-- The function `os_free`. -/
def os_free (c : Config) (ptr : Nat) (s : State) : State :=
  if ptr = 0 then s
  else
    let block := wsub ptr c.META_SIZE
    if (s.mem block).status = Status.ALLOC then
      { s with mem := set_status s.mem block Status.FREE }
    else if (s.mem block).status = Status.MAPPED then
      let s1 := remove_block block s
      munmap s1 block (wadd (s1.mem block).size c.META_SIZE)
    else s

/-- The function `os_calloc`. -/
def os_calloc (c : Config) (fuel addr nmemb size : Nat) (s : State) : Option (Nat × State) :=
  if nmemb = 0 ∨ size = 0 then some (0, s)
  else
    match route c fuel addr (ALIGN ((size * nmemb) % WORD)) c.PAGE_SIZE 0 s with
    | none => none
    | some (block, s1) =>
      let ptr := wadd block c.META_SIZE
      some (ptr, { s1 with data := memset s1.data ptr 0 ((size * nmemb) % WORD) })

/-- The forward-absorbing loop of `os_realloc`. -/
def realloc_loop (c : Config) : Nat → Mem → Nat → Nat → Option Mem
  | 0, _, _, _ => none
  | fuel + 1, m, block, asize =>
    if asize > (m block).size ∧ (m block).next ≠ 0 ∧
        (m (m block).next).status = Status.FREE then
      realloc_loop c fuel (absorb_next c m block) block asize
    else some m

/-- The copy-and-free path of `os_realloc`: `os_malloc`, `memcpy`, `os_free`. -/
def realloc_move (c : Config) (fuel addr ptr size block : Nat) (s : State) :
    Option (Nat × State) :=
  match os_malloc c fuel addr size s with
  | none => none
  | some (new_ptr, s1) =>
    let n := if (s1.mem block).size < ALIGN size then (s1.mem block).size else ALIGN size
    let s2 := { s1 with data := memcpy s1.data new_ptr ptr n }
    some (new_ptr, os_free c ptr s2)

/-- The last statements of `os_realloc`: split when the slack allows, return the payload. -/
def realloc_finish (c : Config) (size block : Nat) (s : State) : Nat × State :=
  let m1 :=
    if wadd (wadd (ALIGN size) c.META_SIZE) (ALIGN 1) ≤ (s.mem block).size then
      split_blocks c s.mem block (ALIGN size)
    else s.mem
  (wadd block c.META_SIZE, { s with mem := m1 })

/-- The statement `if (block->next == NULL) { ... }` of `os_realloc`: the last block of
the heap list grows to the aligned size by a call of `sbrk`. -/
def realloc_tail (size block last_block : Nat) (s : State) : Option State :=
  if (s.mem block).next = 0 then
    match sbrk s (wsub (ALIGN size) (s.mem last_block).size) with
    | none => none
    | some (_, s0) =>
      let m1 := set_status s0.mem last_block Status.ALLOC
      some { s0 with mem := set_size m1 last_block (ALIGN size) }
  else some s

/-- The function `os_realloc`. -/
def os_realloc (c : Config) (fuel addr ptr size : Nat) (s : State) : Option (Nat × State) :=
  if ptr = 0 then os_malloc c fuel addr size s
  else if size = 0 then some (0, os_free c ptr s)
  else
    let block := wsub ptr c.META_SIZE
    if (s.mem block).status = Status.FREE then some (0, s)
    else if (s.mem block).size = ALIGN size then some (ptr, s)
    else if wadd (ALIGN size) c.META_SIZE ≥ MMAP_THRESHOLD ∨
        (s.mem block).status = Status.MAPPED then
      realloc_move c fuel addr ptr size block s
    else if wadd (ALIGN size) c.META_SIZE < MMAP_THRESHOLD then
      if ALIGN size > (s.mem block).size then
        match find_last_block fuel s.mem s.brk_blocks with
        | none => none
        | some last_block =>
          match realloc_tail size block last_block s with
          | none => none
          | some s1 =>
            match realloc_loop c fuel s1.mem block (ALIGN size) with
            | none => none
            | some m2 =>
              let s2 := { s1 with mem := m2 }
              if ALIGN size > (s2.mem block).size then
                realloc_move c fuel addr ptr size block s2
              else some (realloc_finish c size block s2)
      else some (realloc_finish c size block s)
    else some (wadd block c.META_SIZE, s)

/-! ## Reading the lists -/

/-- The addresses met when following `next` from `p`, `none` when the fuel runs out. -/
def walk : Nat → Mem → Nat → Option (List Nat)
  | 0, _, _ => none
  | fuel + 1, m, p =>
    if p = 0 then some [] else (walk fuel m (m p).next).map fun l => p :: l

/-- What an observer sees of a block: its address, its size and its status. -/
structure Blk where
  addr : Nat
  size : Nat
  status : Status
deriving DecidableEq

/-- The block an observer sees at address `a`. -/
def view (m : Mem) (a : Nat) : Blk := ⟨a, (m a).size, (m a).status⟩

/-- The heap list as an observer sees it. -/
def heap_view (fuel : Nat) (s : State) : Option (List Blk) :=
  (walk fuel s.mem s.brk_blocks).map fun l => l.map (view s.mem)

/-- The mapped list as an observer sees it. -/
def mapped_view (fuel : Nat) (s : State) : Option (List Blk) :=
  (walk fuel s.mem s.mmap_blocks).map fun l => l.map (view s.mem)

/-- The reference platform: `META_SIZE = 32`, pages of 4096 bytes. -/
def cfg : Config := ⟨32, 4096⟩


/-! ## Lists in memory -/

/-- The nodes `l` lead from `p` to `q` along `next`: the first node is `p`, each node is
not `NULL`, and the `next` of the last one is `q`. -/
def Seg (m : Mem) : Nat → Nat → List Nat → Prop
  | p, q, [] => p = q
  | p, q, a :: l => p = a ∧ a ≠ 0 ∧ Seg m (m a).next q l

/-- The list headed by `p` is the `NULL`-terminated list of the nodes `l`. -/
abbrev Chain (m : Mem) (p : Nat) (l : List Nat) : Prop := Seg m p 0 l

/-- The blocks `l` lie in this order inside `[lo, hi]`, none overlapping the next, and
each starts at most `g` bytes after the end of the one before (`g = 0`: no gaps). -/
def Layout (c : Config) (g : Nat) : Nat → Nat → List Blk → Prop
  | lo, hi, [] => lo ≤ hi ∧ hi ≤ lo + g
  | lo, hi, b :: l =>
    lo ≤ b.addr ∧ b.addr ≤ lo + g ∧ Layout c g (b.addr + c.META_SIZE + b.size) hi l

/-- The bytes the blocks `l` take, headers included. -/
def total (c : Config) (l : List Blk) : Nat := (l.map fun b => b.size + c.META_SIZE).sum

/-! ## What the loops compute, on the observed blocks -/

/-- A block that `find_best_block` may choose for the need `n`: FREE and large enough. -/
def Fits (m : Mem) (n a : Nat) : Prop := (m a).status = Status.FREE ∧ n ≤ (m a).size

/-- What the loop of `find_best_block` computes on the nodes `l`, starting from `best`. -/
def best_fit (m : Mem) (n : Nat) : Nat → List Nat → Nat
  | best, [] => best
  | best, a :: l =>
    best_fit m n
      (if (m a).status = Status.FREE ∧ (m a).size ≥ n then
        if best = 0 ∨ (m a).size < (m best).size then a else best
      else best) l

/-- What the loop of `coalesce_blocks` computes when it stands at the block `x` with the
blocks `r` still ahead. -/
def merge_free (c : Config) : Blk → List Blk → List Blk
  | x, [] => [x]
  | x, y :: r =>
    if x.status = Status.FREE ∧ y.status = Status.FREE then
      merge_free c ⟨x.addr, x.size + (y.size + c.META_SIZE), Status.FREE⟩ r
    else x :: merge_free c y r

/-- What `coalesce_blocks` computes on the observed heap list. -/
def coalesce_list (c : Config) : List Blk → List Blk
  | [] => []
  | x :: r => merge_free c x r

/-- The statement of the specification on coalescing: each maximal run of consecutive
FREE blocks becomes one FREE block at the address of the first, whose size is the sum of
the sizes of the run plus one header for each block after the first; the other blocks
stay as they are. -/
def coalesce_spec (c : Config) : List Blk → List Blk
  | [] => []
  | x :: r =>
    if x.status = Status.FREE then
      ⟨x.addr, x.size + total c (r.takeWhile fun y => y.status = Status.FREE), Status.FREE⟩ ::
        coalesce_spec c (r.dropWhile fun y => y.status = Status.FREE)
    else x :: coalesce_spec c r
termination_by l => l.length
decreasing_by
  · simp only [List.length_cons]
    have := (List.dropWhile_sublist (fun y : Blk => decide (y.status = Status.FREE))
      (l := r)).length_le
    omega
  · simp

/-! ## Well-formed states -/

/-- The values of a platform: a header size that is a positive multiple of 8, and a page
size that is a multiple of 8, holds a header and a payload, and is at most the threshold. -/
def ConfigOk (c : Config) : Prop :=
  0 < c.META_SIZE ∧ c.META_SIZE % 8 = 0 ∧ c.PAGE_SIZE % 8 = 0 ∧
  c.META_SIZE + 8 < c.PAGE_SIZE ∧ c.PAGE_SIZE ≤ MMAP_THRESHOLD

/-- What the operating system maintains: the break stays between its initial value and
the end of the address space, and the live mappings are not empty, not at `NULL`, inside
the address space, outside the heap and pairwise disjoint. -/
def OsOk (s : State) : Prop :=
  0 < s.heap_start ∧ s.heap_start ≤ s.brk ∧ s.brk < WORD ∧
  (∀ r ∈ s.maps, 0 < r.2 ∧ r.1 ≠ 0 ∧ r.1 + r.2 ≤ WORD ∧
    (r.1 + r.2 ≤ s.heap_start ∨ s.brk ≤ r.1)) ∧
  s.maps.Pairwise (fun r1 r2 => r1.1 + r1.2 ≤ r2.1 ∨ r2.1 + r2.2 ≤ r1.1)

/-- The blocks of a heap list are FREE or ALLOC and their sizes are multiples of 8, at
least 8. -/
def HeapBlocksOk (l : List Blk) : Prop :=
  ∀ b ∈ l, b.status ≠ Status.MAPPED ∧ b.size % 8 = 0 ∧ 8 ≤ b.size

/-- Well-formedness of the heap list `l` of a state, with gap bound `g`. -/
structure HeapInv (c : Config) (g : Nat) (s : State) (l : List Nat) : Prop where
  hchain : Chain s.mem s.brk_blocks l
  hlay : Layout c g s.heap_start s.brk (l.map (view s.mem))
  hflag : (s.first_sbrk = 0 → l = []) ∧ (s.first_sbrk ≠ 0 → l ≠ [])
  hblk : HeapBlocksOk (l.map (view s.mem))

/-- Well-formedness of the mapped list `ml` of a state: the blocks are linked both ways,
are MAPPED, and are the live mappings, in the order in which they were made. -/
structure MapInv (c : Config) (s : State) (ml : List Nat) : Prop where
  mchain : Chain s.mem s.mmap_blocks ml
  mnodup : ml.Nodup
  mprev : ml.Chain' (fun x y => (s.mem y).prev = x)
  mstat : ∀ a ∈ ml, (s.mem a).status = Status.MAPPED
  msize : ∀ a ∈ ml, (s.mem a).size % 8 = 0 ∧ 8 ≤ (s.mem a).size
  mmaps : s.maps = ml.map (fun a => (a, (s.mem a).size + c.META_SIZE))

/-- Well-formedness of a state: `l` is the heap list and `ml` the mapped list. -/
structure Inv (c : Config) (g : Nat) (s : State) (l ml : List Nat)
    extends HeapInv c g s l, MapInv c s ml : Prop where
  os : OsOk s

/-- The gap bounds in use: `0` (no gaps at all) or a bound that no gap can exceed. -/
def GapOk (g : Nat) : Prop := g = 0 ∨ WORD ≤ g

/-- The block of size `b` standing between `pre` and `post` is the choice of
`find_best_block` for the need `n`: no fitting block before it is as small, no fitting
block after it is smaller. -/
def BestIn (n : Nat) (pre : List Blk) (b : Nat) (post : List Blk) : Prop :=
  (∀ x ∈ pre, x.status = Status.FREE → n ≤ x.size → b < x.size) ∧
  (∀ x ∈ post, x.status = Status.FREE → n ≤ x.size → b ≤ x.size)

/-- The outcomes of `brk_alloc` for the need `n` on an initialised heap whose list shows
the blocks `v` once coalesced and whose break is `brk`.  The indices are the block
returned, the blocks the list shows afterwards, and the increment of the call of `sbrk`
(`none`: no call). -/
inductive BrkOutcome (c : Config) (n brk : Nat) (v : List Blk) :
    Nat → List Blk → Option Nat → Prop
  | whole (pre post : List Blk) (r b : Nat) :
      v = pre ++ ⟨r, b, Status.FREE⟩ :: post → n ≤ b → b < n + c.META_SIZE + 8 →
      BestIn n pre b post →
      BrkOutcome c n brk v r (pre ++ ⟨r, b, Status.ALLOC⟩ :: post) none
  | split (pre post : List Blk) (r b : Nat) :
      v = pre ++ ⟨r, b, Status.FREE⟩ :: post → n + c.META_SIZE + 8 ≤ b →
      BestIn n pre b post →
      BrkOutcome c n brk v r
        (pre ++ ⟨r, n, Status.ALLOC⟩ ::
          ⟨r + c.META_SIZE + n, b - n - c.META_SIZE, Status.FREE⟩ :: post) none
  | grow (pre : List Blk) (last : Blk) :
      v = pre ++ [last] → last.status = Status.FREE →
      (∀ x ∈ v, x.status = Status.FREE → x.size < n) →
      BrkOutcome c n brk v last.addr (pre ++ [⟨last.addr, n, Status.ALLOC⟩])
        (some (n - last.size))
  | append (pre : List Blk) (last : Blk) :
      v = pre ++ [last] → last.status ≠ Status.FREE →
      (∀ x ∈ v, x.status = Status.FREE → x.size < n) →
      BrkOutcome c n brk v brk (v ++ [⟨brk, n, Status.ALLOC⟩]) (some (n + c.META_SIZE))

/-- The calls of `sbrk` an operation makes: none, or one with the given increment. -/
def os_sbrk (s : State) : Option Nat → Option State
  | none => some s
  | some increment => (sbrk s increment).map fun r => r.2

/-- The blocks in use before an operation (lists `l`, `ml`) are still in use after it
(lists `l1`, `ml1`), with the same size. -/
structure Keeps (s s1 : State) (l ml l1 ml1 : List Nat) : Prop where
  heap : ∀ a ∈ l, (s.mem a).status = Status.ALLOC →
    a ∈ l1 ∧ (s1.mem a).status = Status.ALLOC ∧ (s1.mem a).size = (s.mem a).size
  mapped : ∀ a ∈ ml, a ∈ ml1 ∧ (s1.mem a).size = (s.mem a).size

/-- A request size whose rounding up to a multiple of 8, and the addition of a header
after it, stay below `2 ^ 64`. -/
def SizeOk (c : Config) (size : Nat) : Prop :=
  size + 7 < WORD ∧ ALIGN size + c.META_SIZE < WORD

/-- The pointer `p` is in use: it is the payload of an ALLOC block of the heap list or
of a block of the mapped list. -/
def Live (c : Config) (s : State) (p : Nat) : Prop :=
  ∃ a, p = a + c.META_SIZE ∧
    ((∃ l, Chain s.mem s.brk_blocks l ∧ a ∈ l ∧ (s.mem a).status = Status.ALLOC) ∨
     (∃ ml, Chain s.mem s.mmap_blocks ml ∧ a ∈ ml))

/-- The fuel suffices to walk through both lists of the state. -/
def Adequate (fuel : Nat) (s : State) : Prop :=
  (walk fuel s.mem s.brk_blocks).isSome ∧ (walk fuel s.mem s.mmap_blocks).isSome

/-- What the loop of `os_realloc` computes when the block `x`, which is to reach the size
`n`, is followed by the blocks `r`. -/
def absorb_list (c : Config) (n : Nat) : Blk → List Blk → List Blk
  | x, [] => [x]
  | x, y :: r =>
    if n > x.size ∧ y.status = Status.FREE then
      absorb_list c n ⟨x.addr, x.size + (y.size + c.META_SIZE), x.status⟩ r
    else x :: y :: r

instance (fuel : Nat) (s : State) : Decidable (Adequate fuel s) := by
  unfold Adequate; infer_instance

instance (c : Config) (size : Nat) : Decidable (SizeOk c size) := by
  unfold SizeOk; infer_instance

/-! ## Reachable states -/

/-- One call of a public operation on `NULL` or on a pointer in use, with request sizes
that do not wrap and enough fuel for the loops, or what the caller does between two calls:
it stores into the payloads it holds.  The bytes that a payload shows are those stores,
and, in memory that is used again, whatever was left there before, the bytes of old
headers included; so `store` lets the payload bytes take any content `d`.  With `strict`,
`os_calloc` does not make the first request to the heap unless a page is as large as the
threshold. -/
inductive Step (c : Config) (strict : Prop) : State → State → Prop
  | malloc {s s1 : State} (fuel addr size p : Nat) :
      SizeOk c size → Adequate fuel s →
      os_malloc c fuel addr size s = some (p, s1) → Step c strict s s1
  | calloc {s s1 : State} (fuel addr nmemb size p : Nat) :
      size * nmemb < WORD → SizeOk c (size * nmemb) → Adequate fuel s →
      (strict → s.first_sbrk = 0 → ALIGN (size * nmemb) + c.META_SIZE < c.PAGE_SIZE →
        c.PAGE_SIZE = MMAP_THRESHOLD) →
      os_calloc c fuel addr nmemb size s = some (p, s1) → Step c strict s s1
  | realloc {s s1 : State} (fuel addr ptr size p : Nat) :
      (ptr = 0 ∨ Live c s ptr) → SizeOk c size → Adequate fuel s →
      os_realloc c fuel addr ptr size s = some (p, s1) → Step c strict s s1
  | free {s : State} (ptr : Nat) :
      (ptr = 0 ∨ Live c s ptr) → Step c strict s (os_free c ptr s)
  | store {s : State} (d : Nat → Nat) : Step c strict s { s with data := d }

/-- The states reached from the initial state, with the break at `b0`, by calls of the
public operations and stores of the caller into payloads. -/
inductive Reachable (c : Config) (strict : Prop) (b0 : Nat) : State → Prop
  | init : Reachable c strict b0 (init b0)
  | step {s s1 : State} : Reachable c strict b0 s → Step c strict s s1 →
      Reachable c strict b0 s1

/-- What the first request to the heap leaves behind, `max_chunk` being the ceiling that
the caller selects: one extension of the break by `MMAP_THRESHOLD` bytes, and a heap list
of one ALLOC block of size `max_chunk - META_SIZE` at the old break, with both links
`NULL`; `p` is the pointer returned. -/
def FirstBlock (c : Config) (max_chunk : Nat) (s s1 : State) (p : Nat) : Prop :=
  p = s.brk + c.META_SIZE ∧
  s1.calls = s.calls ++ [OsCall.sbrk MMAP_THRESHOLD] ∧
  s1.brk = s.brk + MMAP_THRESHOLD ∧
  s1.first_sbrk = 1 ∧
  s1.brk_blocks = s.brk ∧
  s1.mem s.brk = ⟨max_chunk - c.META_SIZE, Status.ALLOC, 0, 0⟩ ∧
  (∀ fuel, 2 ≤ fuel →
    heap_view fuel s1 = some [⟨s.brk, max_chunk - c.META_SIZE, Status.ALLOC⟩]) ∧
  s1.mmap_blocks = s.mmap_blocks ∧ s1.maps = s.maps

/-- When a request to the heap for the need `n` returns, the heap list showing the blocks
`v` before the call: `ret cl` stands for "the operation returns, the calls `cl` being the
calls it made to the system", `fail` for "the operation does not return".  The first
request asks for `MMAP_THRESHOLD` bytes.  On an initialised heap no call is made when a
FREE block of the coalesced list fits; when none fits, the request asks for
`n - last.size` bytes if the last block is FREE and for `n + META_SIZE` bytes if it is
not.  The operation returns when the system grants the call, and does not when the
system refuses it. -/
def HeapGrant (c : Config) (s : State) (v : List Blk) (n : Nat)
    (ret : List OsCall → Prop) (fail : Prop) : Prop :=
  (s.first_sbrk = 0 →
    (SbrkOk s MMAP_THRESHOLD → ret [OsCall.sbrk MMAP_THRESHOLD]) ∧
    (¬ SbrkOk s MMAP_THRESHOLD → fail)) ∧
  (s.first_sbrk ≠ 0 →
    coalesce_list c v ≠ [] ∧
    ((∃ x ∈ coalesce_list c v, x.status = Status.FREE ∧ n ≤ x.size) → ret []) ∧
    ((∀ x ∈ coalesce_list c v, x.status = Status.FREE → x.size < n) →
      ∀ pre last, coalesce_list c v = pre ++ [last] →
        (last.status = Status.FREE →
          (SbrkOk s (n - last.size) → ret [OsCall.sbrk (n - last.size)]) ∧
          (¬ SbrkOk s (n - last.size) → fail)) ∧
        (last.status ≠ Status.FREE →
          (SbrkOk s (n + c.META_SIZE) → ret [OsCall.sbrk (n + c.META_SIZE)]) ∧
          (¬ SbrkOk s (n + c.META_SIZE) → fail))))

/-! ## Scenarios -/

/-- The state in which a call leaves the program; the state before it when the call
fails. -/
def state_after (s : State) (r : Option (Nat × State)) : State :=
  match r with
  | some (_, s1) => s1
  | none => s

/-- The state after `os_calloc(1, 8)` in the initial state, the break being at 4096. -/
def calloc_first : State :=
  state_after (init 4096) (os_calloc cfg 2 0 1 8 (init 4096))

/-- The state after `os_calloc(1, 8)` and then `os_malloc(100)`. -/
def calloc_then_malloc : State :=
  state_after calloc_first (os_malloc cfg 3 0 100 calloc_first)

/-- The state after `os_malloc(100)` in the initial state, the break being at 4096. -/
def malloc_first : State :=
  state_after (init 4096) (os_malloc cfg 2 0 100 (init 4096))

/-- The state after `os_malloc(100)` twice. -/
def malloc_twice : State :=
  state_after malloc_first (os_malloc cfg 3 0 100 malloc_first)

/-- The state after `os_malloc(8)` in the initial state, the break being at 4104. -/
def small_first : State :=
  state_after (init 4104) (os_malloc cfg 2 0 8 (init 4104))

/-- The state after `os_malloc(8)` and then `os_malloc(2 ^ 64 - 32)`. -/
def small_then_huge : State :=
  state_after small_first (os_malloc cfg 3 0 (2 ^ 64 - 32) small_first)

/-- The state after `os_malloc(8)`, `os_malloc(2 ^ 64 - 32)` and `os_malloc(8)`. -/
def small_huge_small : State :=
  state_after small_then_huge (os_malloc cfg 3 0 8 small_then_huge)

/-- The state after `os_malloc(8)` and the release of the pointer it returned. -/
def freed_first : State := os_free cfg 4136 small_first

/-- A memory holding the given headers at the given addresses. -/
def mem_of : List (Nat × block_meta) → Mem
  | [] => fun _ => ⟨0, Status.FREE, 0, 0⟩
  | (a, h) :: r => fun x => if x = a then h else mem_of r x

/-- A state whose heap list has six blocks, from 1000 to the break at 1272: FREE of size
24, FREE of size 8, ALLOC of size 8, FREE of size 16, ALLOC of size 8, FREE of size 16. -/
def six_blocks : State :=
  { init 1000 with
    mem := mem_of
      [(1000, ⟨24, Status.FREE, 0, 1056⟩), (1056, ⟨8, Status.FREE, 1000, 1096⟩),
       (1096, ⟨8, Status.ALLOC, 1056, 1136⟩), (1136, ⟨16, Status.FREE, 1096, 1184⟩),
       (1184, ⟨8, Status.ALLOC, 1136, 1224⟩), (1224, ⟨16, Status.FREE, 1184, 0⟩)]
    brk_blocks := 1000
    first_sbrk := 1
    brk := 1272 }

/-- The state after `os_malloc(100)` and `os_realloc` of its pointer to the size 200000,
the system mapping at 1048576. -/
def moved_out : State :=
  state_after malloc_first (os_realloc cfg 3 1048576 4128 200000 malloc_first)

/-- The state after `os_malloc(100)` and `os_malloc(200000)`, mapped at 1048576. -/
def one_mapped : State :=
  state_after malloc_first (os_malloc cfg 3 1048576 200000 malloc_first)

/-- The state after a second mapping, of 300000 bytes at 2097152. -/
def two_mapped : State :=
  state_after one_mapped (os_malloc cfg 3 2097152 300000 one_mapped)

/-- The state after a third mapping, of 400000 bytes at 4194304. -/
def three_mapped : State :=
  state_after two_mapped (os_malloc cfg 4 4194304 400000 two_mapped)

/-- The state after `os_malloc(100)` and `os_malloc(200000)`, the system mapping at the
break, 135168. -/
def mapped_at_brk : State :=
  state_after malloc_first (os_malloc cfg 3 135168 200000 malloc_first)

/-- The state after `os_malloc(2 ^ 64 - 32)` in `mapped_at_brk`. -/
def heap_over_map : State :=
  state_after mapped_at_brk (os_malloc cfg 3 0 (2 ^ 64 - 32) mapped_at_brk)

/-- The state after `os_calloc(1, 8)` and the release of its pointer. -/
def calloc_freed : State := os_free cfg 4128 calloc_first

/-- The state after `os_malloc(2 ^ 64 - 24)` in `calloc_freed`. -/
def giant_one : State :=
  state_after calloc_freed (os_malloc cfg 3 0 (2 ^ 64 - 24) calloc_freed)

/-- The state after `os_malloc(2 ^ 64 - 8)` in `giant_one`. -/
def giant_two : State := state_after giant_one (os_malloc cfg 3 0 (2 ^ 64 - 8) giant_one)

/-- The state after the release of the second giant block. -/
def giant_freed : State := os_free cfg 131112 giant_two

/-- The state after `os_realloc` of the first giant block to the size `2 ^ 64 - 8`. -/
def zero_block : State :=
  state_after giant_freed (os_realloc cfg 4 0 4128 (2 ^ 64 - 8) giant_freed)

/-- The state after `os_malloc(100)` and `os_malloc(200)`. -/
def second_200 : State := state_after malloc_first (os_malloc cfg 3 0 200 malloc_first)

/-- The state after the release of the first pointer. -/
def first_freed : State := os_free cfg 4128 second_200

/-- The state after `os_malloc(100)` and the caller's stores: the byte at `x` is
`x % 251`. -/
def written_first : State := { malloc_first with data := fun x => x % 251 }

/-- The state after `os_malloc(200000)` in `written_first`, mapped at 1048576. -/
def written_mapped : State :=
  state_after written_first (os_malloc cfg 3 1048576 200000 written_first)

/-- The state after `os_malloc(100)` and `os_malloc(200000)`, the system mapping one page
above the break, at 139264. -/
def mapped_near : State :=
  state_after malloc_first (os_malloc cfg 3 139264 200000 malloc_first)

/-- The state after the release of the heap block of `mapped_near`. -/
def near_freed : State := os_free cfg 4128 mapped_near

/-! ## Word arithmetic -/

theorem and_mask (x : Nat) (hx : x < 2 ^ 64) : x &&& (2 ^ 64 - 8) = x / 8 * 8 := by
  have key : x &&& (2 ^ 3 * (2 ^ 61 - 1)) = 2 ^ 3 * (x >>> 3) := by
    apply Nat.eq_of_testBit_eq
    intro i
    rw [Nat.testBit_and, Nat.testBit_mul_pow_two, Nat.testBit_mul_pow_two,
      Nat.testBit_shiftRight, Nat.testBit_two_pow_sub_one]
    by_cases h3 : 3 ≤ i
    · by_cases h64 : i < 64
      · have : i - 3 < 61 := by omega
        simp [h3, this, Nat.add_sub_cancel' h3]
      · have hb : Nat.testBit x i = false := by
          apply Nat.testBit_lt_two_pow
          calc x < 2 ^ 64 := hx
            _ ≤ 2 ^ i := Nat.pow_le_pow_right (by norm_num) (by omega)
        have hb2 : Nat.testBit x (3 + (i - 3)) = false := by
          rw [Nat.add_sub_cancel' h3]; exact hb
        simp [hb, hb2]
    · simp [h3]
  have e1 : (2 ^ 64 - 8 : Nat) = 2 ^ 3 * (2 ^ 61 - 1) := by norm_num
  rw [e1, key, Nat.shiftRight_eq_div_pow]
  omega

theorem WORD_eq : WORD = 18446744073709551616 := by norm_num [WORD]

theorem ALIGN_eq (size : Nat) : ALIGN size = (size + 7) % WORD / 8 * 8 := by
  unfold ALIGN wadd ALIGNMENT
  have h := and_mask ((size + (8 - 1)) % WORD) (by rw [WORD_eq]; omega)
  rw [WORD_eq] at *
  exact h

theorem ALIGN_of_lt {size : Nat} (h : size + 7 < WORD) : ALIGN size = (size + 7) / 8 * 8 := by
  rw [ALIGN_eq, Nat.mod_eq_of_lt h]

theorem ALIGN_one : ALIGN 1 = 8 := by decide

theorem ALIGN_lt (size : Nat) : ALIGN size < WORD := by
  rw [ALIGN_eq]; have := Nat.mod_lt (size + 7) (show 0 < WORD by decide); omega

theorem wadd_of_lt {a b : Nat} (h : a + b < WORD) : wadd a b = a + b := Nat.mod_eq_of_lt h

theorem wsub_of_le {a b : Nat} (h : b ≤ a) (ha : a < WORD) : wsub a b = a - b := by
  unfold wsub
  have hb : b % WORD = b := Nat.mod_eq_of_lt (by omega)
  rw [hb]
  have : a + (WORD - b) = (a - b) + WORD := by omega
  rw [this, Nat.add_mod_right, Nat.mod_eq_of_lt (by omega)]

theorem ALIGN_mod (size : Nat) : ALIGN size % 8 = 0 := by
  rw [ALIGN_eq]; omega

theorem ALIGN_ge {size : Nat} (h : size + 7 < WORD) : size ≤ ALIGN size := by
  rw [ALIGN_of_lt h]; omega

theorem ALIGN_pos {size : Nat} (h : size + 7 < WORD) (h0 : size ≠ 0) : 8 ≤ ALIGN size := by
  rw [ALIGN_of_lt h]; omega

theorem ALIGN_le {size : Nat} (h : size + 7 < WORD) : ALIGN size ≤ size + 7 := by
  rw [ALIGN_of_lt h]; omega

/-! ## Stores -/

@[simp] theorem set_size_size (m : Mem) (p v a : Nat) :
    (set_size m p v a).size = if a = p then v else (m a).size := by
  unfold set_size; split <;> simp_all
@[simp] theorem set_size_status (m : Mem) (p v a : Nat) :
    (set_size m p v a).status = (m a).status := by
  unfold set_size; split <;> simp_all
@[simp] theorem set_size_prev (m : Mem) (p v a : Nat) :
    (set_size m p v a).prev = (m a).prev := by
  unfold set_size; split <;> simp_all
@[simp] theorem set_size_next (m : Mem) (p v a : Nat) :
    (set_size m p v a).next = (m a).next := by
  unfold set_size; split <;> simp_all

@[simp] theorem set_status_size (m : Mem) (p : Nat) (v : Status) (a : Nat) :
    (set_status m p v a).size = (m a).size := by
  unfold set_status; split <;> simp_all
@[simp] theorem set_status_status (m : Mem) (p : Nat) (v : Status) (a : Nat) :
    (set_status m p v a).status = if a = p then v else (m a).status := by
  unfold set_status; split <;> simp_all
@[simp] theorem set_status_prev (m : Mem) (p : Nat) (v : Status) (a : Nat) :
    (set_status m p v a).prev = (m a).prev := by
  unfold set_status; split <;> simp_all
@[simp] theorem set_status_next (m : Mem) (p : Nat) (v : Status) (a : Nat) :
    (set_status m p v a).next = (m a).next := by
  unfold set_status; split <;> simp_all

@[simp] theorem set_prev_size (m : Mem) (p v a : Nat) :
    (set_prev m p v a).size = (m a).size := by
  unfold set_prev; split <;> simp_all
@[simp] theorem set_prev_status (m : Mem) (p v a : Nat) :
    (set_prev m p v a).status = (m a).status := by
  unfold set_prev; split <;> simp_all
@[simp] theorem set_prev_prev (m : Mem) (p v a : Nat) :
    (set_prev m p v a).prev = if a = p then v else (m a).prev := by
  unfold set_prev; split <;> simp_all
@[simp] theorem set_prev_next (m : Mem) (p v a : Nat) :
    (set_prev m p v a).next = (m a).next := by
  unfold set_prev; split <;> simp_all

@[simp] theorem set_next_size (m : Mem) (p v a : Nat) :
    (set_next m p v a).size = (m a).size := by
  unfold set_next; split <;> simp_all
@[simp] theorem set_next_status (m : Mem) (p v a : Nat) :
    (set_next m p v a).status = (m a).status := by
  unfold set_next; split <;> simp_all
@[simp] theorem set_next_prev (m : Mem) (p v a : Nat) :
    (set_next m p v a).prev = (m a).prev := by
  unfold set_next; split <;> simp_all
@[simp] theorem set_next_next (m : Mem) (p v a : Nat) :
    (set_next m p v a).next = if a = p then v else (m a).next := by
  unfold set_next; split <;> simp_all

theorem set_size_ne (m : Mem) {p a : Nat} (v : Nat) (h : a ≠ p) : set_size m p v a = m a := by
  simp [set_size, h]
theorem set_status_ne (m : Mem) {p a : Nat} (v : Status) (h : a ≠ p) :
    set_status m p v a = m a := by
  simp [set_status, h]
theorem set_prev_ne (m : Mem) {p a : Nat} (v : Nat) (h : a ≠ p) : set_prev m p v a = m a := by
  simp [set_prev, h]
theorem set_next_ne (m : Mem) {p a : Nat} (v : Nat) (h : a ≠ p) : set_next m p v a = m a := by
  simp [set_next, h]

/-- Two memories show the same block at `a` when size and status agree there. -/
theorem view_congr {m m1 : Mem} {a : Nat} (h1 : (m1 a).size = (m a).size)
    (h2 : (m1 a).status = (m a).status) : view m1 a = view m a := by
  simp [view, h1, h2]

theorem map_view_congr {m m1 : Mem} {l : List Nat}
    (h : ∀ a ∈ l, (m1 a).size = (m a).size ∧ (m1 a).status = (m a).status) :
    l.map (view m1) = l.map (view m) :=
  List.map_congr_left fun a ha => view_congr (h a ha).1 (h a ha).2

@[simp] theorem map_addr_view (m : Mem) (l : List Nat) : (l.map (view m)).map Blk.addr = l := by
  induction l with
  | nil => rfl
  | cons a l ih => simp [view, ih]

/-! ## Lists in memory: basic facts -/

theorem seg_append {m : Mem} {l1 l2 : List Nat} {p q : Nat} :
    Seg m p q (l1 ++ l2) ↔ ∃ r, Seg m p r l1 ∧ Seg m r q l2 := by
  induction l1 generalizing p with
  | nil => simp [Seg]
  | cons a l1 ih =>
    show (p = a ∧ a ≠ 0 ∧ Seg m (m a).next q (l1 ++ l2)) ↔ _
    rw [ih]
    constructor
    · rintro ⟨h1, h2, r, h3, h4⟩
      exact ⟨r, ⟨h1, h2, h3⟩, h4⟩
    · rintro ⟨r, ⟨h1, h2, h3⟩, h4⟩
      exact ⟨h1, h2, r, h3, h4⟩

theorem seg_congr {m m1 : Mem} {l : List Nat} {p q : Nat}
    (h : ∀ a ∈ l, (m1 a).next = (m a).next) (hs : Seg m p q l) : Seg m1 p q l := by
  induction l generalizing p with
  | nil => exact hs
  | cons a l ih =>
    obtain ⟨h1, h2, h3⟩ := hs
    refine ⟨h1, h2, ?_⟩
    rw [h a (List.mem_cons_self _ _)]
    exact ih (fun b hb => h b (List.mem_cons_of_mem _ hb)) h3

theorem seg_ne_zero {m : Mem} {l : List Nat} {p q : Nat} (hs : Seg m p q l) :
    ∀ a ∈ l, a ≠ 0 := by
  induction l generalizing p with
  | nil => simp
  | cons a l ih =>
    obtain ⟨_, h2, h3⟩ := hs
    intro b hb
    rcases List.mem_cons.mp hb with rfl | hb
    · exact h2
    · exact ih h3 b hb

theorem chain_zero {m : Mem} {l : List Nat} (hs : Chain m 0 l) : l = [] := by
  cases l with
  | nil => rfl
  | cons a l => obtain ⟨h1, h2, _⟩ := hs; exact absurd h1.symm h2

theorem chain_head {m : Mem} {l : List Nat} {p : Nat} (hs : Chain m p l) (hp : p ≠ 0) :
    ∃ t, l = p :: t := by
  cases l with
  | nil => exact absurd hs hp
  | cons a l => obtain ⟨h1, _, _⟩ := hs; exact ⟨l, by rw [h1]⟩

theorem chain_unique {m : Mem} {l1 l2 : List Nat} {p : Nat}
    (h1 : Chain m p l1) (h2 : Chain m p l2) : l1 = l2 := by
  induction l1 generalizing p l2 with
  | nil =>
    have hp : p = 0 := h1
    subst hp
    exact (chain_zero h2).symm
  | cons a l1 ih =>
    obtain ⟨e1, n1, t1⟩ := h1
    cases l2 with
    | nil => exact absurd (e1.symm.trans h2) n1
    | cons b l2 =>
      obtain ⟨e2, _, t2⟩ := h2
      have hab : a = b := e1.symm.trans e2
      subst hab
      rw [ih t1 t2]

theorem chain_next_last {m : Mem} {l : List Nat} {p a : Nat} (hs : Chain m p (l ++ [a])) :
    (m a).next = 0 := by
  obtain ⟨r, _, h2⟩ := seg_append.mp hs
  exact h2.2.2

theorem chain_next_mid {m : Mem} {l1 l2 : List Nat} {p a b : Nat}
    (hs : Chain m p (l1 ++ a :: b :: l2)) : (m a).next = b ∧ b ≠ 0 := by
  obtain ⟨r, _, h2⟩ := seg_append.mp hs
  exact ⟨h2.2.2.1, h2.2.2.2.1⟩

/-- Following `next` from the head of a list in memory reads the list off. -/
theorem walk_chain {m : Mem} {l : List Nat} {p : Nat} (hs : Chain m p l) :
    ∀ fuel, l.length < fuel → walk fuel m p = some l := by
  induction l generalizing p with
  | nil =>
    intro fuel hf
    have hp : p = 0 := hs
    cases fuel with
    | zero => simp at hf
    | succ n => simp [walk, hp]
  | cons a l ih =>
    intro fuel hf
    obtain ⟨h1, h2, h3⟩ := hs
    cases fuel with
    | zero => simp at hf
    | succ n =>
      have hl : l.length < n := by simpa using hf
      simp [walk, h1, h2, ih h3 n hl]

/-- On a list in memory `find_last_block` returns the last node. -/
theorem find_last_block_chain {m : Mem} {l : List Nat} {p a : Nat}
    (hs : Chain m p (l ++ [a])) :
    ∀ fuel, l.length < fuel → find_last_block fuel m p = some a := by
  induction l generalizing p with
  | nil =>
    intro fuel hf
    obtain ⟨h1, _, h3⟩ := hs
    have h3 : (m a).next = 0 := h3
    cases fuel with
    | zero => simp at hf
    | succ n => simp [find_last_block, h1, h3]
  | cons b l ih =>
    intro fuel hf
    obtain ⟨h1, _, h3⟩ := hs
    cases fuel with
    | zero => simp at hf
    | succ n =>
      have hl : l.length < n := by simpa using hf
      have hnext : (m b).next ≠ 0 := by
        cases l with
        | nil => exact h3.1 ▸ h3.2.1
        | cons d l => exact h3.1 ▸ h3.2.1
      simp only [find_last_block, h1]
      rw [if_pos hnext]
      exact ih h3 n hl

/-! ## Block layout: basic facts -/

theorem layout_append {c : Config} {g : Nat} {l1 l2 : List Blk} {lo hi : Nat} {b : Blk} :
    Layout c g lo hi (l1 ++ b :: l2) ↔
      Layout c g lo b.addr l1 ∧ Layout c g (b.addr + c.META_SIZE + b.size) hi l2 := by
  induction l1 generalizing lo with
  | nil => simp [Layout, and_assoc]
  | cons d l1 ih => simp [Layout, ih, and_assoc]

theorem layout_le {c : Config} {g : Nat} {l : List Blk} {lo hi : Nat}
    (hl : Layout c g lo hi l) : lo ≤ hi := by
  induction l generalizing lo with
  | nil => exact hl.1
  | cons a l ih =>
    obtain ⟨h1, _, h3⟩ := hl
    have := ih h3
    omega

theorem layout_mem {c : Config} {g : Nat} {l : List Blk} {lo hi : Nat}
    (hl : Layout c g lo hi l) :
    ∀ b ∈ l, lo ≤ b.addr ∧ b.addr + c.META_SIZE + b.size ≤ hi := by
  induction l generalizing lo with
  | nil => simp
  | cons d l ih =>
    obtain ⟨h1, _, h3⟩ := hl
    intro a ha
    rcases List.mem_cons.mp ha with rfl | ha
    · exact ⟨h1, layout_le h3⟩
    · have := ih h3 a ha
      omega

theorem layout_total {c : Config} {g : Nat} {l : List Blk} {lo hi : Nat}
    (hl : Layout c g lo hi l) : lo + total c l ≤ hi := by
  induction l generalizing lo with
  | nil => simpa [total] using hl.1
  | cons d l ih =>
    obtain ⟨h1, _, h3⟩ := hl
    have := ih h3
    simp only [total, List.map_cons, List.sum_cons] at this ⊢
    omega

theorem layout_nodup {c : Config} {g : Nat} {l : List Blk} {lo hi : Nat}
    (hc : 0 < c.META_SIZE) (hl : Layout c g lo hi l) : (l.map Blk.addr).Nodup := by
  induction l generalizing lo with
  | nil => exact List.nodup_nil
  | cons a l ih =>
    obtain ⟨_, _, h3⟩ := hl
    rw [List.map_cons]
    refine List.nodup_cons.mpr ⟨fun ha => ?_, ih h3⟩
    obtain ⟨b, hb, hba⟩ := List.mem_map.mp ha
    have := (layout_mem h3 b hb).1
    omega

/-- With gap bound `0` each block starts where the one before ends. -/
theorem layout_tight {c : Config} {l1 l2 : List Blk} {lo hi : Nat} {a b : Blk}
    (hl : Layout c 0 lo hi (l1 ++ a :: b :: l2)) : b.addr = a.addr + c.META_SIZE + a.size := by
  have h := (layout_append.mp hl).2
  obtain ⟨h1, h2, _⟩ := h
  omega

/-! ## `find_best_block` -/

theorem find_best_loop_chain {m : Mem} {n : Nat} {l : List Nat} {p : Nat}
    (hs : Chain m p l) :
    ∀ fuel best, l.length < fuel →
      find_best_loop fuel m n best p = some (best_fit m n best l) := by
  induction l generalizing p with
  | nil =>
    intro fuel best hf
    have hp : p = 0 := hs
    cases fuel with
    | zero => simp at hf
    | succ k => simp [find_best_loop, hp, best_fit]
  | cons a l ih =>
    intro fuel best hf
    obtain ⟨h1, h2, h3⟩ := hs
    cases fuel with
    | zero => simp at hf
    | succ k =>
      have hl : l.length < k := by simpa using hf
      subst h1
      simp only [find_best_loop, best_fit]
      rw [if_pos h2]
      exact ih h3 k _ hl

theorem best_fit_spec (m : Mem) (n : Nat) (l : List Nat) :
    ∀ best, (∀ a ∈ l, a ≠ 0) →
      (best_fit m n best l = best ∧
        ∀ a ∈ l, Fits m n a → best ≠ 0 ∧ (m best).size ≤ (m a).size) ∨
      (∃ l1 l2, l = l1 ++ best_fit m n best l :: l2 ∧ Fits m n (best_fit m n best l) ∧
        (best ≠ 0 → (m (best_fit m n best l)).size < (m best).size) ∧
        (∀ a ∈ l1, Fits m n a → (m (best_fit m n best l)).size < (m a).size) ∧
        (∀ a ∈ l2, Fits m n a → (m (best_fit m n best l)).size ≤ (m a).size)) := by
  induction l with
  | nil => intro best _; left; simp [best_fit]
  | cons a t ih =>
    intro best hnz
    have hnz1 : ∀ x ∈ t, x ≠ 0 := fun x hx => hnz x (List.mem_cons_of_mem _ hx)
    have ha0 : a ≠ 0 := hnz a (List.mem_cons_self _ _)
    simp only [best_fit]
    by_cases hq : (m a).status = Status.FREE ∧ (m a).size ≥ n
    · by_cases hb : best = 0 ∨ (m a).size < (m best).size
      · rw [if_pos hq, if_pos hb]
        right
        rcases ih a hnz1 with ⟨e, hall⟩ | ⟨l1, l2, e, hf, hlt, h1, h2⟩
        · refine ⟨[], t, by rw [e]; rfl, by rw [e]; exact hq, ?_, by simp, ?_⟩
          · intro hb0
            rw [e]
            rcases hb with hb | hb
            · exact absurd hb hb0
            · exact hb
          · intro x hx hfx
            rw [e]
            exact (hall x hx hfx).2
        · refine ⟨a :: l1, l2, by rw [List.cons_append, ← e], hf, ?_, ?_, h2⟩
          · intro hb0
            have := hlt ha0
            rcases hb with hb | hb
            · exact absurd hb hb0
            · omega
          · intro x hx hfx
            rcases List.mem_cons.mp hx with rfl | hx
            · exact hlt ha0
            · exact h1 x hx hfx
      · rw [if_pos hq, if_neg hb]
        have hb0 : best ≠ 0 := fun h => hb (Or.inl h)
        have hle : (m best).size ≤ (m a).size := by
          by_contra hc
          exact hb (Or.inr (by omega))
        rcases ih best hnz1 with ⟨e, hall⟩ | ⟨l1, l2, e, hf, hlt, h1, h2⟩
        · left
          refine ⟨e, ?_⟩
          intro x hx hfx
          rcases List.mem_cons.mp hx with rfl | hx
          · exact ⟨hb0, hle⟩
          · exact hall x hx hfx
        · right
          refine ⟨a :: l1, l2, by rw [List.cons_append, ← e], hf, hlt, ?_, h2⟩
          intro x hx hfx
          rcases List.mem_cons.mp hx with rfl | hx
          · have := hlt hb0
            omega
          · exact h1 x hx hfx
    · rw [if_neg hq]
      rcases ih best hnz1 with ⟨e, hall⟩ | ⟨l1, l2, e, hf, hlt, h1, h2⟩
      · left
        refine ⟨e, ?_⟩
        intro x hx hfx
        rcases List.mem_cons.mp hx with rfl | hx
        · exact absurd hfx hq
        · exact hall x hx hfx
      · right
        refine ⟨a :: l1, l2, by rw [List.cons_append, ← e], hf, hlt, ?_, h2⟩
        intro x hx hfx
        rcases List.mem_cons.mp hx with rfl | hx
        · exact absurd hfx hq
        · exact h1 x hx hfx

/-- The outcome of `find_best_block` on a heap list `l`: either `0` and no block fits, or
the first block of least size among those that fit. -/
theorem best_fit_zero (m : Mem) (n : Nat) (l : List Nat) (hnz : ∀ a ∈ l, a ≠ 0) :
    (best_fit m n 0 l = 0 ∧ ∀ a ∈ l, ¬ Fits m n a) ∨
    (best_fit m n 0 l ≠ 0 ∧ ∃ l1 l2, l = l1 ++ best_fit m n 0 l :: l2 ∧
      Fits m n (best_fit m n 0 l) ∧
      (∀ a ∈ l1, Fits m n a → (m (best_fit m n 0 l)).size < (m a).size) ∧
      (∀ a ∈ l2, Fits m n a → (m (best_fit m n 0 l)).size ≤ (m a).size)) := by
  have key := best_fit_spec m n l 0 hnz
  generalize best_fit m n 0 l = r at key ⊢
  rcases key with ⟨e, hall⟩ | ⟨l1, l2, e, hf, _, h1, h2⟩
  · left
    exact ⟨e, fun a ha hfa => (hall a ha hfa).1 rfl⟩
  · right
    refine ⟨?_, l1, l2, e, hf, h1, h2⟩
    apply hnz
    rw [e]
    simp

/-! ## `coalesce_blocks` -/

/-- The memory after `a` has absorbed its successor `b`, whose successor is `d`. -/
theorem absorb_next_spec (c : Config) {m : Mem} {a b d : Nat}
    (hab : (m a).next = b) (hbd : (m b).next = d) :
    (∀ x, (absorb_next c m a x).next = if x = a then d else (m x).next) ∧
    (∀ x, (absorb_next c m a x).size =
      if x = a then wadd (m a).size (wadd (m b).size c.META_SIZE) else (m x).size) ∧
    (∀ x, (absorb_next c m a x).status = (m x).status) ∧
    (∀ x, x ≠ a → x ≠ d → absorb_next c m a x = m x) ∧
    (∀ x, x ≠ a → d = 0 → absorb_next c m a x = m x) := by
  unfold absorb_next
  simp only [set_size_next, hab, hbd]
  by_cases hd : d = 0
  · subst hd
    simp only [ne_eq, not_true_eq_false, if_false]
    refine ⟨?_, ?_, ?_, ?_, ?_⟩
    · intro x; simp
    · intro x; simp
    · intro x; simp
    · intro x hx _; rw [set_next_ne _ _ hx, set_size_ne _ _ hx]
    · intro x hx _; rw [set_next_ne _ _ hx, set_size_ne _ _ hx]
  · simp only [ne_eq, hd, not_false_eq_true, if_true]
    refine ⟨?_, ?_, ?_, ?_, ?_⟩
    · intro x; simp [hbd]
    · intro x; simp
    · intro x; simp
    · intro x hx hxd; rw [set_next_ne _ _ hx, set_prev_ne _ _ hxd, set_size_ne _ _ hx]
    · intro x _ h0; simp [hd] at h0

theorem total_cons (c : Config) (b : Blk) (l : List Blk) :
    total c (b :: l) = b.size + c.META_SIZE + total c l := by
  simp [total]

theorem total_append (c : Config) (l1 l2 : List Blk) :
    total c (l1 ++ l2) = total c l1 + total c l2 := by
  simp [total]

/-- The loop of `coalesce_blocks`, standing at the head `a` of a list in memory, ends and
leaves in memory the list that `merge_free` describes. -/
theorem coalesce_loop_cons (c : Config) (t : List Nat) :
    ∀ (m : Mem) (a : Nat), Chain m a (a :: t) → (a :: t).Nodup →
      total c ((a :: t).map (view m)) < WORD →
      ∀ fuel, t.length + 1 ≤ fuel →
      ∃ m1 l1, coalesce_loop c fuel m a = some m1 ∧ Chain m1 a (a :: l1) ∧
        (a :: l1).map (view m1) = merge_free c (view m a) (t.map (view m)) ∧
        (∀ x, x ∉ a :: t → m1 x = m x) ∧ l1.Sublist t := by
  induction t with
  | nil =>
    intro m a hc _ _ fuel hf
    obtain ⟨_, ha0, hnext⟩ := hc
    have hnext : (m a).next = 0 := hnext
    cases fuel with
    | zero => simp at hf
    | succ k =>
      refine ⟨m, [], ?_, ⟨rfl, ha0, hnext⟩, by simp [merge_free], fun _ _ => rfl,
        List.Sublist.refl _⟩
      simp [coalesce_loop, hnext]
  | cons b t ih =>
    intro m a hc hnd htot fuel hf
    obtain ⟨_, ha0, hab, hb0, hbt⟩ := hc
    cases fuel with
    | zero => simp at hf
    | succ k =>
      have hk : t.length + 1 ≤ k := by simpa using hf
      have hnd2 : (b :: t).Nodup := (List.nodup_cons.mp hnd).2
      have hat : a ∉ b :: t := (List.nodup_cons.mp hnd).1
      have hbt2 : b ∉ t := (List.nodup_cons.mp hnd2).1
      simp only [coalesce_loop]
      rw [if_pos ⟨ha0, by rw [hab]; exact hb0⟩, hab]
      by_cases hfree : (m a).status = Status.FREE ∧ (m b).status = Status.FREE
      · rw [if_pos hfree]
        obtain ⟨hn, hs, hst, hfr, _⟩ := absorb_next_spec c (m := m) hab rfl
        have hat2 : a ∉ t := fun h => hat (List.mem_cons_of_mem _ h)
        have hsum : (m a).size + ((m b).size + c.META_SIZE) < WORD := by
          simp only [List.map_cons, total_cons, view] at htot
          omega
        have hw : wadd (m a).size (wadd (m b).size c.META_SIZE) =
            (m a).size + ((m b).size + c.META_SIZE) := by
          rw [wadd_of_lt (a := (m b).size) (by omega), wadd_of_lt hsum]
        have hviews : t.map (view (absorb_next c m a)) = t.map (view m) := by
          apply map_view_congr
          intro x hx
          have hxa : x ≠ a := fun h => hat2 (h ▸ hx)
          rw [hs x, hst x, if_neg hxa]
          exact ⟨rfl, rfl⟩
        have hva : view (absorb_next c m a) a =
            ⟨a, (m a).size + ((m b).size + c.META_SIZE), Status.FREE⟩ := by
          simp [view, hs a, hst a, hw, hfree.1]
        have hchain : Chain (absorb_next c m a) a (a :: t) := by
          refine ⟨rfl, ha0, ?_⟩
          rw [hn a, if_pos rfl]
          apply seg_congr _ hbt
          intro x hx
          have hxa : x ≠ a := fun h => hat2 (h ▸ hx)
          rw [hn x, if_neg hxa]
        have htot2 : total c ((a :: t).map (view (absorb_next c m a))) < WORD := by
          simp only [List.map_cons, total_cons, hviews, hva]
          simp only [List.map_cons, total_cons, view] at htot
          omega
        obtain ⟨m1, l1, e1, e2, e3, e4, e5⟩ :=
          ih (absorb_next c m a) a hchain (List.nodup_cons.mpr ⟨hat2, (List.nodup_cons.mp hnd2).2⟩)
            htot2 k (by omega)
        refine ⟨m1, l1, e1, e2, ?_, ?_, List.Sublist.cons _ e5⟩
        · rw [e3, hviews, hva]
          have : (view m a).status = Status.FREE ∧ (view m b).status = Status.FREE := hfree
          simp only [List.map_cons, merge_free]
          rw [if_pos this]
          rfl
        · intro x hx
          have hxa : x ≠ a := fun h => hx (h ▸ List.mem_cons_self _ _)
          have hxb : x ≠ b := fun h => hx (h ▸ List.mem_cons_of_mem _ (List.mem_cons_self _ _))
          have hxt : x ∉ t := fun h => hx (List.mem_cons_of_mem _ (List.mem_cons_of_mem _ h))
          rw [e4 x (fun h => by
            rcases List.mem_cons.mp h with h | h
            · exact hxa h
            · exact hxt h)]
          by_cases hd : (m b).next = 0
          · exact (absorb_next_spec c (m := m) hab rfl).2.2.2.2 x hxa hd
          · apply hfr x hxa
            intro hxd
            cases t with
            | nil => exact hd hbt
            | cons d t =>
              have : (m b).next = d := hbt.1
              exact hxt (by rw [hxd, this]; exact List.mem_cons_self _ _)
      · rw [if_neg hfree]
        have htot2 : total c ((b :: t).map (view m)) < WORD := by
          simp only [List.map_cons, total_cons] at htot ⊢
          omega
        obtain ⟨m1, l1, e1, e2, e3, e4, e5⟩ := ih m b ⟨rfl, hb0, hbt⟩ hnd2 htot2 k (by omega)
        have hma : m1 a = m a := e4 a hat
        refine ⟨m1, b :: l1, e1, ⟨rfl, ha0, ?_⟩, ?_, ?_, ?_⟩
        · rw [hma, hab]; exact e2
        · have : ¬ ((view m a).status = Status.FREE ∧ (view m b).status = Status.FREE) := hfree
          simp only [List.map_cons, merge_free]
          rw [if_neg this]
          simp only [List.map_cons] at e3
          rw [← e3]
          simp [view, hma]
        · intro x hx
          exact e4 x (fun h => hx (List.mem_cons_of_mem _ h))
        · exact List.Sublist.cons₂ _ e5

/-- The function `coalesce_blocks` on a list in memory: it ends, and leaves in memory the
list `coalesce_list` describes, writing only to nodes of the list. -/
theorem coalesce_loop_chain (c : Config) {m : Mem} {p : Nat} {l : List Nat}
    (hc : Chain m p l) (hnd : l.Nodup) (htot : total c (l.map (view m)) < WORD)
    {fuel : Nat} (hf : l.length < fuel) :
    ∃ m1 l1, coalesce_loop c fuel m p = some m1 ∧ Chain m1 p l1 ∧
      l1.map (view m1) = coalesce_list c (l.map (view m)) ∧
      (∀ x, x ∉ l → m1 x = m x) ∧ l1.Sublist l := by
  cases l with
  | nil =>
    have hp : p = 0 := hc
    cases fuel with
    | zero => simp at hf
    | succ k =>
      exact ⟨m, [], by simp [coalesce_loop, hp], hc, rfl, fun _ _ => rfl, List.Sublist.refl _⟩
  | cons a t =>
    have hp : p = a := hc.1
    subst hp
    obtain ⟨m1, l1, e1, e2, e3, e4, e5⟩ :=
      coalesce_loop_cons c t m p hc hnd htot fuel (by simp at hf; omega)
    exact ⟨m1, p :: l1, e1, e2, e3, e4, List.Sublist.cons₂ _ e5⟩

/-! ## Coalescing, on the observed blocks -/

theorem coalesce_spec_nil (c : Config) : coalesce_spec c [] = [] := by
  rw [coalesce_spec]

theorem coalesce_spec_cons_free (c : Config) (x : Blk) (r : List Blk)
    (h : x.status = Status.FREE) :
    coalesce_spec c (x :: r) =
      ⟨x.addr, x.size + total c (r.takeWhile fun y => y.status = Status.FREE), Status.FREE⟩ ::
        coalesce_spec c (r.dropWhile fun y => y.status = Status.FREE) := by
  rw [coalesce_spec, if_pos h]

theorem coalesce_spec_cons_other (c : Config) (x : Blk) (r : List Blk)
    (h : x.status ≠ Status.FREE) : coalesce_spec c (x :: r) = x :: coalesce_spec c r := by
  rw [coalesce_spec, if_neg h]

theorem merge_free_eq_spec (c : Config) (r : List Blk) :
    ∀ x, merge_free c x r = coalesce_spec c (x :: r) := by
  induction r with
  | nil =>
    intro x
    by_cases hx : x.status = Status.FREE
    · rw [coalesce_spec_cons_free c x [] hx]
      simp only [merge_free, List.takeWhile_nil, List.dropWhile_nil, total, List.map_nil,
        List.sum_nil, Nat.add_zero, coalesce_spec_nil]
      cases x
      simp_all
    · rw [coalesce_spec_cons_other c x [] hx, coalesce_spec_nil]
      rfl
  | cons y r ih =>
    intro x
    by_cases hx : x.status = Status.FREE
    · by_cases hy : y.status = Status.FREE
      · simp only [merge_free]
        rw [if_pos ⟨hx, hy⟩, ih, coalesce_spec_cons_free c x _ hx,
          coalesce_spec_cons_free c _ r rfl]
        simp [hy, total_cons]
        omega
      · simp only [merge_free]
        rw [if_neg (fun h => hy h.2), ih, coalesce_spec_cons_free c x _ hx]
        simp only [hy, decide_False, Bool.false_eq_true, not_false_eq_true,
          List.takeWhile_cons_of_neg, List.dropWhile_cons_of_neg, total, List.map_nil,
          List.sum_nil, Nat.add_zero]
        cases x
        simp_all
    · simp only [merge_free]
      rw [if_neg (fun h => hx h.1), ih, coalesce_spec_cons_other c x _ hx]

/-- The loop of `coalesce_blocks` computes what the specification states. -/
theorem coalesce_list_eq_spec (c : Config) (l : List Blk) :
    coalesce_list c l = coalesce_spec c l := by
  cases l with
  | nil => rw [coalesce_spec_nil]; rfl
  | cons x r => exact merge_free_eq_spec c r x

theorem merge_free_total (c : Config) (r : List Blk) :
    ∀ x, total c (merge_free c x r) = total c (x :: r) := by
  induction r with
  | nil => intro x; rfl
  | cons y r ih =>
    intro x
    simp only [merge_free]
    split
    · rw [ih]; simp only [total_cons]; omega
    · rw [total_cons, ih, total_cons, total_cons, total_cons]

theorem coalesce_list_total (c : Config) (l : List Blk) :
    total c (coalesce_list c l) = total c l := by
  cases l with
  | nil => rfl
  | cons x r => exact merge_free_total c r x

theorem merge_free_head (c : Config) (r : List Blk) :
    ∀ x, ∃ y t, merge_free c x r = y :: t ∧ y.addr = x.addr ∧ y.status = x.status := by
  induction r with
  | nil => intro x; exact ⟨x, [], rfl, rfl, rfl⟩
  | cons z r ih =>
    intro x
    simp only [merge_free]
    split
    · rename_i h
      obtain ⟨y, t, e1, e2, e3⟩ := ih ⟨x.addr, x.size + (z.size + c.META_SIZE), Status.FREE⟩
      exact ⟨y, t, e1, e2, by rw [e3, h.1]⟩
    · exact ⟨x, _, rfl, rfl, rfl⟩

/-- After coalescing no two neighbours are both FREE. -/
theorem merge_free_no_adjacent (c : Config) (r : List Blk) :
    ∀ x, (merge_free c x r).Chain'
      (fun a b => ¬ (a.status = Status.FREE ∧ b.status = Status.FREE)) := by
  induction r with
  | nil => intro x; simp [merge_free]
  | cons z r ih =>
    intro x
    simp only [merge_free]
    split
    · exact ih _
    · rename_i h
      obtain ⟨y, t, e1, _, e3⟩ := merge_free_head c r z
      have := ih z
      rw [e1] at this ⊢
      exact List.Chain'.cons (by rw [e3]; exact h) this

theorem coalesce_list_no_adjacent (c : Config) (l : List Blk) :
    (coalesce_list c l).Chain'
      (fun a b => ¬ (a.status = Status.FREE ∧ b.status = Status.FREE)) := by
  cases l with
  | nil => simp [coalesce_list]
  | cons x r => exact merge_free_no_adjacent c r x

/-- Coalescing keeps every block that is not FREE. -/
theorem merge_free_keeps (c : Config) (r : List Blk) :
    ∀ x, ∀ b ∈ x :: r, b.status ≠ Status.FREE → b ∈ merge_free c x r := by
  induction r with
  | nil => intro x b hb _; simpa [merge_free] using hb
  | cons z r ih =>
    intro x b hb hs
    simp only [merge_free]
    split
    · rename_i h
      apply ih _ b _ hs
      rcases List.mem_cons.mp hb with rfl | hb
      · exact absurd h.1 hs
      · rcases List.mem_cons.mp hb with rfl | hb
        · exact absurd h.2 hs
        · exact List.mem_cons_of_mem _ hb
    · rcases List.mem_cons.mp hb with rfl | hb
      · exact List.mem_cons_self _ _
      · exact List.mem_cons_of_mem _ (ih z b hb hs)

theorem coalesce_list_keeps (c : Config) (l : List Blk) :
    ∀ b ∈ l, b.status ≠ Status.FREE → b ∈ coalesce_list c l := by
  cases l with
  | nil => simp
  | cons x r => exact merge_free_keeps c r x

/-- Coalescing makes no block that is not FREE. -/
theorem merge_free_mem (c : Config) (r : List Blk) :
    ∀ x, ∀ b ∈ merge_free c x r, b.status ≠ Status.FREE → b ∈ x :: r := by
  induction r with
  | nil => intro x b hb _; simpa [merge_free] using hb
  | cons z r ih =>
    intro x b hb hs
    simp only [merge_free] at hb
    split at hb
    · have := ih _ b hb hs
      rcases List.mem_cons.mp this with rfl | h
      · exact absurd rfl hs
      · exact List.mem_cons_of_mem _ (List.mem_cons_of_mem _ h)
    · rcases List.mem_cons.mp hb with rfl | hb
      · exact List.mem_cons_self _ _
      · exact List.mem_cons_of_mem _ (ih z b hb hs)

theorem coalesce_list_mem (c : Config) (l : List Blk) :
    ∀ b ∈ coalesce_list c l, b.status ≠ Status.FREE → b ∈ l := by
  cases l with
  | nil => simp [coalesce_list]
  | cons x r => exact merge_free_mem c r x

theorem layout_lower {c : Config} {g : Nat} {l : List Blk} {lo lo1 hi : Nat}
    (hg : GapOk g) (hhi : hi < WORD) (hl : Layout c g lo hi l) (h1 : lo1 ≤ lo)
    (h2 : g = 0 → lo1 = lo) : Layout c g lo1 hi l := by
  cases l with
  | nil =>
    obtain ⟨e1, e2⟩ := hl
    refine ⟨by omega, ?_⟩
    rcases hg with hg | hg
    · have := h2 hg; omega
    · omega
  | cons a l =>
    obtain ⟨e1, e2, e3⟩ := hl
    have := (layout_mem (l := a :: l) ⟨e1, e2, e3⟩ a (List.mem_cons_self _ _)).2
    refine ⟨by omega, ?_, e3⟩
    rcases hg with hg | hg
    · have := h2 hg; omega
    · omega

theorem merge_free_layout {c : Config} {g : Nat} {hi : Nat} (hg : GapOk g) (hhi : hi < WORD)
    (r : List Blk) :
    ∀ x lo, Layout c g lo hi (x :: r) → Layout c g lo hi (merge_free c x r) := by
  induction r with
  | nil => intro x lo h; exact h
  | cons z r ih =>
    intro x lo h
    simp only [merge_free]
    obtain ⟨e1, e2, e3, e4, e5⟩ := h
    split
    · apply ih
      refine ⟨e1, e2, ?_⟩
      apply layout_lower hg hhi e5
      · simp only; omega
      · intro h0; simp only; omega
    · exact ⟨e1, e2, ih z _ ⟨e3, e4, e5⟩⟩

theorem coalesce_list_layout {c : Config} {g : Nat} {lo hi : Nat} (hg : GapOk g)
    (hhi : hi < WORD) {l : List Blk} (h : Layout c g lo hi l) :
    Layout c g lo hi (coalesce_list c l) := by
  cases l with
  | nil => exact h
  | cons x r => exact merge_free_layout hg hhi r x lo h

theorem merge_free_ok {c : Config} (hc : c.META_SIZE % 8 = 0) (r : List Blk) :
    ∀ x, HeapBlocksOk (x :: r) → HeapBlocksOk (merge_free c x r) := by
  induction r with
  | nil => intro x h; exact h
  | cons z r ih =>
    intro x h
    simp only [merge_free]
    have hx := h x (List.mem_cons_self _ _)
    have hz := h z (List.mem_cons_of_mem _ (List.mem_cons_self _ _))
    have hr : ∀ b ∈ r, b.status ≠ Status.MAPPED ∧ b.size % 8 = 0 ∧ 8 ≤ b.size :=
      fun b hb => h b (List.mem_cons_of_mem _ (List.mem_cons_of_mem _ hb))
    split
    · apply ih
      intro b hb
      rcases List.mem_cons.mp hb with rfl | hb
      · refine ⟨by simp, ?_, ?_⟩ <;> simp only <;> omega
      · exact hr b hb
    · intro b hb
      rcases List.mem_cons.mp hb with rfl | hb
      · exact hx
      · exact ih z (fun b hb => h b (List.mem_cons_of_mem _ hb)) b hb

theorem coalesce_list_ok {c : Config} (hc : c.META_SIZE % 8 = 0) {l : List Blk}
    (h : HeapBlocksOk l) : HeapBlocksOk (coalesce_list c l) := by
  cases l with
  | nil => exact h
  | cons x r => exact merge_free_ok hc r x h

theorem coalesce_list_ne_nil (c : Config) {l : List Blk} (h : l ≠ []) :
    coalesce_list c l ≠ [] := by
  cases l with
  | nil => exact absurd rfl h
  | cons x r =>
    obtain ⟨y, t, e, _, _⟩ := merge_free_head c r x
    simp [coalesce_list, e]

/-- Each block after coalescing stands at the address of a block of the same status
before it. -/
theorem merge_free_origin (c : Config) (r : List Blk) :
    ∀ x, ∀ b ∈ merge_free c x r, ∃ b1 ∈ x :: r, b1.addr = b.addr ∧ b1.status = b.status := by
  induction r with
  | nil =>
    intro x b hb
    have : b = x := by simpa [merge_free] using hb
    exact ⟨x, by simp, by rw [this], by rw [this]⟩
  | cons z r ih =>
    intro x b hb
    simp only [merge_free] at hb
    split at hb
    · rename_i h
      obtain ⟨b1, hb1, e1, e2⟩ := ih _ b hb
      rcases List.mem_cons.mp hb1 with rfl | hb1
      · exact ⟨x, by simp, e1, by rw [← e2]; exact h.1⟩
      · exact ⟨b1, List.mem_cons_of_mem _ (List.mem_cons_of_mem _ hb1), e1, e2⟩
    · rcases List.mem_cons.mp hb with rfl | hb
      · exact ⟨b, by simp, rfl, rfl⟩
      · obtain ⟨b1, hb1, e1, e2⟩ := ih z b hb
        exact ⟨b1, List.mem_cons_of_mem _ hb1, e1, e2⟩

theorem coalesce_list_origin (c : Config) (l : List Blk) :
    ∀ b ∈ coalesce_list c l, ∃ b1 ∈ l, b1.addr = b.addr ∧ b1.status = b.status := by
  cases l with
  | nil => intro b hb; simp [coalesce_list] at hb
  | cons x r => exact merge_free_origin c r x

/-! ## `split_blocks` and the list surgery of `brk_alloc` -/

/-- The memory after `split_blocks` has cut `size` bytes off `block`, whose successor is
`d`; `nb` is the address of the remainder. -/
theorem split_blocks_spec (c : Config) {m : Mem} {block size nb d : Nat}
    (hnb : wadd (wadd block c.META_SIZE) size = nb) (hne : nb ≠ block)
    (hd : (m block).next = d) :
    (∀ x, (split_blocks c m block size x).next =
      if x = block then nb else if x = nb then d else (m x).next) ∧
    (∀ x, (split_blocks c m block size x).size =
      if x = block then size
      else if x = nb then wsub (wsub (m block).size size) c.META_SIZE else (m x).size) ∧
    (∀ x, (split_blocks c m block size x).status =
      if x = block then Status.ALLOC
      else if x = nb then Status.FREE else (m x).status) ∧
    (∀ x, x ≠ block → x ≠ nb → (x ≠ d ∨ d = 0) → split_blocks c m block size x = m x) := by
  unfold split_blocks
  simp only [hnb, set_size_next, set_status_next, set_prev_next, hd, set_status_size]
  have hbn : block ≠ nb := fun h => hne h.symm
  by_cases hd0 : d = 0
  · subst hd0
    simp only [ne_eq, not_true_eq_false, if_false]
    refine ⟨?_, ?_, ?_, ?_⟩
    · intro x
      by_cases h1 : x = block
      · simp [h1]
      · by_cases h2 : x = nb
        · simp [h2, hne]
        · simp [h1, h2]
    · intro x
      by_cases h1 : x = block
      · simp [h1]
      · by_cases h2 : x = nb
        · simp [h2, hne]
        · simp [h1, h2]
    · intro x
      by_cases h1 : x = block
      · simp [h1]
      · by_cases h2 : x = nb
        · simp [h2, hne]
        · simp [h1, h2]
    · intro x h1 h2 _
      rw [set_status_ne _ _ h1, set_size_ne _ _ h1, set_next_ne _ _ h1, set_next_ne _ _ h2,
        set_prev_ne _ _ h2, set_size_ne _ _ h2, set_status_ne _ _ h2]
  · simp only [ne_eq, hd0, not_false_eq_true, if_true]
    refine ⟨?_, ?_, ?_, ?_⟩
    · intro x
      by_cases h1 : x = block
      · simp [h1]
      · by_cases h2 : x = nb
        · simp [h2, hne, hd]
        · simp [h1, h2]
    · intro x
      by_cases h1 : x = block
      · simp [h1]
      · by_cases h2 : x = nb
        · simp [h2, hne]
        · simp [h1, h2]
    · intro x
      by_cases h1 : x = block
      · simp [h1]
      · by_cases h2 : x = nb
        · simp [h2, hne]
        · simp [h1, h2]
    · intro x h1 h2 h3
      have h3 : x ≠ d := by
        rcases h3 with h3 | h3
        · exact h3
        · exact h3.elim
      rw [set_status_ne _ _ h1, set_size_ne _ _ h1, set_next_ne _ _ h1, set_next_ne _ _ h2,
        set_prev_ne _ _ h3, set_prev_ne _ _ h2, set_size_ne _ _ h2, set_status_ne _ _ h2]

/-- Inserting the node `nb` after `block` in a list in memory. -/
theorem chain_insert {m m1 : Mem} {p block nb : Nat} {pre post : List Nat}
    (hc : Chain m p (pre ++ block :: post)) (hnd : (pre ++ block :: post).Nodup)
    (hnb0 : nb ≠ 0) (hfresh : nb ∉ pre ++ block :: post)
    (hnext : ∀ x, (m1 x).next =
      if x = block then nb else if x = nb then (m block).next else (m x).next) :
    Chain m1 p (pre ++ block :: nb :: post) := by
  obtain ⟨r, h1, h2⟩ := seg_append.mp hc
  obtain ⟨e1, e2, e3⟩ := h2
  have hpre : ∀ x ∈ pre, x ≠ block ∧ x ≠ nb := by
    intro x hx
    constructor
    · intro h
      subst h
      have := List.nodup_append.mp hnd
      exact this.2.2 hx (List.mem_cons_self _ _)
    · intro h
      subst h
      exact hfresh (List.mem_append_left _ hx)
  have hpost : ∀ x ∈ post, x ≠ block ∧ x ≠ nb := by
    intro x hx
    constructor
    · intro h
      subst h
      have := (List.nodup_append.mp hnd).2.1
      exact (List.nodup_cons.mp this).1 hx
    · intro h
      subst h
      exact hfresh (List.mem_append_right _ (List.mem_cons_of_mem _ hx))
  apply seg_append.mpr
  refine ⟨r, seg_congr ?_ h1, e1, e2, ?_, hnb0, ?_⟩
  · intro x hx
    rw [hnext x, if_neg (hpre x hx).1, if_neg (hpre x hx).2]
  · rw [hnext block, if_pos rfl]
  · have hnb : nb ≠ block := fun h => hfresh (by rw [h]; simp)
    rw [hnext nb, if_neg hnb, if_pos rfl]
    apply seg_congr _ e3
    intro x hx
    rw [hnext x, if_neg (hpost x hx).1, if_neg (hpost x hx).2]

/-- Appending the node `nb` to a non-empty list in memory. -/
theorem chain_snoc {m m1 : Mem} {p last nb : Nat} {pre : List Nat}
    (hc : Chain m p (pre ++ [last])) (hnb0 : nb ≠ 0) (hfresh : nb ∉ pre ++ [last])
    (hlast : last ∉ pre)
    (hnext : ∀ x, (m1 x).next =
      if x = last then nb else if x = nb then 0 else (m x).next) :
    Chain m1 p (pre ++ [last] ++ [nb]) := by
  obtain ⟨r, h1, h2⟩ := seg_append.mp hc
  obtain ⟨e1, e2, _⟩ := h2
  rw [List.append_assoc]
  apply seg_append.mpr
  refine ⟨r, seg_congr ?_ h1, e1, e2, ?_, hnb0, ?_⟩
  · intro x hx
    have h1 : x ≠ last := fun h => hlast (h ▸ hx)
    have h2 : x ≠ nb := fun h => hfresh (List.mem_append_left _ (h ▸ hx))
    rw [hnext x, if_neg h1, if_neg h2]
  · rw [hnext last, if_pos rfl]
  · have hnb : nb ≠ last := fun h => hfresh (by rw [h]; simp)
    rw [hnext nb, if_neg hnb, if_pos rfl]
    rfl

theorem nodup_mid {l1 l2 : List Nat} {a : Nat} (h : (l1 ++ a :: l2).Nodup) :
    a ∉ l1 ∧ a ∉ l2 ∧ ∀ x ∈ l1 ++ l2, x ≠ a := by
  have h1 := List.nodup_append.mp h
  have h2 := List.nodup_cons.mp h1.2.1
  have ha1 : a ∉ l1 := fun hx => h1.2.2 hx (List.mem_cons_self _ _)
  refine ⟨ha1, h2.1, ?_⟩
  intro x hx hxa
  subst hxa
  rcases List.mem_append.mp hx with hx | hx
  · exact ha1 hx
  · exact h2.1 hx

/-- The views of a list after a change of memory that touches only the node `r`. -/
theorem map_view_mid {m m1 : Mem} {pre post : List Nat} {r : Nat}
    (hnd : (pre ++ r :: post).Nodup)
    (hoff : ∀ x, x ≠ r → (m1 x).size = (m x).size ∧ (m1 x).status = (m x).status) :
    (pre ++ r :: post).map (view m1) =
      pre.map (view m) ++ view m1 r :: post.map (view m) := by
  obtain ⟨_, _, h3⟩ := nodup_mid hnd
  rw [List.map_append, List.map_cons]
  congr 1
  · exact map_view_congr fun x hx => hoff x (h3 x (List.mem_append_left _ hx))
  · congr 1
    exact map_view_congr fun x hx => hoff x (h3 x (List.mem_append_right _ hx))

/-- The block `r` of a list in memory is handed out whole. -/
theorem mark_alloc_chain {m : Mem} {p r : Nat} {pre post : List Nat}
    (hc : Chain m p (pre ++ r :: post)) (hnd : (pre ++ r :: post).Nodup) :
    Chain (set_status m r Status.ALLOC) p (pre ++ r :: post) ∧
    (pre ++ r :: post).map (view (set_status m r Status.ALLOC)) =
      pre.map (view m) ++ ⟨r, (m r).size, Status.ALLOC⟩ :: post.map (view m) := by
  refine ⟨seg_congr (fun x _ => by simp) hc, ?_⟩
  rw [map_view_mid hnd (m := m)]
  · simp [view]
  · intro x hx
    simp [hx]

/-- The block `r` of a list in memory is split for the need `n`. -/
theorem split_chain (c : Config) {m : Mem} {p r n nb : Nat} {pre post : List Nat}
    (hc : Chain m p (pre ++ r :: post)) (hnd : (pre ++ r :: post).Nodup)
    (hnb : wadd (wadd r c.META_SIZE) n = nb) (hnb0 : nb ≠ 0)
    (hfresh : nb ∉ pre ++ r :: post) :
    Chain (split_blocks c m r n) p (pre ++ r :: nb :: post) ∧
    (pre ++ r :: nb :: post).map (view (split_blocks c m r n)) =
      pre.map (view m) ++ ⟨r, n, Status.ALLOC⟩ ::
        ⟨nb, wsub (wsub (m r).size n) c.META_SIZE, Status.FREE⟩ :: post.map (view m) ∧
    (∀ x, x ∉ pre ++ r :: post → x ≠ nb → split_blocks c m r n x = m x) := by
  have hne : nb ≠ r := fun h => hfresh (by rw [h]; simp)
  obtain ⟨hn, hs, hst, hfr⟩ := split_blocks_spec c (m := m) hnb hne rfl
  obtain ⟨hr1, hr2, hr3⟩ := nodup_mid hnd
  refine ⟨chain_insert hc hnd hnb0 hfresh hn, ?_, ?_⟩
  · have hoff : ∀ x ∈ pre ++ post, (split_blocks c m r n x).size = (m x).size ∧
        (split_blocks c m r n x).status = (m x).status := by
      intro x hx
      have h1 : x ≠ r := hr3 x hx
      have h2 : x ≠ nb := by
        intro h
        subst h
        rcases List.mem_append.mp hx with hx | hx
        · exact hfresh (List.mem_append_left _ hx)
        · exact hfresh (List.mem_append_right _ (List.mem_cons_of_mem _ hx))
      rw [hs x, hst x]
      simp [h1, h2]
    rw [List.map_append, List.map_cons, List.map_cons]
    congr 1
    · exact map_view_congr fun x hx => hoff x (List.mem_append_left _ hx)
    · congr 1
      · simp [view, hs r, hst r]
      · congr 1
        · simp [view, hs nb, hst nb, hne]
        · exact map_view_congr fun x hx => hoff x (List.mem_append_right _ hx)
  · intro x hx hxnb
    have hxr : x ≠ r := fun h => hx (by rw [h]; simp)
    apply hfr x hxr hxnb
    by_cases hd : (m r).next = 0
    · exact Or.inr hd
    · left
      intro hxd
      obtain ⟨q, _, h2⟩ := seg_append.mp hc
      obtain ⟨_, _, h3⟩ := h2
      obtain ⟨t, ht⟩ := chain_head h3 hd
      apply hx
      rw [hxd, ht]
      simp

/-- The last block of a list in memory grows to the size `n`. -/
theorem grow_chain {m : Mem} {p last n : Nat} {pre : List Nat}
    (hc : Chain m p (pre ++ [last])) (hnd : (pre ++ [last]).Nodup) :
    Chain (set_size (set_status m last Status.ALLOC) last n) p (pre ++ [last]) ∧
    (pre ++ [last]).map (view (set_size (set_status m last Status.ALLOC) last n)) =
      pre.map (view m) ++ [⟨last, n, Status.ALLOC⟩] := by
  refine ⟨seg_congr (fun x _ => by simp) hc, ?_⟩
  rw [map_view_mid hnd (m := m)]
  · simp [view]
  · intro x hx
    simp [hx]

/-- A new block at `nb` is linked after the last block of a list in memory. -/
theorem append_chain {m : Mem} {p last n nb : Nat} {pre : List Nat}
    (hc : Chain m p (pre ++ [last])) (hnd : (pre ++ [last]).Nodup)
    (hnb0 : nb ≠ 0) (hfresh : nb ∉ pre ++ [last]) :
    Chain (set_next (set_prev (set_next (set_status (set_size m nb n) nb Status.ALLOC) nb 0)
      nb last) last nb) p (pre ++ [last] ++ [nb]) ∧
    (pre ++ [last] ++ [nb]).map (view (set_next (set_prev (set_next
      (set_status (set_size m nb n) nb Status.ALLOC) nb 0) nb last) last nb)) =
      (pre ++ [last]).map (view m) ++ [⟨nb, n, Status.ALLOC⟩] := by
  obtain ⟨hl1, _, _⟩ := nodup_mid hnd
  have hne : nb ≠ last := fun h => hfresh (by rw [h]; simp)
  constructor
  · apply chain_snoc hc hnb0 hfresh hl1
    intro x
    by_cases h1 : x = last
    · simp [h1]
    · by_cases h2 : x = nb
      · simp [h2, hne]
      · simp [h1, h2]
  · rw [List.map_append, List.map_cons, List.map_nil]
    congr 1
    · apply map_view_congr
      intro x hx
      have h2 : x ≠ nb := fun h => hfresh (h ▸ hx)
      simp [h2]
    · simp [view]

/-! ## `brk_alloc` on an initialised heap -/

theorem inv_nodup {c : Config} {g : Nat} {s : State} {l ml : List Nat}
    (hc : ConfigOk c) (hinv : Inv c g s l ml) : l.Nodup := by
  have := layout_nodup hc.1 hinv.hlay
  rwa [map_addr_view] at this

theorem inv_total {c : Config} {g : Nat} {s : State} {l ml : List Nat}
    (hinv : Inv c g s l ml) : total c (l.map (view s.mem)) < WORD := by
  have h1 := layout_total hinv.hlay
  have h2 := hinv.os.2.2.1
  omega

theorem inv_bounds {c : Config} {g : Nat} {s : State} {l ml : List Nat}
    (hinv : Inv c g s l ml) :
    ∀ a ∈ l, s.heap_start ≤ a ∧ a + c.META_SIZE + (s.mem a).size ≤ s.brk :=
  fun a ha => layout_mem hinv.hlay (view s.mem a) (List.mem_map_of_mem _ ha)

theorem layout_view_bounds {c : Config} {g lo hi : Nat} {m : Mem} {l : List Nat}
    (h : Layout c g lo hi (l.map (view m))) :
    ∀ a ∈ l, lo ≤ a ∧ a + c.META_SIZE + (m a).size ≤ hi :=
  fun a ha => layout_mem h (view m a) (List.mem_map_of_mem _ ha)

theorem layout_view_nodup {c : Config} {g lo hi : Nat} {m : Mem} {l : List Nat}
    (hc : 0 < c.META_SIZE) (h : Layout c g lo hi (l.map (view m))) : l.Nodup := by
  have := layout_nodup hc h
  rwa [map_addr_view] at this

/-- In a laid-out list the blocks before `r` end at or before `r`, and the blocks after
it start at or after its end. -/
theorem layout_view_mid {c : Config} {g lo hi : Nat} {m : Mem} {pre post : List Nat} {r : Nat}
    (h : Layout c g lo hi ((pre ++ r :: post).map (view m))) :
    (∀ a ∈ pre, a + c.META_SIZE + (m a).size ≤ r) ∧
    (∀ a ∈ post, r + c.META_SIZE + (m r).size ≤ a) := by
  rw [List.map_append, List.map_cons] at h
  obtain ⟨h1, h2⟩ := layout_append.mp h
  exact ⟨fun a ha => (layout_view_bounds h1 a ha).2, fun a ha => (layout_view_bounds h2 a ha).1⟩

/-! ### The calls of `sbrk` -/

theorem sbrk_some {s : State} {d : Nat} (h : SbrkOk s d) :
    sbrk s d = some (s.brk,
      { s with brk := wadd s.brk d, calls := s.calls ++ [OsCall.sbrk d] }) := by
  unfold sbrk; rw [if_pos h]

theorem sbrk_none {s : State} {d : Nat} (h : ¬ SbrkOk s d) : sbrk s d = none := by
  unfold sbrk; rw [if_neg h]

theorem sbrk_ok_mem (s : State) (m : Mem) (d : Nat) :
    SbrkOk { s with mem := m } d ↔ SbrkOk s d := Iff.rfl

theorem sbrk_ok_flag (s : State) (f : Nat) (d : Nat) :
    SbrkOk { s with first_sbrk := f } d ↔ SbrkOk s d := Iff.rfl

/-- A granted extension by a small increment moves the break up by that increment. -/
theorem sbrk_ok_brk {s : State} {d : Nat} (h : SbrkOk s d) (hd : d < 2 ^ 63) :
    wadd s.brk d = s.brk + d ∧ s.brk + d < WORD := by
  unfold SbrkOk at h
  rw [if_pos hd] at h
  exact ⟨wadd_of_lt h.1, h.1⟩

theorem os_sbrk_none_iff {s : State} {d : Nat} :
    os_sbrk s (some d) = none ↔ ¬ SbrkOk s d := by
  unfold os_sbrk sbrk
  by_cases h : SbrkOk s d <;> simp [h]

theorem os_sbrk_some_iff {s so : State} {d : Nat} :
    os_sbrk s (some d) = some so ↔
      SbrkOk s d ∧ so = { s with brk := wadd s.brk d, calls := s.calls ++ [OsCall.sbrk d] } := by
  unfold os_sbrk sbrk
  by_cases h : SbrkOk s d
  · simp [h, eq_comm]
  · simp [h]

/-- The function `brk_alloc` on an initialised, well-formed heap: which block it returns
and what the heap list shows afterwards is one of the outcomes `BrkOutcome`; it fails only
when the system refuses the call of `sbrk`, and writes only inside the heap. -/
theorem brk_alloc_effect {c : Config} {g : Nat} {s : State} {l ml : List Nat}
    (hc : ConfigOk c) (hg : GapOk g) (hinv : Inv c g s l ml) (hinit : s.first_sbrk ≠ 0)
    {n : Nat} (hn : n + c.META_SIZE + 8 < WORD) (mc : Nat) {fuel : Nat}
    (hf : l.length < fuel) :
    ∃ r w d, BrkOutcome c n s.brk (coalesce_list c (l.map (view s.mem))) r w d ∧
      (os_sbrk s d = none → brk_alloc c fuel n mc s = none) ∧
      ∀ so, os_sbrk s d = some so →
        ∃ m l1, brk_alloc c fuel n mc s = some (r, { so with mem := m }) ∧
          Chain m s.brk_blocks l1 ∧ l1.map (view m) = w ∧
          (∀ x, (x < s.heap_start ∨ s.brk ≤ x) → x ≠ r → m x = s.mem x) ∧
          (∀ p0 lst, l1 = p0 ++ [lst, s.brk] → (m s.brk).prev = lst) := by
  have hnd := inv_nodup hc hinv
  obtain ⟨hH, hH8, hP8, hPH, hPT⟩ := hc
  obtain ⟨m1, l1, e1, hch1, hv1, hfr1, hsub⟩ :=
    coalesce_loop_chain c hinv.hchain hnd (inv_total hinv) hf
  have hbrk : s.brk < WORD := hinv.os.2.2.1
  have hlay1 : Layout c g s.heap_start s.brk (l1.map (view m1)) := by
    rw [hv1]; exact coalesce_list_layout hg hbrk hinv.hlay
  have hnd1 := layout_view_nodup hH hlay1
  have hb1 := layout_view_bounds hlay1
  have hlen1 : l1.length < fuel := lt_of_le_of_lt hsub.length_le hf
  have hnz1 : ∀ a ∈ l1, a ≠ 0 := seg_ne_zero hch1
  have hne1 : l1 ≠ [] := by
    intro h
    have := coalesce_list_ne_nil c (l := l.map (view s.mem)) (by simpa using hinv.hflag.2 hinit)
    rw [← hv1, h] at this
    exact this rfl
  have hbest := find_best_loop_chain (n := n) hch1 fuel 0 hlen1
  have hfr1' : ∀ x, (x < s.heap_start ∨ s.brk ≤ x) → m1 x = s.mem x := by
    intro x hx
    apply hfr1
    intro hxl
    have := inv_bounds hinv x hxl
    omega
  have hnobrk : s.brk ∉ l1 := fun h => by
    have := hb1 _ h
    omega
  unfold brk_alloc
  rw [if_neg hinit]
  simp only [coalesce_blocks, e1, Option.map_some', find_best_block, hbest]
  rcases best_fit_zero m1 n l1 hnz1 with ⟨hz, hnone⟩ | ⟨hnz, pre, post, hl1, hfit, hpre, hpost⟩
  · rw [hz]
    simp only [ne_eq, not_true_eq_false, if_false]
    obtain ⟨pre, last, hl1⟩ : ∃ pre last, l1 = pre ++ [last] :=
      ⟨l1.dropLast, l1.getLast hne1, (List.dropLast_append_getLast hne1).symm⟩
    subst hl1
    have hlast := find_last_block_chain hch1 fuel (by simp at hlen1; omega)
    simp only [hlast]
    have hlmem : last ∈ pre ++ [last] := by simp
    have hnofit : ∀ x ∈ coalesce_list c (l.map (view s.mem)),
        x.status = Status.FREE → x.size < n := by
      rw [← hv1]
      intro x hx hxf
      obtain ⟨a, ha, rfl⟩ := List.mem_map.mp hx
      by_contra hlt
      exact hnone a ha ⟨hxf, by simp only [view] at hlt; omega⟩
    have hvl : coalesce_list c (l.map (view s.mem)) = pre.map (view m1) ++ [view m1 last] := by
      rw [← hv1]; simp
    by_cases hfree : (m1 last).status = Status.FREE
    · rw [if_pos hfree]
      have hlt : (m1 last).size < n := by
        by_contra hlt
        exact hnone last hlmem ⟨hfree, by omega⟩
      have hw : wsub n (m1 last).size = n - (m1 last).size :=
        wsub_of_le (by omega) (by omega)
      obtain ⟨k1, k2⟩ := grow_chain (n := n) hch1 hnd1
      refine ⟨_, _, _, BrkOutcome.grow (pre.map (view m1)) (view m1 last) hvl hfree hnofit,
        ?_, ?_⟩
      · intro hno
        have hno : ¬ SbrkOk s (n - (m1 last).size) := os_sbrk_none_iff.mp hno
        rw [hw, sbrk_none ((sbrk_ok_mem s m1 _).not.mpr hno)]
      · intro so hso
        have hso : os_sbrk s (some (n - (m1 last).size)) = some so := hso
        obtain ⟨hok, hso⟩ := os_sbrk_some_iff.mp hso
        rw [hw, sbrk_some ((sbrk_ok_mem s m1 _).mpr hok)]
        subst hso
        refine ⟨_, pre ++ [last], rfl, k1, k2, ?_,
          fun p0 lst h => absurd (by rw [h]; simp) hnobrk⟩
        intro x hx hxl
        have hxl : x ≠ last := hxl
        rw [set_size_ne _ _ hxl, set_status_ne _ _ hxl]
        exact hfr1' x hx
    · rw [if_neg hfree]
      have hw : wadd n c.META_SIZE = n + c.META_SIZE := wadd_of_lt (by omega)
      have hb0 : 0 < s.heap_start := hinv.os.1
      have hb0le : s.heap_start ≤ s.brk := hinv.os.2.1
      have hfresh : s.brk ∉ pre ++ [last] := by
        intro h
        have := hb1 _ h
        omega
      obtain ⟨k1, k2⟩ := @append_chain m1 s.brk_blocks last n s.brk pre hch1 hnd1 (by omega) hfresh
      refine ⟨_, _, _, BrkOutcome.append (pre.map (view m1)) (view m1 last) hvl hfree hnofit,
        ?_, ?_⟩
      · intro hno
        have hno : ¬ SbrkOk s (n + c.META_SIZE) := os_sbrk_none_iff.mp hno
        rw [hw, sbrk_none ((sbrk_ok_mem s m1 _).not.mpr hno)]
      · intro so hso
        obtain ⟨hok, hso⟩ := os_sbrk_some_iff.mp hso
        rw [hw, sbrk_some ((sbrk_ok_mem s m1 _).mpr hok)]
        subst hso
        refine ⟨_, pre ++ [last] ++ [s.brk], rfl, k1, by rw [k2, hv1], ?_,
          fun p0 lst h => by
            have h1 : pre ++ [last] = p0 ++ [lst] :=
              List.append_cancel_right (show _ ++ [s.brk] = _ ++ [s.brk] by simpa using h)
            have h2 : last = lst := by simpa using (List.append_inj' h1 rfl).2
            simp [h2]⟩
        intro x hx hxl
        have hxlast : x ≠ last := by
          intro h
          have := hb1 last hlmem
          omega
        simp only
        rw [set_next_ne _ _ hxlast, set_prev_ne _ _ hxl, set_next_ne _ _ hxl,
          set_status_ne _ _ hxl, set_size_ne _ _ hxl]
        exact hfr1' x hx
  · generalize best_fit m1 n 0 l1 = r at *
    rw [if_pos hnz]
    subst hl1
    have hw : wadd (wadd n c.META_SIZE) (ALIGN 1) = n + c.META_SIZE + 8 := by
      rw [ALIGN_one, wadd_of_lt (a := n) (by omega), wadd_of_lt (by omega)]
    rw [hw]
    obtain ⟨hfs, hfn⟩ := hfit
    have hrmem : r ∈ pre ++ r :: post := by simp
    have hvl : coalesce_list c (l.map (view s.mem)) =
        pre.map (view m1) ++ ⟨r, (m1 r).size, Status.FREE⟩ :: post.map (view m1) := by
      rw [← hv1]; simp [view, hfs]
    have hbestin : BestIn n (pre.map (view m1)) (m1 r).size (post.map (view m1)) := by
      constructor
      · intro x hx h1 h2
        obtain ⟨a, ha, rfl⟩ := List.mem_map.mp hx
        exact hpre a ha ⟨h1, h2⟩
      · intro x hx h1 h2
        obtain ⟨a, ha, rfl⟩ := List.mem_map.mp hx
        exact hpost a ha ⟨h1, h2⟩
    have hrb := hb1 r hrmem
    by_cases hsplit : (m1 r).size ≥ n + c.META_SIZE + 8
    · rw [if_pos hsplit]
      have hnbw : wadd (wadd r c.META_SIZE) n = r + c.META_SIZE + n := by
        rw [wadd_of_lt (a := r) (by omega), wadd_of_lt (by omega)]
      obtain ⟨hmid1, hmid2⟩ := layout_view_mid hlay1
      have hfresh : r + c.META_SIZE + n ∉ pre ++ r :: post := by
        intro h
        rcases List.mem_append.mp h with h | h
        · have := hmid1 _ h; omega
        · rcases List.mem_cons.mp h with h | h
          · omega
          · have := hmid2 _ h; omega
      obtain ⟨k1, k2, k3⟩ := split_chain c hch1 hnd1 hnbw (by omega) hfresh
      have hnd2 : (pre ++ r :: (r + c.META_SIZE + n) :: post).Nodup := by
        have hh := nodup_mid hnd1
        have h1 := List.nodup_append.mp hnd1
        have h2 := List.nodup_cons.mp h1.2.1
        apply List.nodup_append.mpr
        refine ⟨h1.1, ?_, ?_⟩
        · apply List.nodup_cons.mpr
          refine ⟨?_, List.nodup_cons.mpr ⟨?_, h2.2⟩⟩
          · intro h
            rcases List.mem_cons.mp h with h | h
            · omega
            · exact hh.2.1 h
          · intro h
            exact hfresh (List.mem_append_right _ (List.mem_cons_of_mem _ h))
        · intro x hx1 hx2
          rcases List.mem_cons.mp hx2 with h | h
          · exact hh.1 (h ▸ hx1)
          · rcases List.mem_cons.mp h with h | h
            · exact hfresh (List.mem_append_left _ (h ▸ hx1))
            · exact h1.2.2 hx1 (List.mem_cons_of_mem _ h)
      obtain ⟨j1, j2⟩ := mark_alloc_chain k1 hnd2
      have hsz : wsub (wsub (m1 r).size n) c.META_SIZE = (m1 r).size - n - c.META_SIZE := by
        rw [wsub_of_le (a := (m1 r).size) (by omega) (by omega), wsub_of_le (by omega) (by omega)]
      refine ⟨_, _, _, BrkOutcome.split _ _ r (m1 r).size hvl hsplit hbestin, by simp [os_sbrk],
        ?_⟩
      intro so hso
      have hso : s = so := by simpa [os_sbrk] using hso
      subst hso
      refine ⟨_, pre ++ r :: (r + c.META_SIZE + n) :: post, rfl, j1, ?_, ?_, ?_⟩
      · rw [j2]
        have e1 := k2
        simp only [List.map_append, List.map_cons, hsz] at e1
        obtain ⟨e3, e4⟩ := List.append_inj e1 (by simp)
        simp only [List.cons.injEq] at e4
        simp only [List.map_cons]
        rw [e3, e4.2.1, e4.2.2, (split_blocks_spec c (m := m1) hnbw (by omega) rfl).2.1 r,
          if_pos rfl]
      · intro x hx hxr
        rw [set_status_ne _ _ hxr]
        have hxl : x ∉ pre ++ r :: post := by
          intro h
          have := hb1 x h
          omega
        rw [k3 x hxl (by omega)]
        exact hfr1' x hx
      · intro p0 lst h
        exfalso
        have hm : s.brk ∈ pre ++ r :: (r + c.META_SIZE + n) :: post := by rw [h]; simp
        rcases List.mem_append.mp hm with hm | hm
        · exact hnobrk (List.mem_append_left _ hm)
        · rcases List.mem_cons.mp hm with hm | hm
          · exact hnobrk (by rw [hm]; simp)
          · rcases List.mem_cons.mp hm with hm | hm
            · omega
            · exact hnobrk (List.mem_append_right _ (List.mem_cons_of_mem _ hm))
    · rw [if_neg hsplit]
      obtain ⟨j1, j2⟩ := mark_alloc_chain hch1 hnd1
      refine ⟨_, _, _, BrkOutcome.whole _ _ r (m1 r).size hvl hfn (by omega) hbestin,
        by simp [os_sbrk], ?_⟩
      intro so hso
      have hso : s = so := by simpa [os_sbrk] using hso
      subst hso
      refine ⟨_, pre ++ r :: post, rfl, j1, j2, ?_,
        fun p0 lst h => absurd (by rw [h]; simp) hnobrk⟩
      intro x hx hxr
      rw [set_status_ne _ _ hxr]
      exact hfr1' x hx

/-! ### The outcomes of `brk_alloc` keep the heap list well-formed -/

theorem heap_blocks_ok_append {l1 l2 : List Blk} :
    HeapBlocksOk (l1 ++ l2) ↔ HeapBlocksOk l1 ∧ HeapBlocksOk l2 := by
  unfold HeapBlocksOk
  constructor
  · intro h
    exact ⟨fun b hb => h b (List.mem_append_left _ hb),
      fun b hb => h b (List.mem_append_right _ hb)⟩
  · rintro ⟨h1, h2⟩ b hb
    rcases List.mem_append.mp hb with hb | hb
    · exact h1 b hb
    · exact h2 b hb

theorem heap_blocks_ok_cons {b : Blk} {l : List Blk} :
    HeapBlocksOk (b :: l) ↔
      (b.status ≠ Status.MAPPED ∧ b.size % 8 = 0 ∧ 8 ≤ b.size) ∧ HeapBlocksOk l := by
  unfold HeapBlocksOk
  simp

theorem heap_blocks_ok_nil : HeapBlocksOk [] := by
  intro b hb
  simp at hb

/-- Each outcome of `brk_alloc` leaves a laid-out list of well-formed blocks, keeps the
blocks that were ALLOC, and returns a block that is now ALLOC and large enough. -/
theorem brk_outcome_inv {c : Config} {g n lo brk brk1 r : Nat} {v w : List Blk}
    {d : Option Nat} (ho : BrkOutcome c n brk v r w d)
    (hH8 : c.META_SIZE % 8 = 0) (hn8 : n % 8 = 0) (hn : 8 ≤ n)
    (hlay : Layout c g lo brk v) (hok : HeapBlocksOk v)
    (hb1 : d = none → brk1 = brk) (hb2 : ∀ inc, d = some inc → brk1 = brk + inc) :
    Layout c g lo brk1 w ∧ HeapBlocksOk w ∧ w ≠ [] ∧
      (∀ b ∈ v, b.status = Status.ALLOC → b ∈ w) ∧
      (∃ b ∈ w, b.addr = r ∧ b.status = Status.ALLOC ∧ n ≤ b.size) ∧
      ((∃ b ∈ v, b.addr = r ∧ b.status = Status.FREE) ∨ r = brk) := by
  cases ho with
  | whole pre post r b hv hnb hbs hbest =>
    subst hv
    have hbrk := hb1 rfl
    subst hbrk
    obtain ⟨l1, l2⟩ := layout_append.mp hlay
    obtain ⟨o1, o2⟩ := heap_blocks_ok_append.mp hok
    obtain ⟨o2, o3⟩ := heap_blocks_ok_cons.mp o2
    refine ⟨layout_append.mpr ⟨l1, l2⟩, ?_, by simp, ?_,
      ⟨⟨r, b, Status.ALLOC⟩, by simp, rfl, rfl, hnb⟩,
      Or.inl ⟨⟨r, b, Status.FREE⟩, by simp, rfl, rfl⟩⟩
    · exact heap_blocks_ok_append.mpr ⟨o1, heap_blocks_ok_cons.mpr ⟨⟨by simp, o2.2⟩, o3⟩⟩
    · intro x hx hxs
      rcases List.mem_append.mp hx with hx | hx
      · exact List.mem_append_left _ hx
      · rcases List.mem_cons.mp hx with hx | hx
        · subst hx; simp at hxs
        · exact List.mem_append_right _ (List.mem_cons_of_mem _ hx)
  | split pre post r b hv hnb hbest =>
    subst hv
    have hbrk := hb1 rfl
    subst hbrk
    obtain ⟨l1, l2⟩ := layout_append.mp hlay
    obtain ⟨o1, o2⟩ := heap_blocks_ok_append.mp hok
    obtain ⟨o2, o3⟩ := heap_blocks_ok_cons.mp o2
    simp only at l1 l2 o2
    refine ⟨layout_append.mpr ⟨l1, ?_⟩, ?_, by simp, ?_,
      ⟨⟨r, n, Status.ALLOC⟩, by simp, rfl, rfl, le_refl _⟩,
      Or.inl ⟨⟨r, b, Status.FREE⟩, by simp, rfl, rfl⟩⟩
    · refine ⟨by simp, by simp, ?_⟩
      simp only
      have e : r + c.META_SIZE + n + c.META_SIZE + (b - n - c.META_SIZE) =
          r + c.META_SIZE + b := by omega
      rw [e]
      exact l2
    · refine heap_blocks_ok_append.mpr ⟨o1, heap_blocks_ok_cons.mpr ⟨⟨by simp, hn8, hn⟩,
        heap_blocks_ok_cons.mpr ⟨⟨by simp, ?_, ?_⟩, o3⟩⟩⟩
      · simp only; omega
      · simp only; omega
    · intro x hx hxs
      rcases List.mem_append.mp hx with hx | hx
      · exact List.mem_append_left _ hx
      · rcases List.mem_cons.mp hx with hx | hx
        · subst hx; simp at hxs
        · exact List.mem_append_right _
            (List.mem_cons_of_mem _ (List.mem_cons_of_mem _ hx))
  | grow pre last hv hfree hnofit =>
    subst hv
    have hbrk := hb2 _ rfl
    subst hbrk
    obtain ⟨l1, l2⟩ := layout_append.mp hlay
    obtain ⟨o1, o2⟩ := heap_blocks_ok_append.mp hok
    have hlt := hnofit last (by simp) hfree
    refine ⟨layout_append.mpr ⟨l1, ?_⟩, ?_, by simp, ?_,
      ⟨⟨last.addr, n, Status.ALLOC⟩, by simp, rfl, rfl, le_refl _⟩,
      Or.inl ⟨last, by simp, rfl, hfree⟩⟩
    · obtain ⟨e1, e2⟩ := l2
      exact ⟨by simp only; omega, by simp only; omega⟩
    · exact heap_blocks_ok_append.mpr ⟨o1, heap_blocks_ok_cons.mpr ⟨⟨by simp, hn8, hn⟩,
        heap_blocks_ok_nil⟩⟩
    · intro x hx hxs
      rcases List.mem_append.mp hx with hx | hx
      · exact List.mem_append_left _ hx
      · have : x = last := by simpa using hx
        subst this
        rw [hfree] at hxs
        simp at hxs
  | append pre last hv hfree hnofit =>
    subst hv
    have hbrk := hb2 _ rfl
    subst hbrk
    obtain ⟨l1, l2⟩ := layout_append.mp hlay
    refine ⟨?_, ?_, by simp, fun x hx _ => List.mem_append_left _ hx,
      ⟨⟨brk, n, Status.ALLOC⟩, by simp, rfl, rfl, le_refl _⟩, Or.inr rfl⟩
    · rw [List.append_assoc]
      apply layout_append.mpr
      refine ⟨l1, ?_⟩
      obtain ⟨e1, e2⟩ := l2
      exact ⟨e1, e2, by simp only; omega, by simp only; omega⟩
    · exact heap_blocks_ok_append.mpr ⟨hok, heap_blocks_ok_cons.mpr ⟨⟨by simp, hn8, hn⟩,
        heap_blocks_ok_nil⟩⟩

/-! ### Frames: what an operation does not touch stays well-formed -/

theorem osok_congr {s s1 : State} (h : OsOk s) (h1 : s1.heap_start = s.heap_start)
    (h2 : s1.brk = s.brk) (h3 : s1.maps = s.maps) : OsOk s1 := by
  unfold OsOk at *
  rw [h1, h2, h3]
  exact h

theorem osok_sbrk {s : State} {d : Nat} (h : OsOk s) (hok : SbrkOk s d) (hd : d < 2 ^ 63) :
    OsOk { s with brk := wadd s.brk d, calls := s.calls ++ [OsCall.sbrk d] } := by
  obtain ⟨e1, e2⟩ := sbrk_ok_brk hok hd
  unfold SbrkOk at hok
  rw [if_pos hd] at hok
  obtain ⟨h1, h2, h3, h4, h5⟩ := h
  refine ⟨h1, ?_, ?_, ?_, h5⟩
  · simp only [e1]; omega
  · simp only [e1]; exact e2
  · intro r hr
    obtain ⟨a1, a2, a3, _⟩ := h4 r hr
    refine ⟨a1, a2, a3, ?_⟩
    simp only [e1]
    exact hok.2 r hr

theorem osok_mmap {s : State} {len addr : Nat} (h : OsOk s) (hok : MmapOk s len addr) :
    OsOk { s with maps := s.maps ++ [(addr, len)],
                  calls := s.calls ++ [OsCall.mmap len addr] } := by
  obtain ⟨h1, h2, h3, h4, h5⟩ := h
  obtain ⟨k1, k2, k3, k4, k5⟩ := hok
  refine ⟨h1, h2, h3, ?_, ?_⟩
  · intro r hr
    rcases List.mem_append.mp hr with hr | hr
    · exact h4 r hr
    · have : r = (addr, len) := by simpa using hr
      subst this
      exact ⟨k1, k2, k3, k4⟩
  · apply List.pairwise_append.mpr
    refine ⟨h5, List.pairwise_singleton _ _, ?_⟩
    intro r hr x hx
    have : x = (addr, len) := by simpa using hx
    subst this
    exact k5 r hr

theorem osok_munmap {s : State} {addr len : Nat} (h : OsOk s) :
    OsOk (munmap s addr len) := by
  obtain ⟨h1, h2, h3, h4, h5⟩ := h
  refine ⟨h1, h2, h3, ?_, ?_⟩
  · intro r hr
    exact h4 r (List.mem_of_mem_erase hr)
  · exact h5.sublist (List.erase_sublist _ _)

theorem mapinv_frame {c : Config} {s s1 : State} {ml : List Nat} (h : MapInv c s ml)
    (hm : ∀ a ∈ ml, s1.mem a = s.mem a) (h1 : s1.mmap_blocks = s.mmap_blocks)
    (h2 : s1.maps = s.maps) : MapInv c s1 ml := by
  refine ⟨?_, h.mnodup, ?_, ?_, ?_, ?_⟩
  · rw [h1]
    exact seg_congr (fun a ha => by rw [hm a ha]) h.mchain
  · refine (List.Chain'.iff_mem.mp h.mprev).imp ?_
    rintro x y ⟨_, hy, hxy⟩
    rw [hm y hy]
    exact hxy
  · intro a ha; rw [hm a ha]; exact h.mstat a ha
  · intro a ha; rw [hm a ha]; exact h.msize a ha
  · rw [h2, h.mmaps]
    apply List.map_congr_left
    intro a ha
    rw [hm a ha]

theorem heapinv_frame {c : Config} {g : Nat} {s s1 : State} {l : List Nat}
    (h : HeapInv c g s l) (hm : ∀ a ∈ l, s1.mem a = s.mem a)
    (h1 : s1.brk_blocks = s.brk_blocks) (h2 : s1.heap_start = s.heap_start)
    (h3 : s1.brk = s.brk) (h4 : s1.first_sbrk = s.first_sbrk) : HeapInv c g s1 l := by
  have hv : l.map (view s1.mem) = l.map (view s.mem) :=
    map_view_congr fun a ha => by rw [hm a ha]; exact ⟨rfl, rfl⟩
  refine ⟨?_, ?_, ?_, ?_⟩
  · rw [h1]
    exact seg_congr (fun a ha => by rw [hm a ha]) h.hchain
  · rw [hv, h2, h3]; exact h.hlay
  · rw [h4]; exact h.hflag
  · rw [hv]; exact h.hblk

/-- The mapped blocks lie outside the heap. -/
theorem inv_mapped_outside {c : Config} {g : Nat} {s : State} {l ml : List Nat}
    (h : Inv c g s l ml) :
    ∀ a ∈ ml, a ≠ 0 ∧ a + ((s.mem a).size + c.META_SIZE) ≤ WORD ∧
      (a + ((s.mem a).size + c.META_SIZE) ≤ s.heap_start ∨ s.brk ≤ a) := by
  intro a ha
  have hmem : (a, (s.mem a).size + c.META_SIZE) ∈ s.maps := by
    rw [h.mmaps]
    exact List.mem_map_of_mem (fun a => (a, (s.mem a).size + c.META_SIZE)) ha
  obtain ⟨_, k2, k3, k4⟩ := h.os.2.2.2.1 _ hmem
  exact ⟨k2, k3, k4⟩

/-- The heap and the mapped list share no block. -/
theorem inv_disjoint {c : Config} {g : Nat} {s : State} {l ml : List Nat}
    (hc : ConfigOk c) (h : Inv c g s l ml) : ∀ a ∈ l, a ∉ ml := by
  intro a ha hma
  have h1 := inv_bounds h a ha
  have h2 := inv_mapped_outside h a hma
  have := hc.1
  omega

theorem mem_map_view {m : Mem} {l : List Nat} {b : Blk} :
    b ∈ l.map (view m) ↔ b.addr ∈ l ∧ b = view m b.addr := by
  constructor
  · intro h
    obtain ⟨a, ha, rfl⟩ := List.mem_map.mp h
    exact ⟨ha, rfl⟩
  · rintro ⟨h1, h2⟩
    rw [h2]
    exact List.mem_map_of_mem _ h1

theorem os_sbrk_cases (s : State) (d : Option Nat) (hd : ∀ inc, d = some inc → inc < 2 ^ 63)
    (hos : OsOk s) :
    os_sbrk s d = none ∨ ∃ so, os_sbrk s d = some so ∧ OsOk so ∧
      so.heap_start = s.heap_start ∧ so.maps = s.maps ∧ so.mem = s.mem ∧
      so.data = s.data ∧ so.brk_blocks = s.brk_blocks ∧ so.mmap_blocks = s.mmap_blocks ∧
      so.first_sbrk = s.first_sbrk ∧
      (d = none → so.brk = s.brk ∧ so.calls = s.calls) ∧
      (∀ inc, d = some inc →
        so.brk = s.brk + inc ∧ so.calls = s.calls ++ [OsCall.sbrk inc]) := by
  cases d with
  | none =>
    right
    exact ⟨s, rfl, hos, rfl, rfl, rfl, rfl, rfl, rfl, rfl, fun _ => ⟨rfl, rfl⟩,
      fun _ h => by simp at h⟩
  | some inc =>
    by_cases hok : SbrkOk s inc
    · right
      refine ⟨_, os_sbrk_some_iff.mpr ⟨hok, rfl⟩, osok_sbrk hos hok (hd inc rfl), rfl, rfl, rfl,
        rfl, rfl, rfl, rfl, fun h => by simp at h, ?_⟩
      intro i hi
      have : inc = i := by simpa using hi
      subst this
      exact ⟨(sbrk_ok_brk hok (hd inc rfl)).1, rfl⟩
    · left
      exact os_sbrk_none_iff.mpr hok

theorem brk_outcome_small {c : Config} {n brk r : Nat} {v w : List Blk} {d : Option Nat}
    (ho : BrkOutcome c n brk v r w d) (hn : n + c.META_SIZE < MMAP_THRESHOLD) :
    ∀ inc, d = some inc → inc < 2 ^ 63 := by
  have ht : MMAP_THRESHOLD = 131072 := rfl
  cases ho with
  | whole => intro inc h; simp at h
  | split => intro inc h; simp at h
  | grow pre last =>
    intro inc h
    have : n - last.size = inc := by simpa using h
    omega
  | append pre last =>
    intro inc h
    have : n + c.META_SIZE = inc := by simpa using h
    omega

/-- The function `brk_alloc` on an initialised heap keeps the state well-formed, keeps
the blocks in use, and returns a block of the heap list that is ALLOC and large enough. -/
theorem brk_heap_inv {c : Config} {g : Nat} {s s1 : State} {l ml : List Nat}
    (hc : ConfigOk c) (hg : GapOk g) (hinv : Inv c g s l ml) (hinit : s.first_sbrk ≠ 0)
    {n : Nat} (hn8 : n % 8 = 0) (hn : 8 ≤ n) (hnT : n + c.META_SIZE < MMAP_THRESHOLD)
    (mc : Nat) {fuel : Nat} (hf : l.length < fuel) {r : Nat}
    (hrun : brk_alloc c fuel n mc s = some (r, s1)) :
    ∃ l1, Inv c g s1 l1 ml ∧ Keeps s s1 l ml l1 ml ∧ r ∈ l1 ∧
      (s1.mem r).status = Status.ALLOC ∧ n ≤ (s1.mem r).size ∧ s1.data = s.data ∧
      s1.brk_blocks = s.brk_blocks ∧ s1.brk_blocks ≠ 0 ∧
      (r ∈ l → (s.mem r).status = Status.FREE) := by
  have ht : MMAP_THRESHOLD = 131072 := rfl
  have hW := WORD_eq
  obtain ⟨r1, w, d, hout, hnone, hsome⟩ :=
    brk_alloc_effect hc hg hinv hinit (n := n) (by omega) mc hf
  rcases os_sbrk_cases s d (brk_outcome_small hout hnT) hinv.os with hno | ⟨so, hso, hos,
    e1, e2, e3, e4, e5, e6, e7, e8, e9⟩
  · rw [hnone hno] at hrun
    exact absurd hrun (by simp)
  · obtain ⟨m, l1, hr, hch, hv, hfr, _⟩ := hsome so hso
    rw [hr] at hrun
    have hrun := Option.some.inj hrun
    have hr1 : r1 = r := congrArg Prod.fst hrun
    have hs1 : s1 = { so with mem := m } := (congrArg Prod.snd hrun).symm
    subst hr1
    subst hs1
    have hbrk1 : d = none → so.brk = s.brk := fun h => (e8 h).1
    have hbrk2 : ∀ inc, d = some inc → so.brk = s.brk + inc := fun i h => (e9 i h).1
    obtain ⟨k1, k2, k3, k4, ⟨b, hb, hba, hbs, hbn⟩, k5⟩ :=
      brk_outcome_inv hout hc.2.1 hn8 hn
        (coalesce_list_layout hg hinv.os.2.2.1 hinv.hlay)
        (coalesce_list_ok hc.2.1 hinv.hblk) hbrk1 hbrk2
    rw [← hv] at k1 k2 k3 k4 hb
    have hl1 : l1 ≠ [] := by
      intro h; rw [h] at k3; exact k3 rfl
    obtain ⟨hb1, hb2⟩ := mem_map_view.mp hb
    rw [hba] at hb1 hb2
    have hrb := layout_view_bounds k1 r1 hb1
    have hheap : HeapInv c g { so with mem := m } l1 := by
      refine ⟨by simp only [e5]; exact hch, by simp only [e1]; exact k1, ?_, k2⟩
      simp only [e7]
      exact ⟨fun h => absurd h hinit, fun _ => hl1⟩
    have hma : ∀ a ∈ ml, m a = s.mem a := by
      intro a ha
      obtain ⟨a1, a2, a3⟩ := inv_mapped_outside hinv a ha
      apply hfr a (by have := hc.1; omega)
      intro har
      subst har
      have hmem : (a, (s.mem a).size + c.META_SIZE) ∈ so.maps := by
        rw [e2, hinv.mmaps]
        exact List.mem_map_of_mem (fun a => (a, (s.mem a).size + c.META_SIZE)) ha
      obtain ⟨_, _, _, q4⟩ := hos.2.2.2.1 _ hmem
      have := hc.1
      simp only at q4
      omega
    have hmap : MapInv c { so with mem := m } ml :=
      @mapinv_frame c s { so with mem := m } ml hinv.toMapInv hma e6 e2
    refine ⟨l1, ⟨hheap, hmap, osok_congr hos rfl rfl rfl⟩,
      ⟨?_, fun a ha => ⟨ha, by simp only [hma a ha]⟩⟩, hb1, ?_, ?_, e4, e5, ?_, ?_⟩
    · intro a ha hst
      have h1 : view s.mem a ∈ coalesce_list c (l.map (view s.mem)) :=
        coalesce_list_keeps c _ _ (List.mem_map_of_mem _ ha) (by simp [view, hst])
      have h2 := k4 _ h1 hst
      obtain ⟨h3, h4⟩ := mem_map_view.mp h2
      have h5 : (view s.mem a).size = (view m a).size := congrArg Blk.size h4
      have h6 : (view s.mem a).status = (view m a).status := congrArg Blk.status h4
      exact ⟨h3, by rw [← hst]; exact h6.symm, h5.symm⟩
    · have : (view m r1).status = Status.ALLOC := by rw [← hb2]; exact hbs
      exact this
    · have : n ≤ (view m r1).size := by rw [← hb2]; exact hbn
      exact this
    · have := seg_ne_zero hinv.hchain
      have hl : l ≠ [] := hinv.hflag.2 hinit
      cases l with
      | nil => exact absurd rfl hl
      | cons a t =>
        have h1 : s.brk_blocks = a := hinv.hchain.1
        rw [e5, h1]
        exact this a (List.mem_cons_self _ _)
    · intro hrl
      rcases k5 with ⟨b, hb, hba, hbs⟩ | hrb
      · obtain ⟨b1, hb1, q1, q2⟩ := coalesce_list_origin c _ b hb
        obtain ⟨q3, q4⟩ := mem_map_view.mp hb1
        have : b1.status = (s.mem b1.addr).status := by rw [q4]; rfl
        rw [← hba, ← q1, ← this, q2, hbs]
      · have := inv_bounds hinv _ hrl
        have := hc.1
        omega

/-! ## The first request to the heap, and requests served by mapping -/

theorem heap_preallocation_eq (c : Config) (mc : Nat) (s : State) :
    heap_preallocation c mc s =
      if SbrkOk s MMAP_THRESHOLD then
        some (s.brk,
          { s with
            first_sbrk := 1
            brk := wadd s.brk MMAP_THRESHOLD
            calls := s.calls ++ [OsCall.sbrk MMAP_THRESHOLD]
            mem := set_prev (set_next (set_size (set_status s.mem s.brk Status.ALLOC) s.brk
              (wsub (if mc = 1 then MMAP_THRESHOLD else c.PAGE_SIZE) c.META_SIZE)) s.brk 0)
              s.brk 0 })
      else none := by
  unfold heap_preallocation
  dsimp only
  by_cases h : SbrkOk s MMAP_THRESHOLD
  · rw [if_pos h, sbrk_some ((sbrk_ok_flag s 1 _).mpr h)]
  · rw [if_neg h, sbrk_none ((sbrk_ok_flag s 1 _).not.mpr h)]

theorem mmap_alloc_eq (c : Config) (addr n : Nat) (s : State) :
    mmap_alloc c addr n s =
      if MmapOk s (wadd n c.META_SIZE) addr then
        some (addr,
          { s with
            maps := s.maps ++ [(addr, wadd n c.META_SIZE)]
            calls := s.calls ++ [OsCall.mmap (wadd n c.META_SIZE) addr]
            mem := set_prev (set_next (set_size (set_status s.mem addr Status.MAPPED) addr n)
              addr 0) addr 0 })
      else none := by
  unfold mmap_alloc mmap
  by_cases h : MmapOk s (wadd n c.META_SIZE) addr
  · rw [if_pos h, if_pos h]
  · rw [if_neg h, if_neg h]

/-- The first request to the heap keeps the state well-formed. -/
theorem prealloc_inv {c : Config} {g : Nat} {s s1 : State} {l ml : List Nat}
    (hc : ConfigOk c) (hg : GapOk g) (hinv : Inv c g s l ml) (hinit : s.first_sbrk = 0)
    {mc r : Nat} (hgap : g = 0 → mc = 1 ∨ c.PAGE_SIZE = MMAP_THRESHOLD)
    (hrun : heap_preallocation c mc s = some (r, s1)) :
    Inv c g { s1 with brk_blocks := r } [r] ml ∧ l = [] ∧ s1.brk_blocks = 0 ∧ r = s.brk ∧
      (s1.mem r).status = Status.ALLOC ∧
      (s1.mem r).size = (if mc = 1 then MMAP_THRESHOLD else c.PAGE_SIZE) - c.META_SIZE ∧
      s1.data = s.data ∧ (∀ a ∈ ml, s1.mem a = s.mem a) := by
  have ht : MMAP_THRESHOLD = 131072 := rfl
  have hW := WORD_eq
  obtain ⟨hH, hH8, hP8, hPH, hPT⟩ := hc
  have hl : l = [] := hinv.hflag.1 hinit
  subst hl
  have hb0 : s.brk_blocks = 0 := hinv.hchain
  rw [heap_preallocation_eq] at hrun
  by_cases hok : SbrkOk s MMAP_THRESHOLD
  · rw [if_pos hok] at hrun
    have hrun := Option.some.inj hrun
    have hr : s.brk = r := congrArg Prod.fst hrun
    have hs1 := (congrArg Prod.snd hrun).symm
    subst hr
    subst hs1
    obtain ⟨e1, e2⟩ := sbrk_ok_brk hok (by rw [ht]; norm_num)
    have hos := osok_sbrk hinv.os hok (by rw [ht]; norm_num)
    obtain ⟨q1, q2, q3, q4, q5⟩ := hinv.os
    have hmax : c.META_SIZE + 8 <
        (if mc = 1 then MMAP_THRESHOLD else c.PAGE_SIZE) ∧
        (if mc = 1 then MMAP_THRESHOLD else c.PAGE_SIZE) ≤ MMAP_THRESHOLD ∧
        (if mc = 1 then MMAP_THRESHOLD else c.PAGE_SIZE) % 8 = 0 := by
      split <;> omega
    have hsz : wsub (if mc = 1 then MMAP_THRESHOLD else c.PAGE_SIZE) c.META_SIZE =
        (if mc = 1 then MMAP_THRESHOLD else c.PAGE_SIZE) - c.META_SIZE :=
      wsub_of_le (by omega) (by omega)
    have hma : ∀ a ∈ ml, a ≠ s.brk := by
      intro a ha hab
      have hmem : (a, (s.mem a).size + c.META_SIZE) ∈ s.maps := by
        rw [hinv.mmaps]
        exact List.mem_map_of_mem (fun a => (a, (s.mem a).size + c.META_SIZE)) ha
      obtain ⟨_, _, _, k4⟩ := hos.2.2.2.1 _ hmem
      simp only [e1] at k4
      omega
    have hlay0 := hinv.hlay
    refine ⟨⟨⟨?_, ?_, ?_, ?_⟩, ?_, osok_congr hos rfl rfl rfl⟩, rfl, hb0, rfl, by simp,
      by simp [hsz], rfl, ?_⟩
    · exact ⟨rfl, by omega, by simp; rfl⟩
    · simp only [List.map_cons, List.map_nil, view, Layout, e1]
      simp only [set_prev_size, set_next_size, set_size_size, if_true, hsz]
      obtain ⟨z1, z2⟩ := hlay0
      refine ⟨z1, z2, by omega, ?_⟩
      rcases hg with hg | hg
      · rcases hgap hg with h | h
        · simp only [h, if_true]; omega
        · split <;> omega
      · omega
    · simp
    · intro b hb
      have : b = view (set_prev (set_next (set_size (set_status s.mem s.brk Status.ALLOC) s.brk
          (wsub (if mc = 1 then MMAP_THRESHOLD else c.PAGE_SIZE) c.META_SIZE)) s.brk 0)
          s.brk 0) s.brk := by simpa using hb
      rw [this]
      simp only [view, set_prev_size, set_next_size, set_size_size, if_true, hsz,
        set_prev_status, set_next_status, set_size_status, set_status_status]
      refine ⟨by simp, ?_, ?_⟩ <;> omega
    · refine mapinv_frame hinv.toMapInv ?_ rfl rfl
      intro a ha
      have := hma a ha
      simp only
      rw [set_prev_ne _ _ this, set_next_ne _ _ this, set_size_ne _ _ this,
        set_status_ne _ _ this]
    · intro a ha
      have := hma a ha
      simp only
      rw [set_prev_ne _ _ this, set_next_ne _ _ this, set_size_ne _ _ this,
        set_status_ne _ _ this]
  · rw [if_neg hok] at hrun
    exact absurd hrun (by simp)

/-- A request served by mapping keeps the state well-formed: the new block is appended
to the mapped list and nothing else changes. -/
theorem route_mmap_inv {c : Config} {g : Nat} {s s1 : State} {l ml : List Nat}
    (hc : ConfigOk c) (hinv : Inv c g s l ml)
    {n limit mc addr fuel r : Nat} (hn8 : n % 8 = 0) (hn : 8 ≤ n)
    (hnW : n + c.META_SIZE < WORD) (hge : limit ≤ n + c.META_SIZE)
    (hf2 : ml.length < fuel)
    (hrun : route c fuel addr n limit mc s = some (r, s1)) :
    Inv c g s1 l (ml ++ [addr]) ∧ r = addr ∧ Keeps s s1 l ml l (ml ++ [addr]) ∧
      s1.data = s.data ∧ (s1.mem r).size = n ∧ (s1.mem r).status = Status.MAPPED ∧
      addr ∉ ml ∧ addr ∉ l ∧ (∀ a ∈ l, s1.mem a = s.mem a) ∧
      s1.calls = s.calls ++ [OsCall.mmap (n + c.META_SIZE) addr] ∧
      s1.maps = s.maps ++ [(addr, n + c.META_SIZE)] ∧ s1.brk = s.brk ∧
      s1.brk_blocks = s.brk_blocks ∧ s1.first_sbrk = s.first_sbrk := by
  have hw : wadd n c.META_SIZE = n + c.META_SIZE := wadd_of_lt hnW
  obtain ⟨hH, hH8, hP8, hPH, hPT⟩ := hc
  unfold route at hrun
  rw [if_pos (by rw [hw]; exact hge), mmap_alloc_eq, hw] at hrun
  by_cases hok : MmapOk s (n + c.META_SIZE) addr
  · rw [if_pos hok] at hrun
    have hos := osok_mmap hinv.os hok
    obtain ⟨k1, k2, k3, k4, k5⟩ := hok
    have haml : addr ∉ ml := by
      intro ha
      have hmem : (addr, (s.mem addr).size + c.META_SIZE) ∈ s.maps := by
        rw [hinv.mmaps]
        exact List.mem_map_of_mem (fun a => (a, (s.mem a).size + c.META_SIZE)) ha
      have := k5 _ hmem
      simp only at this
      omega
    have hal : addr ∉ l := by
      intro ha
      have := inv_bounds hinv addr ha
      omega
    have hlml : ∀ a ∈ l, a ∉ ml := inv_disjoint ⟨hH, hH8, hP8, hPH, hPT⟩ hinv
    by_cases hmb : s.mmap_blocks = 0
    · have hml : ml = [] := by
        have := hinv.mchain
        rw [hmb] at this
        exact chain_zero this
      subst hml
      simp only [hmb, if_true] at hrun
      obtain ⟨hr, hs1⟩ := Prod.mk.inj (Option.some.inj hrun)
      subst hr
      subst hs1
      have hfrl : ∀ a ∈ l, (set_prev (set_next (set_size (set_status s.mem addr Status.MAPPED)
          addr n) addr 0) addr 0) a = s.mem a := by
        intro a ha
        have : a ≠ addr := fun h => hal (h ▸ ha)
        rw [set_prev_ne _ _ this, set_next_ne _ _ this, set_size_ne _ _ this,
          set_status_ne _ _ this]
      refine ⟨⟨heapinv_frame hinv.toHeapInv hfrl rfl rfl rfl rfl, ⟨?_, by simp, by simp, ?_, ?_,
        ?_⟩, osok_congr hos rfl rfl rfl⟩, rfl, ⟨fun a ha hst => ⟨ha, ?_, ?_⟩, by simp⟩, rfl,
        by simp, by simp, by simp, hal, hfrl, rfl, rfl, rfl, rfl, rfl⟩
      · exact ⟨rfl, k2, by simp; rfl⟩
      · intro a ha
        have : a = addr := by simpa using ha
        subst this
        simp
      · intro a ha
        have : a = addr := by simpa using ha
        subst this
        simp only [set_prev_size, set_next_size, set_size_size, if_true]
        exact ⟨hn8, hn⟩
      · simp [hinv.mmaps]
      · exact (congrArg block_meta.status (hfrl a ha)).trans hst
      · exact congrArg block_meta.size (hfrl a ha)
    · have hmlne : ml ≠ [] := by
        intro h
        have := hinv.mchain
        rw [h] at this
        exact hmb this
      obtain ⟨pre, last, hml⟩ : ∃ pre last, ml = pre ++ [last] :=
        ⟨ml.dropLast, ml.getLast hmlne, (List.dropLast_append_getLast hmlne).symm⟩
      subst hml
      have hch4 : Chain (set_prev (set_next (set_size (set_status s.mem addr Status.MAPPED)
          addr n) addr 0) addr 0) s.mmap_blocks (pre ++ [last]) := by
        apply seg_congr _ hinv.mchain
        intro a ha
        have : a ≠ addr := fun h => haml (h ▸ ha)
        simp [this]
      have hlast := find_last_block_chain hch4 fuel (by simp at hf2; omega)
      simp only [hmb, if_false, hlast] at hrun
      obtain ⟨hr, hs1⟩ := Prod.mk.inj (Option.some.inj hrun)
      subst hr
      subst hs1
      have hlastml : last ∈ pre ++ [last] := by simp
      have hne : addr ≠ last := fun h => haml (h ▸ hlastml)
      have hlastl : last ∉ l := fun h => hlml last h hlastml
      have hfrl : ∀ a ∈ l, (set_next (set_prev (set_prev (set_next (set_size
          (set_status s.mem addr Status.MAPPED) addr n) addr 0) addr 0) addr last) last addr) a
          = s.mem a := by
        intro a ha
        have h1 : a ≠ addr := fun h => hal (h ▸ ha)
        have h2 : a ≠ last := fun h => hlastl (h ▸ ha)
        rw [set_next_ne _ _ h2, set_prev_ne _ _ h1, set_prev_ne _ _ h1, set_next_ne _ _ h1,
          set_size_ne _ _ h1, set_status_ne _ _ h1]
      have hlp : last ∉ pre := (@nodup_mid pre [] last hinv.mnodup).1
      have hsz : ∀ a ∈ pre ++ [last], ((set_next (set_prev (set_prev (set_next (set_size
          (set_status s.mem addr Status.MAPPED) addr n) addr 0) addr 0) addr last) last addr)
          a).size = (s.mem a).size := by
        intro a ha
        have h1 : a ≠ addr := fun h => haml (h ▸ ha)
        simp [h1]
      refine ⟨⟨heapinv_frame hinv.toHeapInv hfrl rfl rfl rfl rfl, ⟨?_, ?_, ?_, ?_, ?_, ?_⟩,
        osok_congr hos rfl rfl rfl⟩, rfl, ⟨fun a ha hst => ⟨ha, ?_, ?_⟩, fun a ha =>
          ⟨List.mem_append_left _ ha, hsz a ha⟩⟩, rfl, by simp [hne], by simp [hne], haml, hal,
        hfrl, rfl, rfl, rfl, rfl, rfl⟩
      · apply chain_snoc hinv.mchain k2 haml hlp
        intro x
        by_cases h1 : x = last
        · simp [h1]
        · by_cases h2 : x = addr
          · simp [h2, hne]
          · simp [h1, h2]
      · exact List.nodup_append.mpr ⟨hinv.mnodup, by simp, by
          intro x hx1 hx2
          have : x = addr := by simpa using hx2
          exact haml (this ▸ hx1)⟩
      · rw [List.append_assoc]
        apply List.chain'_append.mpr
        refine ⟨?_, ?_, ?_⟩
        · refine (List.Chain'.iff_mem.mp hinv.mprev.left_of_append).imp ?_
          rintro x y ⟨_, hy, hxy⟩
          have h1 : y ≠ addr := fun h => haml (List.mem_append_left _ (h ▸ hy))
          simp only [set_next_prev, set_prev_prev, if_neg h1, set_size_prev, set_status_prev]
          exact hxy
        · apply List.chain'_pair.mpr
          simp
        · intro x hx y hy
          have hy : last = y := by simpa using hy
          subst hy
          have hlne : last ≠ addr := fun h => hne h.symm
          simp only [set_next_prev, set_prev_prev, if_neg hlne, set_size_prev, set_status_prev]
          have := hinv.mprev
          rw [List.chain'_append] at this
          exact this.2.2 x hx last (by simp)
      · intro a ha
        rcases List.mem_append.mp ha with ha | ha
        · have h1 : a ≠ addr := fun h => haml (h ▸ ha)
          simp only [set_next_status, set_prev_status, set_size_status, set_status_status,
            if_neg h1]
          exact hinv.mstat a ha
        · have : a = addr := by simpa using ha
          subst this
          simp
      · intro a ha
        rcases List.mem_append.mp ha with ha | ha
        · rw [hsz a ha]
          exact hinv.msize a ha
        · have : a = addr := by simpa using ha
          subst this
          simp only [set_next_size, set_prev_size, set_size_size, if_true]
          exact ⟨hn8, hn⟩
      · show s.maps ++ [(addr, n + c.META_SIZE)] = _
        rw [List.map_append, hinv.mmaps]
        congr 1
        · apply List.map_congr_left
          intro a ha
          rw [hsz a ha]
        · simp
      · exact (congrArg block_meta.status (hfrl a ha)).trans hst
      · exact congrArg block_meta.size (hfrl a ha)
  · rw [if_neg hok] at hrun
    exact absurd hrun (by simp)

/-- The tail shared by `os_malloc` and `os_calloc` keeps the state well-formed, keeps the
blocks in use, and returns a block that was not in use, now is, and is large enough. -/
theorem route_inv {c : Config} {g : Nat} {s s1 : State} {l ml : List Nat}
    (hc : ConfigOk c) (hg : GapOk g) (hinv : Inv c g s l ml)
    {n limit mc addr fuel r : Nat} (hn8 : n % 8 = 0) (hn : 8 ≤ n)
    (hnW : n + c.META_SIZE < WORD)
    (hlim : limit = if mc = 1 then MMAP_THRESHOLD else c.PAGE_SIZE)
    (hgap : g = 0 → s.first_sbrk = 0 → n + c.META_SIZE < limit →
      mc = 1 ∨ c.PAGE_SIZE = MMAP_THRESHOLD)
    (hf1 : l.length < fuel) (hf2 : ml.length < fuel)
    (hrun : route c fuel addr n limit mc s = some (r, s1)) :
    ∃ l1 ml1, Inv c g s1 l1 ml1 ∧ Keeps s s1 l ml l1 ml1 ∧ s1.data = s.data ∧
      ((r ∈ l1 ∧ (s1.mem r).status = Status.ALLOC) ∨
        (r ∈ ml1 ∧ (s1.mem r).status = Status.MAPPED)) ∧
      n ≤ (s1.mem r).size ∧ r ∉ ml ∧ (r ∈ l → (s.mem r).status = Status.FREE) := by
  have ht : MMAP_THRESHOLD = 131072 := rfl
  have hlimT : limit ≤ MMAP_THRESHOLD := by
    rw [hlim]; split
    · exact le_refl _
    · exact hc.2.2.2.2
  by_cases hge : limit ≤ n + c.META_SIZE
  · obtain ⟨k1, k2, k3, k4, k5, k6, k7, k8, _⟩ :=
      route_mmap_inv hc hinv hn8 hn hnW hge hf2 hrun
    refine ⟨l, ml ++ [addr], k1, k3, k4, Or.inr ⟨by rw [k2]; simp, k6⟩, by rw [k5],
      by rw [k2]; exact k7, fun h => absurd (k2 ▸ h) k8⟩
  · have hlt : n + c.META_SIZE < limit := by omega
    have hw : wadd n c.META_SIZE = n + c.META_SIZE := wadd_of_lt hnW
    unfold route at hrun
    rw [if_neg (by rw [hw]; omega)] at hrun
    by_cases hinit : s.first_sbrk = 0
    · have hb : brk_alloc c fuel n mc s = heap_preallocation c mc s := by
        unfold brk_alloc; rw [if_pos hinit]
      rw [hb] at hrun
      cases hpre : heap_preallocation c mc s with
      | none => rw [hpre] at hrun; simp at hrun
      | some res =>
        obtain ⟨r0, s0⟩ := res
        obtain ⟨q1, q2, q3, q4, q5, q6, q7, q8⟩ :=
          prealloc_inv hc hg hinv hinit (fun h => hgap h hinit hlt) hpre
        rw [hpre] at hrun
        simp only [q3, if_true] at hrun
        obtain ⟨hr, hs1⟩ := Prod.mk.inj (Option.some.inj hrun)
        subst hr
        subst hs1
        subst q2
        refine ⟨[r0], ml, q1, ⟨by simp, fun a ha => ⟨ha, congrArg block_meta.size (q8 a ha)⟩⟩,
          q7, Or.inl ⟨by simp, q5⟩, ?_, ?_, by simp⟩
        · show n ≤ (s0.mem r0).size
          rw [q6, ← hlim]
          omega
        · exact fun h => inv_disjoint hc q1 r0 (by simp) h
    · cases hb : brk_alloc c fuel n mc s with
      | none => rw [hb] at hrun; simp at hrun
      | some res =>
        obtain ⟨r0, s0⟩ := res
        obtain ⟨l1, q1, q2, q3, q4, q5, q6, q7, q8, q9⟩ :=
          brk_heap_inv hc hg hinv hinit hn8 hn (by omega) mc hf1 hb
        rw [hb] at hrun
        simp only [q8, if_false] at hrun
        obtain ⟨hr, hs1⟩ := Prod.mk.inj (Option.some.inj hrun)
        subst hr
        subst hs1
        exact ⟨l1, ml, q1, q2, q6, Or.inl ⟨q3, q4⟩, q5,
          fun h => inv_disjoint hc q1 r0 q3 h, q9⟩

/-! ## The public operations keep the state well-formed -/

theorem walk_some {m : Mem} :
    ∀ (fuel p : Nat) (l : List Nat), walk fuel m p = some l → Chain m p l ∧ l.length < fuel := by
  intro fuel
  induction fuel with
  | zero => intro p l h; simp [walk] at h
  | succ k ih =>
    intro p l h
    simp only [walk] at h
    by_cases hp : p = 0
    · rw [if_pos hp] at h
      have : l = [] := by simpa [eq_comm] using h
      subst this
      exact ⟨hp, by simp⟩
    · rw [if_neg hp] at h
      cases hw : walk k m (m p).next with
      | none => rw [hw] at h; simp at h
      | some t =>
        rw [hw] at h
        have : l = p :: t := by simpa [eq_comm] using h
        subst this
        obtain ⟨h1, h2⟩ := ih _ _ hw
        exact ⟨⟨rfl, hp, h1⟩, by simp; omega⟩

theorem adequate_lengths {c : Config} {g : Nat} {s : State} {l ml : List Nat} {fuel : Nat}
    (hinv : Inv c g s l ml) (h : Adequate fuel s) : l.length < fuel ∧ ml.length < fuel := by
  obtain ⟨h1, h2⟩ := h
  obtain ⟨l1, e1⟩ := Option.isSome_iff_exists.mp h1
  obtain ⟨l2, e2⟩ := Option.isSome_iff_exists.mp h2
  obtain ⟨c1, n1⟩ := walk_some _ _ _ e1
  obtain ⟨c2, n2⟩ := walk_some _ _ _ e2
  rw [chain_unique hinv.hchain c1, chain_unique hinv.mchain c2]
  exact ⟨n1, n2⟩

theorem adequate_of_lengths {c : Config} {g : Nat} {s : State} {l ml : List Nat} {fuel : Nat}
    (hinv : Inv c g s l ml) (h1 : l.length < fuel) (h2 : ml.length < fuel) :
    Adequate fuel s := by
  unfold Adequate
  rw [walk_chain hinv.hchain fuel h1, walk_chain hinv.mchain fuel h2]
  exact ⟨rfl, rfl⟩

/-- A block in use lies, header and payload, inside the address space. -/
theorem inv_block_lt {c : Config} {g : Nat} {s : State} {l ml : List Nat}
    (hinv : Inv c g s l ml) {a : Nat} (ha : a ∈ l ∨ a ∈ ml) :
    a ≠ 0 ∧ a + c.META_SIZE + (s.mem a).size ≤ WORD := by
  rcases ha with ha | ha
  · have h1 := inv_bounds hinv a ha
    have h2 := hinv.os
    unfold OsOk at h2
    omega
  · have h1 := inv_mapped_outside hinv a ha
    omega

/-- The function `os_malloc` keeps the state well-formed and keeps the blocks in use; a
request of size `0` changes nothing, any other returns the payload of a block that was
not in use, now is, and holds at least the aligned size. -/
theorem os_malloc_inv {c : Config} {g : Nat} {s s1 : State} {l ml : List Nat}
    (hc : ConfigOk c) (hg : GapOk g) (hinv : Inv c g s l ml)
    {fuel addr size p : Nat} (hsz : SizeOk c size) (hf : Adequate fuel s)
    (hrun : os_malloc c fuel addr size s = some (p, s1)) :
    ∃ l1 ml1, Inv c g s1 l1 ml1 ∧ Keeps s s1 l ml l1 ml1 ∧ s1.data = s.data ∧
      (size = 0 → p = 0 ∧ s1 = s) ∧
      (size ≠ 0 → ∃ r, p = r + c.META_SIZE ∧
        ((r ∈ l1 ∧ (s1.mem r).status = Status.ALLOC) ∨
          (r ∈ ml1 ∧ (s1.mem r).status = Status.MAPPED)) ∧
        ALIGN size ≤ (s1.mem r).size ∧ r ∉ ml ∧ (r ∈ l → (s.mem r).status = Status.FREE)) := by
  obtain ⟨hf1, hf2⟩ := adequate_lengths hinv hf
  unfold os_malloc at hrun
  by_cases h0 : size = 0
  · rw [if_pos h0] at hrun
    obtain ⟨hr, hs1⟩ := Prod.mk.inj (Option.some.inj hrun)
    subst hr
    subst hs1
    exact ⟨l, ml, hinv, ⟨fun a ha hst => ⟨ha, hst, rfl⟩, fun a ha => ⟨ha, rfl⟩⟩, rfl,
      fun _ => ⟨rfl, rfl⟩, fun h => absurd h0 h⟩
  · rw [if_neg h0] at hrun
    cases hroute : route c fuel addr (ALIGN size) MMAP_THRESHOLD 1 s with
    | none => rw [hroute] at hrun; simp at hrun
    | some res =>
      obtain ⟨r, s0⟩ := res
      rw [hroute] at hrun
      obtain ⟨hr, hs1⟩ := Prod.mk.inj (Option.some.inj hrun)
      subst hs1
      obtain ⟨l1, ml1, q1, q2, q3, q4, q5, q6, q7⟩ :=
        route_inv hc hg hinv (ALIGN_mod size) (ALIGN_pos hsz.1 h0) hsz.2 (by simp)
          (fun _ _ _ => Or.inl rfl) hf1 hf2 hroute
      refine ⟨l1, ml1, q1, q2, q3, fun h => absurd h h0, fun _ => ⟨r, ?_, q4, q5, q6, q7⟩⟩
      rw [← hr]
      apply wadd_of_lt
      have := inv_block_lt q1 (a := r) (by
        rcases q4 with h | h
        · exact Or.inl h.1
        · exact Or.inr h.1)
      have := ALIGN_pos hsz.1 h0
      omega

/-- The function `os_calloc` keeps the state well-formed and keeps the blocks in use. -/
theorem os_calloc_inv {c : Config} {g : Nat} {s s1 : State} {l ml : List Nat}
    (hc : ConfigOk c) (hg : GapOk g) (hinv : Inv c g s l ml)
    {fuel addr nmemb size p : Nat} (hprod : size * nmemb < WORD)
    (hsz : SizeOk c (size * nmemb)) (hf : Adequate fuel s)
    (hgap : g = 0 → s.first_sbrk = 0 → ALIGN (size * nmemb) + c.META_SIZE < c.PAGE_SIZE →
      c.PAGE_SIZE = MMAP_THRESHOLD)
    (hrun : os_calloc c fuel addr nmemb size s = some (p, s1)) :
    ∃ l1 ml1, Inv c g s1 l1 ml1 ∧ Keeps s s1 l ml l1 ml1 ∧
      (nmemb = 0 ∨ size = 0 → p = 0 ∧ s1 = s) ∧
      (nmemb ≠ 0 → size ≠ 0 → ∃ r, p = r + c.META_SIZE ∧
        ((r ∈ l1 ∧ (s1.mem r).status = Status.ALLOC) ∨
          (r ∈ ml1 ∧ (s1.mem r).status = Status.MAPPED)) ∧
        ALIGN (size * nmemb) ≤ (s1.mem r).size ∧ r ∉ ml ∧
        (r ∈ l → (s.mem r).status = Status.FREE) ∧
        s1.data = memset s.data p 0 (size * nmemb)) := by
  obtain ⟨hf1, hf2⟩ := adequate_lengths hinv hf
  unfold os_calloc at hrun
  by_cases h0 : nmemb = 0 ∨ size = 0
  · rw [if_pos h0] at hrun
    obtain ⟨hr, hs1⟩ := Prod.mk.inj (Option.some.inj hrun)
    subst hr
    subst hs1
    exact ⟨l, ml, hinv, ⟨fun a ha hst => ⟨ha, hst, rfl⟩, fun a ha => ⟨ha, rfl⟩⟩,
      fun _ => ⟨rfl, rfl⟩, fun h1 h2 => absurd h0 (by simp [h1, h2])⟩
  · rw [if_neg h0, Nat.mod_eq_of_lt hprod] at hrun
    have hp0 : size * nmemb ≠ 0 := by
      intro h
      rcases Nat.mul_eq_zero.mp h with h | h
      · exact h0 (Or.inr h)
      · exact h0 (Or.inl h)
    cases hroute : route c fuel addr (ALIGN (size * nmemb)) c.PAGE_SIZE 0 s with
    | none => rw [hroute] at hrun; simp at hrun
    | some res =>
      obtain ⟨r, s0⟩ := res
      rw [hroute] at hrun
      obtain ⟨hr, hs1⟩ := Prod.mk.inj (Option.some.inj hrun)
      subst hs1
      obtain ⟨l1, ml1, q1, q2, q3, q4, q5, q6, q7⟩ :=
        route_inv hc hg hinv (ALIGN_mod _) (ALIGN_pos hsz.1 hp0) hsz.2 (by simp)
          (fun h1 h2 h3 => Or.inr (hgap h1 h2 h3)) hf1 hf2 hroute
      have hinv1 : Inv c g
          { s0 with data := (memset s0.data (wadd r c.META_SIZE) 0 (size * nmemb)) } l1 ml1 :=
        ⟨heapinv_frame q1.toHeapInv (fun _ _ => rfl) rfl rfl rfl rfl,
          mapinv_frame q1.toMapInv (fun _ _ => rfl) rfl rfl, osok_congr q1.os rfl rfl rfl⟩
      refine ⟨l1, ml1, hinv1, ⟨q2.heap, q2.mapped⟩, fun h => absurd h h0,
        fun _ _ => ⟨r, ?_, q4, q5, q6, q7, ?_⟩⟩
      · rw [← hr]
        apply wadd_of_lt
        have := inv_block_lt q1 (a := r) (by
          rcases q4 with h | h
          · exact Or.inl h.1
          · exact Or.inr h.1)
        have := ALIGN_pos hsz.1 hp0
        omega
      · simp only [q3, hr]

theorem layout_view_congr {c : Config} {g : Nat} {m m1 : Mem} {l : List Nat} {lo hi : Nat}
    (h : ∀ a ∈ l, (m1 a).size = (m a).size) (hl : Layout c g lo hi (l.map (view m))) :
    Layout c g lo hi (l.map (view m1)) := by
  induction l generalizing lo with
  | nil => exact hl
  | cons a l ih =>
    obtain ⟨h1, h2, h3⟩ := hl
    refine ⟨h1, h2, ?_⟩
    simp only [view] at h3 ⊢
    rw [h a (List.mem_cons_self _ _)]
    exact ih (fun b hb => h b (List.mem_cons_of_mem _ hb)) h3

/-- The payload pointer of a block in use leads back to its header. -/
theorem header_of_payload {c : Config} {g : Nat} {s : State} {l ml : List Nat}
    (hc : ConfigOk c) (hinv : Inv c g s l ml) {a : Nat} (ha : a ∈ l ∨ a ∈ ml) :
    a + c.META_SIZE ≠ 0 ∧ wsub (a + c.META_SIZE) c.META_SIZE = a ∧
      wadd a c.META_SIZE = a + c.META_SIZE := by
  have h1 := inv_block_lt hinv ha
  have h2 : 8 ≤ (s.mem a).size := by
    rcases ha with ha | ha
    · exact (hinv.hblk _ (List.mem_map_of_mem _ ha)).2.2
    · exact (hinv.msize a ha).2
  have := hc.1
  refine ⟨by omega, ?_, wadd_of_lt (by omega)⟩
  rw [wsub_of_le (by omega) (by omega)]
  omega

/-- The function `os_free` on the payload of an ALLOC block of the heap list: the block
becomes FREE and nothing else changes. -/
theorem os_free_heap_inv {c : Config} {g : Nat} {s : State} {l ml : List Nat}
    (hc : ConfigOk c) (hinv : Inv c g s l ml) {a : Nat} (ha : a ∈ l)
    (hst : (s.mem a).status = Status.ALLOC) :
    os_free c (a + c.META_SIZE) s = { s with mem := set_status s.mem a Status.FREE } ∧
      Inv c g (os_free c (a + c.META_SIZE) s) l ml := by
  obtain ⟨h1, h2, _⟩ := header_of_payload hc hinv (Or.inl ha)
  have he : os_free c (a + c.META_SIZE) s =
      { s with mem := set_status s.mem a Status.FREE } := by
    unfold os_free
    rw [if_neg h1]
    simp only [h2, hst, if_true]
  refine ⟨he, ?_⟩
  rw [he]
  have hml : a ∉ ml := inv_disjoint hc hinv a ha
  refine ⟨⟨seg_congr (fun x _ => by simp) hinv.hchain, ?_, hinv.hflag, ?_⟩, ?_,
    osok_congr hinv.os rfl rfl rfl⟩
  · exact layout_view_congr (fun x _ => by simp) hinv.hlay
  · intro b hb
    obtain ⟨x, hx, rfl⟩ := List.mem_map.mp hb
    have := hinv.hblk (view s.mem x) (List.mem_map_of_mem _ hx)
    simp only [view, set_status_size, set_status_status] at this ⊢
    refine ⟨?_, this.2⟩
    split
    · simp
    · exact this.1
  · refine mapinv_frame hinv.toMapInv ?_ rfl rfl
    intro x hx
    have : x ≠ a := fun h => hml (h ▸ hx)
    exact set_status_ne _ _ this

/-- The function `os_free` on the payload of a block of the mapped list: the block
leaves the list, its region is unmapped, and nothing else changes. -/
theorem os_free_mapped_inv {c : Config} {g : Nat} {s : State} {l ml : List Nat}
    (hc : ConfigOk c) (hinv : Inv c g s l ml) {a : Nat} (ha : a ∈ ml) :
    Inv c g (os_free c (a + c.META_SIZE) s) l (ml.erase a) ∧
      (os_free c (a + c.META_SIZE) s).calls =
        s.calls ++ [OsCall.munmap a ((s.mem a).size + c.META_SIZE)] ∧
      (os_free c (a + c.META_SIZE) s).maps = s.maps.erase (a, (s.mem a).size + c.META_SIZE) ∧
      (∀ x, x ∉ ml → (os_free c (a + c.META_SIZE) s).mem x = s.mem x) ∧
      (∀ x, ((os_free c (a + c.META_SIZE) s).mem x).size = (s.mem x).size ∧
        ((os_free c (a + c.META_SIZE) s).mem x).status = (s.mem x).status) ∧
      (os_free c (a + c.META_SIZE) s).brk_blocks = s.brk_blocks ∧
      (os_free c (a + c.META_SIZE) s).brk = s.brk ∧
      (os_free c (a + c.META_SIZE) s).first_sbrk = s.first_sbrk ∧
      (os_free c (a + c.META_SIZE) s).data = s.data := by
  obtain ⟨h1, h2, _⟩ := header_of_payload hc hinv (Or.inr ha)
  have hst : (s.mem a).status = Status.MAPPED := hinv.mstat a ha
  have hout := inv_mapped_outside hinv a ha
  have hsz8 := (hinv.msize a ha).2
  have hw : wadd (s.mem a).size c.META_SIZE = (s.mem a).size + c.META_SIZE :=
    wadd_of_lt (by omega)
  have hlml : ∀ x ∈ l, x ∉ ml := inv_disjoint hc hinv
  obtain ⟨pre, post, hml⟩ := List.append_of_mem ha
  subst hml
  obtain ⟨hapre, hapost, hoth⟩ := nodup_mid hinv.mnodup
  have herase : (pre ++ a :: post).erase a = pre ++ post := by
    rw [List.erase_append_right _ hapre, List.erase_cons_head]
  have hmaps : s.maps.erase (a, (s.mem a).size + c.META_SIZE) =
      (pre ++ post).map (fun x => (x, (s.mem x).size + c.META_SIZE)) := by
    rw [hinv.mmaps, List.map_append, List.map_cons, List.erase_append_right, List.erase_cons_head,
      List.map_append]
    intro hmem
    obtain ⟨x, hx, hxe⟩ := List.mem_map.mp hmem
    have : x = a := congrArg Prod.fst hxe
    exact hapre (this ▸ hx)
  obtain ⟨q, hseg1, _, ha0, hseg2⟩ := seg_append.mp hinv.mchain
  have hnd2 : (pre ++ post).Nodup := by
    have := hinv.mnodup
    rw [← herase]
    exact this.erase a
  cases hp : pre.reverse with
  | nil =>
    have hpre : pre = [] := by simpa using hp
    subst hpre
    have hhead : s.mmap_blocks = a := hinv.mchain.1
    have he : os_free c (a + c.META_SIZE) s =
        munmap { s with mmap_blocks := (s.mem a).next } a ((s.mem a).size + c.META_SIZE) := by
      unfold os_free
      rw [if_neg h1]
      simp only [h2, hst, remove_block, hhead, if_true, hw]
      simp
    rw [he]
    simp only [List.nil_append] at herase hmaps hnd2 ⊢
    rw [herase]
    refine ⟨⟨heapinv_frame hinv.toHeapInv (fun _ _ => rfl) rfl rfl rfl rfl,
      ⟨hseg2, hnd2, hinv.mprev.tail, fun x hx => hinv.mstat x (List.mem_cons_of_mem _ hx),
        fun x hx => hinv.msize x (List.mem_cons_of_mem _ hx), hmaps⟩,
      osok_munmap (osok_congr hinv.os rfl rfl rfl)⟩, rfl, rfl, fun _ _ => rfl,
      fun _ => ⟨rfl, rfl⟩, rfl, rfl, rfl, rfl⟩
  | cons x rpre =>
    have hpre : pre = rpre.reverse ++ [x] := by
      have := congrArg List.reverse hp
      simpa using this
    subst hpre
    have hxa : x ≠ a := fun h => hapre (by rw [← h]; simp)
    have hhead : a ≠ s.mmap_blocks := by
      intro h
      have h3 := hinv.mchain
      rw [List.append_assoc] at h3
      cases hr : rpre.reverse with
      | nil =>
        rw [hr] at h3
        exact hxa (h3.1.symm.trans h.symm)
      | cons y t =>
        rw [hr] at h3
        have : s.mmap_blocks = y := h3.1
        apply hapre
        rw [h, this, hr]
        simp
    have hprev : (s.mem a).prev = x := by
      have h3 := hinv.mprev
      rw [List.append_assoc, List.chain'_append] at h3
      have h4 := h3.2.1
      exact (List.chain'_cons.mp h4).1
    have hnext := @chain_next_mid s.mem rpre.reverse post s.mmap_blocks x a (by
        have := hinv.mchain
        rwa [List.append_assoc] at this)
    have hxml : x ∈ rpre.reverse ++ [x] ++ a :: post := by simp
    have he : os_free c (a + c.META_SIZE) s =
        munmap { s with mem :=
          (if (s.mem a).next ≠ 0 then
            set_prev (set_next s.mem x (s.mem a).next) (s.mem a).next x
          else set_next s.mem x (s.mem a).next) } a ((s.mem a).size + c.META_SIZE) := by
      unfold os_free
      rw [if_neg h1]
      simp only [h2, hst, remove_block, if_neg hhead, hprev, set_next_next, set_next_prev,
        if_neg hxa.symm]
      simp only [reduceCtorEq, if_false, if_true]
      split <;> simp [hw, hxa.symm]
    have hnextf : ∀ y, ((if (s.mem a).next ≠ 0 then
            set_prev (set_next s.mem x (s.mem a).next) (s.mem a).next x
          else set_next s.mem x (s.mem a).next) y).next =
        if y = x then (s.mem a).next else (s.mem y).next := by
      intro y
      split <;> simp
    have hsame : ∀ y, ((if (s.mem a).next ≠ 0 then
            set_prev (set_next s.mem x (s.mem a).next) (s.mem a).next x
          else set_next s.mem x (s.mem a).next) y).size = (s.mem y).size ∧
        ((if (s.mem a).next ≠ 0 then
            set_prev (set_next s.mem x (s.mem a).next) (s.mem a).next x
          else set_next s.mem x (s.mem a).next) y).status = (s.mem y).status := by
      intro y
      split <;> simp
    have hpostmem : (s.mem a).next ≠ 0 → (s.mem a).next ∈ post := by
      intro hne
      obtain ⟨t, ht⟩ := chain_head hseg2 hne
      rw [ht]
      exact List.mem_cons_self _ _
    have hframe : ∀ y, y ∉ rpre.reverse ++ [x] ++ a :: post →
        (if (s.mem a).next ≠ 0 then
            set_prev (set_next s.mem x (s.mem a).next) (s.mem a).next x
          else set_next s.mem x (s.mem a).next) y = s.mem y := by
      intro y hy
      have hyx : y ≠ x := fun h => hy (h ▸ hxml)
      split
      · rename_i hne
        have hyn : y ≠ (s.mem a).next := by
          intro h
          apply hy
          rw [h]
          exact List.mem_append_right _ (List.mem_cons_of_mem _ (hpostmem hne))
        rw [set_prev_ne _ _ hyn, set_next_ne _ _ hyx]
      · rw [set_next_ne _ _ hyx]
    have hprevf : ∀ y, y ≠ (s.mem a).next ∨ (s.mem a).next = 0 →
        ((if (s.mem a).next ≠ 0 then
          set_prev (set_next s.mem x (s.mem a).next) (s.mem a).next x
        else set_next s.mem x (s.mem a).next) y).prev = (s.mem y).prev := by
      intro y hy
      split
      · rename_i hne
        rcases hy with hy | hy
        · simp [hy]
        · exact absurd hy hne
      · simp
    have hprevd : (s.mem a).next ≠ 0 → ((if (s.mem a).next ≠ 0 then
            set_prev (set_next s.mem x (s.mem a).next) (s.mem a).next x
          else set_next s.mem x (s.mem a).next) (s.mem a).next).prev = x := by
      intro hne
      rw [if_pos hne]
      simp
    generalize (if (s.mem a).next ≠ 0 then
            set_prev (set_next s.mem x (s.mem a).next) (s.mem a).next x
          else set_next s.mem x (s.mem a).next) = m2 at he hnextf hsame hframe hprevf hprevd
    rw [he, herase]
    refine ⟨⟨heapinv_frame hinv.toHeapInv (fun y hy => hframe y (hlml y hy)) rfl rfl rfl rfl,
      ⟨?_, hnd2, ?_, fun y hy => ?_, fun y hy => ?_, ?_⟩,
      osok_munmap (osok_congr hinv.os rfl rfl rfl)⟩, rfl, rfl, fun y hy => hframe y hy,
      hsame, rfl, rfl, rfl, rfl⟩
    · show Chain m2 s.mmap_blocks (rpre.reverse ++ [x] ++ post)
      rw [List.append_assoc]
      have h3 := hinv.mchain
      rw [List.append_assoc] at h3
      obtain ⟨q1, hs1, hs2⟩ := seg_append.mp h3
      obtain ⟨e1, e2, _⟩ := hs2
      apply seg_append.mpr
      refine ⟨q1, seg_congr ?_ hs1, e1, e2, ?_⟩
      · intro y hy
        have hyx : y ≠ x := by
          intro h
          have := (List.nodup_append.mp (List.nodup_append.mp hinv.mnodup).1)
          exact this.2.2 hy (by rw [h]; simp) 
        rw [hnextf y, if_neg hyx]
      · rw [hnextf x, if_pos rfl]
        apply seg_congr _ hseg2
        intro y hy
        have hyx : y ≠ x := by
          intro h
          exact (List.nodup_append.mp hinv.mnodup).2.2
            (show x ∈ rpre.reverse ++ [x] by simp) (List.mem_cons_of_mem _ (h ▸ hy))
        rw [hnextf y, if_neg hyx]
    · show List.Chain' (fun x y => (m2 y).prev = x) (rpre.reverse ++ [x] ++ post)
      have h3 := hinv.mprev
      rw [List.chain'_append] at h3 ⊢
      obtain ⟨c1, c2, c3⟩ := h3
      refine ⟨?_, ?_, ?_⟩
      · refine (List.Chain'.iff_mem.mp c1).imp ?_
        rintro y z ⟨_, hz, hyz⟩
        rw [hprevf z]
        · exact hyz
        · by_cases hne : (s.mem a).next = 0
          · exact Or.inr hne
          · left
            intro h
            have := (List.nodup_append.mp hinv.mnodup).2.2 hz
              (List.mem_cons_of_mem _ (h ▸ hpostmem hne))
            exact this
      · have c2t := c2.tail
        simp only [List.tail_cons] at c2t
        cases post with
        | nil => exact List.chain'_nil
        | cons d post1 =>
          have hd : (s.mem a).next = d := hseg2.1
          have hd0 : d ≠ 0 := hseg2.2.1
          have hnd3 := (List.nodup_cons.mp (List.nodup_cons.mp
            (List.nodup_append.mp hinv.mnodup).2.1).2)
          cases post1 with
          | nil => exact List.chain'_singleton _
          | cons e post2 =>
            rw [List.chain'_cons] at c2t ⊢
            refine ⟨?_, ?_⟩
            · rw [hprevf e]
              · exact c2t.1
              · left
                rw [hd]
                intro h
                exact hnd3.1 (by rw [h]; simp)
            · refine (List.Chain'.iff_mem.mp c2t.2).imp ?_
              rintro y z ⟨hy, hz, hyz⟩
              rw [hprevf z]
              · exact hyz
              · left
                rw [hd]
                intro h
                have hz2 : z ∈ e :: post2 := hz
                exact hnd3.1 (h ▸ hz2)
      · intro y hy z hz
        have hy : y = x := by
          simp at hy
          exact hy.symm
        subst hy
        cases post with
        | nil => simp at hz
        | cons d post1 =>
          have hz : d = z := by simpa using hz
          subst hz
          have hd : (s.mem a).next = d := hseg2.1
          have hd0 : d ≠ 0 := hseg2.2.1
          rw [← hd]
          exact hprevd (by rw [hd]; exact hd0)
    · show (m2 y).status = _
      rw [(hsame y).2]
      apply hinv.mstat
      rcases List.mem_append.mp hy with h | h
      · exact List.mem_append_left _ h
      · exact List.mem_append_right _ (List.mem_cons_of_mem _ h)
    · show (m2 y).size % 8 = 0 ∧ 8 ≤ (m2 y).size
      rw [(hsame y).1]
      apply hinv.msize
      rcases List.mem_append.mp hy with h | h
      · exact List.mem_append_left _ h
      · exact List.mem_append_right _ (List.mem_cons_of_mem _ h)
    · show s.maps.erase _ = List.map (fun a => (a, (m2 a).size + c.META_SIZE)) _
      rw [hmaps]
      apply List.map_congr_left
      intro y _
      simp only [(hsame y).1]

/-! ### The pieces of `os_realloc` -/

/-- The loop of `os_realloc`, standing at the block `a` of a list in memory, ends and
leaves in memory the list that `absorb_list` describes. -/
theorem realloc_loop_cons (c : Config) (n : Nat) (t : List Nat) :
    ∀ (m : Mem) (a : Nat), Chain m a (a :: t) → (a :: t).Nodup →
      total c ((a :: t).map (view m)) < WORD →
      ∀ fuel, t.length + 1 ≤ fuel →
      ∃ m1 t1, realloc_loop c fuel m a n = some m1 ∧ Chain m1 a (a :: t1) ∧
        (a :: t1).map (view m1) = absorb_list c n (view m a) (t.map (view m)) ∧
        (∀ x, x ∉ a :: t → m1 x = m x) ∧ t1.Sublist t := by
  induction t with
  | nil =>
    intro m a hc _ _ fuel hf
    obtain ⟨_, ha0, hnext⟩ := hc
    have hnext : (m a).next = 0 := hnext
    cases fuel with
    | zero => simp at hf
    | succ k =>
      refine ⟨m, [], ?_, ⟨rfl, ha0, hnext⟩, by simp [absorb_list], fun _ _ => rfl,
        List.Sublist.refl _⟩
      simp [realloc_loop, hnext]
  | cons b t ih =>
    intro m a hc hnd htot fuel hf
    obtain ⟨_, ha0, hab, hb0, hbt⟩ := hc
    cases fuel with
    | zero => simp at hf
    | succ k =>
      have hk : t.length + 1 ≤ k := by simpa using hf
      have hnd2 : (b :: t).Nodup := (List.nodup_cons.mp hnd).2
      have hat : a ∉ b :: t := (List.nodup_cons.mp hnd).1
      simp only [realloc_loop]
      rw [hab]
      by_cases hcond : n > (m a).size ∧ b ≠ 0 ∧ (m b).status = Status.FREE
      · rw [if_pos hcond]
        obtain ⟨hn, hs, hst, hfr, _⟩ := absorb_next_spec c (m := m) hab rfl
        have hat2 : a ∉ t := fun h => hat (List.mem_cons_of_mem _ h)
        have hsum : (m a).size + ((m b).size + c.META_SIZE) < WORD := by
          simp only [List.map_cons, total_cons, view] at htot
          omega
        have hw : wadd (m a).size (wadd (m b).size c.META_SIZE) =
            (m a).size + ((m b).size + c.META_SIZE) := by
          rw [wadd_of_lt (a := (m b).size) (by omega), wadd_of_lt hsum]
        have hviews : t.map (view (absorb_next c m a)) = t.map (view m) := by
          apply map_view_congr
          intro x hx
          have hxa : x ≠ a := fun h => hat2 (h ▸ hx)
          rw [hs x, hst x, if_neg hxa]
          exact ⟨rfl, rfl⟩
        have hva : view (absorb_next c m a) a =
            ⟨a, (m a).size + ((m b).size + c.META_SIZE), (m a).status⟩ := by
          simp [view, hs a, hst a, hw]
        have hchain : Chain (absorb_next c m a) a (a :: t) := by
          refine ⟨rfl, ha0, ?_⟩
          rw [hn a, if_pos rfl]
          apply seg_congr _ hbt
          intro x hx
          have hxa : x ≠ a := fun h => hat2 (h ▸ hx)
          rw [hn x, if_neg hxa]
        have htot2 : total c ((a :: t).map (view (absorb_next c m a))) < WORD := by
          simp only [List.map_cons, total_cons, hviews, hva]
          simp only [List.map_cons, total_cons, view] at htot
          omega
        obtain ⟨m1, t1, e1, e2, e3, e4, e5⟩ :=
          ih (absorb_next c m a) a hchain (List.nodup_cons.mpr ⟨hat2, (List.nodup_cons.mp hnd2).2⟩)
            htot2 k (by omega)
        refine ⟨m1, t1, e1, e2, ?_, ?_, List.Sublist.cons _ e5⟩
        · rw [e3, hviews, hva]
          have : n > (view m a).size ∧ (view m b).status = Status.FREE := ⟨hcond.1, hcond.2.2⟩
          simp only [List.map_cons, absorb_list]
          rw [if_pos this]
          rfl
        · intro x hx
          have hxa : x ≠ a := fun h => hx (h ▸ List.mem_cons_self _ _)
          have hxt : x ∉ t := fun h => hx (List.mem_cons_of_mem _ (List.mem_cons_of_mem _ h))
          rw [e4 x (fun h => by
            rcases List.mem_cons.mp h with h | h
            · exact hxa h
            · exact hxt h)]
          by_cases hd : (m b).next = 0
          · exact (absorb_next_spec c (m := m) hab rfl).2.2.2.2 x hxa hd
          · apply hfr x hxa
            intro hxd
            cases t with
            | nil => exact hd hbt
            | cons d t =>
              have : (m b).next = d := hbt.1
              exact hxt (by rw [hxd, this]; exact List.mem_cons_self _ _)
      · rw [if_neg hcond]
        refine ⟨m, b :: t, rfl, ⟨rfl, ha0, hab, hb0, hbt⟩, ?_, fun _ _ => rfl,
          List.Sublist.refl _⟩
        have : ¬ (n > (view m a).size ∧ (view m b).status = Status.FREE) := by
          intro h
          exact hcond ⟨h.1, hb0, h.2⟩
        simp only [List.map_cons, absorb_list]
        rw [if_neg this]

theorem absorb_list_head (c : Config) (n : Nat) (r : List Blk) :
    ∀ x, ∃ y t, absorb_list c n x r = y :: t ∧ y.addr = x.addr ∧ y.status = x.status ∧
      x.size ≤ y.size ∧ t.Sublist r ∧ (x.size % 8 = 0 → c.META_SIZE % 8 = 0 →
        (∀ b ∈ r, b.size % 8 = 0) → y.size % 8 = 0) ∧
      total c (y :: t) = total c (x :: r) := by
  induction r with
  | nil =>
    intro x
    exact ⟨x, [], rfl, rfl, rfl, le_refl _, List.Sublist.refl _, fun h _ _ => h, rfl⟩
  | cons z r ih =>
    intro x
    simp only [absorb_list]
    split
    · obtain ⟨y, t, e1, e2, e3, e4, e5, e6, e7⟩ :=
        ih ⟨x.addr, x.size + (z.size + c.META_SIZE), x.status⟩
      refine ⟨y, t, e1, e2, e3, ?_, List.Sublist.cons _ e5, ?_, ?_⟩
      · simp only at e4; omega
      · intro h1 h2 h3
        apply e6 _ h2 (fun b hb => h3 b (List.mem_cons_of_mem _ hb))
        have := h3 z (List.mem_cons_self _ _)
        simp only
        omega
      · rw [e7]
        simp only [total_cons]
        omega
    · exact ⟨x, z :: r, rfl, rfl, rfl, le_refl _, List.Sublist.refl _, fun h _ _ => h, rfl⟩

theorem absorb_list_layout {c : Config} {g : Nat} {hi : Nat} (hg : GapOk g) (hhi : hi < WORD)
    (n : Nat) (r : List Blk) :
    ∀ x lo, Layout c g lo hi (x :: r) → Layout c g lo hi (absorb_list c n x r) := by
  induction r with
  | nil => intro x lo h; exact h
  | cons z r ih =>
    intro x lo h
    simp only [absorb_list]
    obtain ⟨e1, e2, e3, e4, e5⟩ := h
    split
    · apply ih
      refine ⟨e1, e2, ?_⟩
      apply layout_lower hg hhi e5
      · simp only; omega
      · intro h0; simp only; omega
    · exact ⟨e1, e2, e3, e4, e5⟩

/-- The loop of `os_realloc` absorbs only FREE blocks: every block that is ALLOC stays. -/
theorem absorb_list_keeps (c : Config) (n : Nat) (r : List Blk) :
    ∀ x, ∀ b ∈ r, b.status ≠ Status.FREE → b ∈ absorb_list c n x r := by
  induction r with
  | nil => intro x b hb; simp at hb
  | cons z r ih =>
    intro x b hb hs
    simp only [absorb_list]
    split
    · rename_i h
      rcases List.mem_cons.mp hb with rfl | hb
      · exact absurd h.2 hs
      · exact ih _ b hb hs
    · exact List.mem_cons_of_mem _ hb

theorem layout_split {c : Config} {g lo hi r b n : Nat} {pre post : List Blk}
    {st st1 st2 : Status} (h : Layout c g lo hi (pre ++ ⟨r, b, st⟩ :: post))
    (hn : n + c.META_SIZE ≤ b) :
    Layout c g lo hi
      (pre ++ ⟨r, n, st1⟩ :: ⟨r + c.META_SIZE + n, b - n - c.META_SIZE, st2⟩ :: post) := by
  obtain ⟨l1, l2⟩ := layout_append.mp h
  refine layout_append.mpr ⟨l1, by simp, by simp, ?_⟩
  simp only at l2 ⊢
  have e : r + c.META_SIZE + n + c.META_SIZE + (b - n - c.META_SIZE) =
      r + c.META_SIZE + b := by omega
  rw [e]
  exact l2

theorem layout_grow {c : Config} {g lo hi a b n : Nat} {pre : List Blk} {st st1 : Status}
    (h : Layout c g lo hi (pre ++ [⟨a, b, st⟩])) (hn : b ≤ n) :
    Layout c g lo (hi + (n - b)) (pre ++ [⟨a, n, st1⟩]) := by
  obtain ⟨l1, l2⟩ := layout_append.mp h
  refine layout_append.mpr ⟨l1, ?_⟩
  obtain ⟨e1, e2⟩ := l2
  simp only at e1 e2 ⊢
  exact ⟨by omega, by omega⟩

/-- A state stays well-formed when an operation rewrites the heap list, inside the heap,
into a list that is again laid out. -/
theorem inv_heap_update {c : Config} {g : Nat} {s s1 : State} {l ml l1 : List Nat}
    (hinv : Inv c g s l ml) (hch : Chain s1.mem s1.brk_blocks l1)
    (hlay : Layout c g s1.heap_start s1.brk (l1.map (view s1.mem)))
    (hblk : HeapBlocksOk (l1.map (view s1.mem))) (hne : l1 ≠ []) (hflag : s1.first_sbrk ≠ 0)
    (hfr : ∀ x ∈ ml, s1.mem x = s.mem x) (h1 : s1.mmap_blocks = s.mmap_blocks)
    (h2 : s1.maps = s.maps) (hos : OsOk s1) : Inv c g s1 l1 ml :=
  ⟨⟨hch, hlay, ⟨fun h => absurd h hflag, fun _ => hne⟩, hblk⟩,
    mapinv_frame hinv.toMapInv hfr h1 h2, hos⟩

/-- The loop of `os_realloc` keeps the state well-formed: the block `a` absorbs FREE
blocks that follow it, keeps its status, and does not shrink. -/
theorem realloc_loop_inv {c : Config} {g : Nat} {s : State} {pre post ml : List Nat}
    {a n fuel : Nat} (hc : ConfigOk c) (hg : GapOk g)
    (hinv : Inv c g s (pre ++ a :: post) ml) (hf : (pre ++ a :: post).length < fuel) :
    ∃ m2 post1, realloc_loop c fuel s.mem a n = some m2 ∧
      Inv c g { s with mem := m2 } (pre ++ a :: post1) ml ∧
      (m2 a).status = (s.mem a).status ∧ (s.mem a).size ≤ (m2 a).size ∧
      (∀ x, x ∉ a :: post → m2 x = s.mem x) ∧ post1.Sublist post ∧
      (∀ x ∈ post, (s.mem x).status ≠ Status.FREE →
        x ∈ post1 ∧ (m2 x).status = (s.mem x).status ∧ (m2 x).size = (s.mem x).size) ∧
      (a :: post1).map (view m2) = absorb_list c n (view s.mem a) (post.map (view s.mem)) := by
  have hnd := inv_nodup hc hinv
  obtain ⟨q, hseg1, hseg2⟩ := seg_append.mp hinv.hchain
  have hqa : q = a := hseg2.1
  subst hqa
  have hnd2 : (q :: post).Nodup := (List.nodup_append.mp hnd).2.1
  have htot : total c ((q :: post).map (view s.mem)) < WORD := by
    have := inv_total hinv
    rw [List.map_append, total_append] at this
    omega
  obtain ⟨m2, post1, e1, e2, e3, e4, e5⟩ :=
    realloc_loop_cons c n post s.mem q hseg2 hnd2 htot fuel (by simp at hf; omega)
  obtain ⟨y, t, k1, k2, k3, k4, k5, k6, k7⟩ :=
    absorb_list_head c n (post.map (view s.mem)) (view s.mem q)
  rw [k1] at e3
  have hy : view m2 q = y := by
    have := congrArg List.head? e3
    simpa using this
  have ht : post1.map (view m2) = t := by
    have := congrArg List.tail e3
    simpa using this
  have hpre : ∀ x ∈ pre, x ∉ q :: post := by
    intro x hx hx2
    exact (List.nodup_append.mp hnd).2.2 hx hx2
  have hvpre : pre.map (view m2) = pre.map (view s.mem) :=
    map_view_congr fun x hx => by rw [e4 x (hpre x hx)]; exact ⟨rfl, rfl⟩
  have hlay0 := hinv.hlay
  rw [List.map_append, List.map_cons] at hlay0
  obtain ⟨l1, l2⟩ := layout_append.mp hlay0
  have hbrk : s.brk < WORD := hinv.os.2.2.1
  have hlay2 : Layout c g (view s.mem q).addr s.brk (y :: t) := by
    rw [← k1]
    apply absorb_list_layout hg hbrk
    exact ⟨le_refl _, Nat.le_add_right _ _, l2⟩
  have hblk0 := hinv.hblk
  rw [List.map_append, List.map_cons] at hblk0
  obtain ⟨o1, o2⟩ := heap_blocks_ok_append.mp hblk0
  obtain ⟨o2, o3⟩ := heap_blocks_ok_cons.mp o2
  have hml : ∀ x ∈ ml, m2 x = s.mem x := by
    intro x hx
    apply e4
    intro hx2
    exact inv_disjoint hc hinv x (List.mem_append_right _ hx2) hx
  refine ⟨m2, post1, e1, ?_, ?_, ?_, e4, e5, ?_, by rw [e3, k1]⟩
  · apply inv_heap_update hinv
    · exact seg_append.mpr
        ⟨q, seg_congr (fun x hx => congrArg block_meta.next (e4 x (hpre x hx))) hseg1, e2⟩
    · show Layout c g s.heap_start s.brk ((pre ++ q :: post1).map (view m2))
      rw [List.map_append, List.map_cons, hvpre, hy, ht]
      apply layout_append.mpr
      refine ⟨by rw [k2]; exact l1, hlay2.2.2⟩
    · show HeapBlocksOk ((pre ++ q :: post1).map (view m2))
      rw [List.map_append, List.map_cons, hvpre, hy, ht]
      apply heap_blocks_ok_append.mpr
      refine ⟨o1, heap_blocks_ok_cons.mpr ⟨⟨by rw [k3]; exact o2.1, ?_, by have := o2.2.2; omega⟩,
        fun b hb => o3 b (k5.subset hb)⟩⟩
      exact k6 o2.2.1 hc.2.1 (fun b hb => (o3 b hb).2.1)
    · simp
    · exact fun h => by
        have := hinv.hflag.1 h
        simp at this
    · exact hml
    · rfl
    · rfl
    · exact osok_congr hinv.os rfl rfl rfl
  · have : (view m2 q).status = (view s.mem q).status := by rw [hy, k3]
    exact this
  · have : (view s.mem q).size ≤ (view m2 q).size := by rw [hy]; exact k4
    exact this
  · intro x hx hst
    have h1 : view s.mem x ∈ absorb_list c n (view s.mem q) (post.map (view s.mem)) :=
      absorb_list_keeps c n _ _ _ (List.mem_map_of_mem _ hx) hst
    rw [k1, ← hy, ← ht] at h1
    have hxq : x ≠ q := fun h => (List.nodup_cons.mp hnd2).1 (h ▸ hx)
    rcases List.mem_cons.mp h1 with h1 | h1
    · have := congrArg Blk.addr h1
      exact absurd this hxq
    · obtain ⟨h3, h4⟩ := mem_map_view.mp h1
      have h5 : (view s.mem x).size = (view m2 x).size := congrArg Blk.size h4
      have h6 : (view s.mem x).status = (view m2 x).status := congrArg Blk.status h4
      exact ⟨h3, h6.symm, h5.symm⟩

/-- The growth of the last block of the heap list in `os_realloc` keeps the state
well-formed. -/
theorem realloc_tail_inv {c : Config} {g : Nat} {s s1 : State} {pre ml : List Nat}
    {a size : Nat} (hc : ConfigOk c) (hinv : Inv c g s (pre ++ [a]) ml)
    (hlt : (s.mem a).size < ALIGN size)
    (hnT : ALIGN size + c.META_SIZE < MMAP_THRESHOLD)
    (hrun : realloc_tail size a a s = some s1) :
    Inv c g s1 (pre ++ [a]) ml ∧ (s1.mem a).size = ALIGN size ∧
      (s1.mem a).status = Status.ALLOC ∧ (∀ x, x ≠ a → s1.mem x = s.mem x) ∧
      s1.data = s.data ∧ s1.brk = s.brk + (ALIGN size - (s.mem a).size) ∧
      s1.calls = s.calls ++ [OsCall.sbrk (ALIGN size - (s.mem a).size)] ∧
      s1.brk_blocks = s.brk_blocks := by
  have ht : MMAP_THRESHOLD = 131072 := rfl
  have hW := WORD_eq
  have hnext : (s.mem a).next = 0 := chain_next_last hinv.hchain
  have hw : wsub (ALIGN size) (s.mem a).size = ALIGN size - (s.mem a).size :=
    wsub_of_le (by omega) (by omega)
  unfold realloc_tail at hrun
  rw [if_pos hnext, hw] at hrun
  by_cases hok : SbrkOk s (ALIGN size - (s.mem a).size)
  · rw [sbrk_some hok] at hrun
    have hs1 := (Option.some.inj hrun).symm
    subst hs1
    obtain ⟨e1, e2⟩ := sbrk_ok_brk hok (by omega)
    have hos := osok_sbrk hinv.os hok (by omega)
    have hnd := inv_nodup hc hinv
    obtain ⟨k1, k2⟩ := grow_chain (n := ALIGN size) hinv.hchain hnd
    have hlay0 := hinv.hlay
    rw [List.map_append, List.map_cons, List.map_nil] at hlay0
    have hblk0 := hinv.hblk
    rw [List.map_append] at hblk0
    obtain ⟨o1, o2⟩ := heap_blocks_ok_append.mp hblk0
    have o2a := o2 (view s.mem a) (by simp)
    refine ⟨?_, by simp, by simp, ?_, rfl, e1, rfl, rfl⟩
    · apply inv_heap_update hinv k1
      · show Layout c g s.heap_start (wadd s.brk (ALIGN size - (s.mem a).size)) _
        rw [k2, e1]
        exact layout_grow hlay0 (le_of_lt hlt)
      · show HeapBlocksOk _
        rw [k2]
        have o2b : 8 ≤ (s.mem a).size := o2a.2.2
        exact heap_blocks_ok_append.mpr ⟨o1, heap_blocks_ok_cons.mpr
          ⟨⟨(by decide : Status.ALLOC ≠ Status.MAPPED), ALIGN_mod size,
            (by omega : 8 ≤ ALIGN size)⟩, heap_blocks_ok_nil⟩⟩
      · simp
      · intro h
        have := hinv.hflag.1 h
        simp at this
      · intro x hx
        have : x ≠ a := fun h => inv_disjoint hc hinv a (by simp) (h ▸ hx)
        show set_size (set_status s.mem a Status.ALLOC) a (ALIGN size) x = s.mem x
        rw [set_size_ne _ _ this, set_status_ne _ _ this]
      · rfl
      · rfl
      · exact osok_congr hos rfl rfl rfl
    · intro x hx
      show set_size (set_status s.mem a Status.ALLOC) a (ALIGN size) x = s.mem x
      rw [set_size_ne _ _ hx, set_status_ne _ _ hx]
  · rw [sbrk_none hok] at hrun
    exact absurd hrun (by simp)

/-- The last statements of `os_realloc` keep the state well-formed: the block keeps its
address and is cut to the aligned size when the slack holds a header and 8 bytes. -/
theorem realloc_finish_inv {c : Config} {g : Nat} {s : State} {pre post ml : List Nat}
    {a size : Nat} (hc : ConfigOk c) (hinv : Inv c g s (pre ++ a :: post) ml)
    (hst : (s.mem a).status = Status.ALLOC) (hn : 8 ≤ ALIGN size)
    (hnT : ALIGN size + c.META_SIZE < MMAP_THRESHOLD) :
    (realloc_finish c size a s).1 = a + c.META_SIZE ∧
    ∃ l1, Inv c g (realloc_finish c size a s).2 l1 ml ∧ a ∈ l1 ∧
      ((realloc_finish c size a s).2.mem a).status = Status.ALLOC ∧
      (∀ x, x ∈ pre ++ post → x ∈ l1 ∧
        ((realloc_finish c size a s).2.mem x).size = (s.mem x).size ∧
        ((realloc_finish c size a s).2.mem x).status = (s.mem x).status) ∧
      (∀ x ∈ ml, (realloc_finish c size a s).2.mem x = s.mem x) := by
  have ht : MMAP_THRESHOLD = 131072 := rfl
  have hW := WORD_eq
  obtain ⟨_, _, hwa⟩ := header_of_payload hc hinv (a := a) (Or.inl (by simp))
  have hw : wadd (wadd (ALIGN size) c.META_SIZE) (ALIGN 1) = ALIGN size + c.META_SIZE + 8 := by
    rw [ALIGN_one, wadd_of_lt (a := ALIGN size) (by omega), wadd_of_lt (by omega)]
  have hnd := inv_nodup hc hinv
  have hamem : a ∈ pre ++ a :: post := by simp
  have hab := inv_bounds hinv a hamem
  have hbrk : s.brk < WORD := hinv.os.2.2.1
  have hH := hc.1
  have hlay0 := hinv.hlay
  rw [List.map_append, List.map_cons] at hlay0
  have hblk0 := hinv.hblk
  rw [List.map_append, List.map_cons] at hblk0
  obtain ⟨o1, o2⟩ := heap_blocks_ok_append.mp hblk0
  obtain ⟨o2, o3⟩ := heap_blocks_ok_cons.mp o2
  simp only [view] at o2
  refine ⟨hwa, ?_⟩
  unfold realloc_finish
  simp only [hw]
  by_cases hsplit : ALIGN size + c.META_SIZE + 8 ≤ (s.mem a).size
  · rw [if_pos hsplit]
    have hnbw : wadd (wadd a c.META_SIZE) (ALIGN size) = a + c.META_SIZE + ALIGN size := by
      rw [wadd_of_lt (a := a) (by omega), wadd_of_lt (by omega)]
    obtain ⟨hmid1, hmid2⟩ := layout_view_mid hinv.hlay
    have hfresh : a + c.META_SIZE + ALIGN size ∉ pre ++ a :: post := by
      intro h
      rcases List.mem_append.mp h with h | h
      · have := hmid1 _ h; omega
      · rcases List.mem_cons.mp h with h | h
        · omega
        · have := hmid2 _ h; omega
    obtain ⟨k1, k2, k3⟩ := split_chain c hinv.hchain hnd hnbw (by omega) hfresh
    have hsz : wsub (wsub (s.mem a).size (ALIGN size)) c.META_SIZE =
        (s.mem a).size - ALIGN size - c.META_SIZE := by
      rw [wsub_of_le (a := (s.mem a).size) (by omega) (by omega),
        wsub_of_le (by omega) (by omega)]
    rw [hsz] at k2
    refine ⟨pre ++ a :: (a + c.META_SIZE + ALIGN size) :: post, ?_, by simp, ?_, ?_, ?_⟩
    · apply inv_heap_update hinv k1
      · show Layout c g s.heap_start s.brk _
        rw [k2]
        exact layout_split hlay0 (by omega)
      · show HeapBlocksOk _
        rw [k2]
        have h8 := ALIGN_mod size
        have hH8 := hc.2.1
        exact heap_blocks_ok_append.mpr ⟨o1, heap_blocks_ok_cons.mpr
          ⟨⟨(by decide : Status.ALLOC ≠ Status.MAPPED), ALIGN_mod size, hn⟩,
            heap_blocks_ok_cons.mpr ⟨⟨(by decide : Status.FREE ≠ Status.MAPPED),
              (by omega : ((s.mem a).size - ALIGN size - c.META_SIZE) % 8 = 0),
              (by omega : 8 ≤ (s.mem a).size - ALIGN size - c.META_SIZE)⟩, o3⟩⟩⟩
      · simp
      · intro h
        have := hinv.hflag.1 h
        simp at this
      · intro x hx
        apply k3 x (fun h => inv_disjoint hc hinv x h hx)
        intro h
        have := inv_mapped_outside hinv x hx
        omega
      · rfl
      · rfl
      · exact osok_congr hinv.os rfl rfl rfl
    · show (split_blocks c s.mem a (ALIGN size) a).status = Status.ALLOC
      rw [(split_blocks_spec c (m := s.mem) hnbw (by omega) rfl).2.2.1 a, if_pos rfl]
    · intro x hx
      have hxa : x ≠ a := (nodup_mid hnd).2.2 x hx
      have hxl : x ∈ pre ++ a :: post := by
        rcases List.mem_append.mp hx with h | h
        · exact List.mem_append_left _ h
        · exact List.mem_append_right _ (List.mem_cons_of_mem _ h)
      refine ⟨?_, ?_⟩
      · rcases List.mem_append.mp hx with h | h
        · exact List.mem_append_left _ h
        · exact List.mem_append_right _ (List.mem_cons_of_mem _ (List.mem_cons_of_mem _ h))
      · have hxnb : x ≠ a + c.META_SIZE + ALIGN size := fun h => hfresh (h ▸ hxl)
        obtain ⟨hn1, hs1, hst1, hfr1⟩ := split_blocks_spec c (m := s.mem) hnbw (by omega) rfl
        show (split_blocks c s.mem a (ALIGN size) x).size = (s.mem x).size ∧
          (split_blocks c s.mem a (ALIGN size) x).status = (s.mem x).status
        rw [hs1 x, hst1 x, if_neg hxa, if_neg hxnb, if_neg hxa, if_neg hxnb]
        exact ⟨rfl, rfl⟩
    · intro x hx
      apply k3 x (fun h => inv_disjoint hc hinv x h hx)
      intro h
      have := inv_mapped_outside hinv x hx
      omega
  · rw [if_neg hsplit]
    exact ⟨pre ++ a :: post, hinv, by simp, hst, fun x hx => ⟨by
      rcases List.mem_append.mp hx with h | h
      · exact List.mem_append_left _ h
      · exact List.mem_append_right _ (List.mem_cons_of_mem _ h), rfl, rfl⟩, fun _ _ => rfl⟩

/-- A pointer in use is the payload of an ALLOC block of the heap list or of a block of
the mapped list. -/
theorem live_cases {c : Config} {g : Nat} {s : State} {l ml : List Nat} {p : Nat}
    (hinv : Inv c g s l ml) (h : Live c s p) :
    ∃ a, p = a + c.META_SIZE ∧ ((a ∈ l ∧ (s.mem a).status = Status.ALLOC) ∨ a ∈ ml) := by
  obtain ⟨a, hp, h⟩ := h
  refine ⟨a, hp, ?_⟩
  rcases h with ⟨l1, h1, h2, h3⟩ | ⟨ml1, h1, h2⟩
  · rw [chain_unique hinv.hchain h1]
    exact Or.inl ⟨h2, h3⟩
  · rw [chain_unique hinv.mchain h1]
    exact Or.inr h2

/-- The function `os_free` on `NULL` or on a pointer in use keeps the state well-formed. -/
theorem os_free_inv {c : Config} {g : Nat} {s : State} {l ml : List Nat} {ptr : Nat}
    (hc : ConfigOk c) (hinv : Inv c g s l ml) (hlive : ptr = 0 ∨ Live c s ptr) :
    ∃ l1 ml1, Inv c g (os_free c ptr s) l1 ml1 := by
  rcases hlive with h0 | hl
  · subst h0
    exact ⟨l, ml, by simpa [os_free] using hinv⟩
  · obtain ⟨a, hp, h⟩ := live_cases hinv hl
    subst hp
    rcases h with ⟨h1, h2⟩ | h1
    · exact ⟨l, ml, (os_free_heap_inv hc hinv h1 h2).2⟩
    · exact ⟨l, ml.erase a, (os_free_mapped_inv hc hinv h1).1⟩

/-- The copy-and-free path of `os_realloc` keeps the state well-formed. -/
theorem realloc_move_inv {c : Config} {g : Nat} {s s1 : State} {l ml : List Nat}
    (hc : ConfigOk c) (hg : GapOk g) (hinv : Inv c g s l ml)
    {fuel addr size p a : Nat} (hsz : SizeOk c size) (hf : Adequate fuel s)
    (ha : (a ∈ l ∧ (s.mem a).status = Status.ALLOC) ∨ a ∈ ml)
    (hrun : realloc_move c fuel addr (a + c.META_SIZE) size a s = some (p, s1)) :
    ∃ l1 ml1, Inv c g s1 l1 ml1 := by
  unfold realloc_move at hrun
  cases hm : os_malloc c fuel addr size s with
  | none => rw [hm] at hrun; simp at hrun
  | some res =>
    obtain ⟨np, s0⟩ := res
    rw [hm] at hrun
    obtain ⟨_, hs1⟩ := Prod.mk.inj (Option.some.inj hrun)
    obtain ⟨l1, ml1, q1, q2, _⟩ := os_malloc_inv hc hg hinv hsz hf hm
    rw [← hs1]
    have hinv2 : Inv c g { s0 with data := (memcpy s0.data np (a + c.META_SIZE)
        (if (s0.mem a).size < ALIGN size then (s0.mem a).size else ALIGN size)) } l1 ml1 :=
      ⟨heapinv_frame q1.toHeapInv (fun _ _ => rfl) rfl rfl rfl rfl,
        mapinv_frame q1.toMapInv (fun _ _ => rfl) rfl rfl, osok_congr q1.os rfl rfl rfl⟩
    rcases ha with ⟨h1, h2⟩ | h1
    · obtain ⟨k1, k2, _⟩ := q2.heap a h1 h2
      exact ⟨l1, ml1, (os_free_heap_inv hc hinv2 k1 k2).2⟩
    · obtain ⟨k1, _⟩ := q2.mapped a h1
      exact ⟨l1, ml1.erase a, (os_free_mapped_inv hc hinv2 k1).1⟩

theorem chain_last_of_next {m : Mem} {p a : Nat} {pre post : List Nat}
    (h : Chain m p (pre ++ a :: post)) (hn : (m a).next = 0) : post = [] := by
  obtain ⟨_, _, h2⟩ := seg_append.mp h
  obtain ⟨_, _, h3⟩ := h2
  rw [hn] at h3
  exact chain_zero h3

/-- The function `os_realloc` on `NULL` or on a pointer in use keeps the state
well-formed. -/
theorem os_realloc_inv {c : Config} {g : Nat} {s s1 : State} {l ml : List Nat}
    (hc : ConfigOk c) (hg : GapOk g) (hinv : Inv c g s l ml)
    {fuel addr ptr size p : Nat} (hlive : ptr = 0 ∨ Live c s ptr) (hsz : SizeOk c size)
    (hf : Adequate fuel s)
    (hrun : os_realloc c fuel addr ptr size s = some (p, s1)) :
    ∃ l1 ml1, Inv c g s1 l1 ml1 := by
  have ht : MMAP_THRESHOLD = 131072 := rfl
  have hW := WORD_eq
  unfold os_realloc at hrun
  by_cases hp0 : ptr = 0
  · rw [if_pos hp0] at hrun
    obtain ⟨l1, ml1, q, _⟩ := os_malloc_inv hc hg hinv hsz hf hrun
    exact ⟨l1, ml1, q⟩
  · rw [if_neg hp0] at hrun
    by_cases hs0 : size = 0
    · rw [if_pos hs0] at hrun
      obtain ⟨_, hs1⟩ := Prod.mk.inj (Option.some.inj hrun)
      rw [← hs1]
      exact os_free_inv hc hinv hlive
    · rw [if_neg hs0] at hrun
      have hl : Live c s ptr := by
        rcases hlive with h | h
        · exact absurd h hp0
        · exact h
      obtain ⟨a, hpa, ha⟩ := live_cases hinv hl
      subst hpa
      obtain ⟨_, hwa, _⟩ := header_of_payload hc hinv (a := a) (by
        rcases ha with h | h
        · exact Or.inl h.1
        · exact Or.inr h)
      simp only [hwa] at hrun
      by_cases hfree : (s.mem a).status = Status.FREE
      · rw [if_pos hfree] at hrun
        obtain ⟨_, hs1⟩ := Prod.mk.inj (Option.some.inj hrun)
        exact ⟨l, ml, hs1 ▸ hinv⟩
      · rw [if_neg hfree] at hrun
        by_cases hsame : (s.mem a).size = ALIGN size
        · rw [if_pos hsame] at hrun
          obtain ⟨_, hs1⟩ := Prod.mk.inj (Option.some.inj hrun)
          exact ⟨l, ml, hs1 ▸ hinv⟩
        · rw [if_neg hsame] at hrun
          have hw : wadd (ALIGN size) c.META_SIZE = ALIGN size + c.META_SIZE := wadd_of_lt hsz.2
          rw [hw] at hrun
          by_cases hmove : ALIGN size + c.META_SIZE ≥ MMAP_THRESHOLD ∨
              (s.mem a).status = Status.MAPPED
          · rw [if_pos hmove] at hrun
            exact realloc_move_inv hc hg hinv hsz hf ha hrun
          · rw [if_neg hmove] at hrun
            have hlt : ALIGN size + c.META_SIZE < MMAP_THRESHOLD := by
              by_contra h
              exact hmove (Or.inl (by omega))
            rw [if_pos hlt] at hrun
            have hal : a ∈ l ∧ (s.mem a).status = Status.ALLOC := by
              rcases ha with h | h
              · exact h
              · exact absurd (hinv.mstat a h) (fun h2 => hmove (Or.inr h2))
            obtain ⟨pre, post, hlp⟩ := List.append_of_mem hal.1
            subst hlp
            obtain ⟨hf1, hf2⟩ := adequate_lengths hinv hf
            have hn8 : 8 ≤ ALIGN size := ALIGN_pos hsz.1 hs0
            by_cases hgrow : ALIGN size > (s.mem a).size
            · rw [if_pos hgrow] at hrun
              have hne : pre ++ a :: post ≠ [] := by simp
              have hlastc : Chain s.mem s.brk_blocks
                  ((pre ++ a :: post).dropLast ++ [(pre ++ a :: post).getLast hne]) := by
                rw [List.dropLast_append_getLast hne]
                exact hinv.hchain
              have hlast := find_last_block_chain hlastc fuel (by
                have := List.length_dropLast (pre ++ a :: post)
                omega)
              rw [hlast] at hrun
              simp only at hrun
              -- the statement on the last block
              have htail : ∃ s2, realloc_tail size a ((pre ++ a :: post).getLast hne) s = some s2 ∧
                  Inv c g s2 (pre ++ a :: post) ml ∧ (s2.mem a).status = Status.ALLOC := by
                cases hrt : realloc_tail size a ((pre ++ a :: post).getLast hne) s with
                | none => rw [hrt] at hrun; simp at hrun
                | some s2 =>
                  refine ⟨s2, rfl, ?_⟩
                  by_cases hnx : (s.mem a).next = 0
                  · have hpost : post = [] := chain_last_of_next hinv.hchain hnx
                    subst hpost
                    have hgl : (pre ++ [a]).getLast hne = a := by simp
                    rw [hgl] at hrt
                    obtain ⟨k1, _, k3, _⟩ := realloc_tail_inv hc hinv hgrow hlt hrt
                    exact ⟨k1, k3⟩
                  · unfold realloc_tail at hrt
                    rw [if_neg hnx] at hrt
                    have := Option.some.inj hrt
                    subst this
                    exact ⟨hinv, hal.2⟩
              obtain ⟨s2, hrt, hinv2, hst2⟩ := htail
              rw [hrt] at hrun
              simp only at hrun
              obtain ⟨m3, post1, e1, hinv3, e3, e4, _, e6, _⟩ :=
                @realloc_loop_inv c g s2 pre post ml a (ALIGN size) fuel hc hg hinv2 hf1
              rw [e1] at hrun
              simp only at hrun
              have hlen3 : (pre ++ a :: post1).length < fuel := by
                have := e6.length_le
                simp only [List.length_append, List.length_cons] at hf1 ⊢
                omega
              have hst3 : (m3 a).status = Status.ALLOC := by rw [e3, hst2]
              by_cases hstill : ALIGN size > (m3 a).size
              · rw [if_pos hstill] at hrun
                exact realloc_move_inv hc hg hinv3 hsz
                  (adequate_of_lengths hinv3 hlen3 hf2) (Or.inl ⟨by simp, hst3⟩) hrun
              · rw [if_neg hstill] at hrun
                obtain ⟨_, hs1⟩ := Prod.mk.inj (Option.some.inj hrun)
                obtain ⟨_, l1, k, _⟩ :=
                  @realloc_finish_inv c g _ pre post1 ml a size hc hinv3 hst3 hn8 hlt
                exact ⟨l1, ml, hs1 ▸ k⟩
            · rw [if_neg hgrow] at hrun
              obtain ⟨_, hs1⟩ := Prod.mk.inj (Option.some.inj hrun)
              obtain ⟨_, l1, k, _⟩ :=
                @realloc_finish_inv c g s pre post ml a size hc hinv hal.2 hn8 hlt
              exact ⟨l1, ml, hs1 ▸ k⟩

/-! ### No operation moves the start of the heap -/

theorem sbrk_start {s s1 : State} {d p : Nat} (h : sbrk s d = some (p, s1)) :
    s1.heap_start = s.heap_start := by
  unfold sbrk at h
  split at h
  · obtain ⟨_, rfl⟩ := Prod.mk.inj (Option.some.inj h)
    rfl
  · simp at h

theorem brk_alloc_start {c : Config} {fuel n mc r : Nat} {s s1 : State}
    (h : brk_alloc c fuel n mc s = some (r, s1)) : s1.heap_start = s.heap_start := by
  unfold brk_alloc at h
  split at h
  · rw [heap_preallocation_eq] at h
    split at h
    · obtain ⟨_, rfl⟩ := Prod.mk.inj (Option.some.inj h)
      rfl
    · simp at h
  · unfold coalesce_blocks at h
    cases hco : coalesce_loop c fuel s.mem s.brk_blocks with
    | none => rw [hco] at h; simp at h
    | some m1 =>
      rw [hco] at h
      simp only [Option.map_some'] at h
      split at h
      · simp at h
      · split at h
        · obtain ⟨_, rfl⟩ := Prod.mk.inj (Option.some.inj h)
          rfl
        · split at h
          · simp at h
          · split at h
            · split at h
              · simp at h
              · rename_i hs
                obtain ⟨_, rfl⟩ := Prod.mk.inj (Option.some.inj h)
                have e := sbrk_start hs
                exact e
            · split at h
              · simp at h
              · rename_i hs
                obtain ⟨_, rfl⟩ := Prod.mk.inj (Option.some.inj h)
                have e := sbrk_start hs
                exact e

theorem route_start {c : Config} {fuel addr n limit mc r : Nat} {s s1 : State}
    (h : route c fuel addr n limit mc s = some (r, s1)) : s1.heap_start = s.heap_start := by
  unfold route at h
  split at h
  · rw [mmap_alloc_eq] at h
    by_cases hok : MmapOk s (wadd n c.META_SIZE) addr
    · rw [if_pos hok] at h
      simp only at h
      split at h
      · obtain ⟨_, rfl⟩ := Prod.mk.inj (Option.some.inj h)
        rfl
      · split at h
        · simp at h
        · obtain ⟨_, rfl⟩ := Prod.mk.inj (Option.some.inj h)
          rfl
    · rw [if_neg hok] at h
      simp at h
  · split at h
    · simp at h
    · rename_i hb
      have := brk_alloc_start hb
      split at h
      · obtain ⟨_, rfl⟩ := Prod.mk.inj (Option.some.inj h)
        exact this
      · obtain ⟨_, rfl⟩ := Prod.mk.inj (Option.some.inj h)
        exact this

theorem os_malloc_start {c : Config} {fuel addr size p : Nat} {s s1 : State}
    (h : os_malloc c fuel addr size s = some (p, s1)) : s1.heap_start = s.heap_start := by
  unfold os_malloc at h
  split at h
  · obtain ⟨_, rfl⟩ := Prod.mk.inj (Option.some.inj h)
    rfl
  · split at h
    · simp at h
    · rename_i hr
      obtain ⟨_, rfl⟩ := Prod.mk.inj (Option.some.inj h)
      exact route_start hr

theorem os_calloc_start {c : Config} {fuel addr nmemb size p : Nat} {s s1 : State}
    (h : os_calloc c fuel addr nmemb size s = some (p, s1)) :
    s1.heap_start = s.heap_start := by
  unfold os_calloc at h
  split at h
  · obtain ⟨_, rfl⟩ := Prod.mk.inj (Option.some.inj h)
    rfl
  · split at h
    · simp at h
    · rename_i hr
      obtain ⟨_, rfl⟩ := Prod.mk.inj (Option.some.inj h)
      have e := route_start hr
      exact e

theorem os_free_start (c : Config) (ptr : Nat) (s : State) :
    (os_free c ptr s).heap_start = s.heap_start := by
  unfold os_free
  split
  · rfl
  · dsimp only
    split
    · rfl
    · split
      · unfold remove_block munmap
        split <;> rfl
      · rfl

theorem realloc_move_start {c : Config} {fuel addr ptr size block p : Nat} {s s1 : State}
    (h : realloc_move c fuel addr ptr size block s = some (p, s1)) :
    s1.heap_start = s.heap_start := by
  unfold realloc_move at h
  split at h
  · simp at h
  · rename_i hm
    obtain ⟨_, rfl⟩ := Prod.mk.inj (Option.some.inj h)
    rw [os_free_start]
    have e := os_malloc_start hm
    exact e

theorem realloc_tail_start {size block last : Nat} {s s1 : State}
    (h : realloc_tail size block last s = some s1) : s1.heap_start = s.heap_start := by
  unfold realloc_tail at h
  split at h
  · split at h
    · simp at h
    · rename_i hs
      have := Option.some.inj h
      subst this
      have e := sbrk_start hs
      exact e
  · have := Option.some.inj h
    subst this
    rfl

theorem os_realloc_start {c : Config} {fuel addr ptr size p : Nat} {s s1 : State}
    (h : os_realloc c fuel addr ptr size s = some (p, s1)) :
    s1.heap_start = s.heap_start := by
  unfold os_realloc at h
  split at h
  · exact os_malloc_start h
  · split at h
    · obtain ⟨_, rfl⟩ := Prod.mk.inj (Option.some.inj h)
      exact os_free_start _ _ _
    · simp only at h
      split at h
      · obtain ⟨_, rfl⟩ := Prod.mk.inj (Option.some.inj h)
        rfl
      · split at h
        · obtain ⟨_, rfl⟩ := Prod.mk.inj (Option.some.inj h)
          rfl
        · split at h
          · exact realloc_move_start h
          · split at h
            · split at h
              · split at h
                · simp at h
                · split at h
                  · simp at h
                  · rename_i ht
                    have e1 := realloc_tail_start ht
                    split at h
                    · simp at h
                    · split at h
                      · rw [realloc_move_start h]
                        exact e1
                      · obtain ⟨_, rfl⟩ := Prod.mk.inj (Option.some.inj h)
                        exact e1
              · obtain ⟨_, rfl⟩ := Prod.mk.inj (Option.some.inj h)
                rfl
            · obtain ⟨_, rfl⟩ := Prod.mk.inj (Option.some.inj h)
              rfl

theorem step_start {c : Config} {strict : Prop} {s s1 : State} (h : Step c strict s s1) :
    s1.heap_start = s.heap_start := by
  cases h with
  | malloc fuel addr size p _ _ hrun => exact os_malloc_start hrun
  | calloc fuel addr nmemb size p _ _ _ _ hrun => exact os_calloc_start hrun
  | realloc fuel addr ptr size p _ _ _ hrun => exact os_realloc_start hrun
  | free ptr _ => exact os_free_start _ _ _
  | store d => rfl

/-! ## Every reachable state is well-formed -/

theorem init_inv (c : Config) (g : Nat) {b0 : Nat} (h0 : 0 < b0) (hW : b0 < WORD) :
    Inv c g (init b0) [] [] := by
  refine ⟨⟨rfl, ⟨le_refl _, Nat.le_add_right _ _⟩, ⟨fun _ => rfl, fun h => absurd rfl h⟩,
    heap_blocks_ok_nil⟩, ⟨rfl, List.nodup_nil, List.chain'_nil, by simp, by simp, rfl⟩, ?_⟩
  exact ⟨h0, le_refl _, hW, by simp [init], by simp [init]⟩

theorem step_inv {c : Config} {strict : Prop} {g : Nat} {s s1 : State} {l ml : List Nat}
    (hc : ConfigOk c) (hg : GapOk g) (hgs : g = 0 → strict) (hinv : Inv c g s l ml)
    (hstep : Step c strict s s1) : ∃ l1 ml1, Inv c g s1 l1 ml1 := by
  cases hstep with
  | malloc fuel addr size p hsz hf hrun =>
    obtain ⟨l1, ml1, q, _⟩ := os_malloc_inv hc hg hinv hsz hf hrun
    exact ⟨l1, ml1, q⟩
  | calloc fuel addr nmemb size p hprod hsz hf hstrict hrun =>
    obtain ⟨l1, ml1, q, _⟩ :=
      os_calloc_inv hc hg hinv hprod hsz hf (fun h => hstrict (hgs h)) hrun
    exact ⟨l1, ml1, q⟩
  | realloc fuel addr ptr size p hlive hsz hf hrun =>
    exact os_realloc_inv hc hg hinv hlive hsz hf hrun
  | free ptr hlive => exact os_free_inv hc hinv hlive
  | store d =>
    exact ⟨l, ml, heapinv_frame hinv.toHeapInv (fun _ _ => rfl) rfl rfl rfl rfl,
      mapinv_frame hinv.toMapInv (fun _ _ => rfl) rfl rfl, osok_congr hinv.os rfl rfl rfl⟩

/-- Every reachable state is well-formed; when the runs are `strict` the heap list has
no gaps (gap bound `0`). -/
theorem reachable_inv {c : Config} {strict : Prop} {g b0 : Nat} {s : State}
    (hc : ConfigOk c) (hg : GapOk g) (hgs : g = 0 → strict) (h0 : 0 < b0) (hW : b0 < WORD)
    (hr : Reachable c strict b0 s) : ∃ l ml, Inv c g s l ml ∧ s.heap_start = b0 := by
  induction hr with
  | init => exact ⟨[], [], init_inv c g h0 hW, rfl⟩
  | step _ hstep ih =>
    obtain ⟨l, ml, hinv, hb⟩ := ih
    obtain ⟨l1, ml1, q⟩ := step_inv hc hg hgs hinv hstep
    exact ⟨l1, ml1, q, (step_start hstep).trans hb⟩

/-! ## The claims -/

/-- The first request to the heap, through the tail shared by `os_malloc` and
`os_calloc`. -/
theorem route_first (c : Config) (s : State) (fuel addr n limit mc : Nat)
    (hflag : s.first_sbrk = 0) (hhead : s.brk_blocks = 0) (hbrk : s.brk ≠ 0)
    (hok : SbrkOk s MMAP_THRESHOLD) (hn : n + c.META_SIZE < limit)
    (hlim : limit = if mc = 1 then MMAP_THRESHOLD else c.PAGE_SIZE)
    (hlimW : limit < WORD) :
    ∃ s1, route c fuel addr n limit mc s = some (s.brk, s1) ∧
      FirstBlock c limit s s1 (s.brk + c.META_SIZE) ∧ s1.data = s.data := by
  have ht : MMAP_THRESHOLD = 131072 := rfl
  have hW := WORD_eq
  have hw : wadd n c.META_SIZE = n + c.META_SIZE := wadd_of_lt (by omega)
  obtain ⟨e1, e2⟩ := sbrk_ok_brk hok (by rw [ht]; norm_num)
  have hsz : wsub limit c.META_SIZE = limit - c.META_SIZE :=
    wsub_of_le (by omega) (by omega)
  unfold route
  rw [if_neg (by rw [hw]; omega)]
  unfold brk_alloc
  rw [if_pos hflag, heap_preallocation_eq, if_pos hok, ← hlim, hsz]
  simp only [hhead, if_true]
  refine ⟨_, rfl, ⟨rfl, rfl, e1, rfl, rfl, ?_, ?_, rfl, rfl⟩, rfl⟩
  · simp only [set_prev, set_next, set_size, set_status, if_true]
  · intro fuel hf
    obtain ⟨k, rfl⟩ : ∃ k, fuel = k + 2 := ⟨fuel - 2, by omega⟩
    simp [heap_view, walk, hbrk, view]

/-- Claim C1, as amended.  From the initial state, with `META_SIZE = 32`, the call
`os_malloc(100)` extends the break once, by 131072 bytes, and leaves a heap list of
exactly one block: an ALLOC block of size 131040 at the old break.  The block that is
pre-allocated is handed out whole; it is not split. -/
theorem C1_first_malloc (c : Config) (hc : c.META_SIZE = 32) (b0 fuel addr : Nat)
    (h0 : 0 < b0) (hb : b0 + 131072 < WORD) (hf : 2 ≤ fuel) :
    ∃ s1, os_malloc c fuel addr 100 (init b0) = some (b0 + 32, s1) ∧
      s1.calls = [OsCall.sbrk 131072] ∧ s1.brk = b0 + 131072 ∧
      heap_view fuel s1 = some [⟨b0, 131040, Status.ALLOC⟩] := by
  have ha : ALIGN 100 = 104 := by decide
  have hok : SbrkOk (init b0) MMAP_THRESHOLD := by
    unfold SbrkOk
    rw [if_pos (by decide)]
    exact ⟨hb, by simp [init]⟩
  obtain ⟨s1, h1, h2, _⟩ := route_first c (init b0) fuel addr (ALIGN 100) MMAP_THRESHOLD 1
    rfl rfl (Nat.pos_iff_ne_zero.mp h0)
    hok (by rw [ha, hc]; decide) (by simp) (by decide)
  obtain ⟨_, q2, q3, _, _, _, q7, _⟩ := h2
  refine ⟨s1, ?_, q2, q3, ?_⟩
  · unfold os_malloc
    rw [if_neg (by decide), h1]
    simp only [Option.some.injEq, Prod.mk.injEq, and_true]
    rw [hc]
    exact wadd_of_lt (by rw [WORD_eq] at hb ⊢; show b0 + 32 < _; omega)
  · have := q7 fuel hf
    rw [hc] at this
    exact this

/-- Witness for `C1_first_malloc`: the break starts at 4096. -/
theorem C1_first_malloc_witness :
    (0 < 4096 ∧ 4096 + 131072 < WORD ∧ 2 ≤ 2) ∧
    ∃ s1, os_malloc cfg 2 0 100 (init 4096) = some (4096 + 32, s1) ∧
      s1.calls = [OsCall.sbrk 131072] ∧ s1.brk = 4096 + 131072 ∧
      heap_view 2 s1 = some [⟨4096, 131040, Status.ALLOC⟩] :=
  ⟨by decide, C1_first_malloc cfg rfl 4096 2 0 (by decide) (by decide) (by decide)⟩

/-- Claim C1 fails as stated: after `os_malloc(100)` from the initial state (break at
4096) the heap list is one ALLOC block of size 131040, not an ALLOC block of size 104
followed by a FREE block of size 130904. -/
theorem C1_counterexample :
    (os_malloc cfg 2 0 100 (init 4096)).map (fun r => heap_view 2 r.2) =
        some (some [⟨4096, 131040, Status.ALLOC⟩]) ∧
    (os_malloc cfg 2 0 100 (init 4096)).map (fun r => heap_view 2 r.2) ≠
        some (some [⟨4096, 104, Status.ALLOC⟩, ⟨4096 + 32 + 104, 130904, Status.FREE⟩]) := by
  decide

/-- Claim C2.  While the heap is not initialised (`first_sbrk = 0`, empty heap list), a
request that is routed to the heap (`os_malloc(size)` with
`ALIGN(size) + META_SIZE < MMAP_THRESHOLD`, or `os_calloc(nmemb, size)` with
`ALIGN(size * nmemb) + META_SIZE < PAGE_SIZE`) and whose extension of the break the
system grants makes exactly one call `sbrk(MMAP_THRESHOLD)`; the heap list becomes one
ALLOC block at the old break with `prev = next = NULL` and of size
`max_chunk - META_SIZE` (`max_chunk` is `MMAP_THRESHOLD` for `os_malloc` and `PAGE_SIZE`
for `os_calloc`); `first_sbrk` is set; and the pointer returned is the old break plus
`META_SIZE`. -/
theorem C2_first_request (c : Config) (s : State) (fuel addr : Nat)
    (hflag : s.first_sbrk = 0) (hhead : s.brk_blocks = 0) (hbrk : s.brk ≠ 0)
    (hok : SbrkOk s MMAP_THRESHOLD) :
    (∀ size, size ≠ 0 → ALIGN size + c.META_SIZE < MMAP_THRESHOLD →
      ∃ s1, os_malloc c fuel addr size s = some (s.brk + c.META_SIZE, s1) ∧
        FirstBlock c MMAP_THRESHOLD s s1 (s.brk + c.META_SIZE)) ∧
    (∀ nmemb size, nmemb ≠ 0 → size ≠ 0 → c.PAGE_SIZE < WORD →
      c.META_SIZE ≤ MMAP_THRESHOLD →
      ALIGN ((size * nmemb) % WORD) + c.META_SIZE < c.PAGE_SIZE →
      ∃ s1, os_calloc c fuel addr nmemb size s = some (s.brk + c.META_SIZE, s1) ∧
        FirstBlock c c.PAGE_SIZE s s1 (s.brk + c.META_SIZE)) := by
  have ht : MMAP_THRESHOLD = 131072 := rfl
  have hW := WORD_eq
  obtain ⟨e1, e2⟩ := sbrk_ok_brk hok (by rw [ht]; norm_num)
  constructor
  · intro size hs hn
    obtain ⟨s1, h1, h2, _⟩ := route_first c s fuel addr (ALIGN size) MMAP_THRESHOLD 1
      hflag hhead hbrk hok hn (by simp) (by omega)
    refine ⟨s1, ?_, h2⟩
    unfold os_malloc
    rw [if_neg hs, h1]
    simp only [Option.some.injEq, Prod.mk.injEq, and_true]
    exact wadd_of_lt (by omega)
  · intro nmemb size hn hs hP hH hlt
    obtain ⟨s1, h1, h2, _⟩ := route_first c s fuel addr (ALIGN ((size * nmemb) % WORD))
      c.PAGE_SIZE 0 hflag hhead hbrk hok hlt (by simp) hP
    have hp : wadd s.brk c.META_SIZE = s.brk + c.META_SIZE := wadd_of_lt (by omega)
    refine ⟨{ s1 with data := (memset s1.data (s.brk + c.META_SIZE) 0 ((size * nmemb) % WORD)) },
      ?_, h2⟩
    unfold os_calloc
    rw [if_neg (by simp [hn, hs]), h1]
    simp only [hp]

/-- Witness for `C2_first_request`: `os_malloc(100)` and `os_calloc(1, 8)` in the initial
state with the break at 4096. -/
theorem C2_first_request_witness :
    ((init 4096).first_sbrk = 0 ∧ (init 4096).brk_blocks = 0 ∧ (init 4096).brk ≠ 0 ∧
      SbrkOk (init 4096) MMAP_THRESHOLD) ∧
    (100 ≠ 0 ∧ ALIGN 100 + cfg.META_SIZE < MMAP_THRESHOLD) ∧
    (∃ s1, os_malloc cfg 2 0 100 (init 4096) = some ((init 4096).brk + cfg.META_SIZE, s1) ∧
        FirstBlock cfg MMAP_THRESHOLD (init 4096) s1 ((init 4096).brk + cfg.META_SIZE)) ∧
    (1 ≠ 0 ∧ 8 ≠ 0 ∧ cfg.PAGE_SIZE < WORD ∧ cfg.META_SIZE ≤ MMAP_THRESHOLD ∧
      ALIGN ((8 * 1) % WORD) + cfg.META_SIZE < cfg.PAGE_SIZE) ∧
    (∃ s1, os_calloc cfg 2 0 1 8 (init 4096) =
          some ((init 4096).brk + cfg.META_SIZE, s1) ∧
        FirstBlock cfg cfg.PAGE_SIZE (init 4096) s1 ((init 4096).brk + cfg.META_SIZE)) :=
  ⟨by decide, by decide,
    (C2_first_request cfg (init 4096) 2 0 rfl rfl (by decide) (by decide)).1 100
      (by decide) (by decide),
    by decide,
    (C2_first_request cfg (init 4096) 2 0 rfl rfl (by decide) (by decide)).2 1 8
      (by decide) (by decide) (by decide) (by decide) (by decide)⟩

/-- Two neighbours of a list in memory whose blocks are laid out with gap bound `g`: the
second starts at or after the end of the first, at most `g` bytes after it. -/
theorem chain_layout_next {c : Config} {g : Nat} {m : Mem} {l : List Nat} {p lo hi : Nat}
    (hs : Chain m p l) (hl : Layout c g lo hi (l.map (view m))) :
    ∀ X ∈ l, (m X).next ≠ 0 →
      X + c.META_SIZE + (m X).size ≤ (m X).next ∧
      (m X).next ≤ X + c.META_SIZE + (m X).size + g := by
  induction l generalizing p lo with
  | nil => simp
  | cons a t ih =>
    obtain ⟨h1, h2, h3⟩ := hs
    obtain ⟨k1, k2, k3⟩ := hl
    intro X hX hne
    rcases List.mem_cons.mp hX with rfl | hX
    · cases t with
      | nil => exact absurd h3 hne
      | cons b t =>
        obtain ⟨e1, _, _⟩ := h3
        obtain ⟨q1, q2, _⟩ := k3
        rw [e1]
        exact ⟨q1, q2⟩
    · exact ih h3 k3 X hX hne

/-- The platform of the scenarios is well-formed. -/
theorem cfg_ok : ConfigOk cfg := by
  unfold ConfigOk
  decide

/-- Claim C3, as amended.  In every state reached from the initial state by calls of
`os_malloc`, `os_calloc`, `os_realloc` and `os_free` on pointers in use, with request
sizes (for `os_calloc`, the product of its operands) for which neither the alignment nor
the addition of `META_SIZE` to the aligned size wraps, every two neighbours
`X`, `Y` of the heap list (`X.next = Y`) satisfy `addr(X) + META_SIZE + X.size ≤ addr(Y)`;
and they satisfy `addr(Y) = addr(X) + META_SIZE + X.size` when (`strict`) the first
request to the heap does not come from `os_calloc`, or a page is as large as the
threshold. -/
theorem C3_neighbours (c : Config) (hc : ConfigOk c) (b0 : Nat) (h0 : 0 < b0) (hW : b0 < WORD)
    (strict : Prop) (s : State) (hr : Reachable c strict b0 s) :
    ∃ l, Chain s.mem s.brk_blocks l ∧
      ∀ X ∈ l, ∀ Y, (s.mem X).next = Y → Y ≠ 0 →
        X + c.META_SIZE + (s.mem X).size ≤ Y ∧
        (strict → Y = X + c.META_SIZE + (s.mem X).size) := by
  by_cases hs : strict
  · obtain ⟨l, ml, hinv, _⟩ :=
      reachable_inv hc (Or.inl rfl : GapOk 0) (fun _ => hs) h0 hW hr
    refine ⟨l, hinv.hchain, ?_⟩
    intro X hX Y hY hne
    subst hY
    have := chain_layout_next hinv.hchain hinv.hlay X hX hne
    exact ⟨this.1, fun _ => by omega⟩
  · obtain ⟨l, ml, hinv, _⟩ :=
      reachable_inv hc (Or.inr (le_refl _) : GapOk WORD)
        (fun h => absurd h (by rw [WORD_eq]; norm_num)) h0 hW hr
    refine ⟨l, hinv.hchain, ?_⟩
    intro X hX Y hY hne
    subst hY
    have := chain_layout_next hinv.hchain hinv.hlay X hX hne
    exact ⟨this.1, fun h => absurd h hs⟩

/-- Witness for `C3_neighbours`: the state after `os_malloc(100)` twice, whose heap list
has two blocks. -/
theorem C3_neighbours_witness :
    (ConfigOk cfg ∧ 0 < 4096 ∧ 4096 < WORD ∧ Reachable cfg True 4096 malloc_twice) ∧
    ∃ l, Chain malloc_twice.mem malloc_twice.brk_blocks l ∧
      ∀ X ∈ l, ∀ Y, (malloc_twice.mem X).next = Y → Y ≠ 0 →
        X + cfg.META_SIZE + (malloc_twice.mem X).size ≤ Y ∧
        (True → Y = X + cfg.META_SIZE + (malloc_twice.mem X).size) :=
  have hr : Reachable cfg True 4096 malloc_twice :=
    Reachable.step
      (Reachable.step Reachable.init
        (Step.malloc 2 0 100 4128 (by decide) (by decide)
          (rfl : os_malloc cfg 2 0 100 (init 4096) = some (4128, malloc_first))))
      (Step.malloc 3 0 100 135200 (by decide) (by decide)
        (rfl : os_malloc cfg 3 0 100 malloc_first = some (135200, malloc_twice)))
  ⟨⟨cfg_ok, by decide, by decide, hr⟩,
    C3_neighbours cfg cfg_ok 4096 (by decide) (by decide) True malloc_twice hr⟩

/-- Claim C3 fails as stated.  After `os_calloc(1, 8)` and `os_malloc(100)` from the
initial state (break at 4096, pages of 4096 bytes) the heap list holds the block at 4096,
of size 4064, and next to it the block at 135168, while `4096 + 32 + 4064 = 8192`.  And
after `os_malloc(8)`, `os_malloc(2 ^ 64 - 32)` and `os_malloc(8)` (break at 4104) the block
at 135176, the second of the heap list, is its own neighbour. -/
theorem C3_counterexample :
    (Reachable cfg False 4096 calloc_then_malloc ∧
      heap_view 3 calloc_then_malloc =
        some [⟨4096, 4064, Status.ALLOC⟩, ⟨135168, 104, Status.ALLOC⟩] ∧
      (calloc_then_malloc.mem 4096).next = 135168 ∧
      135168 ≠ 4096 + cfg.META_SIZE + (calloc_then_malloc.mem 4096).size) ∧
    (os_malloc cfg 2 0 8 (init 4104) = some (4136, small_first) ∧
      os_malloc cfg 3 0 (2 ^ 64 - 32) small_first = some (135208, small_then_huge) ∧
      os_malloc cfg 3 0 8 small_then_huge = some (135208, small_huge_small) ∧
      small_huge_small.brk_blocks = 4104 ∧ (small_huge_small.mem 4104).next = 135176 ∧
      (small_huge_small.mem 135176).next = 135176 ∧
      135176 ≠ 135176 + cfg.META_SIZE + (small_huge_small.mem 135176).size) :=
  ⟨⟨Reachable.step
      (Reachable.step Reachable.init
        (Step.calloc 2 0 1 8 4128 (by decide) (by decide) (by decide) (fun h => h.elim)
          (rfl : os_calloc cfg 2 0 1 8 (init 4096) = some (4128, calloc_first))))
      (Step.malloc 3 0 100 135200 (by decide) (by decide)
        (rfl : os_malloc cfg 3 0 100 calloc_first = some (135200, calloc_then_malloc))),
      by decide, by decide, by decide⟩,
    ⟨rfl, rfl, rfl, by decide, by decide, by decide, by decide⟩⟩

/-- Blocks that are laid out in order end before the blocks after them begin. -/
theorem layout_pairwise {c : Config} {g : Nat} {l : List Blk} {lo hi : Nat}
    (hl : Layout c g lo hi l) :
    l.Pairwise (fun x y => x.addr + c.META_SIZE + x.size ≤ y.addr) := by
  induction l generalizing lo with
  | nil => exact List.Pairwise.nil
  | cons a t ih =>
    obtain ⟨_, _, h3⟩ := hl
    exact List.Pairwise.cons (fun y hy => (layout_mem h3 y hy).1) (ih h3)

/-- Claim C4, as amended.  In every state reached from the initial state by calls of the
public operations on pointers in use, with request sizes (for `os_calloc`, the product
of its operands) for which neither the alignment nor the addition of `META_SIZE` to the
aligned size wraps, the ranges
`[addr, addr + META_SIZE + size)` of the blocks of the heap list come in increasing
order along the list, are pairwise disjoint, and lie between the initial break and
the current break; so no byte of a payload lies in a header or in another payload. -/
theorem C4_ranges (c : Config) (hc : ConfigOk c) (b0 : Nat) (h0 : 0 < b0) (hW : b0 < WORD)
    (strict : Prop) (s : State) (hr : Reachable c strict b0 s) :
    ∃ l, Chain s.mem s.brk_blocks l ∧
      l.Pairwise (fun a b => a + c.META_SIZE + (s.mem a).size ≤ b) ∧
      (∀ a ∈ l, ∀ b ∈ l, a ≠ b →
        a + c.META_SIZE + (s.mem a).size ≤ b ∨ b + c.META_SIZE + (s.mem b).size ≤ a) ∧
      (∀ a ∈ l, b0 ≤ a ∧ a + c.META_SIZE + (s.mem a).size ≤ s.brk) ∧
      (∀ a ∈ l, ∀ b ∈ l, ∀ x, a + c.META_SIZE ≤ x → x < a + c.META_SIZE + (s.mem a).size →
        ¬ (b ≤ x ∧ x < b + c.META_SIZE) ∧
        (a ≠ b → ¬ (b + c.META_SIZE ≤ x ∧ x < b + c.META_SIZE + (s.mem b).size))) := by
  obtain ⟨l, ml, hinv, hb⟩ :=
    reachable_inv hc (Or.inr (le_refl _) : GapOk WORD)
      (fun h => absurd h (by rw [WORD_eq]; norm_num)) h0 hW hr
  have hp : l.Pairwise (fun a b => a + c.META_SIZE + (s.mem a).size ≤ b) := by
    have := layout_pairwise hinv.hlay
    rw [List.pairwise_map] at this
    exact this
  have hd : ∀ a ∈ l, ∀ b ∈ l, a ≠ b →
      a + c.META_SIZE + (s.mem a).size ≤ b ∨ b + c.META_SIZE + (s.mem b).size ≤ a := by
    have hs : l.Pairwise (fun a b =>
        a + c.META_SIZE + (s.mem a).size ≤ b ∨ b + c.META_SIZE + (s.mem b).size ≤ a) :=
      hp.imp (fun h => Or.inl h)
    intro a ha b hb hab
    exact hs.forall (fun x y h => h.symm) ha hb hab
  refine ⟨l, hinv.hchain, hp, hd, ?_, ?_⟩
  · intro a ha
    have := inv_bounds hinv a ha
    rw [hb] at this
    exact this
  · intro a ha b hb x h1 h2
    by_cases hab : a = b
    · subst hab
      exact ⟨by omega, fun h => absurd rfl h⟩
    · have := hd a ha b hb hab
      exact ⟨by omega, fun _ => by omega⟩

/-- Witness for `C4_ranges`: the state after `os_malloc(100)` twice, whose heap list has
two blocks. -/
theorem C4_ranges_witness :
    (ConfigOk cfg ∧ 0 < 4096 ∧ 4096 < WORD ∧ Reachable cfg False 4096 malloc_twice) ∧
    ∃ l, Chain malloc_twice.mem malloc_twice.brk_blocks l ∧
      l.Pairwise (fun a b => a + cfg.META_SIZE + (malloc_twice.mem a).size ≤ b) ∧
      (∀ a ∈ l, ∀ b ∈ l, a ≠ b →
        a + cfg.META_SIZE + (malloc_twice.mem a).size ≤ b ∨
        b + cfg.META_SIZE + (malloc_twice.mem b).size ≤ a) ∧
      (∀ a ∈ l, 4096 ≤ a ∧ a + cfg.META_SIZE + (malloc_twice.mem a).size ≤ malloc_twice.brk) ∧
      (∀ a ∈ l, ∀ b ∈ l, ∀ x, a + cfg.META_SIZE ≤ x →
        x < a + cfg.META_SIZE + (malloc_twice.mem a).size →
        ¬ (b ≤ x ∧ x < b + cfg.META_SIZE) ∧
        (a ≠ b → ¬ (b + cfg.META_SIZE ≤ x ∧
          x < b + cfg.META_SIZE + (malloc_twice.mem b).size))) :=
  have hr : Reachable cfg False 4096 malloc_twice :=
    Reachable.step
      (Reachable.step Reachable.init
        (Step.malloc 2 0 100 4128 (by decide) (by decide)
          (rfl : os_malloc cfg 2 0 100 (init 4096) = some (4128, malloc_first))))
      (Step.malloc 3 0 100 135200 (by decide) (by decide)
        (rfl : os_malloc cfg 3 0 100 malloc_first = some (135200, malloc_twice)))
  ⟨⟨cfg_ok, by decide, by decide, hr⟩,
    C4_ranges cfg cfg_ok 4096 (by decide) (by decide) False malloc_twice hr⟩

/-- Claim C4 fails as stated: the size `2 ^ 64 - 32` is aligned without wrapping, yet
after `os_malloc(8)` and `os_malloc(2 ^ 64 - 32)` from the initial state (break at 4104)
the heap list holds, after the block at 4104, a block of size `2 ^ 64 - 32` at the
break itself, 135176: its range lies outside the region between the initial break and
the break. -/
theorem C4_counterexample :
    os_malloc cfg 2 0 8 (init 4104) = some (4136, small_first) ∧
    (2 ^ 64 - 32) + 7 < WORD ∧ ALIGN (2 ^ 64 - 32) = 2 ^ 64 - 32 ∧
    os_malloc cfg 3 0 (2 ^ 64 - 32) small_first = some (135208, small_then_huge) ∧
    heap_view 3 small_then_huge =
      some [⟨4104, 131040, Status.ALLOC⟩, ⟨135176, 2 ^ 64 - 32, Status.ALLOC⟩] ∧
    small_then_huge.calls = [OsCall.sbrk 131072, OsCall.sbrk 0] ∧
    small_then_huge.brk = 135176 ∧
    ¬ (135176 + cfg.META_SIZE + (small_then_huge.mem 135176).size ≤ small_then_huge.brk) :=
  ⟨rfl, by decide, by decide, rfl, by decide, by decide, by decide, by decide⟩

/-! ### Which calls the allocation paths make -/

/-- A system that grants an extension of the break grants every smaller one. -/
theorem sbrk_ok_mono {s : State} {d e : Nat} (h : SbrkOk s e) (he : e < 2 ^ 63)
    (hd : d ≤ e) : SbrkOk s d := by
  unfold SbrkOk at h ⊢
  rw [if_pos he] at h
  rw [if_pos (by omega)]
  exact ⟨by omega, fun r hr => by have := h.2 r hr; omega⟩

theorem brk_outcome_le {c : Config} {n brk r : Nat} {v w : List Blk} {d : Option Nat}
    (ho : BrkOutcome c n brk v r w d) : ∀ inc, d = some inc → inc ≤ n + c.META_SIZE := by
  cases ho with
  | whole => intro inc h; simp at h
  | split => intro inc h; simp at h
  | grow pre last =>
    intro inc h
    have : n - last.size = inc := by simpa using h
    omega
  | append pre last =>
    intro inc h
    have : n + c.META_SIZE = inc := by simpa using h
    omega

/-- The function `brk_alloc` returns a block whenever the system grants an extension
of the break by `MMAP_THRESHOLD` bytes. -/
theorem brk_alloc_total {c : Config} {g : Nat} {s : State} {l ml : List Nat}
    (hc : ConfigOk c) (hg : GapOk g) (hinv : Inv c g s l ml)
    {n : Nat} (hnT : n + c.META_SIZE < MMAP_THRESHOLD) (mc : Nat) {fuel : Nat}
    (hf : l.length < fuel) (hok : SbrkOk s MMAP_THRESHOLD) :
    ∃ r s1, brk_alloc c fuel n mc s = some (r, s1) := by
  have ht : MMAP_THRESHOLD = 131072 := rfl
  have hW := WORD_eq
  by_cases hinit : s.first_sbrk = 0
  · have e : brk_alloc c fuel n mc s = heap_preallocation c mc s := by
      unfold brk_alloc; rw [if_pos hinit]
    rw [e, heap_preallocation_eq, if_pos hok]
    exact ⟨_, _, rfl⟩
  · obtain ⟨r, w, d, hout, _, hsome⟩ :=
      brk_alloc_effect hc hg hinv hinit (n := n) (by omega) mc hf
    have hso : ∃ so, os_sbrk s d = some so := by
      cases d with
      | none => exact ⟨s, rfl⟩
      | some inc =>
        have hle := brk_outcome_le hout inc rfl
        exact ⟨_, os_sbrk_some_iff.mpr
          ⟨sbrk_ok_mono hok (by rw [ht]; norm_num) (by omega), rfl⟩⟩
    obtain ⟨so, hso⟩ := hso
    obtain ⟨m, l1, hr, _⟩ := hsome so hso
    exact ⟨r, _, hr⟩

theorem sbrk_calls {s s1 : State} {d p : Nat} (h : sbrk s d = some (p, s1)) :
    s1.calls = s.calls ++ [OsCall.sbrk d] := by
  unfold sbrk at h
  split at h
  · obtain ⟨_, rfl⟩ := Prod.mk.inj (Option.some.inj h)
    rfl
  · simp at h

/-- The function `brk_alloc` makes at most one call to the system, a call of `sbrk`. -/
theorem brk_alloc_calls {c : Config} {fuel n mc r : Nat} {s s1 : State}
    (h : brk_alloc c fuel n mc s = some (r, s1)) :
    s1.calls = s.calls ∨ ∃ d, s1.calls = s.calls ++ [OsCall.sbrk d] := by
  unfold brk_alloc at h
  split at h
  · rw [heap_preallocation_eq] at h
    split at h
    · obtain ⟨_, rfl⟩ := Prod.mk.inj (Option.some.inj h)
      exact Or.inr ⟨_, rfl⟩
    · simp at h
  · unfold coalesce_blocks at h
    cases hco : coalesce_loop c fuel s.mem s.brk_blocks with
    | none => rw [hco] at h; simp at h
    | some m1 =>
      rw [hco] at h
      simp only [Option.map_some'] at h
      split at h
      · simp at h
      · split at h
        · obtain ⟨_, rfl⟩ := Prod.mk.inj (Option.some.inj h)
          exact Or.inl rfl
        · split at h
          · simp at h
          · split at h
            · split at h
              · simp at h
              · rename_i hs
                obtain ⟨_, rfl⟩ := Prod.mk.inj (Option.some.inj h)
                have e := sbrk_calls hs
                exact Or.inr ⟨_, e⟩
            · split at h
              · simp at h
              · rename_i hs
                obtain ⟨_, rfl⟩ := Prod.mk.inj (Option.some.inj h)
                have e := sbrk_calls hs
                exact Or.inr ⟨_, e⟩

theorem chain_head_eq {m m1 : Mem} {l : List Nat} {p p1 : Nat}
    (h : Chain m p l) (h1 : Chain m1 p1 l) : p = p1 := by
  cases l with
  | nil => exact Eq.trans h h1.symm
  | cons a t => exact h.1.trans h1.1.symm

/-- A request that the tail shared by `os_malloc` and `os_calloc` routes to the heap
leaves the mapped list and the live mappings as they are and makes no call but, at
most, one call of `sbrk`. -/
theorem route_brk_frame {c : Config} {g : Nat} {s s1 : State} {l ml : List Nat}
    (hc : ConfigOk c) (hg : GapOk g) (hg0 : g ≠ 0) (hinv : Inv c g s l ml)
    {n limit mc addr fuel r : Nat} (hn8 : n % 8 = 0) (hn : 8 ≤ n)
    (hlim : limit = if mc = 1 then MMAP_THRESHOLD else c.PAGE_SIZE)
    (hlt : n + c.META_SIZE < limit) (hf1 : l.length < fuel)
    (hrun : route c fuel addr n limit mc s = some (r, s1)) :
    Chain s1.mem s1.mmap_blocks ml ∧ (∀ a ∈ ml, view s1.mem a = view s.mem a) ∧
      s1.maps = s.maps ∧ s1.mmap_blocks = s.mmap_blocks ∧
      (s1.calls = s.calls ∨ ∃ d, s1.calls = s.calls ++ [OsCall.sbrk d]) := by
  have ht : MMAP_THRESHOLD = 131072 := rfl
  have hW := WORD_eq
  have hlimT : limit ≤ MMAP_THRESHOLD := by
    rw [hlim]; split
    · exact le_refl _
    · exact hc.2.2.2.2
  have hw : wadd n c.META_SIZE = n + c.META_SIZE := wadd_of_lt (by omega)
  unfold route at hrun
  rw [if_neg (by rw [hw]; omega)] at hrun
  cases hb : brk_alloc c fuel n mc s with
  | none => rw [hb] at hrun; simp at hrun
  | some res =>
    obtain ⟨r0, s0⟩ := res
    rw [hb] at hrun
    have hcalls := brk_alloc_calls hb
    have key : ∃ l1, Inv c g s1 l1 ml ∧ (∀ a ∈ ml, (s1.mem a).size = (s.mem a).size) ∧
        s1.calls = s0.calls := by
      by_cases hinit : s.first_sbrk = 0
      · have hb1 : heap_preallocation c mc s = some (r0, s0) := by
          unfold brk_alloc at hb; rw [if_pos hinit] at hb; exact hb
        obtain ⟨q1, q2, q3, q4, q5, q6, q7, q8⟩ :=
          prealloc_inv hc hg hinv hinit (fun h => absurd h hg0) hb1
        simp only [q3, if_true] at hrun
        obtain ⟨hr, hs1⟩ := Prod.mk.inj (Option.some.inj hrun)
        subst hr
        subst hs1
        exact ⟨[r0], q1, fun a ha => congrArg block_meta.size (q8 a ha), rfl⟩
      · obtain ⟨l1, q1, q2, q3, q4, q5, q6, q7, q8, q9⟩ :=
          brk_heap_inv hc hg hinv hinit hn8 hn (by omega) mc hf1 hb
        simp only [q8, if_false] at hrun
        obtain ⟨hr, hs1⟩ := Prod.mk.inj (Option.some.inj hrun)
        subst hr
        subst hs1
        exact ⟨l1, q1, fun a ha => (q2.mapped a ha).2, rfl⟩
    obtain ⟨l1, hinv1, hsz, hc1⟩ := key
    have hview : ∀ a ∈ ml, view s1.mem a = view s.mem a := fun a ha =>
      view_congr (hsz a ha) ((hinv1.mstat a ha).trans (hinv.mstat a ha).symm)
    refine ⟨hinv1.mchain, hview, ?_, chain_head_eq hinv1.mchain hinv.mchain, ?_⟩
    · rw [hinv1.mmaps, hinv.mmaps]
      exact List.map_congr_left fun a ha => by rw [hsz a ha]
    · rw [hc1]
      exact hcalls

/-- A request that the tail shared by `os_malloc` and `os_calloc` routes to `mmap_alloc`
returns the block at the address the system chose, and fails only when the system
refuses the mapping. -/
theorem route_mmap_total {c : Config} {g : Nat} {s : State} {l ml : List Nat}
    (hc : ConfigOk c) (hinv : Inv c g s l ml) (n limit mc addr fuel : Nat)
    (hnW : n + c.META_SIZE < WORD) (hge : limit ≤ n + c.META_SIZE)
    (hf2 : ml.length < fuel) :
    (MmapOk s (n + c.META_SIZE) addr →
      ∃ s1, route c fuel addr n limit mc s = some (addr, s1)) ∧
    (¬ MmapOk s (n + c.META_SIZE) addr → route c fuel addr n limit mc s = none) := by
  have hw : wadd n c.META_SIZE = n + c.META_SIZE := wadd_of_lt hnW
  have hH := hc.1
  unfold route
  rw [if_pos (by rw [hw]; exact hge), mmap_alloc_eq, hw]
  constructor
  · intro hok
    rw [if_pos hok]
    obtain ⟨k1, k2, k3, k4, k5⟩ := hok
    have haml : addr ∉ ml := by
      intro ha
      have hmem : (addr, (s.mem addr).size + c.META_SIZE) ∈ s.maps := by
        rw [hinv.mmaps]
        exact List.mem_map_of_mem (fun a => (a, (s.mem a).size + c.META_SIZE)) ha
      have := k5 _ hmem
      simp only at this
      omega
    by_cases hmb : s.mmap_blocks = 0
    · simp only [hmb, if_true]
      exact ⟨_, rfl⟩
    · have hmlne : ml ≠ [] := by
        intro h
        have := hinv.mchain
        rw [h] at this
        exact hmb this
      obtain ⟨pre, last, hml⟩ : ∃ pre last, ml = pre ++ [last] :=
        ⟨ml.dropLast, ml.getLast hmlne, (List.dropLast_append_getLast hmlne).symm⟩
      subst hml
      have hch4 : Chain (set_prev (set_next (set_size (set_status s.mem addr Status.MAPPED)
          addr n) addr 0) addr 0) s.mmap_blocks (pre ++ [last]) := by
        apply seg_congr _ hinv.mchain
        intro a ha
        have : a ≠ addr := fun h => haml (h ▸ ha)
        simp [this]
      have hlast := find_last_block_chain hch4 fuel (by simp at hf2; omega)
      simp only [hmb, if_false, hlast]
      exact ⟨_, rfl⟩
  · intro hok
    rw [if_neg hok]

/-- Claim C5, as amended.  In a reachable state, for every `size > 0` for which neither
the alignment nor the addition of `META_SIZE` to the aligned size wraps, `os_malloc(size)`
is served by mapping exactly when `ALIGN(size) + META_SIZE ≥ MMAP_THRESHOLD`, equality
included.  In that case, when the system grants a mapping at `addr`, the call returns
`addr + META_SIZE`, makes the one call `mmap` of `ALIGN(size) + META_SIZE` bytes, appends a
MAPPED block of size `ALIGN(size)` at the tail of the mapped list, and leaves the heap
list, `first_sbrk` and the break as they are (and it fails when the system refuses).
Otherwise the call returns whenever the system grants an extension of the break by
`MMAP_THRESHOLD` bytes, the mapped list and the live mappings are unchanged, and the
only call made, if any, is one call of `sbrk`. -/
theorem C5_routing (c : Config) (hc : ConfigOk c) (b0 : Nat) (h0 : 0 < b0) (hW : b0 < WORD)
    (strict : Prop) (s : State) (hr : Reachable c strict b0 s)
    (fuel addr size : Nat) (hs : size ≠ 0) (hsz : SizeOk c size) (hf : Adequate fuel s) :
    (MMAP_THRESHOLD ≤ ALIGN size + c.META_SIZE →
      (¬ MmapOk s (ALIGN size + c.META_SIZE) addr → os_malloc c fuel addr size s = none) ∧
      (MmapOk s (ALIGN size + c.META_SIZE) addr →
        ∃ s1, os_malloc c fuel addr size s = some (addr + c.META_SIZE, s1) ∧
          s1.calls = s.calls ++ [OsCall.mmap (ALIGN size + c.META_SIZE) addr] ∧
          s1.maps = s.maps ++ [(addr, ALIGN size + c.META_SIZE)] ∧
          mapped_view (fuel + 1) s1 =
            (mapped_view fuel s).map (fun mv => mv ++ [⟨addr, ALIGN size, Status.MAPPED⟩]) ∧
          (mapped_view fuel s).isSome ∧
          heap_view fuel s1 = heap_view fuel s ∧ s1.brk_blocks = s.brk_blocks ∧
          s1.first_sbrk = s.first_sbrk ∧ s1.brk = s.brk)) ∧
    (ALIGN size + c.META_SIZE < MMAP_THRESHOLD →
      (SbrkOk s MMAP_THRESHOLD → ∃ p s1, os_malloc c fuel addr size s = some (p, s1)) ∧
      ∀ p s1, os_malloc c fuel addr size s = some (p, s1) →
        mapped_view fuel s1 = mapped_view fuel s ∧ s1.mmap_blocks = s.mmap_blocks ∧
        s1.maps = s.maps ∧
        (s1.calls = s.calls ∨ ∃ d, s1.calls = s.calls ++ [OsCall.sbrk d])) := by
  have hWe := WORD_eq
  have hg : GapOk WORD := Or.inr (le_refl _)
  have hg0 : WORD ≠ 0 := by rw [hWe]; norm_num
  obtain ⟨l, ml, hinv, hb⟩ := reachable_inv hc hg (fun h => absurd h hg0) h0 hW hr
  obtain ⟨hf1, hf2⟩ := adequate_lengths hinv hf
  have hn8 := ALIGN_mod size
  have hn := ALIGN_pos hsz.1 hs
  have hmv : mapped_view fuel s = some (ml.map (view s.mem)) := by
    unfold mapped_view; rw [walk_chain hinv.mchain fuel hf2]; rfl
  have hhv : heap_view fuel s = some (l.map (view s.mem)) := by
    unfold heap_view; rw [walk_chain hinv.hchain fuel hf1]; rfl
  constructor
  · intro hge
    obtain ⟨t1, t2⟩ := route_mmap_total hc hinv (ALIGN size) MMAP_THRESHOLD 1 addr fuel
      hsz.2 hge hf2
    constructor
    · intro hno
      unfold os_malloc
      rw [if_neg hs, t2 hno]
    · intro hok
      obtain ⟨s1, hrun⟩ := t1 hok
      obtain ⟨k1, k2, k3, k4, k5, k6, k7, k8, k9, k10, k11, k12, k13, k14⟩ :=
        route_mmap_inv hc hinv hn8 hn hsz.2 hge hf2 hrun
      have hadd : wadd addr c.META_SIZE = addr + c.META_SIZE := by
        apply wadd_of_lt
        have := hok.2.2.1
        omega
      refine ⟨s1, ?_, k10, k11, ?_, by rw [hmv]; rfl, ?_, k13, k14, k12⟩
      · unfold os_malloc
        rw [if_neg hs, hrun]
        simp only [hadd]
      · rw [hmv]
        unfold mapped_view
        rw [walk_chain k1.mchain (fuel + 1) (by simp; omega)]
        simp only [Option.map_some', List.map_append, List.map_cons, List.map_nil]
        congr 2
        · exact map_view_congr fun a ha =>
            ⟨(k3.mapped a ha).2, (k1.mstat a (List.mem_append_left _ ha)).trans
              (hinv.mstat a ha).symm⟩
        · simp only [view, k5, k6]
      · rw [hhv]
        unfold heap_view
        rw [walk_chain k1.hchain fuel hf1]
        simp only [Option.map_some']
        congr 1
        exact List.map_congr_left fun a ha => by simp only [view, k9 a ha]
  · intro hlt
    constructor
    · intro hok
      obtain ⟨r, s0, hb0⟩ := brk_alloc_total hc hg hinv hlt 1 hf1 hok
      have hw : wadd (ALIGN size) c.META_SIZE = ALIGN size + c.META_SIZE :=
        wadd_of_lt hsz.2
      unfold os_malloc route
      rw [if_neg hs, if_neg (by rw [hw]; omega), hb0]
      by_cases hz : s0.brk_blocks = 0
      · simp only [hz, if_true]
        exact ⟨_, _, rfl⟩
      · simp only [hz, if_false]
        exact ⟨_, _, rfl⟩
    · intro p s1 hrun
      unfold os_malloc at hrun
      rw [if_neg hs] at hrun
      cases hroute : route c fuel addr (ALIGN size) MMAP_THRESHOLD 1 s with
      | none => rw [hroute] at hrun; simp at hrun
      | some res =>
        obtain ⟨r, s0⟩ := res
        rw [hroute] at hrun
        obtain ⟨_, hs1⟩ := Prod.mk.inj (Option.some.inj hrun)
        subst hs1
        obtain ⟨q1, q2, q3, q4, q5⟩ :=
          route_brk_frame hc hg hg0 hinv hn8 hn (by simp) hlt hf1 hroute
        refine ⟨?_, q4, q3, q5⟩
        rw [hmv]
        unfold mapped_view
        rw [walk_chain q1 fuel hf2]
        simp only [Option.map_some']
        congr 1
        exact List.map_congr_left q2

/-- Witness for `C5_routing`: in the state after `os_malloc(100)`, the request of size
131040, for which `ALIGN(size) + META_SIZE` equals the threshold, is mapped at the address
1048576, and the request of size 100 is served by the heap. -/
theorem C5_routing_witness :
    (ConfigOk cfg ∧ 0 < 4096 ∧ 4096 < WORD ∧ Reachable cfg False 4096 malloc_first ∧
      131040 ≠ 0 ∧ SizeOk cfg 131040 ∧ 100 ≠ 0 ∧ SizeOk cfg 100 ∧ Adequate 3 malloc_first) ∧
    (MMAP_THRESHOLD ≤ ALIGN 131040 + cfg.META_SIZE ∧
      MmapOk malloc_first (ALIGN 131040 + cfg.META_SIZE) 1048576) ∧
    (∃ s1, os_malloc cfg 3 1048576 131040 malloc_first =
          some (1048576 + cfg.META_SIZE, s1) ∧
        s1.calls = malloc_first.calls ++ [OsCall.mmap (ALIGN 131040 + cfg.META_SIZE) 1048576] ∧
        s1.maps = malloc_first.maps ++ [(1048576, ALIGN 131040 + cfg.META_SIZE)] ∧
        mapped_view (3 + 1) s1 =
          (mapped_view 3 malloc_first).map
            (fun mv => mv ++ [⟨1048576, ALIGN 131040, Status.MAPPED⟩]) ∧
        (mapped_view 3 malloc_first).isSome ∧
        heap_view 3 s1 = heap_view 3 malloc_first ∧
        s1.brk_blocks = malloc_first.brk_blocks ∧
        s1.first_sbrk = malloc_first.first_sbrk ∧ s1.brk = malloc_first.brk) ∧
    (ALIGN 100 + cfg.META_SIZE < MMAP_THRESHOLD ∧ SbrkOk malloc_first MMAP_THRESHOLD ∧
      os_malloc cfg 3 0 100 malloc_first = some (135200, malloc_twice)) ∧
    (∃ p s1, os_malloc cfg 3 0 100 malloc_first = some (p, s1)) ∧
    (mapped_view 3 malloc_twice = mapped_view 3 malloc_first ∧
      malloc_twice.mmap_blocks = malloc_first.mmap_blocks ∧
      malloc_twice.maps = malloc_first.maps ∧
      (malloc_twice.calls = malloc_first.calls ∨
        ∃ d, malloc_twice.calls = malloc_first.calls ++ [OsCall.sbrk d])) :=
  have hr : Reachable cfg False 4096 malloc_first :=
    Reachable.step Reachable.init
      (Step.malloc 2 0 100 4128 (by decide) (by decide)
        (rfl : os_malloc cfg 2 0 100 (init 4096) = some (4128, malloc_first)))
  ⟨⟨cfg_ok, by decide, by decide, hr, by decide, by decide, by decide, by decide, by decide⟩,
    ⟨by decide, by decide⟩,
    ((C5_routing cfg cfg_ok 4096 (by decide) (by decide) False malloc_first hr 3 1048576
      131040 (by decide) (by decide) (by decide)).1 (by decide)).2 (by decide),
    ⟨by decide, by decide, rfl⟩,
    ((C5_routing cfg cfg_ok 4096 (by decide) (by decide) False malloc_first hr 3 0
      100 (by decide) (by decide) (by decide)).2 (by decide)).1 (by decide),
    ((C5_routing cfg cfg_ok 4096 (by decide) (by decide) False malloc_first hr 3 0
      100 (by decide) (by decide) (by decide)).2 (by decide)).2 135200 malloc_twice rfl⟩

/-- Claim C5 fails as stated: the size `2 ^ 64 - 32` is aligned without wrapping and
`ALIGN(size) + META_SIZE = 2 ^ 64` is at least the threshold, yet `os_malloc` serves the
request from the heap: in the initial state (break at 4096) it makes the one call
`sbrk(131072)`, maps nothing, and returns the payload of the heap block at 4096. -/
theorem C5_counterexample :
    (2 ^ 64 - 32) + 7 < WORD ∧ ALIGN (2 ^ 64 - 32) = 2 ^ 64 - 32 ∧
    MMAP_THRESHOLD ≤ ALIGN (2 ^ 64 - 32) + cfg.META_SIZE ∧
    (os_malloc cfg 2 0 (2 ^ 64 - 32) (init 4096)).map (fun r => r.1) = some 4128 ∧
    (os_malloc cfg 2 0 (2 ^ 64 - 32) (init 4096)).map (fun r => r.2.calls) =
      some [OsCall.sbrk 131072] ∧
    (os_malloc cfg 2 0 (2 ^ 64 - 32) (init 4096)).map (fun r => r.2.maps) = some [] ∧
    (os_malloc cfg 2 0 (2 ^ 64 - 32) (init 4096)).map (fun r => mapped_view 2 r.2) =
      some (some []) ∧
    (os_malloc cfg 2 0 (2 ^ 64 - 32) (init 4096)).map (fun r => heap_view 2 r.2) =
      some (some [⟨4096, 131040, Status.ALLOC⟩]) :=
  ⟨by decide, by decide, by decide, by decide, by decide, by decide, by decide, by decide⟩

/-- Claim C6.  On a heap list `l` (the list in memory headed by `brk_blocks`) and for
every need `n`, `find_best_block(n)` returns `NULL` exactly when no block of the list is
FREE with size at least `n`; otherwise it returns a block of the list that is FREE with
size at least `n`, whose size is least among all such blocks, and every such block
before it in the list is strictly larger: it is the first of least size.  The function
only reads the list: it returns nothing but the block. -/
theorem C6_best_fit (s : State) (l : List Nat) (n fuel : Nat)
    (hch : Chain s.mem s.brk_blocks l) (hf : l.length < fuel) :
    ∃ r, find_best_block fuel s n = some r ∧
      (r = 0 ↔ ∀ a ∈ l, ¬ ((s.mem a).status = Status.FREE ∧ n ≤ (s.mem a).size)) ∧
      (r ≠ 0 → ∃ l1 l2, l = l1 ++ r :: l2 ∧
        (s.mem r).status = Status.FREE ∧ n ≤ (s.mem r).size ∧
        (∀ a ∈ l, (s.mem a).status = Status.FREE → n ≤ (s.mem a).size →
          (s.mem r).size ≤ (s.mem a).size) ∧
        (∀ a ∈ l1, (s.mem a).status = Status.FREE → n ≤ (s.mem a).size →
          (s.mem r).size < (s.mem a).size)) := by
  refine ⟨best_fit s.mem n 0 l, find_best_loop_chain hch fuel 0 hf, ?_⟩
  have key := best_fit_zero s.mem n l (seg_ne_zero hch)
  generalize best_fit s.mem n 0 l = r at key ⊢
  rcases key with ⟨hz, hno⟩ | ⟨hnz, l1, l2, hl, hfit, h1, h2⟩
  · exact ⟨⟨fun _ => hno, fun _ => hz⟩, fun h => absurd hz h⟩
  · refine ⟨⟨fun h => absurd h hnz, fun h => ?_⟩, fun _ => ⟨l1, l2, hl, hfit.1, hfit.2, ?_, ?_⟩⟩
    · exact absurd hfit (h r (by rw [hl]; simp))
    · intro a ha hs hn
      rw [hl] at ha
      rcases List.mem_append.mp ha with ha | ha
      · exact Nat.le_of_lt (h1 a ha ⟨hs, hn⟩)
      · rcases List.mem_cons.mp ha with rfl | ha
        · exact le_refl _
        · exact h2 a ha ⟨hs, hn⟩
    · exact fun a ha hs hn => h1 a ha ⟨hs, hn⟩

/-- Witness for `C6_best_fit`: in the heap of six blocks the need 16 is met by the blocks
at 1000 (size 24), 1136 and 1224 (size 16 both); the block at 1136 is returned. -/
theorem C6_best_fit_witness :
    (Chain six_blocks.mem six_blocks.brk_blocks [1000, 1056, 1096, 1136, 1184, 1224] ∧
      [1000, 1056, 1096, 1136, 1184, 1224].length < 7) ∧
    find_best_block 7 six_blocks 16 = some 1136 ∧
    ∃ r, find_best_block 7 six_blocks 16 = some r ∧
      (r = 0 ↔ ∀ a ∈ [1000, 1056, 1096, 1136, 1184, 1224],
        ¬ ((six_blocks.mem a).status = Status.FREE ∧ 16 ≤ (six_blocks.mem a).size)) ∧
      (r ≠ 0 → ∃ l1 l2, [1000, 1056, 1096, 1136, 1184, 1224] = l1 ++ r :: l2 ∧
        (six_blocks.mem r).status = Status.FREE ∧ 16 ≤ (six_blocks.mem r).size ∧
        (∀ a ∈ [1000, 1056, 1096, 1136, 1184, 1224],
          (six_blocks.mem a).status = Status.FREE → 16 ≤ (six_blocks.mem a).size →
          (six_blocks.mem r).size ≤ (six_blocks.mem a).size) ∧
        (∀ a ∈ l1, (six_blocks.mem a).status = Status.FREE → 16 ≤ (six_blocks.mem a).size →
          (six_blocks.mem r).size < (six_blocks.mem a).size)) :=
  have hch : Chain six_blocks.mem six_blocks.brk_blocks [1000, 1056, 1096, 1136, 1184, 1224] :=
    ⟨rfl, by decide, rfl, by decide, rfl, by decide, rfl, by decide, rfl, by decide, rfl,
      by decide, rfl⟩
  ⟨⟨hch, by decide⟩, by decide,
    C6_best_fit six_blocks [1000, 1056, 1096, 1136, 1184, 1224] 16 7 hch (by decide)⟩

/-- A `NULL`-terminated list in memory passes through no node twice. -/
theorem chain_nodup {m : Mem} {l : List Nat} {p : Nat} (hs : Chain m p l) : l.Nodup := by
  induction l generalizing p with
  | nil => exact List.nodup_nil
  | cons a t ih =>
    obtain ⟨_, _, h3⟩ := hs
    refine List.nodup_cons.mpr ⟨fun ha => ?_, ih h3⟩
    obtain ⟨t1, t2, ht⟩ := List.append_of_mem ha
    have h4 : Chain m (m a).next (t1 ++ a :: t2) := by rw [← ht]; exact h3
    obtain ⟨r, _, k1, _, k3⟩ := seg_append.mp h4
    have := chain_unique h3 (show Chain m (m a).next t2 from k3)
    have hlen := congrArg List.length (ht.symm.trans this)
    simp at hlen
    omega

theorem merge_free_filter (c : Config) (r : List Blk) :
    ∀ x, (merge_free c x r).filter (fun b => b.status ≠ Status.FREE) =
      (x :: r).filter (fun b => b.status ≠ Status.FREE) := by
  induction r with
  | nil => intro x; rfl
  | cons y r ih =>
    intro x
    simp only [merge_free]
    by_cases h : x.status = Status.FREE ∧ y.status = Status.FREE
    · rw [if_pos h, ih]
      simp [List.filter_cons, h.1, h.2]
    · rw [if_neg h]
      simp only [List.filter_cons, ih]

/-- Coalescing keeps the blocks that are not FREE, with their sizes and in their order. -/
theorem coalesce_list_filter (c : Config) (l : List Blk) :
    (coalesce_list c l).filter (fun b => b.status ≠ Status.FREE) =
      l.filter (fun b => b.status ≠ Status.FREE) := by
  cases l with
  | nil => rfl
  | cons x r => exact merge_free_filter c r x

/-- Claim C7.  On a well-formed heap list `l` (a list in memory whose blocks, headers
included, take less than `2 ^ 64` bytes) the function `coalesce_blocks` ends, given fuel
for one pass, and leaves a list in which no two neighbours are both FREE: the list that
`coalesce_spec` describes, in which each maximal run of `k` consecutive FREE blocks has
become one FREE block at the address of the first, of size the sum of the sizes of the
run plus `(k - 1) * META_SIZE`.  The blocks that are not FREE keep address, size and
order, the sum of `size + META_SIZE` over the list is unchanged, and nothing is written
outside the nodes of the list. -/
theorem C7_coalesce (c : Config) (s : State) (l : List Nat) (fuel : Nat)
    (hch : Chain s.mem s.brk_blocks l) (htot : total c (l.map (view s.mem)) < WORD)
    (hf : l.length < fuel) :
    ∃ m1 l1, coalesce_blocks c fuel s = some { s with mem := m1 } ∧
      Chain m1 s.brk_blocks l1 ∧
      l1.map (view m1) = coalesce_spec c (l.map (view s.mem)) ∧
      (l1.map (view m1)).Chain'
        (fun a b => ¬ (a.status = Status.FREE ∧ b.status = Status.FREE)) ∧
      (l1.map (view m1)).filter (fun b => b.status ≠ Status.FREE) =
        (l.map (view s.mem)).filter (fun b => b.status ≠ Status.FREE) ∧
      total c (l1.map (view m1)) = total c (l.map (view s.mem)) ∧
      l1.Sublist l ∧ (∀ x, x ∉ l → m1 x = s.mem x) := by
  obtain ⟨m1, l1, e1, hch1, hv1, hfr1, hsub⟩ :=
    coalesce_loop_chain c hch (chain_nodup hch) htot hf
  refine ⟨m1, l1, ?_, hch1, ?_, ?_, ?_, ?_, hsub, hfr1⟩
  · unfold coalesce_blocks
    rw [e1]
    rfl
  · rw [hv1, coalesce_list_eq_spec]
  · rw [hv1]
    exact coalesce_list_no_adjacent c _
  · rw [hv1]
    exact coalesce_list_filter c _
  · rw [hv1]
    exact coalesce_list_total c _

/-- Witness for `C7_coalesce`: in the heap of six blocks the two FREE blocks at 1000 and
1056 (sizes 24 and 8) become one FREE block of size `24 + 8 + 32 = 64` at 1000. -/
theorem C7_coalesce_witness :
    (Chain six_blocks.mem six_blocks.brk_blocks [1000, 1056, 1096, 1136, 1184, 1224] ∧
      total cfg ([1000, 1056, 1096, 1136, 1184, 1224].map (view six_blocks.mem)) < WORD ∧
      [1000, 1056, 1096, 1136, 1184, 1224].length < 7) ∧
    (coalesce_blocks cfg 7 six_blocks).map (heap_view 7) =
      some (some [⟨1000, 64, Status.FREE⟩, ⟨1096, 8, Status.ALLOC⟩, ⟨1136, 16, Status.FREE⟩,
        ⟨1184, 8, Status.ALLOC⟩, ⟨1224, 16, Status.FREE⟩]) ∧
    ∃ m1 l1, coalesce_blocks cfg 7 six_blocks = some { six_blocks with mem := m1 } ∧
      Chain m1 six_blocks.brk_blocks l1 ∧
      l1.map (view m1) =
        coalesce_spec cfg ([1000, 1056, 1096, 1136, 1184, 1224].map (view six_blocks.mem)) ∧
      (l1.map (view m1)).Chain'
        (fun a b => ¬ (a.status = Status.FREE ∧ b.status = Status.FREE)) ∧
      (l1.map (view m1)).filter (fun b => b.status ≠ Status.FREE) =
        ([1000, 1056, 1096, 1136, 1184, 1224].map (view six_blocks.mem)).filter
          (fun b => b.status ≠ Status.FREE) ∧
      total cfg (l1.map (view m1)) =
        total cfg ([1000, 1056, 1096, 1136, 1184, 1224].map (view six_blocks.mem)) ∧
      l1.Sublist [1000, 1056, 1096, 1136, 1184, 1224] ∧
      (∀ x, x ∉ [1000, 1056, 1096, 1136, 1184, 1224] → m1 x = six_blocks.mem x) :=
  have hch : Chain six_blocks.mem six_blocks.brk_blocks [1000, 1056, 1096, 1136, 1184, 1224] :=
    ⟨rfl, by decide, rfl, by decide, rfl, by decide, rfl, by decide, rfl, by decide, rfl,
      by decide, rfl⟩
  ⟨⟨hch, by decide, by decide⟩, by decide,
    C7_coalesce cfg six_blocks [1000, 1056, 1096, 1136, 1184, 1224] 7 hch (by decide)
      (by decide)⟩

/-! ### `brk_alloc` on an initialised heap -/

/-- The heap list that an observer reads off a well-formed state is the list of the
invariant. -/
theorem heap_view_inv {c : Config} {g : Nat} {s : State} {l ml : List Nat} {fuel : Nat}
    {v : List Blk} (hinv : Inv c g s l ml) (h : heap_view fuel s = some v) :
    v = l.map (view s.mem) ∧ l.length < fuel := by
  unfold heap_view at h
  cases hw : walk fuel s.mem s.brk_blocks with
  | none => rw [hw] at h; simp at h
  | some l1 =>
    rw [hw] at h
    obtain ⟨h1, h2⟩ := walk_some _ _ _ hw
    have := chain_unique hinv.hchain h1
    subst this
    exact ⟨(Option.some.inj h).symm, h2⟩

/-- The list that `brk_alloc` leaves in memory can be read off with one more unit of
fuel than the list before. -/
theorem heap_view_of_chain {s : State} {l1 : List Nat} {w : List Blk} {fuel : Nat}
    (hch : Chain s.mem s.brk_blocks l1) (hv : l1.map (view s.mem) = w)
    (hlen : w.length < fuel) : heap_view fuel s = some w := by
  unfold heap_view
  rw [walk_chain hch fuel (by rw [← hv] at hlen; simpa using hlen)]
  simp [hv]

/-- The state after `os_malloc(100)` is reachable. -/
theorem malloc_first_reachable : Reachable cfg False 4096 malloc_first :=
  Reachable.step Reachable.init
    (Step.malloc 2 0 100 4128 (by decide) (by decide)
      (rfl : os_malloc cfg 2 0 100 (init 4096) = some (4128, malloc_first)))

/-- Claim C10.  In every state, `os_malloc(0)`, `os_calloc(nmemb, size)` with `nmemb = 0`
or `size = 0`, and `os_realloc(ptr, size)` for a pointer `ptr ≠ NULL` whose header has
status FREE return `NULL` and leave the state exactly as it was: both lists, the memory,
`first_sbrk`, the break, the live mappings, and the log of the calls to the system, which
gains no call of `sbrk`, `mmap` or `munmap`. -/
theorem C10_invalid (c : Config) (fuel addr : Nat) (s : State) :
    os_malloc c fuel addr 0 s = some (0, s) ∧
    (∀ nmemb size, nmemb = 0 ∨ size = 0 →
      os_calloc c fuel addr nmemb size s = some (0, s)) ∧
    (∀ ptr size, ptr ≠ 0 → (s.mem (wsub ptr c.META_SIZE)).status = Status.FREE →
      os_realloc c fuel addr ptr size s = some (0, s)) := by
  refine ⟨?_, ?_, ?_⟩
  · unfold os_malloc
    rw [if_pos rfl]
  · intro nmemb size h
    unfold os_calloc
    rw [if_pos h]
  · intro ptr size hp hfree
    have h1 : (s.mem (wsub ptr c.META_SIZE)).status ≠ Status.ALLOC := by
      rw [hfree]; decide
    have h2 : (s.mem (wsub ptr c.META_SIZE)).status ≠ Status.MAPPED := by
      rw [hfree]; decide
    unfold os_realloc
    rw [if_neg hp]
    by_cases hs : size = 0
    · rw [if_pos hs]
      unfold os_free
      rw [if_neg hp]
      simp only [h1, h2, if_false]
    · rw [if_neg hs]
      simp only [hfree, if_true]

/-- Witness for `C10_invalid`: in the state after `os_malloc(8)` and the release of its
pointer 4136, whose header at 4104 is FREE. -/
theorem C10_invalid_witness :
    os_malloc cfg 3 0 0 freed_first = some (0, freed_first) ∧
    ((0 = 0 ∨ 5 = 0) ∧ os_calloc cfg 3 0 0 5 freed_first = some (0, freed_first)) ∧
    ((4136 ≠ 0 ∧ (freed_first.mem (wsub 4136 cfg.META_SIZE)).status = Status.FREE) ∧
      os_realloc cfg 3 0 4136 50 freed_first = some (0, freed_first)) :=
  ⟨(C10_invalid cfg 3 0 freed_first).1,
    ⟨Or.inl rfl, (C10_invalid cfg 3 0 freed_first).2.1 0 5 (Or.inl rfl)⟩,
    ⟨⟨by decide, by decide⟩,
      (C10_invalid cfg 3 0 freed_first).2.2 4136 50 (by decide) (by decide)⟩⟩

/-! ### What `os_realloc` does to a block of the heap list -/

/-- A list in memory that shows a given block in the middle has the node of that block
in the middle. -/
theorem map_view_split {m : Mem} {l : List Nat} {pv qv : List Blk} {a b : Nat} {st : Status}
    (h : l.map (view m) = pv ++ ⟨a, b, st⟩ :: qv) :
    ∃ pre post, l = pre ++ a :: post ∧ pre.map (view m) = pv ∧ post.map (view m) = qv ∧
      (m a).size = b ∧ (m a).status = st := by
  obtain ⟨pre, t, e1, e2, e3⟩ := List.map_eq_append_iff.mp h
  obtain ⟨x, post, e4, e5, e6⟩ := List.map_eq_cons_iff.mp e3
  have hx : x = a := congrArg Blk.addr e5
  subst hx
  exact ⟨pre, post, by rw [e1, e4], e2, e6, congrArg Blk.size e5, congrArg Blk.status e5⟩

/-- A reachable state whose heap list shows a given block: the state is well-formed with
that block in its heap list. -/
theorem reachable_block {c : Config} {strict : Prop} {b0 : Nat} {s : State}
    (hc : ConfigOk c) (h0 : 0 < b0) (hW : b0 < WORD) (hr : Reachable c strict b0 s)
    {fuel : Nat} {pv qv : List Blk} {a b : Nat} {st : Status}
    (hview : heap_view fuel s = some (pv ++ ⟨a, b, st⟩ :: qv)) :
    ∃ pre post ml, Inv c WORD s (pre ++ a :: post) ml ∧ pre.map (view s.mem) = pv ∧
      post.map (view s.mem) = qv ∧ (s.mem a).size = b ∧ (s.mem a).status = st ∧
      (pre ++ a :: post).length < fuel ∧ s.heap_start = b0 := by
  have hg : GapOk WORD := Or.inr (le_refl _)
  obtain ⟨l, ml, hinv, hb⟩ :=
    reachable_inv hc hg (fun h => absurd h (by rw [WORD_eq]; norm_num)) h0 hW hr
  obtain ⟨hvl, hf⟩ := heap_view_inv hinv hview
  obtain ⟨pre, post, e1, e2, e3, e4, e5⟩ := map_view_split hvl.symm
  subst e1
  exact ⟨pre, post, ml, hinv, e2, e3, e4, e5, hf, hb⟩

/-- The function `os_realloc` on the payload of an ALLOC block of the heap list, for a
size whose aligned value differs from the size of the block and goes to the heap. -/
theorem os_realloc_heap {c : Config} {g : Nat} {s : State} {l ml : List Nat}
    (hc : ConfigOk c) (hinv : Inv c g s l ml) {a : Nat} (ha : a ∈ l)
    (hst : (s.mem a).status = Status.ALLOC) (fuel addr size : Nat) (hs : size ≠ 0)
    (hne : (s.mem a).size ≠ ALIGN size)
    (hnT : ALIGN size + c.META_SIZE < MMAP_THRESHOLD) :
    os_realloc c fuel addr (a + c.META_SIZE) size s =
      if ALIGN size > (s.mem a).size then
        match find_last_block fuel s.mem s.brk_blocks with
        | none => none
        | some last_block =>
          match realloc_tail size a last_block s with
          | none => none
          | some s1 =>
            match realloc_loop c fuel s1.mem a (ALIGN size) with
            | none => none
            | some m2 =>
              if ALIGN size > (m2 a).size then
                realloc_move c fuel addr (a + c.META_SIZE) size a { s1 with mem := m2 }
              else some (realloc_finish c size a { s1 with mem := m2 })
      else some (realloc_finish c size a s) := by
  have ht : MMAP_THRESHOLD = 131072 := rfl
  have hW := WORD_eq
  obtain ⟨h1, h2, _⟩ := header_of_payload hc hinv (Or.inl ha)
  have hw : wadd (ALIGN size) c.META_SIZE = ALIGN size + c.META_SIZE :=
    wadd_of_lt (by omega)
  unfold os_realloc
  rw [if_neg h1, if_neg hs]
  simp only [h2, hw]
  rw [if_neg (by rw [hst]; decide), if_neg hne,
    if_neg (by rw [hst]; simp; omega), if_pos hnT]
  all_goals rfl

/-- The last statements of `os_realloc` on an ALLOC block of the heap list: the block is
cut to the aligned size `n` when its size is at least `n + META_SIZE + 8`, and a FREE
block holding the remainder follows it; otherwise nothing changes. -/
theorem realloc_finish_view {c : Config} {g : Nat} {s : State} {pre post ml : List Nat}
    {a : Nat} (hc : ConfigOk c) (hinv : Inv c g s (pre ++ a :: post) ml) (size : Nat)
    (hnT : ALIGN size + c.META_SIZE < MMAP_THRESHOLD) :
    (realloc_finish c size a s).1 = a + c.META_SIZE ∧
    ((s.mem a).size < ALIGN size + c.META_SIZE + 8 → (realloc_finish c size a s).2 = s) ∧
    (ALIGN size + c.META_SIZE + 8 ≤ (s.mem a).size →
      ∃ m, (realloc_finish c size a s).2 = { s with mem := m } ∧
        Chain m s.brk_blocks (pre ++ a :: (a + c.META_SIZE + ALIGN size) :: post) ∧
        (pre ++ a :: (a + c.META_SIZE + ALIGN size) :: post).map (view m) =
          pre.map (view s.mem) ++ ⟨a, ALIGN size, Status.ALLOC⟩ ::
            ⟨a + c.META_SIZE + ALIGN size, (s.mem a).size - ALIGN size - c.META_SIZE,
              Status.FREE⟩ :: post.map (view s.mem) ∧
        (m (a + c.META_SIZE + ALIGN size)).next = (s.mem a).next ∧
        (m (a + c.META_SIZE + ALIGN size)).prev = a ∧
        (∀ x ∈ ml, m x = s.mem x)) := by
  have ht : MMAP_THRESHOLD = 131072 := rfl
  have hW := WORD_eq
  obtain ⟨_, _, hwa⟩ := header_of_payload hc hinv (a := a) (Or.inl (by simp))
  have hw : wadd (wadd (ALIGN size) c.META_SIZE) (ALIGN 1) = ALIGN size + c.META_SIZE + 8 := by
    rw [ALIGN_one, wadd_of_lt (a := ALIGN size) (by omega), wadd_of_lt (by omega)]
  have hnd := inv_nodup hc hinv
  have hamem : a ∈ pre ++ a :: post := by simp
  have hab := inv_bounds hinv a hamem
  have hbrk : s.brk < WORD := hinv.os.2.2.1
  have hH := hc.1
  refine ⟨hwa, ?_, ?_⟩
  · intro hlt
    unfold realloc_finish
    simp only [hw]
    rw [if_neg (by omega)]
  · intro hsplit
    have hnbw : wadd (wadd a c.META_SIZE) (ALIGN size) = a + c.META_SIZE + ALIGN size := by
      rw [wadd_of_lt (a := a) (by omega), wadd_of_lt (by omega)]
    obtain ⟨hmid1, hmid2⟩ := layout_view_mid hinv.hlay
    have hfresh : a + c.META_SIZE + ALIGN size ∉ pre ++ a :: post := by
      intro h
      rcases List.mem_append.mp h with h | h
      · have := hmid1 _ h; omega
      · rcases List.mem_cons.mp h with h | h
        · omega
        · have := hmid2 _ h; omega
    obtain ⟨k1, k2, k3⟩ := split_chain c hinv.hchain hnd hnbw (by omega) hfresh
    have hsz : wsub (wsub (s.mem a).size (ALIGN size)) c.META_SIZE =
        (s.mem a).size - ALIGN size - c.META_SIZE := by
      rw [wsub_of_le (a := (s.mem a).size) (by omega) (by omega),
        wsub_of_le (by omega) (by omega)]
    rw [hsz] at k2
    have hne : a + c.META_SIZE + ALIGN size ≠ a := by omega
    obtain ⟨hn1, _, _, _⟩ := split_blocks_spec c (m := s.mem) hnbw hne rfl
    refine ⟨split_blocks c s.mem a (ALIGN size), ?_, k1, k2, ?_, ?_, ?_⟩
    · unfold realloc_finish
      simp only [hw]
      rw [if_pos hsplit]
    · rw [hn1, if_neg hne, if_pos rfl]
    · have hnx : (s.mem a).next ≠ a + c.META_SIZE + ALIGN size := by
        cases post with
        | nil =>
          have := chain_next_last (l := pre) (a := a) hinv.hchain
          omega
        | cons d t =>
          have := (chain_next_mid hinv.hchain).1
          intro h
          exact hfresh (by rw [← h, this]; simp)
      unfold split_blocks
      simp only [hnbw]
      split <;> simp [hne, hnx, Ne.symm hnx, Ne.symm hne]
    · intro x hx
      apply k3 x (fun h => inv_disjoint hc hinv x h hx)
      intro h
      have := inv_mapped_outside hinv x hx
      omega

/-! ## Scenarios with mapped blocks -/

theorem one_mapped_reachable : Reachable cfg False 4096 one_mapped :=
  Reachable.step malloc_first_reachable
    (Step.malloc 3 1048576 200000 1048608 (by decide) (by decide)
      (rfl : os_malloc cfg 3 1048576 200000 malloc_first = some (1048608, one_mapped)))

theorem two_mapped_reachable : Reachable cfg False 4096 two_mapped :=
  Reachable.step one_mapped_reachable
    (Step.malloc 3 2097152 300000 2097184 (by decide) (by decide)
      (rfl : os_malloc cfg 3 2097152 300000 one_mapped = some (2097184, two_mapped)))

theorem three_mapped_reachable : Reachable cfg False 4096 three_mapped :=
  Reachable.step two_mapped_reachable
    (Step.malloc 4 4194304 400000 4194336 (by decide) (by decide)
      (rfl : os_malloc cfg 4 4194304 400000 two_mapped = some (4194336, three_mapped)))

theorem mapped_near_reachable : Reachable cfg False 4096 mapped_near :=
  Reachable.step malloc_first_reachable
    (Step.malloc 3 139264 200000 139296 (by decide) (by decide)
      (rfl : os_malloc cfg 3 139264 200000 malloc_first = some (139296, mapped_near)))

theorem near_freed_reachable : Reachable cfg False 4096 near_freed :=
  Reachable.step mapped_near_reachable
    (Step.free 4128 (Or.inr ⟨4096, rfl, Or.inl ⟨[4096], ⟨rfl, by decide, rfl⟩, by simp,
      by decide⟩⟩))

/-! ## Scenarios with stores of the caller -/

theorem written_first_reachable : Reachable cfg False 4096 written_first :=
  Reachable.step malloc_first_reachable (Step.store (fun x => x % 251))

theorem written_mapped_reachable : Reachable cfg False 4096 written_mapped :=
  Reachable.step written_first_reachable
    (Step.malloc 3 1048576 200000 1048608 (by decide) (by decide)
      (rfl : os_malloc cfg 3 1048576 200000 written_first = some (1048608, written_mapped)))

/-- Claim C11.  For a pointer `ptr ≠ NULL` whose header has status ALLOC or MAPPED and a
size `size > 0` with `ALIGN(size)` equal to the size stored in that header,
`os_realloc(ptr, size)` returns `ptr` and leaves the state exactly as it was: both lists,
every header, `first_sbrk`, the break, the live mappings and the log of calls. -/
theorem C11_same_size (c : Config) (fuel addr ptr size : Nat) (s : State)
    (hp : ptr ≠ 0) (hs : size ≠ 0)
    (hst : (s.mem (wsub ptr c.META_SIZE)).status = Status.ALLOC ∨
      (s.mem (wsub ptr c.META_SIZE)).status = Status.MAPPED)
    (heq : (s.mem (wsub ptr c.META_SIZE)).size = ALIGN size) :
    os_realloc c fuel addr ptr size s = some (ptr, s) := by
  have hfree : (s.mem (wsub ptr c.META_SIZE)).status ≠ Status.FREE := by
    rcases hst with h | h <;> rw [h] <;> decide
  unfold os_realloc
  rw [if_neg hp, if_neg hs]
  simp only [hfree, heq, if_false, if_true]

/-- Witness for `C11_same_size`: after `os_malloc(100)` the block at 4096 has size 131040,
and 131035 is aligned to 131040. -/
theorem C11_same_size_witness :
    (4128 ≠ 0 ∧ 131035 ≠ 0 ∧
      ((malloc_first.mem (wsub 4128 cfg.META_SIZE)).status = Status.ALLOC ∨
        (malloc_first.mem (wsub 4128 cfg.META_SIZE)).status = Status.MAPPED) ∧
      (malloc_first.mem (wsub 4128 cfg.META_SIZE)).size = ALIGN 131035) ∧
    os_realloc cfg 3 0 4128 131035 malloc_first = some (4128, malloc_first) :=
  ⟨⟨by decide, by decide, Or.inl (by decide), by decide⟩,
    C11_same_size cfg 3 0 4128 131035 malloc_first (by decide) (by decide)
      (Or.inl (by decide)) (by decide)⟩

/-- Claim C13.  In a reachable state let the ALLOC block at `a`, of size `b`, be the last
of the heap list, and let `n = ALIGN(size) > b` with `n + META_SIZE < MMAP_THRESHOLD`.
Then `os_realloc(a + META_SIZE, size)` makes the one call `sbrk(n - b)`, which moves the
break up by `n - b`, sets the size of the block to `n`, keeps it ALLOC, returns the same
pointer, leaves the list with the same entries, and changes no other header; the call
fails exactly when the system refuses the extension. -/
theorem C13_tail (c : Config) (hc : ConfigOk c) (b0 : Nat) (h0 : 0 < b0) (hW : b0 < WORD)
    (strict : Prop) (s : State) (hr : Reachable c strict b0 s)
    (fuel addr size : Nat) (pv : List Blk) (a b : Nat)
    (hview : heap_view fuel s = some (pv ++ [⟨a, b, Status.ALLOC⟩]))
    (hgt : b < ALIGN size) (hnT : ALIGN size + c.META_SIZE < MMAP_THRESHOLD) :
    (¬ SbrkOk s (ALIGN size - b) →
      os_realloc c fuel addr (a + c.META_SIZE) size s = none) ∧
    (SbrkOk s (ALIGN size - b) →
      ∃ s1, os_realloc c fuel addr (a + c.META_SIZE) size s = some (a + c.META_SIZE, s1) ∧
        s1.calls = s.calls ++ [OsCall.sbrk (ALIGN size - b)] ∧
        s1.brk = s.brk + (ALIGN size - b) ∧
        heap_view fuel s1 = some (pv ++ [⟨a, ALIGN size, Status.ALLOC⟩]) ∧
        (∀ x, x ≠ a → s1.mem x = s.mem x) ∧
        s1.maps = s.maps ∧ s1.mmap_blocks = s.mmap_blocks ∧ s1.data = s.data) := by
  have ht : MMAP_THRESHOLD = 131072 := rfl
  have hWe := WORD_eq
  obtain ⟨pre, post, ml, hinv, e1, e2, e3, e4, hf, _⟩ := reachable_block hc h0 hW hr hview
  have hpost : post = [] := by simpa using e2
  subst hpost
  subst e3
  have hs : size ≠ 0 := by
    intro h
    have h00 : ALIGN 0 = 0 := by decide
    rw [h, h00] at hgt
    omega
  have heq := os_realloc_heap hc hinv (a := a) (by simp) e4 fuel addr size hs
    (by omega) hnT
  rw [if_pos hgt] at heq
  have hlast := find_last_block_chain hinv.hchain fuel (by simp at hf; omega)
  have hnext : (s.mem a).next = 0 := chain_next_last hinv.hchain
  have hw : wsub (ALIGN size) (s.mem a).size = ALIGN size - (s.mem a).size :=
    wsub_of_le (by omega) (by omega)
  simp only [hlast] at heq
  constructor
  · intro hbad
    have htail : realloc_tail size a a s = none := by
      unfold realloc_tail
      rw [if_pos hnext, hw, sbrk_none hbad]
    rw [heq, htail]
  · intro hok
    obtain ⟨s1, htail⟩ : ∃ s1, realloc_tail size a a s = some s1 := by
      unfold realloc_tail
      rw [if_pos hnext, hw, sbrk_some hok]
      exact ⟨_, rfl⟩
    obtain ⟨q1, q2, q3, q4, q5, q6, q7, q8⟩ := realloc_tail_inv hc hinv hgt hnT htail
    obtain ⟨k, hk⟩ : ∃ k, fuel = k + 1 := ⟨fuel - 1, by omega⟩
    have hloop : realloc_loop c fuel s1.mem a (ALIGN size) = some s1.mem := by
      rw [hk]
      simp only [realloc_loop]
      rw [if_neg (by rw [q2]; omega)]
    obtain ⟨f1, f2, _⟩ := realloc_finish_view hc q1 size hnT
    have hfin : realloc_finish c size a s1 = (a + c.META_SIZE, s1) :=
      Prod.ext f1 (f2 (by rw [q2]; omega))
    have hmaps : s1.maps = s.maps ∧ s1.mmap_blocks = s.mmap_blocks := by
      unfold realloc_tail at htail
      rw [if_pos hnext, hw, sbrk_some hok] at htail
      have := Option.some.inj htail
      subst this
      exact ⟨rfl, rfl⟩
    refine ⟨s1, ?_, q7, q6, ?_, q4, hmaps.1, hmaps.2, q5⟩
    · rw [heq, htail]
      simp only [hloop]
      rw [if_neg (by rw [q2]; omega)]
      exact congrArg some hfin
    · apply heap_view_of_chain q1.hchain
      · rw [List.map_append, List.map_cons, List.map_nil]
        congr 1
        · rw [← e1]
          apply map_view_congr
          intro x hx
          have hxa : x ≠ a := fun h => (nodup_mid (inv_nodup hc hinv)).1 (h ▸ hx)
          rw [q4 x hxa]
          exact ⟨rfl, rfl⟩
        · simp [view, q2, q3]
      · simp only [List.length_append, List.length_cons, List.length_nil, ← e1,
          List.length_map] at hf ⊢
        omega

/-- Witness for `C13_tail`: after `os_malloc(100)` twice the last block, at 135168, has
size 104; `os_realloc(135200, 200)` extends the break by 96. -/
theorem C13_tail_witness :
    (ConfigOk cfg ∧ 0 < 4096 ∧ 4096 < WORD ∧ Reachable cfg False 4096 malloc_twice ∧
      heap_view 3 malloc_twice =
        some ([⟨4096, 131040, Status.ALLOC⟩] ++ [⟨135168, 104, Status.ALLOC⟩]) ∧
      104 < ALIGN 200 ∧ ALIGN 200 + cfg.META_SIZE < MMAP_THRESHOLD ∧
      SbrkOk malloc_twice (ALIGN 200 - 104)) ∧
    (∃ s1, os_realloc cfg 3 0 (135168 + cfg.META_SIZE) 200 malloc_twice =
        some (135168 + cfg.META_SIZE, s1) ∧
      s1.calls = malloc_twice.calls ++ [OsCall.sbrk (ALIGN 200 - 104)] ∧
      s1.brk = malloc_twice.brk + (ALIGN 200 - 104) ∧
      heap_view 3 s1 =
        some ([⟨4096, 131040, Status.ALLOC⟩] ++ [⟨135168, ALIGN 200, Status.ALLOC⟩]) ∧
      (∀ x, x ≠ 135168 → s1.mem x = malloc_twice.mem x) ∧
      s1.maps = malloc_twice.maps ∧ s1.mmap_blocks = malloc_twice.mmap_blocks ∧
      s1.data = malloc_twice.data) :=
  have hr : Reachable cfg False 4096 malloc_twice :=
    Reachable.step malloc_first_reachable
      (Step.malloc 3 0 100 135200 (by decide) (by decide)
        (rfl : os_malloc cfg 3 0 100 malloc_first = some (135200, malloc_twice)))
  ⟨⟨cfg_ok, by decide, by decide, hr, by decide, by decide, by decide, by decide⟩,
    (C13_tail cfg cfg_ok 4096 (by decide) (by decide) False malloc_twice hr 3 0 200
      [⟨4096, 131040, Status.ALLOC⟩] 135168 104 (by decide) (by decide) (by decide)).2
      (by decide)⟩

/-- Claim C14.  In a reachable state let the heap list show the ALLOC block at `a`, of
size `b`, and let `size > 0` with `n = ALIGN(size) < b` and `n + META_SIZE <
MMAP_THRESHOLD`.  Then `os_realloc(a + META_SIZE, size)` returns the same pointer and makes
no call to the system.  When `b - n < META_SIZE + 8` the state is unchanged, the block
keeping its size `b`.  When `b - n ≥ META_SIZE + 8`, the block gets the size `n` and a
FREE block of size `b - n - META_SIZE` is inserted right after it, at `a + META_SIZE + n`,
taking over the forward link of the block.  The block stays ALLOC in both cases. -/
theorem C14_shrink (c : Config) (hc : ConfigOk c) (b0 : Nat) (h0 : 0 < b0) (hW : b0 < WORD)
    (strict : Prop) (s : State) (hr : Reachable c strict b0 s)
    (fuel addr size : Nat) (pv qv : List Blk) (a b : Nat)
    (hview : heap_view fuel s = some (pv ++ ⟨a, b, Status.ALLOC⟩ :: qv))
    (hs : size ≠ 0) (hlt : ALIGN size < b)
    (hnT : ALIGN size + c.META_SIZE < MMAP_THRESHOLD) :
    (b < ALIGN size + c.META_SIZE + 8 →
      os_realloc c fuel addr (a + c.META_SIZE) size s = some (a + c.META_SIZE, s)) ∧
    (ALIGN size + c.META_SIZE + 8 ≤ b →
      ∃ s1, os_realloc c fuel addr (a + c.META_SIZE) size s = some (a + c.META_SIZE, s1) ∧
        s1.calls = s.calls ∧ s1.brk = s.brk ∧ s1.maps = s.maps ∧ s1.data = s.data ∧
        heap_view (fuel + 1) s1 = some (pv ++ ⟨a, ALIGN size, Status.ALLOC⟩ ::
          ⟨a + c.META_SIZE + ALIGN size, b - ALIGN size - c.META_SIZE, Status.FREE⟩ :: qv) ∧
        (s1.mem a).next = a + c.META_SIZE + ALIGN size ∧
        (s1.mem (a + c.META_SIZE + ALIGN size)).next = (s.mem a).next ∧
        (s1.mem (a + c.META_SIZE + ALIGN size)).prev = a) := by
  obtain ⟨pre, post, ml, hinv, e1, e2, e3, e4, hf, _⟩ := reachable_block hc h0 hW hr hview
  have heq := os_realloc_heap hc hinv (a := a) (by simp) e4 fuel addr size hs
    (by omega) hnT
  rw [if_neg (by omega)] at heq
  obtain ⟨k1, k2, k3⟩ := realloc_finish_view hc hinv size hnT
  constructor
  · intro h
    have e : realloc_finish c size a s = (a + c.META_SIZE, s) :=
      Prod.ext k1 (k2 (by omega))
    rw [heq, e]
  · intro h
    obtain ⟨m, q1, q2, q3, q4, q5, _⟩ := k3 (by omega)
    refine ⟨{ s with mem := m }, ?_, rfl, rfl, rfl, rfl, ?_, (chain_next_mid q2).1, q4, q5⟩
    · have e : realloc_finish c size a s = (a + c.META_SIZE, { s with mem := m }) :=
        Prod.ext k1 q1
      rw [heq, e]
    · apply heap_view_of_chain (s := { s with mem := m }) q2
      · rw [q3, e1, e2, e3]
      · simp only [List.length_append, List.length_cons, ← e1, ← e2, List.length_map] at hf ⊢
        omega

/-- Witness for `C14_shrink`: after `os_malloc(100)` the one block has size 131040; the
size 131008 leaves a slack of 32 and the block whole, the size 80 cuts the block to 80
and leaves a FREE block of size 130928 at 4208. -/
theorem C14_shrink_witness :
    (ConfigOk cfg ∧ 0 < 4096 ∧ 4096 < WORD ∧ Reachable cfg False 4096 malloc_first ∧
      heap_view 3 malloc_first = some ([] ++ ⟨4096, 131040, Status.ALLOC⟩ :: [])) ∧
    (131008 ≠ 0 ∧ ALIGN 131008 < 131040 ∧ ALIGN 131008 + cfg.META_SIZE < MMAP_THRESHOLD ∧
      131040 < ALIGN 131008 + cfg.META_SIZE + 8) ∧
    os_realloc cfg 3 0 (4096 + cfg.META_SIZE) 131008 malloc_first =
      some (4096 + cfg.META_SIZE, malloc_first) ∧
    (80 ≠ 0 ∧ ALIGN 80 < 131040 ∧ ALIGN 80 + cfg.META_SIZE < MMAP_THRESHOLD ∧
      ALIGN 80 + cfg.META_SIZE + 8 ≤ 131040) ∧
    (∃ s1, os_realloc cfg 3 0 (4096 + cfg.META_SIZE) 80 malloc_first =
        some (4096 + cfg.META_SIZE, s1) ∧
      s1.calls = malloc_first.calls ∧ s1.brk = malloc_first.brk ∧
      s1.maps = malloc_first.maps ∧ s1.data = malloc_first.data ∧
      heap_view (3 + 1) s1 = some ([] ++ ⟨4096, ALIGN 80, Status.ALLOC⟩ ::
        ⟨4096 + cfg.META_SIZE + ALIGN 80, 131040 - ALIGN 80 - cfg.META_SIZE, Status.FREE⟩ ::
        []) ∧
      (s1.mem 4096).next = 4096 + cfg.META_SIZE + ALIGN 80 ∧
      (s1.mem (4096 + cfg.META_SIZE + ALIGN 80)).next = (malloc_first.mem 4096).next ∧
      (s1.mem (4096 + cfg.META_SIZE + ALIGN 80)).prev = 4096) :=
  ⟨⟨cfg_ok, by decide, by decide, malloc_first_reachable, by decide⟩,
    ⟨by decide, by decide, by decide, by decide⟩,
    (C14_shrink cfg cfg_ok 4096 (by decide) (by decide) False malloc_first
      malloc_first_reachable 3 0 131008 [] [] 4096 131040 (by decide) (by decide)
      (by decide) (by decide)).1 (by decide),
    ⟨by decide, by decide, by decide, by decide⟩,
    (C14_shrink cfg cfg_ok 4096 (by decide) (by decide) False malloc_first
      malloc_first_reachable 3 0 80 [] [] 4096 131040 (by decide) (by decide)
      (by decide) (by decide)).2 (by decide)⟩

/-! ## The copy-and-free path of `os_realloc` -/

theorem map_view_set_status {m : Mem} {pre post : List Nat} {a : Nat} (st : Status)
    (hnd : (pre ++ a :: post).Nodup) :
    (pre ++ a :: post).map (view (set_status m a st)) =
      pre.map (view m) ++ ⟨a, (m a).size, st⟩ :: post.map (view m) := by
  have h1 : a ∉ pre := fun h =>
    (List.nodup_append.mp hnd).2.2 h (List.mem_cons_self _ _)
  have h2 : a ∉ post := (List.nodup_cons.mp (List.nodup_append.mp hnd).2.1).1
  have e : ∀ x, x ≠ a → view (set_status m a st) x = view m x := fun x hx => by
    unfold view; rw [set_status_ne m st hx]
  rw [List.map_append, List.map_cons]
  congr 1
  · exact List.map_congr_left fun x hx => e x (fun h => h1 (h ▸ hx))
  · congr 1
    · simp [view, set_status]
    · exact List.map_congr_left fun x hx => e x (fun h => h2 (h ▸ hx))

theorem erase_mid {pre post : List Nat} {a : Nat} (hnd : (pre ++ a :: post).Nodup) :
    (pre ++ a :: post).erase a = pre ++ post := by
  have h1 : a ∉ pre := fun h =>
    (List.nodup_append.mp hnd).2.2 h (List.mem_cons_self _ _)
  rw [List.erase_append_right _ h1, List.erase_cons_head]

/-- Claim C15, as amended.  In a reachable state let `p = a + META_SIZE` be a pointer in
use (the payload of an ALLOC block of the heap list or of a block of the mapped list),
and let `size > 0` be a size for which neither the alignment nor the addition of
`META_SIZE` to the aligned size wraps, with `n = ALIGN(size)` different from the old size
`s` of the block, and `n + META_SIZE ≥ MMAP_THRESHOLD` or the block MAPPED.  Then
`os_realloc(p, size)` fails exactly when `os_malloc(size)` fails in that state (which it
does not when the system grants the mapping, respectively an extension of the break by
`MMAP_THRESHOLD` bytes), and when `os_malloc(size)` returns `q`, leaving the state `s1`,
`os_realloc` returns the same `q`, with `q ≠ p`, and leaves the state that
`os_free(p)` makes of `s1` after the copy of `min(s, n)` bytes: the first `min(s, n)`
bytes at `q` are the bytes that were at `p`; an ALLOC block stays in its place in the heap
list and becomes FREE, with no call to the system; a MAPPED block leaves the mapped list,
the other entries keeping their order, and is unmapped with one call of `munmap` of
`s + META_SIZE` bytes, the heap list staying as it is. -/
theorem C15_move (c : Config) (hc : ConfigOk c) (b0 : Nat) (h0 : 0 < b0) (hW : b0 < WORD)
    (strict : Prop) (s : State) (hr : Reachable c strict b0 s)
    (fuel addr size a : Nat) (hlive : Live c s (a + c.META_SIZE))
    (hs : size ≠ 0) (hsz : SizeOk c size) (hne : ALIGN size ≠ (s.mem a).size)
    (hcase : MMAP_THRESHOLD ≤ ALIGN size + c.META_SIZE ∨ (s.mem a).status = Status.MAPPED)
    (hf : Adequate fuel s) :
    (os_malloc c fuel addr size s = none →
      os_realloc c fuel addr (a + c.META_SIZE) size s = none) ∧
    (MMAP_THRESHOLD ≤ ALIGN size + c.META_SIZE → MmapOk s (ALIGN size + c.META_SIZE) addr →
      ∃ s1, os_malloc c fuel addr size s = some (addr + c.META_SIZE, s1)) ∧
    (ALIGN size + c.META_SIZE < MMAP_THRESHOLD → SbrkOk s MMAP_THRESHOLD →
      ∃ q s1, os_malloc c fuel addr size s = some (q, s1)) ∧
    ∀ q s1, os_malloc c fuel addr size s = some (q, s1) →
      ∃ s2, os_realloc c fuel addr (a + c.META_SIZE) size s = some (q, s2) ∧
        s2 = os_free c (a + c.META_SIZE)
          { s1 with data := (memcpy s1.data q (a + c.META_SIZE)
              (min (s.mem a).size (ALIGN size))) } ∧
        q ≠ a + c.META_SIZE ∧
        (∀ i, i < min (s.mem a).size (ALIGN size) →
          s2.data (q + i) = s.data (a + c.META_SIZE + i)) ∧
        ((s.mem a).status = Status.ALLOC →
          s2.calls = s1.calls ∧ s2.maps = s1.maps ∧ s2.mmap_blocks = s1.mmap_blocks ∧
          (∀ x, x ≠ a → s2.mem x = s1.mem x) ∧
          ∃ fuel2 pv qv,
            heap_view fuel2 s1 = some (pv ++ ⟨a, (s.mem a).size, Status.ALLOC⟩ :: qv) ∧
            heap_view fuel2 s2 = some (pv ++ ⟨a, (s.mem a).size, Status.FREE⟩ :: qv)) ∧
        ((s.mem a).status = Status.MAPPED →
          s2.calls = s1.calls ++ [OsCall.munmap a ((s.mem a).size + c.META_SIZE)] ∧
          s2.maps = s1.maps.erase (a, (s.mem a).size + c.META_SIZE) ∧
          ∃ fuel2 pv qv,
            mapped_view fuel2 s1 = some (pv ++ ⟨a, (s.mem a).size, Status.MAPPED⟩ :: qv) ∧
            mapped_view fuel2 s2 = some (pv ++ qv) ∧
            (heap_view fuel2 s1).isSome ∧ heap_view fuel2 s2 = heap_view fuel2 s1) := by
  have hWe := WORD_eq
  have hg : GapOk WORD := Or.inr (le_refl _)
  have hg0 : WORD ≠ 0 := by rw [hWe]; norm_num
  obtain ⟨l, ml, hinv, hb⟩ := reachable_inv hc hg (fun h => absurd h hg0) h0 hW hr
  obtain ⟨hf1, hf2⟩ := adequate_lengths hinv hf
  obtain ⟨a1, hp, ha⟩ := live_cases hinv hlive
  have haa : a1 = a := by omega
  subst haa
  have hmem : a1 ∈ l ∨ a1 ∈ ml := ha.imp (fun h => h.1) id
  obtain ⟨hp0, hwsub, hwadd⟩ := header_of_payload hc hinv hmem
  have hstat : (s.mem a1).status ≠ Status.FREE := by
    rcases ha with ⟨_, h⟩ | h
    · rw [h]; decide
    · rw [hinv.mstat a1 h]; decide
  have hw : wadd (ALIGN size) c.META_SIZE = ALIGN size + c.META_SIZE := wadd_of_lt hsz.2
  have hn := ALIGN_pos hsz.1 hs
  have hre : os_realloc c fuel addr (a1 + c.META_SIZE) size s =
      realloc_move c fuel addr (a1 + c.META_SIZE) size a1 s := by
    unfold os_realloc
    rw [if_neg hp0, if_neg hs]
    simp only [hwsub]
    rw [if_neg hstat, if_neg (Ne.symm hne), if_pos (by rw [hw]; exact hcase)]
  refine ⟨?_, ?_, ?_, ?_⟩
  · intro hnone
    rw [hre]
    unfold realloc_move
    rw [hnone]
  · intro hge hok
    obtain ⟨t1, _⟩ := route_mmap_total hc hinv (ALIGN size) MMAP_THRESHOLD 1 addr fuel
      hsz.2 hge hf2
    obtain ⟨s1, hrun⟩ := t1 hok
    have hadd : wadd addr c.META_SIZE = addr + c.META_SIZE := by
      apply wadd_of_lt
      have := hok.2.2.1
      omega
    refine ⟨s1, ?_⟩
    unfold os_malloc
    rw [if_neg hs, hrun]
    simp only [hadd]
  · intro hlt hok
    obtain ⟨r, s0, hb0⟩ := brk_alloc_total hc hg hinv hlt 1 hf1 hok
    unfold os_malloc route
    rw [if_neg hs, if_neg (by rw [hw]; omega), hb0]
    by_cases hz : s0.brk_blocks = 0
    · simp only [hz, if_true]
      exact ⟨_, _, rfl⟩
    · simp only [hz, if_false]
      exact ⟨_, _, rfl⟩
  · intro q s1 hm
    obtain ⟨l1, ml1, q1, q2, q3, _, q5⟩ := os_malloc_inv hc hg hinv hsz hf hm
    obtain ⟨r, hq, hr1, hr2, hr3, hr4⟩ := q5 hs
    have hsize : (s1.mem a1).size = (s.mem a1).size := by
      rcases ha with ⟨h1, h2⟩ | h1
      · exact (q2.heap a1 h1 h2).2.2
      · exact (q2.mapped a1 h1).2
    have hmin : (if (s1.mem a1).size < ALIGN size then (s1.mem a1).size else ALIGN size) =
        min (s.mem a1).size (ALIGN size) := by
      rw [hsize, Nat.min_def]
      split_ifs <;> omega
    have hinv2 : Inv c WORD { s1 with data := (memcpy s1.data q (a1 + c.META_SIZE)
        (min (s.mem a1).size (ALIGN size))) } l1 ml1 :=
      ⟨heapinv_frame q1.toHeapInv (fun _ _ => rfl) rfl rfl rfl rfl,
        mapinv_frame q1.toMapInv (fun _ _ => rfl) rfl rfl, osok_congr q1.os rfl rfl rfl⟩
    have hqne : q ≠ a1 + c.META_SIZE := by
      intro h
      have hra : r = a1 := by omega
      subst hra
      rcases ha with ⟨h1, h2⟩ | h1
      · have := hr4 h1
        rw [h2] at this
        exact absurd this (by decide)
      · exact hr3 h1
    have hcopy : ∀ i, i < min (s.mem a1).size (ALIGN size) →
        memcpy s1.data q (a1 + c.META_SIZE) (min (s.mem a1).size (ALIGN size)) (q + i) =
          s.data (a1 + c.META_SIZE + i) := by
      intro i hi
      unfold memcpy
      rw [if_pos ⟨by omega, by omega⟩, q3]
      congr 2
      omega
    refine ⟨_, ?_, rfl, hqne, ?_, ?_, ?_⟩
    · rw [hre]
      unfold realloc_move
      rw [hm]
      simp only [hmin]
    · intro i hi
      rcases ha with ⟨h1, h2⟩ | h1
      · obtain ⟨k1, k2, _⟩ := q2.heap a1 h1 h2
        rw [(os_free_heap_inv hc hinv2 k1 k2).1]
        exact hcopy i hi
      · obtain ⟨k1, _⟩ := q2.mapped a1 h1
        rw [(os_free_mapped_inv hc hinv2 k1).2.2.2.2.2.2.2.2]
        exact hcopy i hi
    · intro hal
      have h1 : a1 ∈ l := by
        rcases ha with ⟨h1, _⟩ | h1
        · exact h1
        · have := hinv.mstat a1 h1
          rw [hal] at this
          exact absurd this (by decide)
      obtain ⟨k1, k2, k3⟩ := q2.heap a1 h1 hal
      rw [(os_free_heap_inv hc hinv2 k1 k2).1]
      refine ⟨rfl, rfl, rfl, fun x hx => set_status_ne _ _ hx, ?_⟩
      obtain ⟨pre, post, hsplit⟩ := List.append_of_mem k1
      subst hsplit
      have hnd := chain_nodup q1.hchain
      refine ⟨(pre ++ a1 :: post).length + 1, pre.map (view s1.mem), post.map (view s1.mem),
        ?_, ?_⟩
      · apply heap_view_of_chain q1.hchain
        · rw [List.map_append, List.map_cons]
          simp only [view, k2, k3]
        · simp
      · have hch : Chain (set_status s1.mem a1 Status.FREE) s1.brk_blocks
            (pre ++ a1 :: post) :=
          seg_congr (fun x _ => by
            by_cases hx : x = a1
            · subst hx; simp [set_status]
            · rw [set_status_ne _ _ hx]) q1.hchain
        apply @heap_view_of_chain { s1 with data := (memcpy s1.data q (a1 + c.META_SIZE)
          (min (s.mem a1).size (ALIGN size))), mem := set_status s1.mem a1 Status.FREE }
          (pre ++ a1 :: post) _ _ hch
        · show (pre ++ a1 :: post).map (view (set_status s1.mem a1 Status.FREE)) = _
          rw [map_view_set_status Status.FREE hnd, k3]
        · simp
    · intro hmp
      have h1 : a1 ∈ ml := by
        rcases ha with ⟨_, h2⟩ | h1
        · rw [hmp] at h2
          exact absurd h2 (by decide)
        · exact h1
      obtain ⟨k1, k3⟩ := q2.mapped a1 h1
      obtain ⟨f1, f2, f3, f4, f5, f6, f7, f8, f9⟩ := os_free_mapped_inv hc hinv2 k1
      refine ⟨?_, ?_, ?_⟩
      · rw [f2]
        show s1.calls ++ [OsCall.munmap a1 ((s1.mem a1).size + c.META_SIZE)] = _
        rw [k3]
      · rw [f3]
        show s1.maps.erase (a1, (s1.mem a1).size + c.META_SIZE) = _
        rw [k3]
      · obtain ⟨pre, post, hsplit⟩ := List.append_of_mem k1
        subst hsplit
        have hnd := q1.mnodup
        have hv : ∀ (w : List Nat), w.map (view (os_free c (a1 + c.META_SIZE)
            { s1 with data := (memcpy s1.data q (a1 + c.META_SIZE)
              (min (s.mem a1).size (ALIGN size))) }).mem) = w.map (view s1.mem) :=
          fun w => map_view_congr fun x _ => f5 x
        refine ⟨(pre ++ a1 :: post).length + l1.length + 1, pre.map (view s1.mem),
          post.map (view s1.mem), ?_, ?_, ?_, ?_⟩
        · unfold mapped_view
          rw [walk_chain q1.mchain _ (by omega)]
          simp only [Option.map_some', List.map_append, List.map_cons]
          simp only [view, k3, q1.mstat a1 k1]
        · unfold mapped_view
          rw [walk_chain f1.mchain _ (by
            have := List.length_erase_of_mem k1
            omega)]
          simp only [Option.map_some']
          rw [hv, erase_mid hnd, List.map_append]
        · unfold heap_view
          rw [walk_chain q1.hchain _ (by omega)]
          rfl
        · unfold heap_view
          rw [walk_chain q1.hchain _ (by omega), walk_chain f1.hchain _ (by omega)]
          simp only [Option.map_some']
          rw [hv]

/-- Witness for `C15_move`.  After `os_malloc(100)` the caller has stored the byte
`x % 251` at every `x`, so that the payload at 4128 starts with 112, 113.  The ALLOC
block at 4096 is reallocated to 200000 bytes: the new block is mapped at 1048576, the
payload is copied (the bytes at 1048608 become 112, 113, not the 181, 182 that stood
there) and the old block becomes FREE.  Then the MAPPED block at 1048576 is reallocated to 100 bytes: the
heap serves the request at 135168, the first 104 bytes are copied, and the mapping is
released. -/
theorem C15_move_witness :
    (written_first.data 4128 = 112 ∧ written_first.data 4129 = 113 ∧
      written_first.data 1048608 = 181 ∧ written_first.data 1048609 = 182 ∧
      (os_realloc cfg 3 1048576 4128 200000 written_first).map
        (fun r => (r.2.data 1048608, r.2.data 1048609)) = some (112, 113) ∧
      written_mapped.data 135200 = 162 ∧
      (os_realloc cfg 3 0 1048608 100 written_mapped).map
        (fun r => (r.2.data 135200, r.2.data 135303, r.2.data 135304)) =
          some (181, 33, 15)) ∧
    (ConfigOk cfg ∧ 0 < 4096 ∧ 4096 < WORD ∧ Reachable cfg False 4096 written_first ∧
      Live cfg written_first (4096 + cfg.META_SIZE) ∧ 200000 ≠ 0 ∧ SizeOk cfg 200000 ∧
      ALIGN 200000 ≠ (written_first.mem 4096).size ∧
      (MMAP_THRESHOLD ≤ ALIGN 200000 + cfg.META_SIZE ∨
        (written_first.mem 4096).status = Status.MAPPED) ∧
      Adequate 3 written_first ∧
      os_malloc cfg 3 1048576 200000 written_first = some (1048608, written_mapped)) ∧
    (∃ s2, os_realloc cfg 3 1048576 (4096 + cfg.META_SIZE) 200000 written_first =
          some (1048608, s2) ∧
        s2 = os_free cfg (4096 + cfg.META_SIZE)
          { written_mapped with data := (memcpy written_mapped.data 1048608 (4096 + cfg.META_SIZE)
              (min (written_first.mem 4096).size (ALIGN 200000))) } ∧
        1048608 ≠ 4096 + cfg.META_SIZE ∧
        (∀ i, i < min (written_first.mem 4096).size (ALIGN 200000) →
          s2.data (1048608 + i) = written_first.data (4096 + cfg.META_SIZE + i)) ∧
        ((written_first.mem 4096).status = Status.ALLOC →
          s2.calls = written_mapped.calls ∧ s2.maps = written_mapped.maps ∧
          s2.mmap_blocks = written_mapped.mmap_blocks ∧
          (∀ x, x ≠ 4096 → s2.mem x = written_mapped.mem x) ∧
          ∃ fuel2 pv qv,
            heap_view fuel2 written_mapped =
              some (pv ++ ⟨4096, (written_first.mem 4096).size, Status.ALLOC⟩ :: qv) ∧
            heap_view fuel2 s2 =
              some (pv ++ ⟨4096, (written_first.mem 4096).size, Status.FREE⟩ :: qv)) ∧
        ((written_first.mem 4096).status = Status.MAPPED →
          s2.calls = written_mapped.calls ++
            [OsCall.munmap 4096 ((written_first.mem 4096).size + cfg.META_SIZE)] ∧
          s2.maps = written_mapped.maps.erase (4096, (written_first.mem 4096).size + cfg.META_SIZE) ∧
          ∃ fuel2 pv qv,
            mapped_view fuel2 written_mapped =
              some (pv ++ ⟨4096, (written_first.mem 4096).size, Status.MAPPED⟩ :: qv) ∧
            mapped_view fuel2 s2 = some (pv ++ qv) ∧
            (heap_view fuel2 written_mapped).isSome ∧
            heap_view fuel2 s2 = heap_view fuel2 written_mapped)) ∧
    (Reachable cfg False 4096 written_mapped ∧
      Live cfg written_mapped (1048576 + cfg.META_SIZE) ∧ 100 ≠ 0 ∧ SizeOk cfg 100 ∧
      ALIGN 100 ≠ (written_mapped.mem 1048576).size ∧
      (MMAP_THRESHOLD ≤ ALIGN 100 + cfg.META_SIZE ∨
        (written_mapped.mem 1048576).status = Status.MAPPED) ∧
      Adequate 3 written_mapped ∧
      os_malloc cfg 3 0 100 written_mapped =
        some (135200, state_after written_mapped (os_malloc cfg 3 0 100 written_mapped))) ∧
    (∃ s2, os_realloc cfg 3 0 (1048576 + cfg.META_SIZE) 100 written_mapped = some (135200, s2) ∧
        s2 = os_free cfg (1048576 + cfg.META_SIZE)
          { state_after written_mapped (os_malloc cfg 3 0 100 written_mapped) with
            data := (memcpy (state_after written_mapped (os_malloc cfg 3 0 100 written_mapped)).data
              135200 (1048576 + cfg.META_SIZE)
              (min (written_mapped.mem 1048576).size (ALIGN 100))) } ∧
        135200 ≠ 1048576 + cfg.META_SIZE ∧
        (∀ i, i < min (written_mapped.mem 1048576).size (ALIGN 100) →
          s2.data (135200 + i) = written_mapped.data (1048576 + cfg.META_SIZE + i)) ∧
        ((written_mapped.mem 1048576).status = Status.ALLOC →
          s2.calls = (state_after written_mapped (os_malloc cfg 3 0 100 written_mapped)).calls ∧
          s2.maps = (state_after written_mapped (os_malloc cfg 3 0 100 written_mapped)).maps ∧
          s2.mmap_blocks =
            (state_after written_mapped (os_malloc cfg 3 0 100 written_mapped)).mmap_blocks ∧
          (∀ x, x ≠ 1048576 → s2.mem x =
            (state_after written_mapped (os_malloc cfg 3 0 100 written_mapped)).mem x) ∧
          ∃ fuel2 pv qv,
            heap_view fuel2 (state_after written_mapped (os_malloc cfg 3 0 100 written_mapped)) =
              some (pv ++ ⟨1048576, (written_mapped.mem 1048576).size, Status.ALLOC⟩ :: qv) ∧
            heap_view fuel2 s2 =
              some (pv ++ ⟨1048576, (written_mapped.mem 1048576).size, Status.FREE⟩ :: qv)) ∧
        ((written_mapped.mem 1048576).status = Status.MAPPED →
          s2.calls = (state_after written_mapped (os_malloc cfg 3 0 100 written_mapped)).calls ++
            [OsCall.munmap 1048576 ((written_mapped.mem 1048576).size + cfg.META_SIZE)] ∧
          s2.maps = (state_after written_mapped (os_malloc cfg 3 0 100 written_mapped)).maps.erase
            (1048576, (written_mapped.mem 1048576).size + cfg.META_SIZE) ∧
          ∃ fuel2 pv qv,
            mapped_view fuel2 (state_after written_mapped (os_malloc cfg 3 0 100 written_mapped)) =
              some (pv ++ ⟨1048576, (written_mapped.mem 1048576).size, Status.MAPPED⟩ :: qv) ∧
            mapped_view fuel2 s2 = some (pv ++ qv) ∧
            (heap_view fuel2
              (state_after written_mapped (os_malloc cfg 3 0 100 written_mapped))).isSome ∧
            heap_view fuel2 s2 =
              heap_view fuel2 (state_after written_mapped (os_malloc cfg 3 0 100 written_mapped)))) :=
  have hl1 : Live cfg written_first (4096 + cfg.META_SIZE) :=
    ⟨4096, rfl, Or.inl ⟨[4096], ⟨rfl, by decide, rfl⟩, by simp, by decide⟩⟩
  have hl2 : Live cfg written_mapped (1048576 + cfg.META_SIZE) :=
    ⟨1048576, rfl, Or.inr ⟨[1048576], ⟨rfl, by decide, rfl⟩, by simp⟩⟩
  ⟨⟨by decide, by decide, by decide, by decide, by decide, by decide, by decide⟩,
    ⟨cfg_ok, by decide, by decide, written_first_reachable, hl1, by decide, by decide,
      by decide, Or.inl (by decide), by decide, rfl⟩,
    (C15_move cfg cfg_ok 4096 (by decide) (by decide) False written_first
      written_first_reachable 3 1048576 200000 4096 hl1 (by decide) (by decide) (by decide)
      (Or.inl (by decide)) (by decide)).2.2.2 1048608 written_mapped rfl,
    ⟨written_mapped_reachable, hl2, by decide, by decide, by decide, Or.inr (by decide),
      by decide, rfl⟩,
    (C15_move cfg cfg_ok 4096 (by decide) (by decide) False written_mapped
      written_mapped_reachable 3 0 100 1048576 hl2 (by decide) (by decide) (by decide)
      (Or.inr (by decide)) (by decide)).2.2.2 135200
      (state_after written_mapped (os_malloc cfg 3 0 100 written_mapped)) rfl⟩

/-- Claim C15 fails as stated.  After `os_malloc(8)` (break at 4104) the payload 4136 is
in use, its block ALLOC with size 131040.  The size `2 ^ 64 - 32` is positive, is aligned
without wrapping, `n = ALIGN(size) = 2 ^ 64 - 32` differs from the old size, and
`n + META_SIZE = 2 ^ 64` is at least the threshold; yet `os_realloc` computes the sum in
the machine word, where it wraps to 0, keeps the request in the heap, calls
`sbrk(2 ^ 64 - 131072)`, maps nothing, and returns the pointer 4136 that it was given. -/
theorem C15_counterexample :
    heap_view 2 small_first = some [⟨4104, 131040, Status.ALLOC⟩] ∧
    (2 ^ 64 - 32) + 7 < WORD ∧ ALIGN (2 ^ 64 - 32) = 2 ^ 64 - 32 ∧
    ALIGN (2 ^ 64 - 32) ≠ (small_first.mem 4104).size ∧
    MMAP_THRESHOLD ≤ ALIGN (2 ^ 64 - 32) + cfg.META_SIZE ∧
    (os_realloc cfg 2 0 4136 (2 ^ 64 - 32) small_first).map (fun r => r.1) = some 4136 ∧
    (os_realloc cfg 2 0 4136 (2 ^ 64 - 32) small_first).map (fun r => r.2.calls) =
      some [OsCall.sbrk 131072, OsCall.sbrk (2 ^ 64 - 131072)] ∧
    (os_realloc cfg 2 0 4136 (2 ^ 64 - 32) small_first).map (fun r => r.2.maps) = some [] :=
  ⟨by decide, by decide, by decide, by decide, by decide, by decide, by decide, by decide⟩

/-! ## The mapped list and the live mappings -/

/-- Claim C16, as amended.  In every state reached from the initial state by calls of the
public operations on pointers in use, with request sizes (for `os_calloc` the product) for
which neither the product, the alignment nor the addition of `META_SIZE` wraps, the blocks
`mv` met from the head of the mapped list along the `next` links are exactly the live
mappings, in the order in which they were made, the block at `a` of size `b` standing for
the region of `b + META_SIZE` bytes at `a`, and each of them is MAPPED.  For every block
`b` of that list, whatever stands before it (`pv`) and after it (`qv`), `os_free` of its
payload leaves the mapped list `pv ++ qv`, makes the one call `munmap` of
`b.size + META_SIZE` bytes at the address of `b`, which leaves the live mappings without
that region, and leaves the heap list, the break and every header outside the mapped list
as they are. -/
theorem C16_mapped (c : Config) (hc : ConfigOk c) (b0 : Nat) (h0 : 0 < b0) (hW : b0 < WORD)
    (strict : Prop) (s : State) (hr : Reachable c strict b0 s)
    (fuel : Nat) (hf : Adequate fuel s) (mv : List Blk)
    (hview : mapped_view fuel s = some mv) :
    s.maps = mv.map (fun b => (b.addr, b.size + c.META_SIZE)) ∧
    (∀ b ∈ mv, b.status = Status.MAPPED) ∧
    ∀ pv b qv, mv = pv ++ b :: qv →
      mapped_view fuel (os_free c (b.addr + c.META_SIZE) s) = some (pv ++ qv) ∧
      (os_free c (b.addr + c.META_SIZE) s).calls =
        s.calls ++ [OsCall.munmap b.addr (b.size + c.META_SIZE)] ∧
      (os_free c (b.addr + c.META_SIZE) s).maps =
        s.maps.erase (b.addr, b.size + c.META_SIZE) ∧
      (heap_view fuel s).isSome ∧
      heap_view fuel (os_free c (b.addr + c.META_SIZE) s) = heap_view fuel s ∧
      (os_free c (b.addr + c.META_SIZE) s).brk = s.brk ∧
      (∀ x, x ∉ mv.map (fun y => y.addr) →
        (os_free c (b.addr + c.META_SIZE) s).mem x = s.mem x) := by
  have hWe := WORD_eq
  have hg : GapOk WORD := Or.inr (le_refl _)
  have hg0 : WORD ≠ 0 := by rw [hWe]; norm_num
  obtain ⟨l, ml, hinv, hb⟩ := reachable_inv hc hg (fun h => absurd h hg0) h0 hW hr
  obtain ⟨hf1, hf2⟩ := adequate_lengths hinv hf
  have hmv : mv = ml.map (view s.mem) := by
    unfold mapped_view at hview
    rw [walk_chain hinv.mchain fuel hf2] at hview
    exact (Option.some.inj hview).symm
  have haddr : mv.map (fun y => y.addr) = ml := by
    rw [hmv, List.map_map]
    exact (List.map_congr_left fun x _ => rfl).trans (List.map_id ml)
  refine ⟨?_, ?_, ?_⟩
  · rw [hinv.mmaps, hmv, List.map_map]
    exact List.map_congr_left fun x _ => rfl
  · intro b hbm
    rw [hmv] at hbm
    obtain ⟨a, ha, rfl⟩ := List.mem_map.mp hbm
    exact hinv.mstat a ha
  · intro pv b qv hsplit
    obtain ⟨a, sz, st⟩ := b
    obtain ⟨pre, post, hl, hpre, hpost, hsz, hst⟩ :=
      map_view_split (hmv.symm.trans hsplit)
    subst hl
    have ha : a ∈ pre ++ a :: post := List.mem_append_right _ (List.mem_cons_self _ _)
    obtain ⟨f1, f2, f3, f4, f5, f6, f7, f8, f9⟩ := os_free_mapped_inv hc hinv ha
    have hv : ∀ (w : List Nat), w.map (view (os_free c (a + c.META_SIZE) s).mem) =
        w.map (view s.mem) := fun w => map_view_congr fun x _ => f5 x
    have hlen : ((pre ++ a :: post).erase a).length < fuel := by
      have := List.length_erase_of_mem ha
      omega
    simp only
    refine ⟨?_, ?_, ?_, ?_, ?_, f7, ?_⟩
    · unfold mapped_view
      rw [walk_chain f1.mchain fuel hlen]
      simp only [Option.map_some']
      rw [hv, erase_mid hinv.mnodup, List.map_append, hpre, hpost]
    · rw [f2, hsz]
    · rw [f3, hsz]
    · unfold heap_view
      rw [walk_chain hinv.hchain fuel hf1]
      rfl
    · unfold heap_view
      rw [walk_chain hinv.hchain fuel hf1, walk_chain f1.hchain fuel hf1]
      simp only [Option.map_some']
      rw [hv]
    · intro x hx
      rw [haddr] at hx
      exact f4 x hx

/-- Witness for `C16_mapped`: with three mappings, at 1048576, 2097152 and 4194304,
`os_free` of the interior block, of the head and of the tail. -/
theorem C16_mapped_witness :
    (ConfigOk cfg ∧ 0 < 4096 ∧ 4096 < WORD ∧ Reachable cfg False 4096 three_mapped ∧
      Adequate 4 three_mapped ∧
      mapped_view 4 three_mapped = some [⟨1048576, 200000, Status.MAPPED⟩,
        ⟨2097152, 300000, Status.MAPPED⟩, ⟨4194304, 400000, Status.MAPPED⟩]) ∧
    three_mapped.maps = [(⟨1048576, 200000, Status.MAPPED⟩ : Blk),
      ⟨2097152, 300000, Status.MAPPED⟩, ⟨4194304, 400000, Status.MAPPED⟩].map
        (fun b => (b.addr, b.size + cfg.META_SIZE)) ∧
    (∀ b ∈ [(⟨1048576, 200000, Status.MAPPED⟩ : Blk), ⟨2097152, 300000, Status.MAPPED⟩,
      ⟨4194304, 400000, Status.MAPPED⟩], b.status = Status.MAPPED) ∧
    (mapped_view 4 (os_free cfg (2097152 + cfg.META_SIZE) three_mapped) =
        some ([⟨1048576, 200000, Status.MAPPED⟩] ++ [⟨4194304, 400000, Status.MAPPED⟩]) ∧
      (os_free cfg (2097152 + cfg.META_SIZE) three_mapped).calls =
        three_mapped.calls ++ [OsCall.munmap 2097152 (300000 + cfg.META_SIZE)] ∧
      (os_free cfg (2097152 + cfg.META_SIZE) three_mapped).maps =
        three_mapped.maps.erase (2097152, 300000 + cfg.META_SIZE) ∧
      (heap_view 4 three_mapped).isSome ∧
      heap_view 4 (os_free cfg (2097152 + cfg.META_SIZE) three_mapped) =
        heap_view 4 three_mapped ∧
      (os_free cfg (2097152 + cfg.META_SIZE) three_mapped).brk = three_mapped.brk ∧
      (∀ x, x ∉ [(⟨1048576, 200000, Status.MAPPED⟩ : Blk), ⟨2097152, 300000, Status.MAPPED⟩,
          ⟨4194304, 400000, Status.MAPPED⟩].map (fun y => y.addr) →
        (os_free cfg (2097152 + cfg.META_SIZE) three_mapped).mem x = three_mapped.mem x)) ∧
    mapped_view 4 (os_free cfg (1048576 + cfg.META_SIZE) three_mapped) =
      some ([] ++ [⟨2097152, 300000, Status.MAPPED⟩, ⟨4194304, 400000, Status.MAPPED⟩]) ∧
    mapped_view 4 (os_free cfg (4194304 + cfg.META_SIZE) three_mapped) =
      some ([⟨1048576, 200000, Status.MAPPED⟩, ⟨2097152, 300000, Status.MAPPED⟩] ++ []) :=
  ⟨⟨cfg_ok, by decide, by decide, three_mapped_reachable, by decide, by decide⟩,
    (C16_mapped cfg cfg_ok 4096 (by decide) (by decide) False three_mapped
      three_mapped_reachable 4 (by decide) _ (by decide)).1,
    (C16_mapped cfg cfg_ok 4096 (by decide) (by decide) False three_mapped
      three_mapped_reachable 4 (by decide) _ (by decide)).2.1,
    (C16_mapped cfg cfg_ok 4096 (by decide) (by decide) False three_mapped
      three_mapped_reachable 4 (by decide) _ (by decide)).2.2
      [⟨1048576, 200000, Status.MAPPED⟩] ⟨2097152, 300000, Status.MAPPED⟩
      [⟨4194304, 400000, Status.MAPPED⟩] rfl,
    ((C16_mapped cfg cfg_ok 4096 (by decide) (by decide) False three_mapped
      three_mapped_reachable 4 (by decide) _ (by decide)).2.2
      [] ⟨1048576, 200000, Status.MAPPED⟩
      [⟨2097152, 300000, Status.MAPPED⟩, ⟨4194304, 400000, Status.MAPPED⟩] rfl).1,
    ((C16_mapped cfg cfg_ok 4096 (by decide) (by decide) False three_mapped
      three_mapped_reachable 4 (by decide) _ (by decide)).2.2
      [⟨1048576, 200000, Status.MAPPED⟩, ⟨2097152, 300000, Status.MAPPED⟩]
      ⟨4194304, 400000, Status.MAPPED⟩ [] rfl).1⟩

/-- Claim C16 fails as stated.  The calls `os_malloc(100)`, `os_malloc(200000)` and
`os_malloc(2 ^ 64 - 32)` take no pointer.  The first leaves the break at 135168; for the
second the system may grant the mapping of 200032 bytes at 135168, the break itself.  For
the third, `ALIGN(size) + META_SIZE` wraps to 0, the request goes to the heap, `brk_alloc`
calls `sbrk(0)` and writes the header of a heap block at the break, over the header of the
mapped block.  The block met from the head of the mapped list then has the status ALLOC
and the size `2 ^ 64 - 32`, while the one live mapping has 200032 bytes; and the pointer
returned is the payload of the mapped block, which is in use. -/
theorem C16_counterexample :
    os_malloc cfg 2 0 100 (init 4096) = some (4128, malloc_first) ∧
    malloc_first.brk = 135168 ∧ MmapOk malloc_first (ALIGN 200000 + cfg.META_SIZE) 135168 ∧
    os_malloc cfg 3 135168 200000 malloc_first = some (135200, mapped_at_brk) ∧
    mapped_view 3 mapped_at_brk = some [⟨135168, 200000, Status.MAPPED⟩] ∧
    os_malloc cfg 3 0 (2 ^ 64 - 32) mapped_at_brk = some (135200, heap_over_map) ∧
    heap_over_map.calls =
      [OsCall.sbrk 131072, OsCall.mmap 200032 135168, OsCall.sbrk 0] ∧
    heap_over_map.maps = [(135168, 200032)] ∧
    mapped_view 3 heap_over_map = some [⟨135168, 2 ^ 64 - 32, Status.ALLOC⟩] ∧
    heap_view 4 heap_over_map =
      some [⟨4096, 131040, Status.ALLOC⟩, ⟨135168, 2 ^ 64 - 32, Status.ALLOC⟩] :=
  ⟨rfl, by decide, by decide, rfl, by decide, rfl, by decide, by decide, by decide,
    by decide⟩

/-! ## The sizes stored in the headers -/

/-- Claim C17, as amended.  In every state reached from the initial state by calls of the
public operations on pointers in use, with request sizes (for `os_calloc` the product)
for which neither the product, the alignment nor the addition of `META_SIZE` to the
aligned size wraps, and with `PAGE_SIZE` a multiple of 8 that is greater than
`META_SIZE + 8` and at most `MMAP_THRESHOLD`: both lists end (some fuel walks through
them), and every block of the heap list and of the mapped list has a stored size that is
a multiple of `ALIGNMENT` and at least `ALIGNMENT`. -/
theorem C17_sizes (c : Config) (hc : ConfigOk c) (b0 : Nat) (h0 : 0 < b0) (hW : b0 < WORD)
    (strict : Prop) (s : State) (hr : Reachable c strict b0 s) :
    (∃ fuel, Adequate fuel s) ∧
    (∀ fuel hv, heap_view fuel s = some hv →
      ∀ b ∈ hv, b.size % ALIGNMENT = 0 ∧ ALIGNMENT ≤ b.size) ∧
    (∀ fuel mv, mapped_view fuel s = some mv →
      ∀ b ∈ mv, b.size % ALIGNMENT = 0 ∧ ALIGNMENT ≤ b.size) := by
  have hWe := WORD_eq
  have hg : GapOk WORD := Or.inr (le_refl _)
  have hg0 : WORD ≠ 0 := by rw [hWe]; norm_num
  obtain ⟨l, ml, hinv, hb⟩ := reachable_inv hc hg (fun h => absurd h hg0) h0 hW hr
  refine ⟨⟨l.length + ml.length + 1,
    adequate_of_lengths hinv (by omega) (by omega)⟩, ?_, ?_⟩
  · intro fuel hv hview b hbm
    obtain ⟨e, _⟩ := heap_view_inv hinv hview
    rw [e] at hbm
    exact (hinv.hblk b hbm).2
  · intro fuel mv hview b hbm
    unfold mapped_view at hview
    cases hw : walk fuel s.mem s.mmap_blocks with
    | none => rw [hw] at hview; simp at hview
    | some ml1 =>
      rw [hw] at hview
      have e := chain_unique hinv.mchain (walk_some _ _ _ hw).1
      subst e
      rw [← Option.some.inj hview] at hbm
      obtain ⟨a, ha, rfl⟩ := List.mem_map.mp hbm
      exact hinv.msize a ha

/-- Witness for `C17_sizes`: the state with one heap block and three mapped blocks. -/
theorem C17_sizes_witness :
    (ConfigOk cfg ∧ 0 < 4096 ∧ 4096 < WORD ∧ Reachable cfg False 4096 three_mapped ∧
      heap_view 4 three_mapped = some [⟨4096, 131040, Status.ALLOC⟩] ∧
      mapped_view 4 three_mapped = some [⟨1048576, 200000, Status.MAPPED⟩,
        ⟨2097152, 300000, Status.MAPPED⟩, ⟨4194304, 400000, Status.MAPPED⟩]) ∧
    (∃ fuel, Adequate fuel three_mapped) ∧
    (∀ b ∈ [(⟨4096, 131040, Status.ALLOC⟩ : Blk)],
      b.size % ALIGNMENT = 0 ∧ ALIGNMENT ≤ b.size) ∧
    (∀ b ∈ [(⟨1048576, 200000, Status.MAPPED⟩ : Blk), ⟨2097152, 300000, Status.MAPPED⟩,
      ⟨4194304, 400000, Status.MAPPED⟩], b.size % ALIGNMENT = 0 ∧ ALIGNMENT ≤ b.size) :=
  ⟨⟨cfg_ok, by decide, by decide, three_mapped_reachable, by decide, by decide⟩,
    (C17_sizes cfg cfg_ok 4096 (by decide) (by decide) False three_mapped
      three_mapped_reachable).1,
    (C17_sizes cfg cfg_ok 4096 (by decide) (by decide) False three_mapped
      three_mapped_reachable).2.1 4 _ (by decide),
    (C17_sizes cfg cfg_ok 4096 (by decide) (by decide) False three_mapped
      three_mapped_reachable).2.2 4 _ (by decide)⟩

/-- Claim C17 fails as stated.  With `META_SIZE = 32` and pages of 4096 bytes, the calls
`os_calloc(1, 8)`, `os_free(4128)`, `os_malloc(2 ^ 64 - 24)`, `os_malloc(2 ^ 64 - 8)`,
`os_free(131112)` and `os_realloc(4128, 2 ^ 64 - 8)` act on pointers in use, with positive
sizes whose product and alignment do not wrap.  For the two large sizes the sum
`ALIGN(size) + META_SIZE` wraps, both requests go to the heap, and the last call merges
the two blocks into one whose size, `(2 ^ 64 - 24) + (2 ^ 64 - 8) + 32`, wraps to 0: the
heap list ends with a block of size 0 at its head. -/
theorem C17_counterexample :
    cfg.PAGE_SIZE % ALIGNMENT = 0 ∧ cfg.META_SIZE + ALIGNMENT < cfg.PAGE_SIZE ∧
    8 * 1 < WORD ∧ (8 * 1) + 7 < WORD ∧ (2 ^ 64 - 24) + 7 < WORD ∧ (2 ^ 64 - 8) + 7 < WORD ∧
    os_calloc cfg 2 0 1 8 (init 4096) = some (4128, calloc_first) ∧
    heap_view 2 calloc_first = some [⟨4096, 4064, Status.ALLOC⟩] ∧
    calloc_freed = os_free cfg 4128 calloc_first ∧
    os_malloc cfg 3 0 (2 ^ 64 - 24) calloc_freed = some (4128, giant_one) ∧
    os_malloc cfg 3 0 (2 ^ 64 - 8) giant_one = some (131112, giant_two) ∧
    heap_view 3 giant_two =
      some [⟨4096, 2 ^ 64 - 24, Status.ALLOC⟩, ⟨131080, 2 ^ 64 - 8, Status.ALLOC⟩] ∧
    giant_freed = os_free cfg 131112 giant_two ∧
    heap_view 3 giant_freed =
      some [⟨4096, 2 ^ 64 - 24, Status.ALLOC⟩, ⟨131080, 2 ^ 64 - 8, Status.FREE⟩] ∧
    os_realloc cfg 4 0 4128 (2 ^ 64 - 8) giant_freed = some (131136, zero_block) ∧
    heap_view 4 zero_block =
      some [⟨4096, 0, Status.FREE⟩, ⟨131104, 2 ^ 64 - 8, Status.ALLOC⟩] ∧
    mapped_view 4 zero_block = some [] :=
  ⟨by decide, by decide, by decide, by decide, by decide, by decide, rfl, by decide, rfl,
    rfl, rfl, by decide, rfl, by decide, rfl, by decide, by decide⟩

/-! ## A released first block is used again -/

/-- The call `os_malloc` on a heap list of one ALLOC block: the heap grows by a block at
the break. -/
theorem malloc_after_one (c : Config) (s : State) (k ad size : Nat)
    (hs : size ≠ 0) (hflag : s.first_sbrk ≠ 0) (hhead : s.brk_blocks ≠ 0)
    (hst : (s.mem s.brk_blocks).status = Status.ALLOC)
    (hnx : (s.mem s.brk_blocks).next = 0)
    (hlt : wadd (ALIGN size) c.META_SIZE < MMAP_THRESHOLD) :
    os_malloc c (k + 2) ad size s =
      if SbrkOk s (wadd (ALIGN size) c.META_SIZE) then
        some (wadd s.brk c.META_SIZE,
          { s with
            brk := wadd s.brk (wadd (ALIGN size) c.META_SIZE)
            calls := s.calls ++ [OsCall.sbrk (wadd (ALIGN size) c.META_SIZE)]
            mem := set_next (set_prev (set_next (set_status (set_size s.mem s.brk (ALIGN size))
              s.brk Status.ALLOC) s.brk 0) s.brk s.brk_blocks) s.brk_blocks s.brk })
      else none := by
  unfold os_malloc route brk_alloc
  rw [if_neg hs, if_neg (not_le.mpr hlt), if_neg hflag]
  simp only [coalesce_blocks, coalesce_loop, find_best_block, find_best_loop, find_last_block,
    hhead, hst, hnx, ne_eq, not_true_eq_false, not_false_eq_true, and_false, and_true,
    if_true, if_false, Option.map_some', false_and, reduceCtorEq]
  unfold sbrk
  by_cases hok : SbrkOk s (wadd (ALIGN size) c.META_SIZE)
  · simp only [hok, if_true, hhead, if_false]
  · simp only [hok, if_false]

/-- The call `os_malloc` on a heap list of a FREE block that fits, followed by one ALLOC
block: the FREE block is used again, split when the slack allows, with no call to the
system. -/
theorem malloc_reuse_first (c : Config) (s : State) (k ad size : Nat)
    (hs : size ≠ 0) (hflag : s.first_sbrk ≠ 0) (hhead : s.brk_blocks ≠ 0)
    (hst : (s.mem s.brk_blocks).status = Status.FREE)
    (hnx : (s.mem s.brk_blocks).next ≠ 0)
    (hst2 : (s.mem (s.mem s.brk_blocks).next).status = Status.ALLOC)
    (hnx2 : (s.mem (s.mem s.brk_blocks).next).next = 0)
    (hfit : ALIGN size ≤ (s.mem s.brk_blocks).size)
    (hlt : wadd (ALIGN size) c.META_SIZE < MMAP_THRESHOLD) :
    os_malloc c (k + 3) ad size s =
      some (wadd s.brk_blocks c.META_SIZE,
        { s with mem := (set_status
            (if (s.mem s.brk_blocks).size ≥ wadd (wadd (ALIGN size) c.META_SIZE) (ALIGN 1) then
              split_blocks c s.mem s.brk_blocks (ALIGN size)
            else s.mem) s.brk_blocks Status.ALLOC) }) := by
  unfold os_malloc route brk_alloc
  rw [if_neg hs, if_neg (not_le.mpr hlt), if_neg hflag]
  simp only [coalesce_blocks, coalesce_loop, find_best_block, find_best_loop,
    hhead, hst, hnx, hst2, hnx2, hfit, ge_iff_le, ne_eq, not_true_eq_false,
    not_false_eq_true, and_false, and_true, and_self, true_or, true_and,
    if_true, if_false, Option.map_some', false_and, reduceCtorEq]

/-- What `split_blocks` does to the successor of the block it splits: only its `prev` link
changes, to the new block. -/
theorem split_blocks_successor (c : Config) (m : Mem) (blocks n : Nat)
    (hnx : (m blocks).next ≠ 0) (h1 : (m blocks).next ≠ wadd (wadd blocks c.META_SIZE) n)
    (h2 : (m blocks).next ≠ blocks) :
    split_blocks c m blocks n (m blocks).next =
      { m (m blocks).next with prev := wadd (wadd blocks c.META_SIZE) n } := by
  have e : ∀ x y : block_meta, x.size = y.size → x.status = y.status → x.prev = y.prev →
      x.next = y.next → x = y := by
    intro x y k1 k2 k3 k4
    cases x; cases y
    simp only at k1 k2 k3 k4
    subst k1; subst k2; subst k3; subst k4
    rfl
  apply e <;>
    simp [split_blocks, hnx, h1, h2, Ne.symm h1]

/-- Two requests to the heap from the initial state: the block of the first request, at
the initial break `b0`, and the block appended at `b0 + MMAP_THRESHOLD`. -/
theorem two_requests (c : Config) (hc : ConfigOk c) (b0 : Nat) (h0 : 0 < b0)
    (f1 f2 ad1 ad2 sa sb : Nat) (ha : sa ≠ 0) (hb : sb ≠ 0)
    (hA : ALIGN sa + c.META_SIZE < MMAP_THRESHOLD)
    (hB : ALIGN sb + c.META_SIZE < MMAP_THRESHOLD) (hf2 : 2 ≤ f2) :
    (SbrkOk (init b0) MMAP_THRESHOLD →
      ∃ p s1, os_malloc c f1 ad1 sa (init b0) = some (p, s1)) ∧
    ∀ p s1, os_malloc c f1 ad1 sa (init b0) = some (p, s1) →
      (SbrkOk s1 (ALIGN sb + c.META_SIZE) →
        ∃ q s2, os_malloc c f2 ad2 sb s1 = some (q, s2)) ∧
      ∀ q s2, os_malloc c f2 ad2 sb s1 = some (q, s2) →
        p = b0 + c.META_SIZE ∧ q = b0 + MMAP_THRESHOLD + c.META_SIZE ∧
        b0 + MMAP_THRESHOLD + ALIGN sb + c.META_SIZE < WORD ∧
        s2.first_sbrk = 1 ∧ s2.brk_blocks = b0 ∧
        s2.mem b0 = ⟨MMAP_THRESHOLD - c.META_SIZE, Status.ALLOC, 0, b0 + MMAP_THRESHOLD⟩ ∧
        s2.mem (b0 + MMAP_THRESHOLD) = ⟨ALIGN sb, Status.ALLOC, b0, 0⟩ ∧
        s2.calls = [OsCall.sbrk MMAP_THRESHOLD, OsCall.sbrk (ALIGN sb + c.META_SIZE)] ∧
        s2.mmap_blocks = 0 ∧ s2.maps = [] := by
  have hWe := WORD_eq
  have ht : MMAP_THRESHOLD = 131072 := rfl
  have hb0 : b0 ≠ 0 := by omega
  have hwB : wadd (ALIGN sb) c.META_SIZE = ALIGN sb + c.META_SIZE :=
    wadd_of_lt (by rw [hWe]; omega)
  have hwA : wadd (ALIGN sa) c.META_SIZE = ALIGN sa + c.META_SIZE :=
    wadd_of_lt (by rw [hWe]; omega)
  have hfirst : ∀ hok : SbrkOk (init b0) MMAP_THRESHOLD,
      ∃ s1, os_malloc c f1 ad1 sa (init b0) = some (wadd b0 c.META_SIZE, s1) ∧
        FirstBlock c MMAP_THRESHOLD (init b0) s1 (b0 + c.META_SIZE) := by
    intro hok
    obtain ⟨s1, k1, k2, _⟩ := route_first c (init b0) f1 ad1 (ALIGN sa) MMAP_THRESHOLD 1
      rfl rfl hb0 hok hA (by simp) (by decide)
    refine ⟨s1, ?_, k2⟩
    unfold os_malloc
    rw [if_neg ha, k1]
    rfl
  refine ⟨fun hok => ?_, ?_⟩
  · obtain ⟨s1, k1, _⟩ := hfirst hok
    exact ⟨_, _, k1⟩
  · intro p s1 h1
    have hok : SbrkOk (init b0) MMAP_THRESHOLD := by
      by_contra hno
      unfold os_malloc route brk_alloc at h1
      have hfl : (init b0).first_sbrk = 0 := rfl
      rw [if_neg ha, if_neg (by rw [hwA]; omega), if_pos hfl, heap_preallocation_eq,
        if_neg hno] at h1
      simp at h1
    obtain ⟨s1x, k1, k2⟩ := hfirst hok
    rw [k1] at h1
    obtain ⟨hp, hs1⟩ := Prod.mk.inj (Option.some.inj h1)
    subst hs1
    obtain ⟨_, e2, e3, e4, e5, e6, _, e8, e9⟩ := k2
    have e3a : s1x.brk = b0 + MMAP_THRESHOLD := e3
    have e5a : s1x.brk_blocks = b0 := e5
    have e6a : s1x.mem b0 = ⟨MMAP_THRESHOLD - c.META_SIZE, Status.ALLOC, 0, 0⟩ := e6
    have e2a : s1x.calls = [OsCall.sbrk MMAP_THRESHOLD] := e2
    have e8a : s1x.mmap_blocks = 0 := e8
    have e9a : s1x.maps = [] := e9
    obtain ⟨_, hbT⟩ := sbrk_ok_brk hok (by rw [ht]; norm_num)
    have hbT : b0 + MMAP_THRESHOLD < WORD := hbT
    have hH := hc.1
    have hPH := hc.2.2.2.1
    have hPT := hc.2.2.2.2
    obtain ⟨k, rfl⟩ : ∃ k, f2 = k + 2 := ⟨f2 - 2, by omega⟩
    have hrun := malloc_after_one c s1x k ad2 sb hb (by rw [e4]; decide)
      (by rw [e5a]; exact hb0) (by rw [e5a, e6a]) (by rw [e5a, e6a]) (by rw [hwB]; exact hB)
    rw [hwB, e3a, e5a] at hrun
    refine ⟨fun hok2 => ?_, ?_⟩
    · rw [hrun, if_pos hok2]
      exact ⟨_, _, rfl⟩
    · intro q s2 h2
      rw [hrun] at h2
      by_cases hok2 : SbrkOk s1x (ALIGN sb + c.META_SIZE)
      · rw [if_pos hok2] at h2
        obtain ⟨hq, hs2⟩ := Prod.mk.inj (Option.some.inj h2)
        obtain ⟨_, hlim⟩ := sbrk_ok_brk hok2 (by rw [ht] at hB; omega)
        rw [e3a] at hlim
        have hne : b0 ≠ b0 + MMAP_THRESHOLD := by rw [ht]; omega
        have hp1 : wadd b0 c.META_SIZE = b0 + c.META_SIZE := wadd_of_lt (by omega)
        have hq1 : wadd (b0 + MMAP_THRESHOLD) c.META_SIZE = b0 + MMAP_THRESHOLD + c.META_SIZE :=
          wadd_of_lt (by omega)
        subst hs2
        refine ⟨by rw [← hp, hp1], by rw [← hq, hq1], by omega, e4, rfl, ?_, ?_, ?_, e8a, e9a⟩
        · simp [set_next, set_prev, set_status, set_size, hne, e6a]
        · simp [set_next, set_prev, set_status, set_size, hne, Ne.symm hne]
        · simp [e2a]
      · rw [if_neg hok2] at h2
        simp at h2

/-- Claim C18, as amended.  From the initial state, with the break at `b0`, for all sizes
`sa`, `sb`, `sc > 0` whose aligned size plus `META_SIZE` is below `MMAP_THRESHOLD`: the
calls `p = os_malloc(sa)` and `q = os_malloc(sb)` return when the system grants the two
extensions of the break; after them and `os_free(p)`, the call `os_malloc(sc)` returns
`p` again, makes no call to the system (the break and the log of calls are as before) and
leaves the payload bytes as they are; the block of `q`, at `q - META_SIZE`, is still ALLOC,
with its size and its `next` link as before; its `prev` link is as before when the block of
`p` is handed out whole, and points to the FREE remainder, at `p + ALIGN(sc)`, when the
block of `p` is split, which is when
`ALIGN(sc) + META_SIZE + 8 ≤ MMAP_THRESHOLD - META_SIZE`. -/
theorem C18_reuse (c : Config) (hc : ConfigOk c) (b0 : Nat) (h0 : 0 < b0)
    (f1 f2 f3 ad1 ad2 ad3 sa sb sc : Nat) (ha : 0 < sa) (hb : 0 < sb) (hcz : 0 < sc)
    (hA : ALIGN sa + c.META_SIZE < MMAP_THRESHOLD)
    (hB : ALIGN sb + c.META_SIZE < MMAP_THRESHOLD)
    (hC : ALIGN sc + c.META_SIZE < MMAP_THRESHOLD) (hf2 : 2 ≤ f2) (hf3 : 3 ≤ f3) :
    (SbrkOk (init b0) MMAP_THRESHOLD →
      ∃ p s1, os_malloc c f1 ad1 sa (init b0) = some (p, s1)) ∧
    ∀ p s1, os_malloc c f1 ad1 sa (init b0) = some (p, s1) →
      (SbrkOk s1 (ALIGN sb + c.META_SIZE) →
        ∃ q s2, os_malloc c f2 ad2 sb s1 = some (q, s2)) ∧
      ∀ q s2, os_malloc c f2 ad2 sb s1 = some (q, s2) →
        ∃ s4, os_malloc c f3 ad3 sc (os_free c p s2) = some (p, s4) ∧
          s4.calls = s2.calls ∧ s4.brk = s2.brk ∧ s4.maps = s2.maps ∧ s4.data = s2.data ∧
          q ≠ p ∧
          s2.mem (wsub q c.META_SIZE) =
            ⟨ALIGN sb, Status.ALLOC, wsub p c.META_SIZE, 0⟩ ∧
          s4.mem (wsub q c.META_SIZE) =
            ⟨ALIGN sb, Status.ALLOC,
              if ALIGN sc + c.META_SIZE + 8 ≤ MMAP_THRESHOLD - c.META_SIZE then p + ALIGN sc
              else wsub p c.META_SIZE, 0⟩ := by
  have hWe := WORD_eq
  have ht : MMAP_THRESHOLD = 131072 := rfl
  have hH := hc.1
  obtain ⟨t1, t2⟩ := two_requests c hc b0 h0 f1 f2 ad1 ad2 sa sb (by omega) (by omega) hA hB hf2
  refine ⟨t1, fun p s1 h1 => ⟨(t2 p s1 h1).1, fun q s2 h2 => ?_⟩⟩
  obtain ⟨hp, hq, hlim, e1, e2, e3, e4, _, _, _⟩ := (t2 p s1 h1).2 q s2 h2
  subst hp
  subst hq
  have hwp : wsub (b0 + c.META_SIZE) c.META_SIZE = b0 := by
    rw [wsub_of_le (by omega) (by omega)]; omega
  have hwq : wsub (b0 + MMAP_THRESHOLD + c.META_SIZE) c.META_SIZE = b0 + MMAP_THRESHOLD := by
    rw [wsub_of_le (by omega) (by omega)]; omega
  have hne : b0 + MMAP_THRESHOLD ≠ b0 := by rw [ht]; omega
  have hfree : os_free c (b0 + c.META_SIZE) s2 =
      { s2 with mem := set_status s2.mem b0 Status.FREE } := by
    unfold os_free
    rw [if_neg (by omega)]
    simp only [hwp, e3, if_true]
  obtain ⟨k, rfl⟩ : ∃ k, f3 = k + 3 := ⟨f3 - 3, by omega⟩
  have hw1 : wadd (ALIGN sc) c.META_SIZE = ALIGN sc + c.META_SIZE :=
    wadd_of_lt (by rw [hWe]; omega)
  have hw2 : wadd (ALIGN sc + c.META_SIZE) (ALIGN 1) = ALIGN sc + c.META_SIZE + 8 := by
    rw [ALIGN_one]
    exact wadd_of_lt (by rw [hWe]; omega)
  have hw3 : wadd b0 c.META_SIZE = b0 + c.META_SIZE := wadd_of_lt (by omega)
  have hw4 : wadd (b0 + c.META_SIZE) (ALIGN sc) = b0 + c.META_SIZE + ALIGN sc :=
    wadd_of_lt (by omega)
  have hb0f : (set_status s2.mem b0 Status.FREE b0) =
      ⟨MMAP_THRESHOLD - c.META_SIZE, Status.FREE, 0, b0 + MMAP_THRESHOLD⟩ := by
    simp [set_status, e3]
  have hBf : (set_status s2.mem b0 Status.FREE (b0 + MMAP_THRESHOLD)) =
      ⟨ALIGN sb, Status.ALLOC, b0, 0⟩ := by
    rw [set_status_ne _ _ hne, e4]
  have hsz : (set_status s2.mem b0 Status.FREE b0).size = MMAP_THRESHOLD - c.META_SIZE := by
    rw [hb0f]
  have hrun := malloc_reuse_first c { s2 with mem := set_status s2.mem b0 Status.FREE } k ad3 sc
    (by omega) (by dsimp only; rw [e1]; decide)
    (by dsimp only; rw [e2]; omega)
    (by dsimp only; rw [e2, hb0f])
    (by dsimp only; rw [e2, hb0f]; dsimp only; omega)
    (by dsimp only; rw [e2, hb0f]; dsimp only; rw [hBf])
    (by dsimp only; rw [e2, hb0f]; dsimp only; rw [hBf])
    (by dsimp only; rw [e2, hb0f]; dsimp only; omega)
    (by rw [hw1]; exact hC)
  dsimp only at hrun
  rw [e2, hw1, hw2, hw3, hsz] at hrun
  rw [hfree, e2, hrun]
  refine ⟨_, rfl, rfl, rfl, rfl, rfl, by omega, by rw [hwq, hwp, e4], ?_⟩
  rw [hwq, hwp]
  dsimp only
  rw [set_status_ne _ _ hne]
  by_cases hsplit : ALIGN sc + c.META_SIZE + 8 ≤ MMAP_THRESHOLD - c.META_SIZE
  · rw [if_pos hsplit, if_pos hsplit]
    have hnxt : (set_status s2.mem b0 Status.FREE b0).next = b0 + MMAP_THRESHOLD := by
      rw [hb0f]
    have := split_blocks_successor c (set_status s2.mem b0 Status.FREE) b0 (ALIGN sc)
      (by rw [hnxt]; omega) (by rw [hnxt, hw3, hw4]; omega) (by rw [hnxt]; exact hne)
    rw [hnxt, hBf, hw3, hw4] at this
    rw [this]
  · rw [if_neg hsplit, if_neg hsplit, hBf]

/-- Witness for `C18_reuse`: the case of the specification, `sa = 100`, `sb = 200`,
`sc = 96`, with the break at 4096 at the start.  The block of `p` is split and the `prev`
link of the block of `q` points to the remainder, at `4128 + 96 = 4224`. -/
theorem C18_reuse_witness :
    (ConfigOk cfg ∧ 0 < 4096 ∧ 0 < 100 ∧ 0 < 200 ∧ 0 < 96 ∧
      ALIGN 100 + cfg.META_SIZE < MMAP_THRESHOLD ∧
      ALIGN 200 + cfg.META_SIZE < MMAP_THRESHOLD ∧
      ALIGN 96 + cfg.META_SIZE < MMAP_THRESHOLD ∧ 2 ≤ 3 ∧ 3 ≤ 4 ∧
      SbrkOk (init 4096) MMAP_THRESHOLD ∧
      os_malloc cfg 2 0 100 (init 4096) = some (4128, malloc_first) ∧
      SbrkOk malloc_first (ALIGN 200 + cfg.META_SIZE) ∧
      os_malloc cfg 3 0 200 malloc_first = some (135200, second_200)) ∧
    (∃ p s1, os_malloc cfg 2 0 100 (init 4096) = some (p, s1)) ∧
    (∃ q s2, os_malloc cfg 3 0 200 malloc_first = some (q, s2)) ∧
    (∃ s4, os_malloc cfg 4 0 96 (os_free cfg 4128 second_200) = some (4128, s4) ∧
      s4.calls = second_200.calls ∧ s4.brk = second_200.brk ∧ s4.maps = second_200.maps ∧
      s4.data = second_200.data ∧ 135200 ≠ 4128 ∧
      second_200.mem (wsub 135200 cfg.META_SIZE) =
        ⟨ALIGN 200, Status.ALLOC, wsub 4128 cfg.META_SIZE, 0⟩ ∧
      s4.mem (wsub 135200 cfg.META_SIZE) =
        ⟨ALIGN 200, Status.ALLOC,
          if ALIGN 96 + cfg.META_SIZE + 8 ≤ MMAP_THRESHOLD - cfg.META_SIZE then 4128 + ALIGN 96
          else wsub 4128 cfg.META_SIZE, 0⟩) :=
  ⟨⟨cfg_ok, by decide, by decide, by decide, by decide, by decide, by decide, by decide,
      by decide, by decide, by decide, rfl, by decide, rfl⟩,
    (C18_reuse cfg cfg_ok 4096 (by decide) 2 3 4 0 0 0 100 200 96 (by decide) (by decide)
      (by decide) (by decide) (by decide) (by decide) (by decide) (by decide)).1 (by decide),
    ((C18_reuse cfg cfg_ok 4096 (by decide) 2 3 4 0 0 0 100 200 96 (by decide) (by decide)
      (by decide) (by decide) (by decide) (by decide) (by decide) (by decide)).2
      4128 malloc_first rfl).1 (by decide),
    ((C18_reuse cfg cfg_ok 4096 (by decide) 2 3 4 0 0 0 100 200 96 (by decide) (by decide)
      (by decide) (by decide) (by decide) (by decide) (by decide) (by decide)).2
      4128 malloc_first rfl).2 135200 second_200 rfl⟩

/-- Claim C18 fails as stated, in the case of the specification.  With the break at 4096
at the start, `p = os_malloc(100)` is 4128 and `q = os_malloc(200)` is 135200, the block of
`q` being at 135168 with the `prev` link 4096.  After `os_free(p)`, `os_malloc(96)`
returns `p`, and the block of `p`, of size 131040, is split: the heap list becomes ALLOC
96, FREE 130912, ALLOC 200, and `split_blocks` has stored the address 4224 of the new
FREE block in the `prev` link of the block of `q`, whose header is no longer what it
was. -/
theorem C18_counterexample :
    0 < 100 ∧ 0 < 200 ∧ 0 < 96 ∧ ALIGN 100 + cfg.META_SIZE < MMAP_THRESHOLD ∧
    ALIGN 200 + cfg.META_SIZE < MMAP_THRESHOLD ∧ ALIGN 96 + cfg.META_SIZE < MMAP_THRESHOLD ∧
    os_malloc cfg 2 0 100 (init 4096) = some (4128, malloc_first) ∧
    os_malloc cfg 3 0 200 malloc_first = some (135200, second_200) ∧
    first_freed = os_free cfg 4128 second_200 ∧
    wsub 135200 cfg.META_SIZE = 135168 ∧
    second_200.mem 135168 = ⟨200, Status.ALLOC, 4096, 0⟩ ∧
    first_freed.mem 135168 = ⟨200, Status.ALLOC, 4096, 0⟩ ∧
    (os_malloc cfg 4 0 96 first_freed).map (fun r => r.1) = some 4128 ∧
    (os_malloc cfg 4 0 96 first_freed).map (fun r => heap_view 4 r.2) =
      some (some [⟨4096, 96, Status.ALLOC⟩, ⟨4224, 130912, Status.FREE⟩,
        ⟨135168, 200, Status.ALLOC⟩]) ∧
    (os_malloc cfg 4 0 96 first_freed).map (fun r => r.2.mem 135168) =
      some ⟨200, Status.ALLOC, 4224, 0⟩ ∧
    (os_malloc cfg 4 0 96 first_freed).map (fun r => r.2.mem 135168) ≠
      some (second_200.mem 135168) :=
  ⟨by decide, by decide, by decide, by decide, by decide, by decide, rfl, rfl, rfl,
    by decide, by decide, by decide, by decide, by decide, by decide, by decide⟩

/-! ## When a request to the heap returns -/

theorem route_of_brk (c : Config) (s : State) (fuel addr n limit mc : Nat)
    (hlt : wadd n c.META_SIZE < limit) :
    (brk_alloc c fuel n mc s = none → route c fuel addr n limit mc s = none) ∧
    (∀ r s0, brk_alloc c fuel n mc s = some (r, s0) →
      ∃ s1, route c fuel addr n limit mc s = some (r, s1) ∧ s1.calls = s0.calls) := by
  unfold route
  rw [if_neg (not_le.mpr hlt)]
  refine ⟨fun h => by rw [h], fun r s0 h => ?_⟩
  rw [h]
  by_cases hz : s0.brk_blocks = 0
  · simp only [hz, if_true]
    exact ⟨_, rfl, rfl⟩
  · simp only [hz, if_false]
    exact ⟨_, rfl, rfl⟩

/-- A request that the tail shared by `os_malloc` and `os_calloc` routes to the heap
returns unless the system refuses the one extension of the break it asks for: of
`MMAP_THRESHOLD` bytes for the first request; none at all when a FREE block of the
coalesced list fits; of `n - last.size` bytes when no block fits and the last block is
FREE; of `n + META_SIZE` bytes when no block fits and the last block is not FREE. -/
theorem route_brk_exact {c : Config} {g : Nat} {s : State} {l ml : List Nat}
    (hc : ConfigOk c) (hg : GapOk g) (hinv : Inv c g s l ml)
    {n limit mc : Nat} (addr : Nat) {fuel : Nat}
    (hlim : limit = if mc = 1 then MMAP_THRESHOLD else c.PAGE_SIZE)
    (hlt : n + c.META_SIZE < limit) (hf1 : l.length < fuel) :
    (s.first_sbrk = 0 →
      (SbrkOk s MMAP_THRESHOLD →
        ∃ r s1, route c fuel addr n limit mc s = some (r, s1) ∧
          s1.calls = s.calls ++ [OsCall.sbrk MMAP_THRESHOLD]) ∧
      (¬ SbrkOk s MMAP_THRESHOLD → route c fuel addr n limit mc s = none)) ∧
    (s.first_sbrk ≠ 0 →
      coalesce_list c (l.map (view s.mem)) ≠ [] ∧
      ((∃ x ∈ coalesce_list c (l.map (view s.mem)), x.status = Status.FREE ∧ n ≤ x.size) →
        ∃ r s1, route c fuel addr n limit mc s = some (r, s1) ∧ s1.calls = s.calls) ∧
      ((∀ x ∈ coalesce_list c (l.map (view s.mem)), x.status = Status.FREE → x.size < n) →
        ∀ pre last, coalesce_list c (l.map (view s.mem)) = pre ++ [last] →
          (last.status = Status.FREE →
            (SbrkOk s (n - last.size) →
              ∃ r s1, route c fuel addr n limit mc s = some (r, s1) ∧
                s1.calls = s.calls ++ [OsCall.sbrk (n - last.size)]) ∧
            (¬ SbrkOk s (n - last.size) → route c fuel addr n limit mc s = none)) ∧
          (last.status ≠ Status.FREE →
            (SbrkOk s (n + c.META_SIZE) →
              ∃ r s1, route c fuel addr n limit mc s = some (r, s1) ∧
                s1.calls = s.calls ++ [OsCall.sbrk (n + c.META_SIZE)]) ∧
            (¬ SbrkOk s (n + c.META_SIZE) → route c fuel addr n limit mc s = none)))) := by
  have ht : MMAP_THRESHOLD = 131072 := rfl
  have hW := WORD_eq
  have hlimT : limit ≤ MMAP_THRESHOLD := by
    rw [hlim]; split
    · exact le_refl _
    · exact hc.2.2.2.2
  have hw : wadd n c.META_SIZE = n + c.META_SIZE := wadd_of_lt (by omega)
  obtain ⟨rt1, rt2⟩ := route_of_brk c s fuel addr n limit mc (by rw [hw]; exact hlt)
  refine ⟨fun hinit => ⟨fun hok => ?_, fun hno => ?_⟩, fun hinit => ?_⟩
  · have e : brk_alloc c fuel n mc s = heap_preallocation c mc s := by
      unfold brk_alloc; rw [if_pos hinit]
    rw [heap_preallocation_eq, if_pos hok] at e
    obtain ⟨s1, k1, k2⟩ := rt2 _ _ e
    exact ⟨_, s1, k1, k2⟩
  · apply rt1
    unfold brk_alloc
    rw [if_pos hinit, heap_preallocation_eq, if_neg hno]
  · obtain ⟨r1, w, d, hout, hnone, hsome⟩ :=
      brk_alloc_effect hc hg hinv hinit (n := n) (by omega) mc hf1
    have hne : coalesce_list c (l.map (view s.mem)) ≠ [] :=
      coalesce_list_ne_nil c (by simpa using hinv.hflag.2 hinit)
    refine ⟨hne, fun hfit => ?_, fun hnofit pre last hv => ?_⟩
    · obtain ⟨x, hx, hxf, hxn⟩ := hfit
      have hd : d = none := by
        cases hout with
        | whole => rfl
        | split => rfl
        | grow pre1 last1 e hfree1 hno1 =>
          have := hno1 x hx hxf
          omega
        | append pre1 last1 e hfree1 hno1 =>
          have := hno1 x hx hxf
          omega
      subst hd
      obtain ⟨m, l1, hrun, _⟩ := hsome s rfl
      obtain ⟨s1, k1, k2⟩ := rt2 _ _ hrun
      exact ⟨_, s1, k1, k2⟩
    · cases hout with
      | whole pre1 post1 r1 b1 e hb1 hlt1 hbest1 =>
        exfalso
        have := hnofit ⟨r1, b1, Status.FREE⟩ (by rw [e]; simp) rfl
        simp only at this
        omega
      | split pre1 post1 r1 b1 e hge hbest1 =>
        exfalso
        have := hnofit ⟨r1, b1, Status.FREE⟩ (by rw [e]; simp) rfl
        simp only at this
        omega
      | grow pre1 last1 e hfree1 hno1 =>
        obtain ⟨q1, q2⟩ := List.append_inj' (hv.symm.trans e) rfl
        have q2 : last = last1 := by simpa using q2
        subst q1 q2
        refine ⟨fun _ => ⟨fun hok => ?_, fun hbad => rt1 (hnone (os_sbrk_none_iff.mpr hbad))⟩,
          fun h => absurd hfree1 h⟩
        obtain ⟨m, l1, hrun, _⟩ := hsome _ (os_sbrk_some_iff.mpr ⟨hok, rfl⟩)
        obtain ⟨s1, k1, k2⟩ := rt2 _ _ hrun
        exact ⟨_, s1, k1, k2⟩
      | append pre1 last1 e hfree1 hno1 =>
        obtain ⟨q1, q2⟩ := List.append_inj' (hv.symm.trans e) rfl
        have q2 : last = last1 := by simpa using q2
        subst q1 q2
        refine ⟨fun h => absurd h hfree1,
          fun _ => ⟨fun hok => ?_, fun hbad => rt1 (hnone (os_sbrk_none_iff.mpr hbad))⟩⟩
        obtain ⟨m, l1, hrun, _⟩ := hsome _ (os_sbrk_some_iff.mpr ⟨hok, rfl⟩)
        obtain ⟨s1, k1, k2⟩ := rt2 _ _ hrun
        exact ⟨_, s1, k1, k2⟩

theorem heap_grant_imp {c : Config} {s : State} {v : List Blk} {n : Nat}
    {ret ret1 : List OsCall → Prop} {fail fail1 : Prop}
    (h : HeapGrant c s v n ret fail) (hr : ∀ cl, ret cl → ret1 cl) (hf : fail → fail1) :
    HeapGrant c s v n ret1 fail1 :=
  ⟨fun hinit => ⟨fun hok => hr _ ((h.1 hinit).1 hok), fun hno => hf ((h.1 hinit).2 hno)⟩,
    fun hinit => ⟨(h.2 hinit).1, fun hfit => hr _ ((h.2 hinit).2.1 hfit),
      fun hnofit pre last hv =>
        ⟨fun hfr => ⟨fun hok => hr _ ((((h.2 hinit).2.2 hnofit pre last hv).1 hfr).1 hok),
            fun hno => hf ((((h.2 hinit).2.2 hnofit pre last hv).1 hfr).2 hno)⟩,
          fun hnf => ⟨fun hok => hr _ ((((h.2 hinit).2.2 hnofit pre last hv).2 hnf).1 hok),
            fun hno => hf ((((h.2 hinit).2.2 hnofit pre last hv).2 hnf).2 hno)⟩⟩⟩⟩

/-- The tail shared by `os_malloc` and `os_calloc`, on the heap path, returns exactly when
the system grants the extension of the break that the request asks for. -/
theorem heap_grant_route {c : Config} {g : Nat} {s : State} {l ml : List Nat}
    (hc : ConfigOk c) (hg : GapOk g) (hinv : Inv c g s l ml)
    {n limit mc : Nat} (addr : Nat) {fuel : Nat}
    (hlim : limit = if mc = 1 then MMAP_THRESHOLD else c.PAGE_SIZE)
    (hlt : n + c.META_SIZE < limit) (hf1 : l.length < fuel) :
    HeapGrant c s (l.map (view s.mem)) n
      (fun cl => ∃ r s1, route c fuel addr n limit mc s = some (r, s1) ∧
        s1.calls = s.calls ++ cl)
      (route c fuel addr n limit mc s = none) := by
  obtain ⟨e1, e2⟩ := route_brk_exact hc hg hinv addr hlim hlt hf1
  refine ⟨e1, fun hinit => ⟨(e2 hinit).1, fun hfit => ?_, (e2 hinit).2.2⟩⟩
  obtain ⟨r, s1, k1, k2⟩ := (e2 hinit).2.1 hfit
  exact ⟨r, s1, k1, by rw [k2, List.append_nil]⟩

/-! ## `os_calloc` and the product of its arguments -/

theorem mapped_view_inv {c : Config} {g : Nat} {s : State} {l ml : List Nat} {fuel : Nat}
    {v : List Blk} (hinv : Inv c g s l ml) (h : mapped_view fuel s = some v) :
    v = ml.map (view s.mem) ∧ ml.length < fuel := by
  unfold mapped_view at h
  cases hw : walk fuel s.mem s.mmap_blocks with
  | none => rw [hw] at h; simp at h
  | some l1 =>
    rw [hw] at h
    obtain ⟨h1, h2⟩ := walk_some _ _ _ hw
    have := chain_unique hinv.mchain h1
    subst this
    exact ⟨(Option.some.inj h).symm, h2⟩

/-- Claim C20, as amended.  In every state reached from the initial state by calls of the
public operations on pointers in use with request sizes for which neither the product of
`os_calloc`, the alignment nor the addition of `META_SIZE` to the aligned size wraps, and
for every size with `0 < size < 2 ^ 63`: `os_malloc(size)` returns unless the system
refuses the one call it makes.  When `ALIGN(size) + META_SIZE ≥ MMAP_THRESHOLD` that call
is the mapping of `ALIGN(size) + META_SIZE` bytes; otherwise it is the extension of the
break that `HeapGrant` names (none at all when a FREE block fits).  What the call returns
is a payload `p`, not `NULL`, whose header, at `p - META_SIZE`, is ALLOC on the heap list
or MAPPED on the mapped list, was before the call neither an ALLOC block of the heap list
nor a block of the mapped list, and has a stored size `≥ ALIGN(size) ≥ size`. -/
theorem C20_malloc (c : Config) (hc : ConfigOk c) (b0 : Nat) (h0 : 0 < b0) (hW : b0 < WORD)
    (strict : Prop) (s : State) (hr : Reachable c strict b0 s)
    (fuel addr size : Nat) (hs : 0 < size) (hlt : size < 2 ^ 63) (hf : Adequate fuel s) :
    (MMAP_THRESHOLD ≤ ALIGN size + c.META_SIZE →
      (MmapOk s (ALIGN size + c.META_SIZE) addr →
        ∃ p s1, os_malloc c fuel addr size s = some (p, s1) ∧
          s1.calls = s.calls ++ [OsCall.mmap (ALIGN size + c.META_SIZE) addr]) ∧
      (¬ MmapOk s (ALIGN size + c.META_SIZE) addr →
        os_malloc c fuel addr size s = none)) ∧
    (ALIGN size + c.META_SIZE < MMAP_THRESHOLD →
      (heap_view fuel s).isSome ∧
      ∀ hv, heap_view fuel s = some hv →
        HeapGrant c s hv (ALIGN size)
          (fun cl => ∃ p s1, os_malloc c fuel addr size s = some (p, s1) ∧
            s1.calls = s.calls ++ cl)
          (os_malloc c fuel addr size s = none)) ∧
    (ALIGN size + c.META_SIZE < MMAP_THRESHOLD → SbrkOk s MMAP_THRESHOLD →
      ∃ p s1, os_malloc c fuel addr size s = some (p, s1)) ∧
    ∀ p s1, os_malloc c fuel addr size s = some (p, s1) →
      p ≠ 0 ∧
      ∃ r, p = r + c.META_SIZE ∧ wsub p c.META_SIZE = r ∧
        ((∃ fuel2 hv, heap_view fuel2 s1 = some hv ∧ view s1.mem r ∈ hv ∧
            (s1.mem r).status = Status.ALLOC) ∨
          (∃ fuel2 mv, mapped_view fuel2 s1 = some mv ∧ view s1.mem r ∈ mv ∧
            (s1.mem r).status = Status.MAPPED)) ∧
        (∀ fuel2 hv, heap_view fuel2 s = some hv →
          ∀ b ∈ hv, b.addr = r → b.status = Status.FREE) ∧
        (∀ fuel2 mv, mapped_view fuel2 s = some mv → ∀ b ∈ mv, b.addr ≠ r) ∧
        ALIGN size ≤ (s1.mem r).size ∧ size ≤ ALIGN size := by
  have hWe := WORD_eq
  have ht : MMAP_THRESHOLD = 131072 := rfl
  have hg : GapOk WORD := Or.inr (le_refl _)
  have hg0 : WORD ≠ 0 := by rw [hWe]; norm_num
  obtain ⟨l, ml, hinv, hb⟩ := reachable_inv hc hg (fun h => absurd h hg0) h0 hW hr
  obtain ⟨hf1, hf2⟩ := adequate_lengths hinv hf
  have hs0 : size ≠ 0 := by omega
  have hs7 : size + 7 < WORD := by rw [hWe]; omega
  have hPT := hc.2.2.2.2
  have hPH := hc.2.2.2.1
  have hsz : SizeOk c size := ⟨hs7, by
    have := ALIGN_le hs7
    rw [hWe]
    omega⟩
  have hw : wadd (ALIGN size) c.META_SIZE = ALIGN size + c.META_SIZE := wadd_of_lt hsz.2
  have hn := ALIGN_pos hsz.1 hs0
  have hn8 := ALIGN_mod size
  have hmal : os_malloc c fuel addr size s =
      match route c fuel addr (ALIGN size) MMAP_THRESHOLD 1 s with
      | none => none
      | some (block, s1) => some (wadd block c.META_SIZE, s1) := by
    unfold os_malloc
    rw [if_neg hs0]
    all_goals rfl
  have hup : ∀ cl, (∃ r s1, route c fuel addr (ALIGN size) MMAP_THRESHOLD 1 s = some (r, s1) ∧
      s1.calls = s.calls ++ cl) →
      ∃ p s1, os_malloc c fuel addr size s = some (p, s1) ∧ s1.calls = s.calls ++ cl := by
    rintro cl ⟨r, s1, k1, k2⟩
    rw [hmal, k1]
    exact ⟨_, _, rfl, k2⟩
  have hdn : route c fuel addr (ALIGN size) MMAP_THRESHOLD 1 s = none →
      os_malloc c fuel addr size s = none := by
    intro k
    rw [hmal, k]
  refine ⟨?_, ?_, ?_, ?_⟩
  · intro hge
    obtain ⟨t1, t2⟩ := route_mmap_total hc hinv (ALIGN size) MMAP_THRESHOLD 1 addr fuel
      hsz.2 hge hf2
    refine ⟨fun hok => ?_, fun hno => hdn (t2 hno)⟩
    obtain ⟨s1, hrun⟩ := t1 hok
    have k := route_mmap_inv hc hinv hn8 hn hsz.2 hge hf2 hrun
    exact hup _ ⟨_, s1, hrun, k.2.2.2.2.2.2.2.2.2.1⟩
  · intro hlt2
    have hhv : heap_view fuel s = some (l.map (view s.mem)) := by
      unfold heap_view; rw [walk_chain hinv.hchain fuel hf1]; rfl
    refine ⟨by rw [hhv]; rfl, fun hv hview => ?_⟩
    have e : hv = l.map (view s.mem) := Option.some.inj (hview.symm.trans hhv)
    subst e
    exact heap_grant_imp
      (heap_grant_route hc hg hinv addr (by simp) hlt2 hf1) hup hdn
  · intro hlt2 hok
    obtain ⟨r, s0, hb0⟩ := brk_alloc_total hc hg hinv hlt2 1 hf1 hok
    unfold os_malloc route
    rw [if_neg hs0, if_neg (by rw [hw]; omega), hb0]
    by_cases hz : s0.brk_blocks = 0
    · simp only [hz, if_true]
      exact ⟨_, _, rfl⟩
    · simp only [hz, if_false]
      exact ⟨_, _, rfl⟩
  · intro p s1 hrun
    obtain ⟨l1, ml1, q1, _, _, _, q5⟩ := os_malloc_inv hc hg hinv hsz hf hrun
    obtain ⟨r, hp, hr1, hr2, hr3, hr4⟩ := q5 hs0
    have hH := hc.1
    have hmem1 : r ∈ l1 ∨ r ∈ ml1 := hr1.imp (fun h => h.1) (fun h => h.1)
    obtain ⟨_, hwsub, _⟩ := header_of_payload hc q1 hmem1
    refine ⟨by omega, r, hp, by rw [hp]; exact hwsub, ?_, ?_, ?_, hr2, ALIGN_ge hs7⟩
    · rcases hr1 with ⟨h1, h2⟩ | ⟨h1, h2⟩
      · refine Or.inl ⟨l1.length + 1, l1.map (view s1.mem), ?_, List.mem_map_of_mem _ h1, h2⟩
        exact heap_view_of_chain q1.hchain rfl (by simp)
      · refine Or.inr ⟨ml1.length + 1, ml1.map (view s1.mem), ?_,
          List.mem_map_of_mem _ h1, h2⟩
        unfold mapped_view
        rw [walk_chain q1.mchain _ (Nat.lt_succ_self _)]
        rfl
    · intro fuel2 hv hview b hbm hba
      obtain ⟨e, _⟩ := heap_view_inv hinv hview
      rw [e] at hbm
      obtain ⟨a, ha, rfl⟩ := List.mem_map.mp hbm
      have har : a = r := hba
      subst har
      exact hr4 ha
    · intro fuel2 mv hview b hbm hba
      obtain ⟨e, _⟩ := mapped_view_inv hinv hview
      rw [e] at hbm
      obtain ⟨a, ha, rfl⟩ := List.mem_map.mp hbm
      have har : a = r := hba
      subst har
      exact hr3 ha

/-- Witness for `C20_malloc`.  In the state after `os_malloc(100)` and a mapping one page
above the break the system does not grant `sbrk(MMAP_THRESHOLD)`; `os_malloc(100)` asks for
`sbrk(136)`, which is granted, and returns 135200.  After the release of the first block
the same request fits that block and returns with no call to the system. -/
theorem C20_malloc_witness :
    (ConfigOk cfg ∧ 0 < 4096 ∧ 4096 < WORD ∧ Reachable cfg False 4096 mapped_near ∧
      0 < 100 ∧ 100 < 2 ^ 63 ∧ Adequate 3 mapped_near ∧
      ALIGN 100 + cfg.META_SIZE < MMAP_THRESHOLD ∧ ¬ SbrkOk mapped_near MMAP_THRESHOLD ∧
      heap_view 3 mapped_near = some [⟨4096, 131040, Status.ALLOC⟩] ∧
      mapped_near.first_sbrk ≠ 0 ∧ SbrkOk mapped_near (ALIGN 100 + cfg.META_SIZE)) ∧
    (∃ p s1, os_malloc cfg 3 0 100 mapped_near = some (p, s1) ∧
      s1.calls = mapped_near.calls ++ [OsCall.sbrk (ALIGN 100 + cfg.META_SIZE)]) ∧
    (Reachable cfg False 4096 near_freed ∧ Adequate 3 near_freed ∧
      heap_view 3 near_freed = some [⟨4096, 131040, Status.FREE⟩] ∧
      near_freed.first_sbrk ≠ 0) ∧
    (∃ p s1, os_malloc cfg 3 0 100 near_freed = some (p, s1) ∧
      s1.calls = near_freed.calls ++ []) ∧
    os_malloc cfg 3 0 100 mapped_near =
      some (135200, state_after mapped_near (os_malloc cfg 3 0 100 mapped_near)) ∧
    (135200 ≠ 0 ∧
      ∃ r, 135200 = r + cfg.META_SIZE ∧ wsub 135200 cfg.META_SIZE = r ∧
        ((∃ fuel2 hv,
            heap_view fuel2 (state_after mapped_near (os_malloc cfg 3 0 100 mapped_near)) =
              some hv ∧
            view (state_after mapped_near (os_malloc cfg 3 0 100 mapped_near)).mem r ∈ hv ∧
            ((state_after mapped_near (os_malloc cfg 3 0 100 mapped_near)).mem r).status =
              Status.ALLOC) ∨
          (∃ fuel2 mv,
            mapped_view fuel2 (state_after mapped_near (os_malloc cfg 3 0 100 mapped_near)) =
              some mv ∧
            view (state_after mapped_near (os_malloc cfg 3 0 100 mapped_near)).mem r ∈ mv ∧
            ((state_after mapped_near (os_malloc cfg 3 0 100 mapped_near)).mem r).status =
              Status.MAPPED)) ∧
        (∀ fuel2 hv, heap_view fuel2 mapped_near = some hv →
          ∀ b ∈ hv, b.addr = r → b.status = Status.FREE) ∧
        (∀ fuel2 mv, mapped_view fuel2 mapped_near = some mv → ∀ b ∈ mv, b.addr ≠ r) ∧
        ALIGN 100 ≤
          ((state_after mapped_near (os_malloc cfg 3 0 100 mapped_near)).mem r).size ∧
        100 ≤ ALIGN 100) :=
  ⟨⟨cfg_ok, by decide, by decide, mapped_near_reachable, by decide, by decide, by decide,
      by decide, by decide, by decide, by decide, by decide⟩,
    ((((((C20_malloc cfg cfg_ok 4096 (by decide) (by decide) False mapped_near
      mapped_near_reachable 3 0 100 (by decide) (by decide) (by decide)).2.1 (by decide)).2
      [⟨4096, 131040, Status.ALLOC⟩] (by decide)).2 (by decide)).2.2 (by decide)
      [] ⟨4096, 131040, Status.ALLOC⟩ (by decide)).2 (by decide)).1 (by decide),
    ⟨near_freed_reachable, by decide, by decide, by decide⟩,
    ((((C20_malloc cfg cfg_ok 4096 (by decide) (by decide) False near_freed
      near_freed_reachable 3 0 100 (by decide) (by decide) (by decide)).2.1 (by decide)).2
      [⟨4096, 131040, Status.FREE⟩] (by decide)).2 (by decide)).2.1
      ⟨⟨4096, 131040, Status.FREE⟩, by decide, by decide, by decide⟩,
    rfl,
    (C20_malloc cfg cfg_ok 4096 (by decide) (by decide) False mapped_near
      mapped_near_reachable 3 0 100 (by decide) (by decide) (by decide)).2.2.2
      135200 (state_after mapped_near (os_malloc cfg 3 0 100 mapped_near)) rfl⟩

/-- Claim C20 fails as stated.  The state after `os_malloc(8)` and `os_malloc(2 ^ 64 - 32)`
(break at 4104 at the start) is reached by public operations; its heap list holds the
ALLOC blocks at 4104 and at 135176, the second one written at the break itself, which
`sbrk(0)` did not move, and returned as the pointer 135208.  In that state `os_malloc(8)`,
with `0 < 8 < 2 ^ 63`, returns 135208 again: its header, at 135176, was an ALLOC block of
the heap list before the call.  The call also makes that block its own successor. -/
theorem C20_counterexample :
    os_malloc cfg 2 0 8 (init 4104) = some (4136, small_first) ∧
    os_malloc cfg 3 0 (2 ^ 64 - 32) small_first = some (135208, small_then_huge) ∧
    small_then_huge.calls = [OsCall.sbrk 131072, OsCall.sbrk 0] ∧
    heap_view 3 small_then_huge =
      some [⟨4104, 131040, Status.ALLOC⟩, ⟨135176, 2 ^ 64 - 32, Status.ALLOC⟩] ∧
    0 < 8 ∧ 8 < 2 ^ 63 ∧
    os_malloc cfg 3 0 8 small_then_huge = some (135208, small_huge_small) ∧
    wsub 135208 cfg.META_SIZE = 135176 ∧
    (small_then_huge.mem 135176).status = Status.ALLOC ∧
    (small_huge_small.mem 135176).next = 135176 :=
  ⟨rfl, rfl, by decide, by decide, by decide, by decide, rfl, by decide, by decide,
    by decide⟩

end OsMem
